import Mathlib

/-!
Verification development for the rbts red-black tree (src/node.ts, src/tree.ts).

The TypeScript code is a pointer machine: nodes hold `key`, `value`,
`parent`, `left`, `right` links and a `black` flag, and a single shared
frozen nil node stands for every absent link.  We embed it as a store of
node records addressed by numeric ids, with id 0 playing the role of
`Node.nilNode`.  Mutation becomes functional update of the store; the JS
identity test `===` on nodes becomes equality of ids; `key !== node.key`
(primitive/reference equality on keys) becomes decidable equality on `K`.

Reads of the nil node's fields return the values the JS nil node holds:
`parent = left = right = nilNode` (id 0) and `black = true`.  Writes to the
nil node's colour are ignored, exactly as the nil node's `_black` setter
ignores assignments; link writes to the nil node are modelled as no-ops
as well (the frozen nil node admits no such write, and none of the code
paths modelled here performs one on the states the theorems speak about).

Loops of the source are given explicit fuel (`fuel t`, larger than any
walk a well-formed tree admits) and return `none` when the fuel runs out,
which corresponds to the JS code not terminating; on every well-formed
input considered below the fuel is shown to be sufficient.
-/

namespace RBTS

/-- One tree node, mirroring `class Node<K, V>` of src/node.ts: `_key`,
`_value`, `_parent`, `_left`, `_right`, `_black`.  Links are node ids,
0 being the nil node. -/
structure Node (K V : Type) where
  key : K
  val : V
  parent : Nat
  left : Nat
  right : Nat
  black : Bool
  deriving Repr, DecidableEq

/-- The tree object, mirroring `class Tree<K, V>` of src/tree.ts: `_root`,
`_size` and the comparison `_less` (eta-reduced to the key comparison
`lessOp`, since `_less(a, b) = lessOp(a, b.key)`).  The store lists the
nodes ever allocated; the node with id `i ≥ 1` sits at index `i - 1`. -/
structure Tree (K V : Type) where
  store : List (Node K V)
  root : Nat
  size : Int
  less : K → K → Bool

variable {K V : Type} [Inhabited K] [Inhabited V]

/-- Field values of the JS nil node: self links collapsed to id 0, black.
Its key and value are fresh symbols in JS, never read by the algorithms;
`default` stands in for them. -/
def nilNode : Node K V := ⟨default, default, 0, 0, 0, true⟩

/-- Read a node record; id 0 and out-of-range ids give the nil node. -/
def nd (t : Tree K V) (i : Nat) : Node K V :=
  if i = 0 then nilNode else (t.store.get? (i - 1)).getD nilNode

/-- Write a node record through an update function.  Writes to the nil
node are no-ops (its colour setter ignores writes and its links are
frozen). -/
def wr (t : Tree K V) (i : Nat) (f : Node K V → Node K V) : Tree K V :=
  if i = 0 then t else { t with store := t.store.set (i - 1) (f (nd t i)) }

/-- `node._black = b` (and via `_red`'s setter, `node._red = !b`). -/
def setCol (t : Tree K V) (i : Nat) (b : Bool) : Tree K V :=
  wr t i (fun d => { d with black := b })

/-- `node._left = v`. -/
def setL (t : Tree K V) (i v : Nat) : Tree K V :=
  wr t i (fun d => { d with left := v })

/-- `node._right = v`. -/
def setR (t : Tree K V) (i v : Nat) : Tree K V :=
  wr t i (fun d => { d with right := v })

/-- `node._parent = v`. -/
def setP (t : Tree K V) (i v : Nat) : Tree K V :=
  wr t i (fun d => { d with parent := v })

/-- `node.value = v`. -/
def setVal (t : Tree K V) (i : Nat) (v : V) : Tree K V :=
  wr t i (fun d => { d with val := v })

/-- `node._parent = node._left = node._right = Node.nilNode`. -/
def resetLinks (t : Tree K V) (i : Nat) : Tree K V :=
  wr t i (fun d => { d with parent := 0, left := 0, right := 0 })

/-- `node._red` of the JS code: `!_black`; the nil node is black. -/
def isRed (t : Tree K V) (i : Nat) : Bool := !(nd t i).black

/-- `node._black` of the JS code. -/
def isBlack (t : Tree K V) (i : Nat) : Bool := (nd t i).black

/-- Fuel bound for the source's loops; strictly larger than the length of
any walk a well-formed tree admits. -/
def fuel (t : Tree K V) : Nat := t.store.length + 2

/-- `new Tree(undefined, lessOp)`: empty store, nil root, size 0. -/
def mkTree (less : K → K → Bool) : Tree K V := ⟨[], 0, 0, less⟩

/-- `new Node(key, value)`: allocate a fresh node (all links nil, black)
and return its id together with the grown tree. -/
def pushNode (t : Tree K V) (k : K) (v : V) : Tree K V × Nat :=
  ({ t with store := t.store ++ [⟨k, v, 0, 0, 0, true⟩] }, t.store.length + 1)

/-- Loop of `_firstNode`: `while (node._left.ok) node = node._left`. -/
def firstLoop (t : Tree K V) : Nat → Nat → Option Nat
  | 0, _ => none
  | f + 1, i => if (nd t i).left ≠ 0 then firstLoop t f ((nd t i).left) else some i

/-- `_firstNode(node = this._root)`. -/
def firstNode (t : Tree K V) (i : Nat) : Option Nat := firstLoop t (fuel t) i

/-- Loop of `_lastNode`: `while (node._right.ok) node = node._right`. -/
def lastLoop (t : Tree K V) : Nat → Nat → Option Nat
  | 0, _ => none
  | f + 1, i => if (nd t i).right ≠ 0 then lastLoop t f ((nd t i).right) else some i

/-- `_lastNode(node = this._root)`. -/
def lastNode (t : Tree K V) (i : Nat) : Option Nat := lastLoop t (fuel t) i

/-- Walk-up loop of `_nextNode`:
`while (parent.ok && node === parent._right) { node = parent; parent = parent._parent }`
followed by `return parent`. -/
def climb (t : Tree K V) : Nat → Nat → Nat → Option Nat
  | 0, _, _ => none
  | f + 1, x, p =>
      if p ≠ 0 ∧ x = (nd t p).right then climb t f p ((nd t p).parent) else some p

/-- `_nextNode(node)`: nil stays nil; with a right child, the leftmost
node of the right subtree; otherwise the walk-up. -/
def nextNode (t : Tree K V) (i : Nat) : Option Nat :=
  if i = 0 then some 0
  else if (nd t i).right ≠ 0 then firstNode t ((nd t i).right)
  else climb t (fuel t) i ((nd t i).parent)

/-- Loop of `_findNode`:
`while (node.ok && key !== node.key) node = this._less(key, node) ? node._left : node._right`.
The loop guard compares keys with `!==` (decidable equality), while the
branch uses the stored `less`. -/
def findLoop (t : Tree K V) [DecidableEq K] (k : K) : Nat → Nat → Option Nat
  | 0, _ => none
  | f + 1, i =>
      if i ≠ 0 ∧ k ≠ (nd t i).key then
        findLoop t k f (if t.less k (nd t i).key then (nd t i).left else (nd t i).right)
      else some i

/-- `_findNode(key)` from the root. -/
def findNode (t : Tree K V) [DecidableEq K] (k : K) : Option Nat :=
  findLoop t k (fuel t) t.root

/-- `_leftRotate(node)`, statement by statement; each step reads the store
produced by the previous ones. -/
def leftRotate (t : Tree K V) (x : Nat) : Tree K V :=
  let c := (nd t x).right
  -- node._right = child._left
  let t := setR t x ((nd t c).left)
  -- if (child._left.ok) child._left._parent = node
  let t := if (nd t c).left ≠ 0 then setP t ((nd t c).left) x else t
  -- child._parent = node._parent
  let t := setP t c ((nd t x).parent)
  -- root / parent link switch
  let t :=
    if x = t.root then { t with root := c }
    else if x = (nd t ((nd t x).parent)).left then
      setL t ((nd t x).parent) c
    else setR t ((nd t x).parent) c
  -- node._parent = child; child._left = node
  let t := setP t x c
  setL t c x

/-- `_rightRotate(node)`, the mirror image. -/
def rightRotate (t : Tree K V) (x : Nat) : Tree K V :=
  let c := (nd t x).left
  let t := setL t x ((nd t c).right)
  let t := if (nd t c).right ≠ 0 then setP t ((nd t c).right) x else t
  let t := setP t c ((nd t x).parent)
  let t :=
    if x = t.root then { t with root := c }
    else if x = (nd t ((nd t x).parent)).left then
      setL t ((nd t x).parent) c
    else setR t ((nd t x).parent) c
  let t := setP t x c
  setR t c x

/-- Descent loop of `_insertNode`:
`parent = n = this._root; while (n.ok) { parent = n; n = this._less(node.key, n) ? n._left : n._right }`.
Returns the final `parent`. -/
def descendLoop (t : Tree K V) (k : K) : Nat → Nat → Nat → Option Nat
  | 0, _, _ => none
  | f + 1, p, n =>
      if n ≠ 0 then
        descendLoop t k f n (if t.less k (nd t n).key then (nd t n).left else (nd t n).right)
      else some p

/-- Fix-up loop of `_insertNode` (`while (node._parent._red) { ... }`),
with the `[parent, node] = [node, parent]` swaps of the triangle cases. -/
def insFix (t : Tree K V) : Nat → Nat → Option (Tree K V)
  | 0, _ => none
  | f + 1, x =>
      if isRed t ((nd t x).parent) then
        let p := (nd t x).parent
        let g := (nd t p).parent
        if p = (nd t g).left then
          if isRed t ((nd t g).right) then
            -- parent._black = grandp._right._black = grandp._red = true
            let u := (nd t g).right
            let t := setCol t g false
            let t := setCol t u true
            let t := setCol t p true
            insFix t f g
          else
            let (t, p, x) :=
              if x = (nd t p).right then (leftRotate t p, x, p) else (t, p, x)
            -- parent._black = grandp._red = true; rightRotate(grandp)
            let t := setCol t g false
            let t := setCol t p true
            let t := rightRotate t g
            insFix t f x
        else
          if isRed t ((nd t g).left) then
            let u := (nd t g).left
            let t := setCol t g false
            let t := setCol t u true
            let t := setCol t p true
            insFix t f g
          else
            let (t, p, x) :=
              if x = (nd t p).left then (rightRotate t p, x, p) else (t, p, x)
            let t := setCol t g false
            let t := setCol t p true
            let t := leftRotate t g
            insFix t f x
      else some t

/-- `_insertNode(node)` for an already allocated node id `j`. -/
def insertNode (t : Tree K V) (j : Nat) : Option (Tree K V) :=
  if j = 0 then some t
  else
    -- node._parent = node._left = node._right = Node.nilNode; this._size++
    let t := resetLinks t j
    let t := { t with size := t.size + 1 }
    if t.root = 0 then some { t with root := j }
    else do
      let p ← descendLoop t ((nd t j).key) (fuel t) t.root t.root
      let t := setP t j p
      let t :=
        if t.less ((nd t j).key) ((nd t p).key) then setL t p j
        else setR t p j
      let t := setCol t j false    -- node._red = true
      let t ← insFix t (fuel t) j
      some (setCol t t.root true)  -- this._root._black = true

/-- `set(key, value)`: overwrite in place when `_findNode` hits, insert a
fresh node otherwise; returns `this`. -/
def setOp (t : Tree K V) [DecidableEq K] (k : K) (v : V) : Option (Tree K V) := do
  let i ← findNode t k
  if i = 0 then
    let (t, j) := pushNode t k v
    insertNode t j
  else some (setVal t i v)

/-- Fix-up loop of `_deleteNode`
(`while (node !== this._root && node._black) { ... }`), carrying the local
variables `node` and `parent`; returns the store and the final `node`. -/
def delFix (t : Tree K V) : Nat → Nat → Nat → Option (Tree K V × Nat)
  | 0, _, _ => none
  | f + 1, x, p =>
      if x ≠ t.root ∧ isBlack t x then
        if x = (nd t p).left then
          let (t, bro) :=
            if isRed t ((nd t p).right) then
              -- brother._black = parent._red = true; leftRotate(parent)
              let bro := (nd t p).right
              let t := setCol t p false
              let t := setCol t bro true
              let t := leftRotate t p
              (t, (nd t p).right)
            else (t, (nd t p).right)
          if isBlack t ((nd t bro).left) ∧ isBlack t ((nd t bro).right) then
            -- brother._red = true; node = parent; parent = node._parent
            let t := setCol t bro false
            delFix t f p ((nd t p).parent)
          else
            let (t, bro) :=
              if isBlack t ((nd t bro).right) then
                -- brother._left._black = brother._red = true; rightRotate(brother)
                let bl := (nd t bro).left
                let t := setCol t bro false
                let t := setCol t bl true
                let t := rightRotate t bro
                (t, (nd t p).right)
              else (t, bro)
            -- brother._black = parent._black; parent._black = brother._right._black = true
            let t := setCol t bro (isBlack t p)
            let t := setCol t ((nd t bro).right) true
            let t := setCol t p true
            let t := leftRotate t p
            some (t, t.root)
        else
          let (t, bro) :=
            if isRed t ((nd t p).left) then
              let bro := (nd t p).left
              let t := setCol t p false
              let t := setCol t bro true
              let t := rightRotate t p
              (t, (nd t p).left)
            else (t, (nd t p).left)
          if isBlack t ((nd t bro).left) ∧ isBlack t ((nd t bro).right) then
            let t := setCol t bro false
            delFix t f p ((nd t p).parent)
          else
            let (t, bro) :=
              if isBlack t ((nd t bro).left) then
                let br := (nd t bro).right
                let t := setCol t bro false
                let t := setCol t br true
                let t := leftRotate t bro
                (t, (nd t p).left)
              else (t, bro)
            let t := setCol t bro (isBlack t p)
            let t := setCol t ((nd t bro).left) true
            let t := setCol t p true
            let t := rightRotate t p
            some (t, t.root)
      else some (t, x)

/-- `_deleteNode(node)`, statement by statement, including the
two-real-children splice exactly as the source performs it. -/
def deleteNode (t : Tree K V) (x : Nat) : Option (Tree K V × Bool) :=
  if x = 0 then some (t, false)
  else
    let t := { t with size := t.size - 1 }
    if (nd t x).left ≠ 0 ∧ (nd t x).right ≠ 0 then do
      -- const next = this._firstNode(node._right)
      let nx ← firstNode t ((nd t x).right)
      -- if (node === this._root) this._root = next
      -- else node === node._parent._left ? ... = next : ... = next
      let t :=
        if x = t.root then { t with root := nx }
        else if x = (nd t ((nd t x).parent)).left then
          setL t ((nd t x).parent) nx
        else setR t ((nd t x).parent) nx
      -- child = next._right, parent = next._parent, red = next._red
      let child := (nd t nx).right
      let p0 := (nd t nx).parent
      let red := isRed t nx
      -- if (node === parent) parent = next else { ... }
      let (t, p1) :=
        if x = p0 then (t, nx)
        else
          let t := if child ≠ 0 then setP t child p0 else t
          let t := setL t p0 child
          let t := setR t nx ((nd t x).right)
          let t := setP t ((nd t x).right) nx
          (t, p0)
      -- next._parent = node._parent; next._black = node._black;
      -- node._left._parent = next     (note: next._left is never written)
      let t := setP t nx ((nd t x).parent)
      let t := setCol t nx ((nd t x).black)
      let t := setP t ((nd t x).left) nx
      if red then some (t, true)
      else do
        let (t, fin) ← delFix t (fuel t) child p1
        some (setCol t fin true, true)
    else
      -- node._left.ok ? child = node._left : child = node._right
      let child := if (nd t x).left ≠ 0 then (nd t x).left else (nd t x).right
      let p := (nd t x).parent
      let red := isRed t x
      let t := if child ≠ 0 then setP t child p else t
      let t :=
        if x = t.root then { t with root := child }
        else if (nd t p).left = x then setL t p child
        else setR t p child
      if red then some (t, true)
      else do
        let (t, fin) ← delFix t (fuel t) child p
        some (setCol t fin true, true)

/-- `delete(key)`: find, delete, then reset the removed node's links
(`node._parent = node._left = node._right = Node.nilNode`). -/
def deleteOp (t : Tree K V) [DecidableEq K] (k : K) : Option (Tree K V × Bool) := do
  let i ← findNode t k
  let (t, res) ← deleteNode t i
  let t := if i ≠ 0 then resetLinks t i else t
  some (t, res)

/-- `clear()`. -/
def clearOp (t : Tree K V) : Tree K V := { t with root := 0, size := 0 }

/-- `has(key)` / `get(key)` results (derived from `_findNode`). -/
def hasOp (t : Tree K V) [DecidableEq K] (k : K) : Option Bool := do
  let i ← findNode t k
  pure (i ≠ 0)

/-- `get(key)`: the found node's value, or `undefined` (`none`). -/
def getOp (t : Tree K V) [DecidableEq K] (k : K) : Option (Option V) := do
  let i ← findNode t k
  pure (if i = 0 then none else some ((nd t i).val))

/-- State of `class Iter`: `_started`, `_node` and `_end`. -/
structure IterSt where
  started : Bool
  node : Nat
  endN : Nat
  deriving Repr, DecidableEq

/-- The `Iter` constructor: both bounds default to the nil node, and
`if (start.ok && end.ok && !tree._less(start.key, end)) end = start`. -/
def iterNew (t : Tree K V) (start endN : Nat) : IterSt :=
  let e :=
    if start ≠ 0 ∧ endN ≠ 0 ∧ ¬ t.less ((nd t start).key) ((nd t endN).key) then start
    else endN
  ⟨false, start, e⟩

/-- `Iter.next()`: reset a nil cursor to the tree minimum, advance once
iteration has started, and report `done` when the cursor is nil or equals
the end bound.  Returns the new iterator state and the yielded node id
(`none` when `done`). -/
def iterStep (t : Tree K V) (s : IterSt) : Option (IterSt × Option Nat) := do
  let a ← if s.node = 0 then firstNode t t.root else some s.node
  let b ← if s.started then nextNode t a else some a
  let done := b = 0 ∨ b = s.endN
  some (⟨true, b, s.endN⟩, if done then none else some b)

/-- Pull `Iter.next()` until the first `done = true`, collecting the
yielded node ids and the iterator state left behind. -/
def drainLoop (t : Tree K V) : Nat → IterSt → Option (List Nat × IterSt)
  | 0, _ => none
  | f + 1, s => do
      let (s1, r) ← iterStep t s
      match r with
      | none => some ([], s1)
      | some i => do
          let (rest, s2) ← drainLoop t f s1
          some (i :: rest, s2)

/-- Drain `nodes(start, end)`. -/
def drainNodes (t : Tree K V) (start endN : Nat) : Option (List Nat × IterSt) :=
  drainLoop t (fuel t) (iterNew t start endN)

/-- Drain `keys()` (the `node => node.key` projection). -/
def keysList (t : Tree K V) : Option (List K) := do
  let (l, _) ← drainNodes t 0 0
  pure (l.map (fun i => (nd t i).key))

/-- Drain `entries()` (the `node => node.entry()` projection). -/
def entriesList (t : Tree K V) : Option (List (K × V)) := do
  let (l, _) ← drainNodes t 0 0
  pure (l.map (fun i => ((nd t i).key, (nd t i).val)))

/-- `assign(source)` for an entry sequence: `for (const entry of source)
this._insertNode(new Node(entry[0], entry[1]))`. -/
def assignList (t : Tree K V) : List (K × V) → Option (Tree K V)
  | [] => some t
  | (k, v) :: rest => do
      let (t, j) := pushNode t k v
      let t ← insertNode t j
      assignList t rest

/-- `new Tree(entries, lessOp)`. -/
def fromList (less : K → K → Bool) (es : List (K × V)) : Option (Tree K V) :=
  assignList (mkTree less) es

/-! ### The disposal layer

`kill()` replaces `_root` by a proxy every property access of which throws
`TypeError('Tree is dead')`, sets `_size = NaN` and freezes the tree.  We
model the tree together with a disposal flag; the JS `number` type of
`_size` (which can hold `NaN`) is modelled by `JsNum`.  Operations whose
first action reads a property of `_root` (`_findNode`-based operations,
and the iterator's reset of a nil cursor) raise `Tree is dead` on a
disposed tree; `size` reads only `_size` and returns `NaN`; `clear`
assigns to the frozen tree and raises the freeze `TypeError`. -/

/-- A JS `number` as used by `_size`: an integer or `NaN`. -/
inductive JsNum where
  | num (n : Int)
  | nan
  deriving Repr, DecidableEq

/-- A tree together with its disposal state (`kill()` having been run). -/
structure TreeH (K V : Type) where
  tree : Tree K V
  dead : Bool

/-- `kill()`. -/
def killOp (h : TreeH K V) : TreeH K V := { h with dead := true }

/-- `size` on the handle: `NaN` after `kill()`, the live count before. -/
def sizeH (h : TreeH K V) : Except String JsNum :=
  .ok (if h.dead then .nan else .num h.tree.size)

/-- `get(key)` on the handle: `_findNode` reads `_root.ok` first, which
throws on a disposed tree. -/
def getH (h : TreeH K V) [DecidableEq K] (k : K) : Except String (Option V) :=
  if h.dead then .error "Tree is dead"
  else match getOp h.tree k with
    | some r => .ok r
    | none => .error "nontermination"

/-- `has(key)` on the handle. -/
def hasH (h : TreeH K V) [DecidableEq K] (k : K) : Except String Bool :=
  if h.dead then .error "Tree is dead"
  else match hasOp h.tree k with
    | some r => .ok r
    | none => .error "nontermination"

/-- `set(key, value)` on the handle. -/
def setH (h : TreeH K V) [DecidableEq K] (k : K) (v : V) : Except String (TreeH K V) :=
  if h.dead then .error "Tree is dead"
  else match setOp h.tree k v with
    | some t => .ok { h with tree := t }
    | none => .error "nontermination"

/-- `delete(key)` on the handle. -/
def deleteH (h : TreeH K V) [DecidableEq K] (k : K) : Except String (TreeH K V × Bool) :=
  if h.dead then .error "Tree is dead"
  else match deleteOp h.tree k with
    | some (t, b) => .ok ({ h with tree := t }, b)
    | none => .error "nontermination"

/-- `clear()` on the handle: the disposed tree is frozen, so the
assignment `this._root = Node.nilNode` throws a freeze `TypeError`. -/
def clearH (h : TreeH K V) : Except String (TreeH K V) :=
  if h.dead then .error "Cannot assign to read only property of frozen object"
  else .ok { h with tree := clearOp h.tree }

/-- `entries()` on the handle: the `Iter` constructor touches no tree
property when both bounds are nil, so it succeeds even on a disposed
tree. -/
def entriesH (_h : TreeH K V) : Except String IterSt :=
  .ok (iterNew (K := K) (V := V) ⟨[], 0, 0, fun _ _ => false⟩ 0 0)

/-- `Iter.next()` on the handle: resetting a nil cursor calls
`_firstNode()` whose default argument reads `_root`, which throws on a
disposed tree; a non-nil cursor never touches `_root`. -/
def iterStepH (h : TreeH K V) (s : IterSt) : Except String (IterSt × Option Nat) :=
  if s.node = 0 ∧ h.dead then .error "Tree is dead"
  else match iterStep h.tree s with
    | some r => .ok r
    | none => .error "nontermination"

/-- The ids of the nodes reachable from `i` through `left`/`right` links,
in in-order (fuel-bounded; exact whenever the link structure is a tree of
depth below the fuel).  This is the "nodes reachable from the root"
measure the size invariant speaks about. -/
def subtreeIds (t : Tree K V) : Nat → Nat → List Nat
  | 0, _ => []
  | f + 1, i =>
      if i = 0 then []
      else subtreeIds t f ((nd t i).left) ++ i :: subtreeIds t f ((nd t i).right)

/-! ### Concrete example trees -/

/-- The default `lessOp`, `(a, b) => a < b`, at key type `Nat`. -/
def natLess : Nat → Nat → Bool := fun a b => decide (a < b)

/-- A comparison by a derived field (`a / 2`), a legitimate `lessOp` under
which distinct keys can be equal (`!less(a,b) && !less(b,a)`). -/
def halfLess : Nat → Nat → Bool := fun a b => decide (a / 2 < b / 2)

/-- `new Tree() .set(1,10) .set(2,20) .set(3,30)` with the default
comparison; its root (key 2) has two real children. -/
def tree123 : Option (Tree Nat Nat) := do
  let t ← setOp (mkTree natLess) 1 10
  let t ← setOp t 2 20
  setOp t 3 30

/-- Outcome of `delete(2)` on `tree123`: the returned flag, the size
field, the drained keys and the number of nodes reachable from the
root. -/
def delete2Result : Option (Bool × Int × Option (List Nat) × Nat) := do
  let t ← tree123
  let (t, b) ← deleteOp t 2
  pure (b, t.size, keysList t, (subtreeIds t (fuel t) t.root).length)

/-- `new Tree(lessOp = halfLess).set(2, 5)`: one stored node whose key 2
is equal-under-`less` to 3 but not structurally equal to it. -/
def treeHalf : Option (Tree Nat Nat) := setOp (mkTree halfLess) 2 5

/-- `treeHalf.set(3, 7)`: because `_findNode(3)` misses the stored key 2,
`set` inserts a second node whose key is equal to 2 under `halfLess`. -/
def treeHalf23 : Option (Tree Nat Nat) := do
  let t ← treeHalf
  setOp t 3 7

/-! ### The abstract shape of the link structure

To reason about the pointer store we extract the shape of the tree
reachable from an id through `left`/`right` links as an inductive binary
tree of ids, and state well-formedness (each link is represented, the ids
are distinct, every child's `parent` field points back, the root's parent
is nil) as predicates over that shape. -/

/-- A binary tree of node ids. -/
inductive BT where
  | leaf
  | node (l : BT) (i : Nat) (r : BT)
  deriving Repr, DecidableEq

/-- The ids of a shape, in in-order. -/
def BT.ids : BT → List Nat
  | .leaf => []
  | .node l i r => BT.ids l ++ i :: BT.ids r

/-- The store of `t` presents, at id `i`, exactly the shape `bt`: id 0
carries the empty shape, and a non-zero id is an allocated node whose
`left`/`right` fields carry the sub-shapes. -/
inductive ReprT (t : Tree K V) : Nat → BT → Prop where
  | leaf : ReprT t 0 .leaf
  | node {i : Nat} {l r : BT} :
      i ≠ 0 → i ≤ t.store.length →
      ReprT t ((nd t i).left) l → ReprT t ((nd t i).right) r →
      ReprT t i (.node l i r)

/-- Every node of the shape names its tree parent in its `parent` field;
`p` is the expected parent of the shape's root. -/
def ParentOk (t : Tree K V) : BT → Nat → Prop
  | .leaf, _ => True
  | .node l i r, p => (nd t i).parent = p ∧ ParentOk t l i ∧ ParentOk t r i

/-- Well-formed tree state: the root presents a shape with distinct ids
and consistent parent links (the root's parent being nil). -/
structure WFT (t : Tree K V) (bt : BT) : Prop where
  repr : ReprT t t.root bt
  nodup : bt.ids.Nodup
  par : ParentOk t bt 0

/-- Lower-bound check against an optional strict bound. -/
def loOk (less : K → K → Bool) : Option K → K → Prop
  | none, _ => True
  | some a, b => less a b = true

/-- Upper-bound check against an optional strict bound. -/
def hiOk (less : K → K → Bool) (a : K) : Option K → Prop
  | none => True
  | some b => less a b = true

/-- The search-tree order over a shape: each node's key lies strictly
between the bounds, tightened on the way down. -/
def OrdT (t : Tree K V) (lo hi : Option K) : BT → Prop
  | .leaf => True
  | .node l i r =>
      loOk t.less lo ((nd t i).key) ∧ hiOk t.less ((nd t i).key) hi ∧
      OrdT t lo (some ((nd t i).key)) l ∧ OrdT t (some ((nd t i).key)) hi r

/-- The hypotheses on `lessOp` under which sorted iteration makes sense:
a transitive, irreflexive and total strict order on keys.  (The
counterexamples use comparisons that violate totality.) -/
structure StrictLess (less : K → K → Bool) : Prop where
  irrefl : ∀ a, less a a = false
  lt_trans : ∀ a b c, less a b = true → less b c = true → less a c = true
  total : ∀ a b, a ≠ b → less a b = true ∨ less b a = true

/-- The element following `x` in a list, if any. -/
def nextInList (x : Nat) : List Nat → Option Nat
  | [] => none
  | a :: rest => if a = x then rest.head? else nextInList x rest

/-- Compute the shape reachable from id `i` (fuel-bounded); used to
exhibit concrete `ReprT` witnesses by evaluation. -/
def extract (t : Tree K V) : Nat → Nat → Option BT
  | 0, _ => none
  | f + 1, i =>
      if i = 0 then some .leaf
      else if i ≤ t.store.length then do
        let l ← extract t f ((nd t i).left)
        let r ← extract t f ((nd t i).right)
        some (.node l i r)
      else none

/-- Boolean form of `ParentOk`, for evaluation on concrete trees. -/
def parentOkB (t : Tree K V) : BT → Nat → Bool
  | .leaf, _ => true
  | .node l i r, p => ((nd t i).parent == p) && parentOkB t l i && parentOkB t r i

/-- The in-order keys of a shape are pairwise `less`-increasing; this is
the ordering invariant sorted iteration relies on. -/
def SortedIds (t : Tree K V) (ids : List Nat) : Prop :=
  ids.Pairwise (fun a b => t.less ((nd t a).key) ((nd t b).key) = true)

instance (t : Tree K V) (ids : List Nat) : Decidable (SortedIds t ids) :=
  inferInstanceAs (Decidable (ids.Pairwise _))

/-- The shape a concrete tree extracts to (for exhibiting witnesses). -/
def btOf (t : Tree K V) : BT := (extract t (fuel t) t.root).getD .leaf

/-- `new Tree() .set(1,10) .set(2,20)`: a two-entry tree. -/
def tree12 : Option (Tree Nat Nat) := do
  let t ← setOp (mkTree natLess) 1 10
  setOp t 2 20

/-- `tree12` with the `Option` stripped. -/
def tree12d : Tree Nat Nat := tree12.getD (mkTree natLess)

/-- `tree123` with the `Option` stripped. -/
def tree123d : Tree Nat Nat := tree123.getD (mkTree natLess)

/-- The scenario tree with keys 0..9 (values equal to keys), built by the
constructor from an entry list. -/
def tree10d : Tree Nat Nat :=
  (fromList natLess ((List.range 10).map fun i => (i, i))).getD (mkTree natLess)

/-- Root id of a shape (0 for the empty shape). -/
def BT.rootOf : BT → Nat
  | .leaf => 0
  | .node _ i _ => i

/-- Locate the subtree rooted at id `x` together with the id of its
parent (`q` being the parent of the whole shape). -/
def subAtP : BT → Nat → Nat → Option (BT × Nat)
  | .leaf, _, _ => none
  | .node l i r, x, q =>
      if x = i then some (.node l i r, q)
      else if x ∈ l.ids then subAtP l x i
      else subAtP r x i

/-- Replace the subtree rooted at id `x` by `s`. -/
def replaceAt : BT → Nat → BT → BT
  | .leaf, _, _ => .leaf
  | .node l i r, x, s =>
      if x = i then s
      else if x ∈ l.ids then .node (replaceAt l x s) i r
      else .node l i (replaceAt r x s)

def depthOf : BT → Nat → Nat
  | .leaf, _ => 0
  | .node l m r, x =>
      if x = m then 0
      else if x ∈ l.ids then depthOf l x + 1
      else depthOf r x + 1

def dropLeftmost : BT → BT
  | .leaf => .leaf
  | .node .leaf _ r => r
  | .node (BT.node a b c) m r => .node (dropLeftmost (BT.node a b c)) m r

/-- Executable check of the lower bound `loOk`. -/
def loOkB (less : K → K → Bool) : Option K → K → Bool
  | none, _ => true
  | some a, b => less a b

/-- Executable check of the upper bound `hiOk`. -/
def hiOkB (less : K → K → Bool) (a : K) : Option K → Bool
  | none => true
  | some b => less a b

/-- Executable check of the ordering invariant `OrdT` (for exhibiting
concrete witnesses by evaluation). -/
def ordTB (t : Tree K V) : Option K → Option K → BT → Bool
  | _, _, .leaf => true
  | lo, hi, .node l i r =>
      loOkB t.less lo ((nd t i).key) && hiOkB t.less ((nd t i).key) hi &&
      ordTB t lo (some ((nd t i).key)) l && ordTB t (some ((nd t i).key)) hi r

/-- The trees reachable from `new Tree(undefined, less)` by sequences of
public `set` and `delete` operations: the scope of the after-every-operation
claims. -/
inductive Reach [DecidableEq K] (less : K → K → Bool) : Tree K V → Prop where
  | base : Reach less (mkTree less)
  | set {t t' : Tree K V} {k : K} {v : V} :
      Reach less t → setOp t k v = some t' → Reach less t'
  | del {t t' : Tree K V} {k : K} {b : Bool} :
      Reach less t → deleteOp t k = some (t', b) → Reach less t'

/-- A cyclic comparison on three keys (1 before 2, 2 before 3, 3 before 1):
every pair of distinct keys among 1, 2, 3 is ordered, but the order is not
transitive.  Used to refute the round-trip claim for a `less` that is not a
strict total order. -/
def cycLess : Nat → Nat → Bool := fun a b =>
  (a == 1 && b == 2) || (a == 2 && b == 3) || (a == 3 && b == 1)

/-! ### Basic store lemmas -/

theorem wr_size (t : Tree K V) (i : Nat) (f : Node K V → Node K V) :
    (wr t i f).size = t.size := by
  unfold wr; split <;> rfl

theorem wr_root (t : Tree K V) (i : Nat) (f : Node K V → Node K V) :
    (wr t i f).root = t.root := by
  unfold wr; split <;> rfl

theorem wr_less (t : Tree K V) (i : Nat) (f : Node K V → Node K V) :
    (wr t i f).less = t.less := by
  unfold wr; split <;> rfl

theorem wr_length (t : Tree K V) (i : Nat) (f : Node K V → Node K V) :
    (wr t i f).store.length = t.store.length := by
  unfold wr; split
  · rfl
  · simp

theorem nd_wr_ne (t : Tree K V) (i j : Nat) (f : Node K V → Node K V) (h : j ≠ i) :
    nd (wr t i f) j = nd t j := by
  unfold wr
  split
  · rfl
  · unfold nd
    split
    · rfl
    · rename_i hi hj
      have hne : i - 1 ≠ j - 1 := by omega
      simp [List.getElem?_set_ne hne]

theorem nd_wr_self (t : Tree K V) (i : Nat) (f : Node K V → Node K V)
    (hi : i ≠ 0) (hlen : i - 1 < t.store.length) :
    nd (wr t i f) i = f (nd t i) := by
  unfold wr
  split
  · omega
  · unfold nd
    split
    · omega
    · simp [List.getElem?_set_eq_of_lt _ hlen]

/-! ### Shape lemmas and the successor walk -/

theorem reprT_zero {t : Tree K V} {bt : BT} (h : ReprT t 0 bt) : bt = .leaf := by
  cases h with
  | leaf => rfl
  | node h0 => exact absurd rfl h0

theorem reprT_pos {t : Tree K V} {x : Nat} {bt : BT} (h : ReprT t x bt) (hx : x ≠ 0) :
    ∃ l r, bt = .node l x r ∧ x ≤ t.store.length ∧
      ReprT t ((nd t x).left) l ∧ ReprT t ((nd t x).right) r := by
  cases h with
  | leaf => exact absurd rfl hx
  | node h0 hlen hl hr => exact ⟨_, _, rfl, hlen, hl, hr⟩

theorem reprT_ids_pos {t : Tree K V} :
    ∀ {bt : BT} {x : Nat}, ReprT t x bt → ∀ i ∈ bt.ids, i ≠ 0 ∧ i ≤ t.store.length := by
  intro bt
  induction bt with
  | leaf => intro x _ i hi; simp [BT.ids] at hi
  | node l j r ihl ihr =>
      intro x h i hi
      rcases h with _ | ⟨h0, hlen, hl, hr⟩
      simp only [BT.ids, List.mem_append, List.mem_cons] at hi
      rcases hi with hi | hi | hi
      · exact ihl hl i hi
      · exact hi ▸ ⟨h0, hlen⟩
      · exact ihr hr i hi

theorem reprT_root_mem {t : Tree K V} {x : Nat} {bt : BT} (h : ReprT t x bt) (hx : x ≠ 0) :
    x ∈ bt.ids := by
  rcases reprT_pos h hx with ⟨l, r, rfl, -, -, -⟩
  simp [BT.ids]

theorem ids_length_le {t : Tree K V} {x : Nat} {bt : BT}
    (h : ReprT t x bt) (hnd : bt.ids.Nodup) : bt.ids.length ≤ t.store.length := by
  classical
  have hsub : bt.ids.toFinset ⊆ Finset.Icc 1 t.store.length := by
    intro i hi
    rw [List.mem_toFinset] at hi
    rcases reprT_ids_pos h i hi with ⟨h0, hle⟩
    exact Finset.mem_Icc.mpr ⟨Nat.one_le_iff_ne_zero.mpr h0, hle⟩
  have hcard := Finset.card_le_card hsub
  rwa [List.toFinset_card_of_nodup hnd, Nat.card_Icc, Nat.add_sub_cancel] at hcard

theorem firstLoop_spec {t : Tree K V} :
    ∀ (bt : BT) (x : Nat), ReprT t x bt → x ≠ 0 →
      ∀ f, bt.ids.length < f → firstLoop t f x = some (bt.ids.head?.getD 0) := by
  intro bt
  induction bt with
  | leaf =>
      intro x h hx
      cases h with
      | leaf => exact absurd rfl hx
  | node l j r ihl ihr =>
      intro x h hx f hf
      cases h with
      | node h0 hlen hl hr =>
        match f, hf with
        | f + 1, hf =>
          unfold firstLoop
          by_cases hz : (nd t j).left = 0
          · have : l = .leaf := reprT_zero (hz ▸ hl)
            subst this
            simp [hz, BT.ids]
          · have hne : l.ids ≠ [] := List.ne_nil_of_mem (reprT_root_mem hl hz)
            simp only [BT.ids, List.length_append, List.length_cons] at hf
            rw [if_pos hz, ihl ((nd t j).left) hl hz f (by omega)]
            congr 1
            rw [BT.ids, List.head?_append_of_ne_nil _ hne]

theorem nextInList_append_of_mem {x : Nat} :
    ∀ (A B : List Nat), x ∈ A →
      nextInList x (A ++ B) =
        (match nextInList x A with
         | some y => some y
         | none => B.head?) := by
  intro A
  induction A with
  | nil => intro B h; simp at h
  | cons a rest ih =>
      intro B h
      by_cases hax : a = x
      · subst hax
        simp only [List.cons_append, nextInList, if_pos rfl]
        cases rest with
        | nil => simp
        | cons b rest2 => simp
      · have hmem : x ∈ rest := by
          rcases List.mem_cons.mp h with h1 | h1
          · exact absurd h1.symm hax
          · exact h1
        simp only [List.cons_append, nextInList, if_neg hax]
        exact ih B hmem

theorem nextInList_append_of_not_mem {x : Nat} :
    ∀ (A B : List Nat), x ∉ A → nextInList x (A ++ B) = nextInList x B := by
  intro A
  induction A with
  | nil => intro B _; rfl
  | cons a rest ih =>
      intro B h
      have hax : a ≠ x := fun he => h (he ▸ List.mem_cons_self a rest)
      simp only [List.cons_append, nextInList, if_neg hax]
      exact ih B (fun hm => h (List.mem_cons_of_mem a hm))

theorem nextNode_go {t : Tree K V} :
    ∀ (bt : BT) (x p s c : Nat), ReprT t x bt → ParentOk t bt p → bt.ids.Nodup →
      (∀ f, c ≤ f → climb t f x p = some s) →
      c + bt.ids.length + 1 ≤ fuel t →
      ∀ y ∈ bt.ids, nextNode t y = some ((nextInList y bt.ids).getD s) := by
  intro bt
  induction bt with
  | leaf => intro x p s c _ _ _ _ _ y hy; simp [BT.ids] at hy
  | node l j r ihl ihr =>
      intro x p s c h hpar hnd hclimb hfuel y hy
      cases h with
      | node h0 hlen hl hr =>
        obtain ⟨hpj, hpl, hpr⟩ := hpar
        rw [BT.ids, List.nodup_append] at hnd
        obtain ⟨ndl, ndjr, hdisj⟩ := hnd
        rw [List.nodup_cons] at ndjr
        obtain ⟨hjr, ndr⟩ := ndjr
        have hjl : j ∉ l.ids := fun hm => hdisj hm (List.mem_cons_self j r.ids)
        simp only [BT.ids, List.length_append, List.length_cons] at hfuel
        have hy3 : y ∈ l.ids ∨ y = j ∨ y ∈ r.ids := by
          simpa [BT.ids] using hy
        rcases hy3 with hyl | hyj | hyr
        · -- y in the left subtree
          have hlz : (nd t j).left ≠ 0 := by
            intro hz
            have : l = .leaf := reprT_zero (hz ▸ hl)
            subst this
            simp [BT.ids] at hyl
          have hclimb' : ∀ f, 1 ≤ f → climb t f ((nd t j).left) j = some j := by
            intro f hf
            match f, hf with
            | f + 1, _ =>
              unfold climb
              rw [if_neg]
              rintro ⟨-, habs⟩
              by_cases hrz : (nd t j).right = 0
              · exact hlz (habs.trans hrz)
              · exact hdisj (reprT_root_mem hl hlz)
                  (List.mem_cons_of_mem j (habs ▸ reprT_root_mem hr hrz))
          have := ihl ((nd t j).left) j j 1 hl hpl ndl hclimb' (by omega) y hyl
          rw [this, BT.ids, nextInList_append_of_mem _ _ hyl]
          cases hcase : nextInList y l.ids with
          | some z => simp
          | none => simp
        · -- y is the subtree root j
          subst hyj
          unfold nextNode
          rw [if_neg h0]
          by_cases hrz : (nd t y).right = 0
          · have : r = .leaf := reprT_zero (hrz ▸ hr)
            subst this
            rw [if_neg (by simpa using hrz), hpj, hclimb (fuel t) (by omega)]
            rw [BT.ids, nextInList_append_of_not_mem _ _ hjl]
            simp [nextInList, BT.ids]
          · rw [if_pos (by simpa using hrz)]
            unfold firstNode
            rw [firstLoop_spec r ((nd t y).right) hr hrz (fuel t) (by omega)]
            have hne : r.ids ≠ [] := List.ne_nil_of_mem (reprT_root_mem hr hrz)
            rw [BT.ids, nextInList_append_of_not_mem _ _ hjl]
            simp only [nextInList, if_pos rfl]
            cases hrids : r.ids with
            | nil => exact absurd hrids hne
            | cons a rest => simp
        · -- y in the right subtree
          have hrz : (nd t j).right ≠ 0 := by
            intro hz
            have : r = .leaf := reprT_zero (hz ▸ hr)
            subst this
            simp [BT.ids] at hyr
          have hclimb' : ∀ f, c + 1 ≤ f → climb t f ((nd t j).right) j = some s := by
            intro f hf
            match f, hf with
            | f + 1, hf =>
              unfold climb
              rw [if_pos ⟨h0, rfl⟩, hpj]
              exact hclimb f (by omega)
          have := ihr ((nd t j).right) j s (c + 1) hr hpr ndr hclimb' (by omega) y hyr
          rw [this, BT.ids,
            nextInList_append_of_not_mem _ _ (fun hm => hdisj hm (List.mem_cons_of_mem j hyr))]
          have hjy : j ≠ y := fun he => hjr (he ▸ hyr)
          simp only [nextInList, if_neg hjy]

theorem nextNode_spec {t : Tree K V} {bt : BT} (hw : WFT t bt) :
    ∀ y ∈ bt.ids, nextNode t y = some ((nextInList y bt.ids).getD 0) := by
  intro y hy
  have hclimb : ∀ f, 1 ≤ f → climb t f t.root 0 = some 0 := by
    intro f hf
    match f, hf with
    | f + 1, _ => simp [climb]
  have hfuel : 1 + bt.ids.length + 1 ≤ fuel t := by
    have := ids_length_le hw.repr hw.nodup
    unfold fuel
    omega
  exact nextNode_go bt t.root 0 0 1 hw.repr hw.par hw.nodup hclimb hfuel y hy

theorem reprT_leaf_root {t : Tree K V} {x : Nat} (h : ReprT t x .leaf) : x = 0 := by
  cases h; rfl

theorem nextInList_suffix {ids pre suf : List Nat} {x : Nat}
    (hnd : ids.Nodup) (hids : ids = pre ++ x :: suf) :
    nextInList x ids = suf.head? := by
  subst hids
  rw [List.nodup_append] at hnd
  have hxp : x ∉ pre := fun hm => hnd.2.2 hm (List.mem_cons_self x suf)
  rw [nextInList_append_of_not_mem _ _ hxp]
  simp [nextInList]

theorem drainLoop_run {t : Tree K V} {bt : BT} (hw : WFT t bt) :
    ∀ (suf pre : List Nat) (x f : Nat),
      bt.ids = pre ++ x :: suf → suf.length < f →
      drainLoop t f ⟨true, x, 0⟩ = some (suf, ⟨true, 0, 0⟩) := by
  intro suf
  induction suf with
  | nil =>
      intro pre x f hids hf
      match f, hf with
      | f + 1, _ =>
        have hx : x ∈ bt.ids := by rw [hids]; simp
        have hx0 : x ≠ 0 := (reprT_ids_pos hw.repr x hx).1
        have hnext : nextNode t x = some 0 := by
          rw [nextNode_spec hw x hx, nextInList_suffix hw.nodup hids]
          rfl
        simp [drainLoop, iterStep, hx0, hnext]
  | cons z suf' ih =>
      intro pre x f hids hf
      match f, hf with
      | f + 1, hf =>
        have hx : x ∈ bt.ids := by rw [hids]; simp
        have hx0 : x ≠ 0 := (reprT_ids_pos hw.repr x hx).1
        have hz : z ∈ bt.ids := by rw [hids]; simp
        have hz0 : z ≠ 0 := (reprT_ids_pos hw.repr z hz).1
        have hnext : nextNode t x = some z := by
          rw [nextNode_spec hw x hx, nextInList_suffix hw.nodup hids]
          rfl
        have hrec := ih (pre ++ [x]) z f (by rw [hids]; simp) (by simpa using Nat.lt_of_succ_lt_succ hf)
        simp [drainLoop, iterStep, hx0, hz0, hnext, hrec]

theorem drainNodes_full {t : Tree K V} {bt : BT} (hw : WFT t bt) :
    drainNodes t 0 0 = some (bt.ids, ⟨true, 0, 0⟩) := by
  have hfe : ∃ f, fuel t = f + 1 := ⟨t.store.length + 1, rfl⟩
  obtain ⟨f, hf⟩ := hfe
  cases hbt : bt with
  | leaf =>
      have hr0 : t.root = 0 := reprT_leaf_root (hbt ▸ hw.repr)
      have hfirst : firstNode t t.root = some 0 := by
        rw [hr0]
        unfold firstNode
        rw [hf]
        simp [firstLoop, nd, nilNode]
      simp [drainNodes, iterNew, hf, drainLoop, iterStep, hfirst, BT.ids]
  | node l j r =>
      have hrep := hw.repr
      rw [hbt] at hrep
      have hr0 : t.root ≠ 0 := by
        intro h
        have := reprT_zero (h ▸ hrep)
        simp at this
      have hlen := ids_length_le hw.repr hw.nodup
      have hfirst : firstNode t t.root = some (bt.ids.head?.getD 0) := by
        unfold firstNode
        rw [← hbt] at hrep
        exact firstLoop_spec bt t.root hrep hr0 (fuel t) (by unfold fuel; omega)
      have hne : bt.ids ≠ [] := by
        rw [hbt]
        simp [BT.ids]
      cases hids : bt.ids with
      | nil => exact absurd hids hne
      | cons a tl =>
        have ha : a ∈ bt.ids := by rw [hids]; simp
        have ha0 : a ≠ 0 := (reprT_ids_pos hw.repr a ha).1
        rw [hids] at hfirst
        simp only [List.head?_cons, Option.getD_some] at hfirst
        have hrun := drainLoop_run hw tl [] a f (by rw [hids]; rfl)
          (by rw [hids] at hlen; simp at hlen; unfold fuel at hf; omega)
        have hstep : iterStep t (⟨false, 0, 0⟩ : IterSt) = some (⟨true, a, 0⟩, some a) := by
          simp [iterStep, hfirst, ha0]
        have hinit : iterNew t 0 0 = (⟨false, 0, 0⟩ : IterSt) := by simp [iterNew]
        rw [hbt] at hids
        rw [hids]
        unfold drainNodes
        rw [hinit, hf]
        simp only [drainLoop]
        rw [hstep]
        simp [hrun]

theorem extract_repr {t : Tree K V} :
    ∀ (f i : Nat) (bt : BT), extract t f i = some bt → ReprT t i bt := by
  intro f
  induction f with
  | zero => intro i bt h; simp [extract] at h
  | succ f ih =>
      intro i bt h
      unfold extract at h
      by_cases h0 : i = 0
      · rw [if_pos h0] at h
        cases h
        exact h0 ▸ ReprT.leaf
      · rw [if_neg h0] at h
        split at h
        · rename_i hlen
          cases hl : extract t f ((nd t i).left) with
          | none => rw [hl] at h; simp at h
          | some l =>
            cases hr : extract t f ((nd t i).right) with
            | none => rw [hl, hr] at h; simp at h
            | some r =>
              rw [hl, hr] at h
              simp at h
              cases h
              exact ReprT.node h0 hlen (ih _ _ hl) (ih _ _ hr)
        · simp at h

theorem parentOkB_ok {t : Tree K V} :
    ∀ (bt : BT) (p : Nat), parentOkB t bt p = true → ParentOk t bt p := by
  intro bt
  induction bt with
  | leaf => intro p _; trivial
  | node l i r ihl ihr =>
      intro p h
      simp only [parentOkB, Bool.and_eq_true, beq_iff_eq] at h
      exact ⟨h.1.1, ihl i h.1.2, ihr i h.2⟩

theorem wft_of_checks {t : Tree K V} {bt : BT}
    (h1 : extract t (fuel t) t.root = some bt)
    (h2 : bt.ids.Nodup)
    (h3 : parentOkB t bt 0 = true) : WFT t bt :=
  ⟨extract_repr _ _ _ h1, h2, parentOkB_ok bt 0 h3⟩

theorem strictLess_asym {less : K → K → Bool} (h : StrictLess less) {a b : K}
    (hab : less a b = true) : less b a = false := by
  by_contra hba
  exact absurd (h.lt_trans a b a hab (by revert hba; cases less b a <;> simp))
    (by simp [h.irrefl a])

theorem pairwise_decomp {R : Nat → Nat → Prop} {ids pre suf : List Nat} {x : Nat}
    (h : ids.Pairwise R) (hids : ids = pre ++ x :: suf) :
    (∀ z ∈ pre, R z x) ∧ (∀ z ∈ suf, R x z) ∧ suf.Pairwise R := by
  subst hids
  rw [List.pairwise_append] at h
  obtain ⟨-, hxs, hcross⟩ := h
  rw [List.pairwise_cons] at hxs
  exact ⟨fun z hz => hcross z hz x (List.mem_cons_self x suf), hxs.1, hxs.2⟩

theorem nodup_mid {ids pre mid rest : List Nat} {x e : Nat} (hnd : ids.Nodup)
    (hids : ids = pre ++ x :: (mid ++ e :: rest)) : x ≠ e ∧ e ∉ mid := by
  subst hids
  rw [List.nodup_append] at hnd
  have hx : (x :: (mid ++ e :: rest)).Nodup := hnd.2.1
  rw [List.nodup_cons] at hx
  constructor
  · intro he
    exact hx.1 (by rw [he]; simp)
  · intro hm
    have hy := hx.2
    rw [List.nodup_append] at hy
    exact hy.2.2 hm (List.mem_cons_self e rest)

theorem drainLoop_to_end {t : Tree K V} {bt : BT} (hw : WFT t bt) :
    ∀ (mid pre rest : List Nat) (x e f : Nat),
      bt.ids = pre ++ x :: (mid ++ e :: rest) → mid.length < f →
      drainLoop t f ⟨true, x, e⟩ = some (mid, ⟨true, e, e⟩) := by
  intro mid
  induction mid with
  | nil =>
      intro pre rest x e f hids hf
      match f, hf with
      | f + 1, _ =>
        have hx : x ∈ bt.ids := by rw [hids]; simp
        have hx0 : x ≠ 0 := (reprT_ids_pos hw.repr x hx).1
        have hnext : nextNode t x = some e := by
          rw [nextNode_spec hw x hx, nextInList_suffix hw.nodup hids]
          rfl
        simp [drainLoop, iterStep, hx0, hnext]
  | cons z mid' ih =>
      intro pre rest x e f hids hf
      match f, hf with
      | f + 1, hf =>
        have hx : x ∈ bt.ids := by rw [hids]; simp
        have hx0 : x ≠ 0 := (reprT_ids_pos hw.repr x hx).1
        have hz : z ∈ bt.ids := by rw [hids]; simp
        have hz0 : z ≠ 0 := (reprT_ids_pos hw.repr z hz).1
        have hids' : bt.ids = (pre ++ [x]) ++ z :: (mid' ++ e :: rest) := by
          rw [hids]; simp
        have hze : z ≠ e := (nodup_mid hw.nodup hids').1
        have hnext : nextNode t x = some z := by
          rw [nextNode_spec hw x hx, nextInList_suffix hw.nodup hids]
          rfl
        have hrec := ih (pre ++ [x]) rest z e f hids'
          (by simpa using Nat.lt_of_succ_lt_succ hf)
        simp [drainLoop, iterStep, hx0, hz0, hze, hnext, hrec]

theorem natLess_strict : StrictLess natLess := by
  refine ⟨fun a => by simp [natLess], fun a b c h1 h2 => ?_, fun a b h => ?_⟩
  · simp only [natLess, decide_eq_true_eq] at *
    omega
  · simp only [natLess, decide_eq_true_eq]
    omega

/-- Claim C8.  On a well-formed tree satisfying the ordering invariant,
`_nextNode` returns the in-order successor: the next node of the in-order
id sequence (or the sentinel for the maximum); equivalently, when it
returns the sentinel no stored key is greater than the node's key, and
when it returns a node, that node's key is greater and no other stored
key lies strictly between. -/
theorem nextNode_inorder_successor (t : Tree K V) (bt : BT) (hw : WFT t bt)
    (hst : StrictLess t.less) (hsort : SortedIds t bt.ids)
    (y : Nat) (hy : y ∈ bt.ids) :
    nextNode t y = some ((nextInList y bt.ids).getD 0) ∧
    (nextInList y bt.ids = none →
      ∀ z ∈ bt.ids, t.less ((nd t y).key) ((nd t z).key) = false) ∧
    (∀ u, nextInList y bt.ids = some u → u ∈ bt.ids ∧
      t.less ((nd t y).key) ((nd t u).key) = true ∧
      ∀ z ∈ bt.ids, t.less ((nd t y).key) ((nd t z).key) = true →
        t.less ((nd t z).key) ((nd t u).key) = false) := by
  obtain ⟨pre, suf, hids⟩ := List.append_of_mem hy
  have hnl : nextInList y bt.ids = suf.head? := nextInList_suffix hw.nodup hids
  obtain ⟨hpre, hsuf, hsufp⟩ := pairwise_decomp hsort hids
  refine ⟨nextNode_spec hw y hy, ?_, ?_⟩
  · intro hnone z hz
    rw [hnl] at hnone
    have hsufnil : suf = [] := by
      cases suf with
      | nil => rfl
      | cons a l => simp at hnone
    subst hsufnil
    rw [hids] at hz
    rcases List.mem_append.mp hz with hzp | hzy
    · exact strictLess_asym hst (hpre z hzp)
    · have : z = y := by simpa using hzy
      subst this
      exact hst.irrefl _
  · intro u hu
    rw [hnl] at hu
    cases suf with
    | nil => simp at hu
    | cons u' suf' =>
        have huu : u' = u := by simpa using hu
        cases huu
        refine ⟨by rw [hids]; simp, hsuf u (by simp), ?_⟩
        intro z hz hyz
        rw [hids] at hz
        rcases List.mem_append.mp hz with hzp | hzy
        · exact absurd (hst.lt_trans _ _ _ hyz (hpre z hzp))
            (by simp [hst.irrefl])
        · rcases List.mem_cons.mp hzy with hzy | hzs
          · subst hzy
            exact absurd hyz (by simp [hst.irrefl])
          · rcases List.mem_cons.mp hzs with hzu | hzr
            · subst hzu
              exact hst.irrefl _ ▸ rfl
            · rw [List.pairwise_cons] at hsufp
              exact strictLess_asym hst (hsufp.1 z hzr)

/-- Witness for `nextNode_inorder_successor` at the three-node tree
`set(1,10); set(2,20); set(3,30)` and node id 1 (key 1, successor the
root, key 2). -/
theorem nextNode_inorder_successor_witness :
    nextNode tree123d 1 = some ((nextInList 1 (btOf tree123d).ids).getD 0) ∧
    (nextInList 1 (btOf tree123d).ids = none →
      ∀ z ∈ (btOf tree123d).ids,
        tree123d.less ((nd tree123d 1).key) ((nd tree123d z).key) = false) ∧
    (∀ u, nextInList 1 (btOf tree123d).ids = some u → u ∈ (btOf tree123d).ids ∧
      tree123d.less ((nd tree123d 1).key) ((nd tree123d u).key) = true ∧
      ∀ z ∈ (btOf tree123d).ids,
        tree123d.less ((nd tree123d 1).key) ((nd tree123d z).key) = true →
          tree123d.less ((nd tree123d z).key) ((nd tree123d u).key) = false) :=
  nextNode_inorder_successor tree123d (btOf tree123d)
    (wft_of_checks rfl (by decide) (by decide)) natLess_strict (by decide) 1 (by decide)

/-- Claim C7.  Bounded iteration on a well-formed ordered tree between
two real nodes: when the end node's key is equal to or precedes the start
node's key under `less` (that is, `less(start.key, end.key)` is false),
the constructor collapses the range and the sequence is empty; when the
start's key is less than the end's key, the iteration yields exactly the
in-order nodes from the start (inclusive) up to but excluding the end. -/
theorem bounded_iteration_half_open (t : Tree K V) (bt : BT) (hw : WFT t bt)
    (hst : StrictLess t.less) (hsort : SortedIds t bt.ids)
    (s e : Nat) (hs : s ∈ bt.ids) (he : e ∈ bt.ids) :
    (t.less ((nd t s).key) ((nd t e).key) = false →
      drainNodes t s e = some ([], ⟨true, s, s⟩)) ∧
    (t.less ((nd t s).key) ((nd t e).key) = true →
      ∃ pre mid rest, bt.ids = pre ++ s :: (mid ++ e :: rest) ∧
        drainNodes t s e = some (s :: mid, ⟨true, e, e⟩)) := by
  have hs0 : s ≠ 0 := (reprT_ids_pos hw.repr s hs).1
  have he0 : e ≠ 0 := (reprT_ids_pos hw.repr e he).1
  obtain ⟨f, hf⟩ : ∃ f, fuel t = f + 1 := ⟨t.store.length + 1, rfl⟩
  constructor
  · intro hlt
    have hinit : iterNew t s e = ⟨false, s, s⟩ := by
      simp [iterNew, hs0, he0, hlt]
    unfold drainNodes
    rw [hinit, hf]
    simp [drainLoop, iterStep, hs0]
  · intro hlt
    have hse : s ≠ e := by
      intro hse
      subst hse
      rw [hst.irrefl] at hlt
      exact Bool.false_ne_true hlt
    obtain ⟨pre, suf, hids⟩ := List.append_of_mem hs
    obtain ⟨hpre, hsuf, hsufp⟩ := pairwise_decomp hsort hids
    have hesuf : e ∈ suf := by
      rw [hids] at he
      rcases List.mem_append.mp he with hep | hey
      · exact absurd (hst.lt_trans _ _ _ hlt (hpre e hep)) (by simp [hst.irrefl])
      · rcases List.mem_cons.mp hey with hey | hey
        · exact absurd hey.symm hse
        · exact hey
    obtain ⟨mid, rest, hsufeq⟩ := List.append_of_mem hesuf
    subst hsufeq
    refine ⟨pre, mid, rest, hids, ?_⟩
    have hinit : iterNew t s e = ⟨false, s, e⟩ := by
      simp [iterNew, hlt]
    have hstep : iterStep t (⟨false, s, e⟩ : IterSt) = some (⟨true, s, e⟩, some s) := by
      simp [iterStep, hs0, hse]
    have hlenle := ids_length_le hw.repr hw.nodup
    have hrun := drainLoop_to_end hw mid pre rest s e f hids
      (by rw [hids] at hlenle; simp at hlenle; unfold fuel at hf; omega)
    unfold drainNodes
    rw [hinit, hf]
    simp only [drainLoop]
    rw [hstep]
    simp [hrun]

/-- Witness for `bounded_iteration_half_open`: the spec scenario with
keys 0..9 (ids 1..10), from the node of key 5 (id 6) to the node of key 7
(id 8): the bounded sequence is the two nodes of keys 5 and 6, and the
reversed bounds give the empty sequence. -/
theorem bounded_iteration_half_open_witness :
    (tree10d.less ((nd tree10d 6).key) ((nd tree10d 8).key) = false →
      drainNodes tree10d 6 8 = some ([], ⟨true, 6, 6⟩)) ∧
    (tree10d.less ((nd tree10d 6).key) ((nd tree10d 8).key) = true →
      ∃ pre mid rest, (btOf tree10d).ids = pre ++ 6 :: (mid ++ 8 :: rest) ∧
        drainNodes tree10d 6 8 = some (6 :: mid, ⟨true, 8, 8⟩)) :=
  bounded_iteration_half_open tree10d (btOf tree10d)
    (wft_of_checks rfl (by decide) (by decide)) natLess_strict (by decide)
    6 8 (by decide) (by decide)

/-- Claim C10.  On a well-formed ordered tree with at least two entries,
the full-range iterator drains to the whole in-order sequence (the last
`next()` returning done), and the very next `next()` call does not stay
exhausted: the nil cursor is reset to the tree minimum and advanced once,
yielding `done = false` with the node of the second-smallest key (the
second in-order node, every other non-minimal node having a greater
key). -/
theorem exhausted_iterator_restarts (t : Tree K V) (bt : BT) (hw : WFT t bt)
    (hsort : SortedIds t bt.ids) (i1 i2 : Nat) (rest : List Nat)
    (hids : bt.ids = i1 :: i2 :: rest) :
    drainNodes t 0 0 = some (bt.ids, ⟨true, 0, 0⟩) ∧
    iterStep t ⟨true, 0, 0⟩ = some (⟨true, i2, 0⟩, some i2) ∧
    (∀ z ∈ bt.ids, z ≠ i1 → z = i2 ∨ t.less ((nd t i2).key) ((nd t z).key) = true) := by
  have hi1 : i1 ∈ bt.ids := by rw [hids]; simp
  have hi2 : i2 ∈ bt.ids := by rw [hids]; simp
  have hi10 : i1 ≠ 0 := (reprT_ids_pos hw.repr i1 hi1).1
  have hi20 : i2 ≠ 0 := (reprT_ids_pos hw.repr i2 hi2).1
  refine ⟨drainNodes_full hw, ?_, ?_⟩
  · have hroot0 : t.root ≠ 0 := by
      intro h
      have := reprT_zero (h ▸ hw.repr)
      rw [this] at hids
      simp [BT.ids] at hids
    have hfirst : firstNode t t.root = some i1 := by
      unfold firstNode
      rw [firstLoop_spec bt t.root hw.repr hroot0 (fuel t)
        (by have := ids_length_le hw.repr hw.nodup; unfold fuel; omega)]
      rw [hids]
      rfl
    have hnext : nextNode t i1 = some i2 := by
      rw [nextNode_spec hw i1 hi1, @nextInList_suffix _ [] _ _ hw.nodup (by simpa using hids)]
      rfl
    simp [iterStep, hfirst, hnext, hi20]
  · intro z hz hzi1
    rw [hids] at hsort hz
    unfold SortedIds at hsort
    rw [List.pairwise_cons] at hsort
    have hsort2 := hsort.2
    rw [List.pairwise_cons] at hsort2
    rcases List.mem_cons.mp hz with hz1 | hz2
    · exact absurd hz1 hzi1
    · rcases List.mem_cons.mp hz2 with hz1 | hz2
      · exact Or.inl hz1
      · exact Or.inr (hsort2.1 z hz2)

/-- Witness for `exhausted_iterator_restarts` at the two-entry tree
`set(1,10); set(2,20)`. -/
theorem exhausted_iterator_restarts_witness :
    drainNodes tree12d 0 0 = some ((btOf tree12d).ids, ⟨true, 0, 0⟩) ∧
    iterStep tree12d ⟨true, 0, 0⟩ = some (⟨true, 2, 0⟩, some 2) ∧
    (∀ z ∈ (btOf tree12d).ids, z ≠ 1 →
      z = 2 ∨ tree12d.less ((nd tree12d 2).key) ((nd tree12d z).key) = true) :=
  exhausted_iterator_restarts tree12d (btOf tree12d)
    (wft_of_checks rfl (by decide) (by decide)) (by decide) 1 2 [] (by decide)

/-! ### Write effects -/

theorem nd_wr (t : Tree K V) (i j : Nat) (f : Node K V → Node K V) :
    nd (wr t i f) j =
      if j = i ∧ i ≠ 0 ∧ i - 1 < t.store.length then f (nd t j) else nd t j := by
  by_cases hj : j = i
  · subst hj
    by_cases h0 : j = 0
    · subst h0
      simp only [wr, if_pos rfl]
      simp
    · by_cases hlen : j - 1 < t.store.length
      · rw [nd_wr_self t j f h0 hlen]
        simp [h0, hlen]
      · rw [if_neg (by intro h; exact hlen h.2.2)]
        unfold wr
        rw [if_neg h0]
        unfold nd
        rw [if_neg h0, if_neg h0]
        rw [List.set_eq_of_length_le (by omega)]
  · rw [nd_wr_ne t i j f hj, if_neg (by intro h; exact hj h.1)]

/-! ### Field effects of the named writes -/

theorem setL_key (t : Tree K V) (i v : Nat) (j : Nat) :
    (nd (setL t i v) j).key = (nd t j).key := by
  unfold setL
  rw [nd_wr]
  split <;> rfl

theorem setL_val (t : Tree K V) (i v : Nat) (j : Nat) :
    (nd (setL t i v) j).val = (nd t j).val := by
  unfold setL
  rw [nd_wr]
  split <;> rfl

theorem setL_parent (t : Tree K V) (i v : Nat) (j : Nat) :
    (nd (setL t i v) j).parent = (nd t j).parent := by
  unfold setL
  rw [nd_wr]
  split <;> rfl

theorem setL_left_self (t : Tree K V) (i v : Nat)
    (hi : i ≠ 0) (hlen : i ≤ t.store.length) :
    (nd (setL t i v) i).left = v := by
  unfold setL
  rw [nd_wr, if_pos ⟨rfl, hi, by omega⟩]

theorem setL_left_ne (t : Tree K V) (i v : Nat) (j : Nat) (hj : j ≠ i) :
    (nd (setL t i v) j).left = (nd t j).left := by
  unfold setL
  rw [nd_wr, if_neg (fun h => hj h.1)]

theorem setL_right (t : Tree K V) (i v : Nat) (j : Nat) :
    (nd (setL t i v) j).right = (nd t j).right := by
  unfold setL
  rw [nd_wr]
  split <;> rfl

theorem setL_black (t : Tree K V) (i v : Nat) (j : Nat) :
    (nd (setL t i v) j).black = (nd t j).black := by
  unfold setL
  rw [nd_wr]
  split <;> rfl

theorem setR_key (t : Tree K V) (i v : Nat) (j : Nat) :
    (nd (setR t i v) j).key = (nd t j).key := by
  unfold setR
  rw [nd_wr]
  split <;> rfl

theorem setR_val (t : Tree K V) (i v : Nat) (j : Nat) :
    (nd (setR t i v) j).val = (nd t j).val := by
  unfold setR
  rw [nd_wr]
  split <;> rfl

theorem setR_parent (t : Tree K V) (i v : Nat) (j : Nat) :
    (nd (setR t i v) j).parent = (nd t j).parent := by
  unfold setR
  rw [nd_wr]
  split <;> rfl

theorem setR_left (t : Tree K V) (i v : Nat) (j : Nat) :
    (nd (setR t i v) j).left = (nd t j).left := by
  unfold setR
  rw [nd_wr]
  split <;> rfl

theorem setR_right_self (t : Tree K V) (i v : Nat)
    (hi : i ≠ 0) (hlen : i ≤ t.store.length) :
    (nd (setR t i v) i).right = v := by
  unfold setR
  rw [nd_wr, if_pos ⟨rfl, hi, by omega⟩]

theorem setR_right_ne (t : Tree K V) (i v : Nat) (j : Nat) (hj : j ≠ i) :
    (nd (setR t i v) j).right = (nd t j).right := by
  unfold setR
  rw [nd_wr, if_neg (fun h => hj h.1)]

theorem setR_black (t : Tree K V) (i v : Nat) (j : Nat) :
    (nd (setR t i v) j).black = (nd t j).black := by
  unfold setR
  rw [nd_wr]
  split <;> rfl

theorem setP_key (t : Tree K V) (i v : Nat) (j : Nat) :
    (nd (setP t i v) j).key = (nd t j).key := by
  unfold setP
  rw [nd_wr]
  split <;> rfl

theorem setP_val (t : Tree K V) (i v : Nat) (j : Nat) :
    (nd (setP t i v) j).val = (nd t j).val := by
  unfold setP
  rw [nd_wr]
  split <;> rfl

theorem setP_parent_self (t : Tree K V) (i v : Nat)
    (hi : i ≠ 0) (hlen : i ≤ t.store.length) :
    (nd (setP t i v) i).parent = v := by
  unfold setP
  rw [nd_wr, if_pos ⟨rfl, hi, by omega⟩]

theorem setP_parent_ne (t : Tree K V) (i v : Nat) (j : Nat) (hj : j ≠ i) :
    (nd (setP t i v) j).parent = (nd t j).parent := by
  unfold setP
  rw [nd_wr, if_neg (fun h => hj h.1)]

theorem setP_left (t : Tree K V) (i v : Nat) (j : Nat) :
    (nd (setP t i v) j).left = (nd t j).left := by
  unfold setP
  rw [nd_wr]
  split <;> rfl

theorem setP_right (t : Tree K V) (i v : Nat) (j : Nat) :
    (nd (setP t i v) j).right = (nd t j).right := by
  unfold setP
  rw [nd_wr]
  split <;> rfl

theorem setP_black (t : Tree K V) (i v : Nat) (j : Nat) :
    (nd (setP t i v) j).black = (nd t j).black := by
  unfold setP
  rw [nd_wr]
  split <;> rfl

theorem setVal_key (t : Tree K V) (i : Nat) (v : V) (j : Nat) :
    (nd (setVal t i v) j).key = (nd t j).key := by
  unfold setVal
  rw [nd_wr]
  split <;> rfl

theorem setVal_val_self (t : Tree K V) (i : Nat) (v : V)
    (hi : i ≠ 0) (hlen : i ≤ t.store.length) :
    (nd (setVal t i v) i).val = v := by
  unfold setVal
  rw [nd_wr, if_pos ⟨rfl, hi, by omega⟩]

theorem setVal_val_ne (t : Tree K V) (i : Nat) (v : V) (j : Nat) (hj : j ≠ i) :
    (nd (setVal t i v) j).val = (nd t j).val := by
  unfold setVal
  rw [nd_wr, if_neg (fun h => hj h.1)]

theorem setVal_parent (t : Tree K V) (i : Nat) (v : V) (j : Nat) :
    (nd (setVal t i v) j).parent = (nd t j).parent := by
  unfold setVal
  rw [nd_wr]
  split <;> rfl

theorem setVal_left (t : Tree K V) (i : Nat) (v : V) (j : Nat) :
    (nd (setVal t i v) j).left = (nd t j).left := by
  unfold setVal
  rw [nd_wr]
  split <;> rfl

theorem setVal_right (t : Tree K V) (i : Nat) (v : V) (j : Nat) :
    (nd (setVal t i v) j).right = (nd t j).right := by
  unfold setVal
  rw [nd_wr]
  split <;> rfl

theorem setVal_black (t : Tree K V) (i : Nat) (v : V) (j : Nat) :
    (nd (setVal t i v) j).black = (nd t j).black := by
  unfold setVal
  rw [nd_wr]
  split <;> rfl

theorem setCol_key (t : Tree K V) (i : Nat) (b : Bool) (j : Nat) :
    (nd (setCol t i b) j).key = (nd t j).key := by
  unfold setCol
  rw [nd_wr]
  split <;> rfl

theorem setCol_val (t : Tree K V) (i : Nat) (b : Bool) (j : Nat) :
    (nd (setCol t i b) j).val = (nd t j).val := by
  unfold setCol
  rw [nd_wr]
  split <;> rfl

theorem setCol_parent (t : Tree K V) (i : Nat) (b : Bool) (j : Nat) :
    (nd (setCol t i b) j).parent = (nd t j).parent := by
  unfold setCol
  rw [nd_wr]
  split <;> rfl

theorem setCol_left (t : Tree K V) (i : Nat) (b : Bool) (j : Nat) :
    (nd (setCol t i b) j).left = (nd t j).left := by
  unfold setCol
  rw [nd_wr]
  split <;> rfl

theorem setCol_right (t : Tree K V) (i : Nat) (b : Bool) (j : Nat) :
    (nd (setCol t i b) j).right = (nd t j).right := by
  unfold setCol
  rw [nd_wr]
  split <;> rfl

theorem setCol_black_self (t : Tree K V) (i : Nat) (b : Bool)
    (hi : i ≠ 0) (hlen : i ≤ t.store.length) :
    (nd (setCol t i b) i).black = b := by
  unfold setCol
  rw [nd_wr, if_pos ⟨rfl, hi, by omega⟩]

theorem setCol_black_ne (t : Tree K V) (i : Nat) (b : Bool) (j : Nat) (hj : j ≠ i) :
    (nd (setCol t i b) j).black = (nd t j).black := by
  unfold setCol
  rw [nd_wr, if_neg (fun h => hj h.1)]

theorem resetLinks_key (t : Tree K V) (i : Nat) (j : Nat) :
    (nd (resetLinks t i) j).key = (nd t j).key := by
  unfold resetLinks
  rw [nd_wr]
  split <;> rfl

theorem resetLinks_val (t : Tree K V) (i : Nat) (j : Nat) :
    (nd (resetLinks t i) j).val = (nd t j).val := by
  unfold resetLinks
  rw [nd_wr]
  split <;> rfl

theorem resetLinks_black (t : Tree K V) (i : Nat) (j : Nat) :
    (nd (resetLinks t i) j).black = (nd t j).black := by
  unfold resetLinks
  rw [nd_wr]
  split <;> rfl

theorem resetLinks_parent_self (t : Tree K V) (i : Nat)
    (hi : i ≠ 0) (hlen : i ≤ t.store.length) :
    (nd (resetLinks t i) i).parent = 0 := by
  unfold resetLinks
  rw [nd_wr, if_pos ⟨rfl, hi, by omega⟩]

theorem resetLinks_parent_ne (t : Tree K V) (i : Nat) (j : Nat) (hj : j ≠ i) :
    (nd (resetLinks t i) j).parent = (nd t j).parent := by
  unfold resetLinks
  rw [nd_wr, if_neg (fun h => hj h.1)]

theorem resetLinks_left_self (t : Tree K V) (i : Nat)
    (hi : i ≠ 0) (hlen : i ≤ t.store.length) :
    (nd (resetLinks t i) i).left = 0 := by
  unfold resetLinks
  rw [nd_wr, if_pos ⟨rfl, hi, by omega⟩]

theorem resetLinks_left_ne (t : Tree K V) (i : Nat) (j : Nat) (hj : j ≠ i) :
    (nd (resetLinks t i) j).left = (nd t j).left := by
  unfold resetLinks
  rw [nd_wr, if_neg (fun h => hj h.1)]

theorem resetLinks_right_self (t : Tree K V) (i : Nat)
    (hi : i ≠ 0) (hlen : i ≤ t.store.length) :
    (nd (resetLinks t i) i).right = 0 := by
  unfold resetLinks
  rw [nd_wr, if_pos ⟨rfl, hi, by omega⟩]

theorem resetLinks_right_ne (t : Tree K V) (i : Nat) (j : Nat) (hj : j ≠ i) :
    (nd (resetLinks t i) j).right = (nd t j).right := by
  unfold resetLinks
  rw [nd_wr, if_neg (fun h => hj h.1)]

theorem setL_length (t : Tree K V) (i v : Nat) :
    (setL t i v).store.length = t.store.length := wr_length ..

theorem setL_root (t : Tree K V) (i v : Nat) : (setL t i v).root = t.root := wr_root ..

theorem setL_size (t : Tree K V) (i v : Nat) : (setL t i v).size = t.size := wr_size ..

theorem setL_less (t : Tree K V) (i v : Nat) : (setL t i v).less = t.less := wr_less ..

theorem setR_length (t : Tree K V) (i v : Nat) :
    (setR t i v).store.length = t.store.length := wr_length ..

theorem setR_root (t : Tree K V) (i v : Nat) : (setR t i v).root = t.root := wr_root ..

theorem setR_size (t : Tree K V) (i v : Nat) : (setR t i v).size = t.size := wr_size ..

theorem setR_less (t : Tree K V) (i v : Nat) : (setR t i v).less = t.less := wr_less ..

theorem setP_length (t : Tree K V) (i v : Nat) :
    (setP t i v).store.length = t.store.length := wr_length ..

theorem setP_root (t : Tree K V) (i v : Nat) : (setP t i v).root = t.root := wr_root ..

theorem setP_size (t : Tree K V) (i v : Nat) : (setP t i v).size = t.size := wr_size ..

theorem setP_less (t : Tree K V) (i v : Nat) : (setP t i v).less = t.less := wr_less ..

theorem setVal_length (t : Tree K V) (i : Nat) (v : V) :
    (setVal t i v).store.length = t.store.length := wr_length ..

theorem setVal_root (t : Tree K V) (i : Nat) (v : V) : (setVal t i v).root = t.root := wr_root ..

theorem setVal_size (t : Tree K V) (i : Nat) (v : V) : (setVal t i v).size = t.size := wr_size ..

theorem setVal_less (t : Tree K V) (i : Nat) (v : V) : (setVal t i v).less = t.less := wr_less ..

theorem setCol_length (t : Tree K V) (i : Nat) (b : Bool) :
    (setCol t i b).store.length = t.store.length := wr_length ..

theorem setCol_root (t : Tree K V) (i : Nat) (b : Bool) : (setCol t i b).root = t.root := wr_root ..

theorem setCol_size (t : Tree K V) (i : Nat) (b : Bool) : (setCol t i b).size = t.size := wr_size ..

theorem setCol_less (t : Tree K V) (i : Nat) (b : Bool) : (setCol t i b).less = t.less := wr_less ..

theorem resetLinks_length (t : Tree K V) (i : Nat) :
    (resetLinks t i).store.length = t.store.length := wr_length ..

theorem resetLinks_root (t : Tree K V) (i : Nat) : (resetLinks t i).root = t.root := wr_root ..

theorem resetLinks_size (t : Tree K V) (i : Nat) : (resetLinks t i).size = t.size := wr_size ..

theorem resetLinks_less (t : Tree K V) (i : Nat) : (resetLinks t i).less = t.less := wr_less ..

/-! ### Subtree location and replacement -/

theorem subAtP_mem {x : Nat} :
    ∀ (bt : BT) (q : Nat), x ∈ bt.ids →
      ∃ a b px, subAtP bt x q = some (.node a x b, px) := by
  intro bt
  induction bt with
  | leaf => intro q h; simp [BT.ids] at h
  | node l i r ihl ihr =>
      intro q h
      by_cases hxi : x = i
      · subst hxi
        exact ⟨l, r, q, by simp [subAtP]⟩
      · by_cases hxl : x ∈ l.ids
        · obtain ⟨a, b, px, hab⟩ := ihl i hxl
          exact ⟨a, b, px, by simp [subAtP, hxi, hxl, hab]⟩
        · have hxr : x ∈ r.ids := by
            have : x ∈ l.ids ∨ x = i ∨ x ∈ r.ids := by simpa [BT.ids] using h
            tauto
          obtain ⟨a, b, px, hab⟩ := ihr i hxr
          exact ⟨a, b, px, by simp [subAtP, hxi, hxl, hab]⟩

theorem subAtP_root {s : BT} {x px : Nat} :
    ∀ (bt : BT) (q : Nat), subAtP bt x q = some (s, px) → s.rootOf = x := by
  intro bt
  induction bt with
  | leaf => intro q h; simp [subAtP] at h
  | node l i r ihl ihr =>
      intro q h
      unfold subAtP at h
      split at h
      · rename_i hxi
        cases h
        simp [BT.rootOf, hxi]
      · split at h
        · exact ihl i h
        · exact ihr i h

theorem subAtP_parent {s : BT} {x px : Nat} :
    ∀ (bt : BT) (q : Nat), subAtP bt x q = some (s, px) → px = q ∨ px ∈ bt.ids := by
  intro bt
  induction bt with
  | leaf => intro q h; simp [subAtP] at h
  | node l i r ihl ihr =>
      intro q h
      unfold subAtP at h
      split at h
      · cases h
        exact Or.inl rfl
      · split at h
        · rcases ihl i h with h1 | h1
          · exact Or.inr (by simp [BT.ids, h1])
          · exact Or.inr (by simp [BT.ids, h1])
        · rcases ihr i h with h1 | h1
          · exact Or.inr (by simp [BT.ids, h1])
          · exact Or.inr (by simp [BT.ids, h1])

theorem subAtP_decomp {s : BT} {x px : Nat} :
    ∀ (bt : BT) (q : Nat), subAtP bt x q = some (s, px) →
      ∃ P S, bt.ids = P ++ (s.ids ++ S) ∧
        ∀ s', (replaceAt bt x s').ids = P ++ (s'.ids ++ S) := by
  intro bt
  induction bt with
  | leaf => intro q h; simp [subAtP] at h
  | node l i r ihl ihr =>
      intro q h
      unfold subAtP at h
      split at h
      · rename_i hxi
        cases h
        exact ⟨[], [], by simp, fun s' => by simp [replaceAt, hxi]⟩
      · rename_i hxi
        split at h
        · rename_i hxl
          obtain ⟨P, S, h1, h2⟩ := ihl i h
          refine ⟨P, S ++ i :: r.ids, ?_, fun s' => ?_⟩
          · simp [BT.ids, h1]
          · simp [replaceAt, hxi, hxl, BT.ids, h2 s']
        · rename_i hxl
          obtain ⟨P, S, h1, h2⟩ := ihr i h
          refine ⟨l.ids ++ i :: P, S, ?_, fun s' => ?_⟩
          · simp [BT.ids, h1]
          · simp [replaceAt, hxi, hxl, BT.ids, h2 s']

theorem subAtP_sub_mem {s : BT} {x px : Nat} {bt : BT} {q : Nat}
    (h : subAtP bt x q = some (s, px)) : ∀ y ∈ s.ids, y ∈ bt.ids := by
  obtain ⟨P, S, h1, -⟩ := subAtP_decomp bt q h
  intro y hy
  rw [h1]
  simp [hy]

theorem subAtP_repr {t : Tree K V} {s : BT} {x px : Nat} :
    ∀ (bt : BT) (root q : Nat), ReprT t root bt → ParentOk t bt q →
      subAtP bt x q = some (s, px) → ReprT t x s ∧ ParentOk t s px := by
  intro bt
  induction bt with
  | leaf => intro root q _ _ h; simp [subAtP] at h
  | node l i r ihl ihr =>
      intro root q hrep hpar h
      cases hrep with
      | node h0 hlen hl hr =>
        obtain ⟨hpj, hpl, hpr⟩ := hpar
        unfold subAtP at h
        split at h
        · rename_i hxi
          cases h
          subst hxi
          exact ⟨ReprT.node h0 hlen hl hr, hpj, hpl, hpr⟩
        · split at h
          · exact ihl ((nd t i).left) i hl hpl h
          · exact ihr ((nd t i).right) i hr hpr h

/-! ### Congruence and replacement transport -/

theorem reprT_congr {t t' : Tree K V} :
    ∀ {bt : BT} {x : Nat}, ReprT t x bt →
      (∀ j ∈ bt.ids, (nd t' j).left = (nd t j).left ∧ (nd t' j).right = (nd t j).right ∧
        j ≤ t'.store.length) →
      ReprT t' x bt := by
  intro bt
  induction bt with
  | leaf => intro x h _; cases h; exact ReprT.leaf
  | node l i r ihl ihr =>
      intro x h hcon
      cases h with
      | node h0 hlen hl hr =>
        obtain ⟨hle, hri, hln⟩ := hcon i (by simp [BT.ids])
        refine ReprT.node h0 hln ?_ ?_
        · rw [hle]
          exact ihl hl (fun j hj => hcon j (by simp [BT.ids, hj]))
        · rw [hri]
          exact ihr hr (fun j hj => hcon j (by simp [BT.ids, hj]))

theorem parentOk_congr {t t' : Tree K V} :
    ∀ {bt : BT} {p : Nat}, ParentOk t bt p →
      (∀ j ∈ bt.ids, (nd t' j).parent = (nd t j).parent) →
      ParentOk t' bt p := by
  intro bt
  induction bt with
  | leaf => intro p _ _; trivial
  | node l i r ihl ihr =>
      intro p h hcon
      obtain ⟨hp, hl, hr⟩ := h
      exact ⟨(hcon i (by simp [BT.ids])).trans hp,
        ihl hl (fun j hj => hcon j (by simp [BT.ids, hj])),
        ihr hr (fun j hj => hcon j (by simp [BT.ids, hj]))⟩

theorem ordT_congr {t t' : Tree K V} (hless : t'.less = t.less) :
    ∀ {bt : BT} {lo hi : Option K}, OrdT t lo hi bt →
      (∀ j ∈ bt.ids, (nd t' j).key = (nd t j).key) →
      OrdT t' lo hi bt := by
  intro bt
  induction bt with
  | leaf => intro lo hi _ _; trivial
  | node l i r ihl ihr =>
      intro lo hi h hcon
      obtain ⟨h1, h2, h3, h4⟩ := h
      have hki : (nd t' i).key = (nd t i).key := hcon i (by simp [BT.ids])
      refine ⟨?_, ?_, ?_, ?_⟩
      · cases lo with
        | none => trivial
        | some a => simpa [loOk, hless, hki] using h1
      · cases hi with
        | none => trivial
        | some a => simpa [hiOk, hless, hki] using h2
      · rw [hki]
        exact ihl h3 (fun j hj => hcon j (by simp [BT.ids, hj]))
      · rw [hki]
        exact ihr h4 (fun j hj => hcon j (by simp [BT.ids, hj]))

theorem subAtP_mem_of_some {s : BT} {x px : Nat} :
    ∀ (bt : BT) (q : Nat), subAtP bt x q = some (s, px) → x ∈ bt.ids := by
  intro bt
  induction bt with
  | leaf => intro q h; simp [subAtP] at h
  | node l i r ihl ihr =>
      intro q h
      unfold subAtP at h
      split at h
      · rename_i hxi
        simp [BT.ids, hxi]
      · split at h
        · exact by simp [BT.ids, ihl i h]
        · exact by simp [BT.ids, ihr i h]

theorem reprT_replaceAt {t t' : Tree K V} {x x' px : Nat} {s s' : BT}
    (hs' : ReprT t' x' s') :
    ∀ {bt : BT} {root q : Nat}, ReprT t root bt → bt.ids.Nodup →
      subAtP bt x q = some (s, px) →
      (∀ j ∈ bt.ids, j ∉ s.ids → j ≠ px →
          (nd t' j).left = (nd t j).left ∧ (nd t' j).right = (nd t j).right ∧
          j ≤ t'.store.length) →
      (px ∈ bt.ids → px ∉ s.ids →
          ((nd t' px).left = if (nd t px).left = x then x' else (nd t px).left) ∧
          ((nd t' px).right = if (nd t px).right = x then x' else (nd t px).right) ∧
          px ≤ t'.store.length) →
      ReprT t' (if root = x then x' else root) (replaceAt bt x s') := by
  intro bt
  induction bt with
  | leaf => intro root q h hnd hsub hout houtp; simp [subAtP] at hsub
  | node l i r ihl ihr =>
      intro root q h hnd hsub hout houtp
      cases h with
      | node h0 hlen hl hr =>
        rw [BT.ids, List.nodup_append] at hnd
        obtain ⟨ndl, ndir, hdisj⟩ := hnd
        rw [List.nodup_cons] at ndir
        obtain ⟨hir, ndr⟩ := ndir
        have hil : i ∉ l.ids := fun hm => hdisj hm (List.mem_cons_self i r.ids)
        unfold subAtP at hsub
        unfold replaceAt
        by_cases hxi : x = i
        · rw [if_pos hxi] at hsub
          rw [if_pos hxi]
          cases hsub
          rw [if_pos hxi.symm]
          exact hs'
        · rw [if_neg hxi] at hsub
          rw [if_neg hxi, if_neg (fun hh => hxi hh.symm)]
          by_cases hxl : x ∈ l.ids
          · rw [if_pos hxl] at hsub
            rw [if_pos hxl]
            have hx0 : x ≠ 0 := (reprT_ids_pos hl x hxl).1
            have hsl : ∀ y ∈ s.ids, y ∈ l.ids := subAtP_sub_mem hsub
            have hpx : px = i ∨ px ∈ l.ids := subAtP_parent l i hsub
            have hlx_px : (nd t i).left = x → px = i := by
              intro he
              have hlx' : ReprT t x l := he ▸ hl
              obtain ⟨a, b, hab, -, -, -⟩ := reprT_pos hlx' hx0
              rw [hab] at hsub
              unfold subAtP at hsub
              rw [if_pos rfl] at hsub
              cases hsub
              rfl
            have hrx : (nd t i).right ≠ x := by
              intro he
              by_cases hrz : (nd t i).right = 0
              · exact hx0 (he.symm.trans hrz)
              · exact hdisj hxl (List.mem_cons_of_mem i (he ▸ reprT_root_mem hr hrz))
            have hihl := ihl hl ndl hsub
              (fun j hj hjs hjp => hout j (by simp [BT.ids, hj]) hjs hjp)
              (fun hpm hps => houtp (by simp [BT.ids, hpm]) hps)
            by_cases hpxi : px = i
            · obtain ⟨hle, hri, hln⟩ := houtp (by simp [BT.ids, hpxi])
                (fun hm => hil (hpxi ▸ hsl px hm))
              rw [hpxi] at hle hri hln
              refine ReprT.node h0 hln ?_ ?_
              · rw [hle]
                exact hihl
              · rw [hri, if_neg hrx]
                exact reprT_congr hr (fun j hj => hout j (by simp [BT.ids, hj])
                  (fun hm => hdisj (hsl j hm) (by simp [hj]))
                  (fun hji => hir ((hji.trans hpxi) ▸ hj)))
            · have hpxl : px ∈ l.ids := hpx.resolve_left hpxi
              have hlneq : (nd t i).left ≠ x := fun he => hpxi (hlx_px he)
              obtain ⟨hle, hri, hln⟩ := hout i (by simp [BT.ids]) (fun hm => hil (hsl i hm))
                (fun hh => hpxi hh.symm)
              refine ReprT.node h0 hln ?_ ?_
              · rw [hle]
                have hres := hihl
                rw [if_neg hlneq] at hres
                exact hres
              · rw [hri]
                exact reprT_congr hr (fun j hj => hout j (by simp [BT.ids, hj])
                  (fun hm => hdisj (hsl j hm) (by simp [hj]))
                  (fun hjp => hdisj (hjp ▸ hpxl) (by simp [hj])))
          · rw [if_neg hxl] at hsub
            rw [if_neg hxl]
            have hxr : x ∈ r.ids := subAtP_mem_of_some r i hsub
            have hx0 : x ≠ 0 := (reprT_ids_pos hr x hxr).1
            have hsl : ∀ y ∈ s.ids, y ∈ r.ids := subAtP_sub_mem hsub
            have hpx : px = i ∨ px ∈ r.ids := subAtP_parent r i hsub
            have hrx_px : (nd t i).right = x → px = i := by
              intro he
              have hrx' : ReprT t x r := he ▸ hr
              obtain ⟨a, b, hab, -, -, -⟩ := reprT_pos hrx' hx0
              rw [hab] at hsub
              unfold subAtP at hsub
              rw [if_pos rfl] at hsub
              cases hsub
              rfl
            have hlx : (nd t i).left ≠ x := by
              intro he
              by_cases hlz : (nd t i).left = 0
              · exact hx0 (he.symm.trans hlz)
              · exact hdisj (he ▸ reprT_root_mem hl hlz) (List.mem_cons_of_mem i hxr)
            have hihr := ihr hr ndr hsub
              (fun j hj hjs hjp => hout j (by simp [BT.ids, hj]) hjs hjp)
              (fun hpm hps => houtp (by simp [BT.ids, hpm]) hps)
            by_cases hpxi : px = i
            · obtain ⟨hle, hri, hln⟩ := houtp (by simp [BT.ids, hpxi])
                (fun hm => hir (hpxi ▸ hsl px hm))
              rw [hpxi] at hle hri hln
              refine ReprT.node h0 hln ?_ ?_
              · rw [hle, if_neg hlx]
                exact reprT_congr hl (fun j hj => hout j (by simp [BT.ids, hj])
                  (fun hm => hdisj hj (List.mem_cons_of_mem i (hsl j hm)))
                  (fun hji => hil ((hji.trans hpxi) ▸ hj)))
              · rw [hri]
                exact hihr
            · have hpxr : px ∈ r.ids := hpx.resolve_left hpxi
              have hrneq : (nd t i).right ≠ x := fun he => hpxi (hrx_px he)
              have hresr : ReprT t' ((nd t i).right) (replaceAt r x s') := by
                have hres := hihr
                rw [if_neg hrneq] at hres
                exact hres
              obtain ⟨hle, hri, hln⟩ := hout i (by simp [BT.ids]) (fun hm => hir (hsl i hm))
                (fun hh => hpxi hh.symm)
              refine ReprT.node h0 hln ?_ ?_
              · rw [hle]
                exact reprT_congr hl (fun j hj => hout j (by simp [BT.ids, hj])
                  (fun hm => hdisj hj (List.mem_cons_of_mem i (hsl j hm)))
                  (fun hjp => hdisj (hjp ▸ hj) (List.mem_cons_of_mem i hpxr)))
              · rw [hri]
                exact hresr



theorem parentOk_replaceAt {t t' : Tree K V} {x px : Nat} {s s' : BT}
    (hs' : ParentOk t' s' px) :
    ∀ {bt : BT} {q0 : Nat}, ParentOk t bt q0 → bt.ids.Nodup →
      subAtP bt x q0 = some (s, px) →
      (∀ j ∈ bt.ids, j ∉ s.ids → (nd t' j).parent = (nd t j).parent) →
      ParentOk t' (replaceAt bt x s') q0 := by
  intro bt
  induction bt with
  | leaf => intro q0 _ _ hsub _; simp [subAtP] at hsub
  | node l i r ihl ihr =>
      intro q0 hpar hnd hsub hout
      obtain ⟨hpj, hpl, hpr⟩ := hpar
      rw [BT.ids, List.nodup_append] at hnd
      obtain ⟨ndl, ndir, hdisj⟩ := hnd
      rw [List.nodup_cons] at ndir
      obtain ⟨hir, ndr⟩ := ndir
      have hil : i ∉ l.ids := fun hm => hdisj hm (List.mem_cons_self i r.ids)
      unfold subAtP at hsub
      unfold replaceAt
      by_cases hxi : x = i
      · rw [if_pos hxi] at hsub
        rw [if_pos hxi]
        cases hsub
        exact hs'
      · rw [if_neg hxi] at hsub
        rw [if_neg hxi]
        by_cases hxl : x ∈ l.ids
        · rw [if_pos hxl] at hsub
          rw [if_pos hxl]
          have hsl : ∀ y ∈ s.ids, y ∈ l.ids := subAtP_sub_mem hsub
          refine ⟨?_, ?_, ?_⟩
          · rw [hout i (by simp [BT.ids]) (fun hm => hil (hsl i hm))]
            exact hpj
          · exact ihl hpl ndl hsub (fun j hj hjs => hout j (by simp [BT.ids, hj]) hjs)
          · exact parentOk_congr hpr (fun j hj => hout j (by simp [BT.ids, hj])
              (fun hm => hdisj (hsl j hm) (List.mem_cons_of_mem i hj)))
        · rw [if_neg hxl] at hsub
          rw [if_neg hxl]
          have hsl : ∀ y ∈ s.ids, y ∈ r.ids := subAtP_sub_mem hsub
          refine ⟨?_, ?_, ?_⟩
          · rw [hout i (by simp [BT.ids]) (fun hm => hir (hsl i hm))]
            exact hpj
          · exact parentOk_congr hpl (fun j hj => hout j (by simp [BT.ids, hj])
              (fun hm => hdisj hj (List.mem_cons_of_mem i (hsl j hm))))
          · exact ihr hpr ndr hsub (fun j hj hjs => hout j (by simp [BT.ids, hj]) hjs)

theorem ordT_replaceAt {t t' : Tree K V} {x px : Nat} {s s' : BT}
    (hless : t'.less = t.less)
    (hs' : ∀ lo' hi', OrdT t lo' hi' s → OrdT t' lo' hi' s') :
    ∀ {bt : BT} {lo hi : Option K} {q0 : Nat}, OrdT t lo hi bt → bt.ids.Nodup →
      subAtP bt x q0 = some (s, px) →
      (∀ j ∈ bt.ids, j ∉ s.ids → (nd t' j).key = (nd t j).key) →
      OrdT t' lo hi (replaceAt bt x s') := by
  intro bt
  induction bt with
  | leaf => intro lo hi q0 _ _ hsub _; simp [subAtP] at hsub
  | node l i r ihl ihr =>
      intro lo hi q0 hord hnd hsub hout
      obtain ⟨h1, h2, h3, h4⟩ := hord
      rw [BT.ids, List.nodup_append] at hnd
      obtain ⟨ndl, ndir, hdisj⟩ := hnd
      rw [List.nodup_cons] at ndir
      obtain ⟨hir, ndr⟩ := ndir
      have hil : i ∉ l.ids := fun hm => hdisj hm (List.mem_cons_self i r.ids)
      unfold subAtP at hsub
      unfold replaceAt
      by_cases hxi : x = i
      · rw [if_pos hxi] at hsub
        rw [if_pos hxi]
        cases hsub
        exact hs' lo hi ⟨h1, h2, h3, h4⟩
      · rw [if_neg hxi] at hsub
        rw [if_neg hxi]
        by_cases hxl : x ∈ l.ids
        · rw [if_pos hxl] at hsub
          rw [if_pos hxl]
          have hsl : ∀ y ∈ s.ids, y ∈ l.ids := subAtP_sub_mem hsub
          have hki : (nd t' i).key = (nd t i).key :=
            hout i (by simp [BT.ids]) (fun hm => hil (hsl i hm))
          refine ⟨?_, ?_, ?_, ?_⟩
          · cases lo with
            | none => trivial
            | some a => simpa [loOk, hless, hki] using h1
          · cases hi with
            | none => trivial
            | some a => simpa [hiOk, hless, hki] using h2
          · rw [hki]
            exact ihl h3 ndl hsub (fun j hj hjs => hout j (by simp [BT.ids, hj]) hjs)
          · rw [hki]
            exact ordT_congr hless h4 (fun j hj => hout j (by simp [BT.ids, hj])
              (fun hm => hdisj (hsl j hm) (List.mem_cons_of_mem i hj)))
        · rw [if_neg hxl] at hsub
          rw [if_neg hxl]
          have hsl : ∀ y ∈ s.ids, y ∈ r.ids := subAtP_sub_mem hsub
          have hki : (nd t' i).key = (nd t i).key :=
            hout i (by simp [BT.ids]) (fun hm => hir (hsl i hm))
          refine ⟨?_, ?_, ?_, ?_⟩
          · cases lo with
            | none => trivial
            | some a => simpa [loOk, hless, hki] using h1
          · cases hi with
            | none => trivial
            | some a => simpa [hiOk, hless, hki] using h2
          · rw [hki]
            exact ordT_congr hless h3 (fun j hj => hout j (by simp [BT.ids, hj])
              (fun hm => hdisj hj (List.mem_cons_of_mem i (hsl j hm))))
          · rw [hki]
            exact ihr h4 ndr hsub (fun j hj hjs => hout j (by simp [BT.ids, hj]) hjs)

theorem subAtP_px_cases {x px : Nat} {s : BT} :
    ∀ (bt : BT) (q0 : Nat), bt.ids.Nodup → subAtP bt x q0 = some (s, px) →
      (px = q0 ∧ x = bt.rootOf) ∨ (px ∈ bt.ids ∧ px ∉ s.ids) := by
  intro bt
  induction bt with
  | leaf => intro q0 _ h; simp [subAtP] at h
  | node l i r ihl ihr =>
      intro q0 hnd h
      rw [BT.ids, List.nodup_append] at hnd
      obtain ⟨ndl, ndir, hdisj⟩ := hnd
      rw [List.nodup_cons] at ndir
      obtain ⟨hir, ndr⟩ := ndir
      have hil : i ∉ l.ids := fun hm => hdisj hm (List.mem_cons_self i r.ids)
      unfold subAtP at h
      split at h
      · rename_i hxi
        cases h
        exact Or.inl ⟨rfl, hxi ▸ rfl⟩
      · rename_i hxi
        split at h
        · rename_i hxl
          have hsl : ∀ y ∈ s.ids, y ∈ l.ids := subAtP_sub_mem h
          rcases ihl i ndl h with ⟨hp, -⟩ | ⟨hp1, hp2⟩
          · exact Or.inr ⟨by simp [BT.ids, hp], hp ▸ fun hm => hil (hsl i hm)⟩
          · exact Or.inr ⟨by simp [BT.ids, hp1], hp2⟩
        · rename_i hxl
          have hsl : ∀ y ∈ s.ids, y ∈ r.ids := subAtP_sub_mem h
          rcases ihr i ndr h with ⟨hp, -⟩ | ⟨hp1, hp2⟩
          · exact Or.inr ⟨by simp [BT.ids, hp], hp ▸ fun hm => hir (hsl i hm)⟩
          · exact Or.inr ⟨by simp [BT.ids, hp1], hp2⟩

theorem reprT_root_eq {t : Tree K V} {r i : Nat} {l rr : BT}
    (h : ReprT t r (.node l i rr)) : r = i := by
  cases h
  rfl

theorem pos_facts {t : Tree K V} {bt : BT} (hw : WFT t bt) {x : Nat} (hx : x ∈ bt.ids) :
    ∃ A R px, subAtP bt x 0 = some (.node A x R, px) ∧
      ReprT t x (.node A x R) ∧ ParentOk t (.node A x R) px ∧
      (nd t x).parent = px ∧
      ReprT t ((nd t x).left) A ∧ ReprT t ((nd t x).right) R ∧
      ParentOk t A x ∧ ParentOk t R x ∧
      (BT.node A x R).ids.Nodup ∧
      ((px = 0 ∧ x = t.root) ∨
        (px ≠ 0 ∧ px ∈ bt.ids ∧ px ∉ (BT.node A x R).ids ∧ x ≠ t.root)) ∧
      x ≠ 0 ∧ x ≤ t.store.length := by
  obtain ⟨A, R, px, hsub⟩ := subAtP_mem bt 0 hx
  obtain ⟨hrep, hpar⟩ := subAtP_repr bt t.root 0 hw.repr hw.par hsub
  obtain ⟨P, S, hPS, -⟩ := subAtP_decomp bt 0 hsub
  have hndsub : (BT.node A x R).ids.Nodup := by
    have hinf : (BT.node A x R).ids <:+: bt.ids := ⟨P, S, by rw [hPS, List.append_assoc]⟩
    exact List.Nodup.sublist hinf.sublist hw.nodup
  have hx0 : x ≠ 0 := (reprT_ids_pos hw.repr x hx).1
  have hxlen : x ≤ t.store.length := (reprT_ids_pos hw.repr x hx).2
  cases hrep with
  | node h0 hlen hl hr =>
    obtain ⟨hpj, hpl, hpr⟩ := hpar
    refine ⟨A, R, px, hsub, ReprT.node h0 hlen hl hr, ⟨hpj, hpl, hpr⟩, hpj,
      hl, hr, hpl, hpr, hndsub, ?_, hx0, hxlen⟩
    rcases subAtP_px_cases bt 0 hw.nodup hsub with ⟨hp0, hroot⟩ | ⟨hp1, hp2⟩
    · refine Or.inl ⟨hp0, ?_⟩
      cases hbt : bt with
      | leaf => rw [hbt] at hx; simp [BT.ids] at hx
      | node bl bi br =>
          rw [hbt] at hroot
          simp [BT.rootOf] at hroot
          rw [hroot]
          exact (reprT_root_eq (hbt ▸ hw.repr)).symm
    · have hpx0 : px ≠ 0 := by
        intro hz
        rw [hz] at hp1
        exact (reprT_ids_pos hw.repr 0 hp1).1 rfl
      refine Or.inr ⟨hpx0, hp1, hp2, ?_⟩
      intro hxr
      cases hbt : bt with
      | leaf => rw [hbt] at hx; simp [BT.ids] at hx
      | node bl bi br =>
          have hbi : t.root = bi := reprT_root_eq (hbt ▸ hw.repr)
          rw [hbt] at hsub
          unfold subAtP at hsub
          rw [if_pos (hxr.trans hbi)] at hsub
          cases hsub
          exact hpx0 rfl

theorem nd_rootUpd (t : Tree K V) (c j : Nat) : nd { t with root := c } j = nd t j := rfl

theorem nd_mk (t : Tree K V) (r : Nat) (z : Int) (l : K → K → Bool) (j : Nat) :
    nd { store := t.store, root := r, size := z, less := l } j = nd t j := rfl

theorem subAtP_child {t : Tree K V} {s : BT} {x px : Nat} :
    ∀ (bt : BT) (root q : Nat), ReprT t root bt → bt.ids.Nodup →
      subAtP bt x q = some (s, px) → px ≠ q →
      ((nd t px).left = x ∧ (nd t px).right ≠ x) ∨
      ((nd t px).right = x ∧ (nd t px).left ≠ x) := by
  intro bt
  induction bt with
  | leaf => intro root q _ _ h _; simp [subAtP] at h
  | node l i r ihl ihr =>
      intro root q hrep hnd hsub hpq
      cases hrep with
      | node h0 hlen hl hr =>
        rw [BT.ids, List.nodup_append] at hnd
        obtain ⟨ndl, ndir, hdisj⟩ := hnd
        rw [List.nodup_cons] at ndir
        obtain ⟨hir, ndr⟩ := ndir
        have hil : i ∉ l.ids := fun hm => hdisj hm (List.mem_cons_self i r.ids)
        unfold subAtP at hsub
        split at hsub
        · cases hsub; exact absurd rfl hpq
        · rename_i hxi
          split at hsub
          · rename_i hxl
            rcases subAtP_px_cases l i ndl hsub with ⟨hpi, hxroot⟩ | ⟨hp1, hp2⟩
            · subst hpi
              have hx0 : x ≠ 0 := (reprT_ids_pos hl x hxl).1
              cases hlshape : l with
              | leaf => rw [hlshape] at hxl; simp [BT.ids] at hxl
              | node a y b =>
                  rw [hlshape] at hxroot
                  simp only [BT.rootOf] at hxroot
                  have hleq : (nd t px).left = y := reprT_root_eq (hlshape ▸ hl)
                  refine Or.inl ⟨hxroot ▸ hleq, ?_⟩
                  intro hrx
                  have hxr : x ∈ r.ids := reprT_root_mem (hrx ▸ hr) hx0
                  exact hdisj hxl (List.mem_cons_of_mem px hxr)
            · refine ihl _ i hl ndl hsub ?_
              intro hh
              exact hil (hh ▸ hp1)
          · rename_i hxl
            have hxr : x ∈ r.ids := by
              have hxm : x ∈ (BT.node l i r).ids := subAtP_mem_of_some (BT.node l i r) q
                (by unfold subAtP; rw [if_neg hxi, if_neg hxl]; exact hsub)
              simp only [BT.ids, List.mem_append, List.mem_cons] at hxm
              rcases hxm with h | h | h
              · exact absurd h hxl
              · exact absurd h hxi
              · exact h
            rcases subAtP_px_cases r i ndr hsub with ⟨hpi, hxroot⟩ | ⟨hp1, hp2⟩
            · subst hpi
              have hx0 : x ≠ 0 := (reprT_ids_pos hr x hxr).1
              cases hrshape : r with
              | leaf => rw [hrshape] at hxr; simp [BT.ids] at hxr
              | node a y b =>
                  rw [hrshape] at hxroot
                  simp only [BT.rootOf] at hxroot
                  have hreq : (nd t px).right = y := reprT_root_eq (hrshape ▸ hr)
                  refine Or.inr ⟨hxroot ▸ hreq, ?_⟩
                  intro hlx
                  exact hxl (reprT_root_mem (hlx ▸ hl) hx0)
            · refine ihr _ i hr ndr hsub ?_
              intro hh
              exact hir (hh ▸ hp1)

theorem leftRotate_fields_root (t : Tree K V) (x c bR px : Nat)
    (hc : (nd t x).right = c) (hbR : (nd t c).left = bR) (hpx : (nd t x).parent = px)
    (hroot : x = t.root)
    (hx0 : x ≠ 0) (hxlen : x ≤ t.store.length)
    (hc0 : c ≠ 0) (hclen : c ≤ t.store.length)
    (hxc : x ≠ c) (hbRx : bR ≠ x) (hbRc : bR ≠ c)
    (hbRlen : bR ≤ t.store.length) :
    (leftRotate t x).root = c ∧
    (leftRotate t x).store.length = t.store.length ∧
    (leftRotate t x).size = t.size ∧ (leftRotate t x).less = t.less ∧
    (∀ j, (nd (leftRotate t x) j).key = (nd t j).key ∧
      (nd (leftRotate t x) j).val = (nd t j).val ∧
      (nd (leftRotate t x) j).black = (nd t j).black) ∧
    (∀ j, j ≠ c → (nd (leftRotate t x) j).left = (nd t j).left) ∧
    (nd (leftRotate t x) c).left = x ∧
    (∀ j, j ≠ x → (nd (leftRotate t x) j).right = (nd t j).right) ∧
    (nd (leftRotate t x) x).right = bR ∧
    (∀ j, j ≠ x → j ≠ c → j ≠ bR → (nd (leftRotate t x) j).parent = (nd t j).parent) ∧
    (nd (leftRotate t x) x).parent = c ∧
    (nd (leftRotate t x) c).parent = px ∧
    (bR ≠ 0 → (nd (leftRotate t x) bR).parent = x) := by
  subst hroot
  by_cases hb0 : bR = 0 <;>
    [ (refine ⟨?_, ?_, ?_, ?_, fun j => ⟨?_, ?_, ?_⟩, fun j hj => ?_, ?_, fun j hj => ?_, ?_,
        fun j h1 h2 h3 => ?_, ?_, ?_, fun hb => ?_⟩);
      (refine ⟨?_, ?_, ?_, ?_, fun j => ⟨?_, ?_, ?_⟩, fun j hj => ?_, ?_, fun j hj => ?_, ?_,
        fun j h1 h2 h3 => ?_, ?_, ?_, fun hb => ?_⟩) ] <;>
  first
  | exact absurd hb0 hb
  | (simp only [leftRotate, hc, setR_left, hbR]
     simp [hb0, nd_rootUpd, nd_mk,
      setL_root, setR_root, setP_root, setL_length, setR_length, setP_length,
      setL_size, setR_size, setP_size, setL_less, setR_less, setP_less,
      setL_key, setR_key, setP_key, setL_val, setR_val, setP_val,
      setL_black, setR_black, setP_black,
      setL_parent, setR_parent, setP_left, setP_right, setR_left, setL_right,
      setL_left_self, setL_left_ne, setR_right_self, setR_right_ne,
      setP_parent_self, setP_parent_ne,
      hx0, hxlen, hc0, hclen, hxc, hxc.symm, hbRx, hbRc,
      Ne.symm hbRx, Ne.symm hbRc, hpx, *])

theorem leftRotate_fields_inner (t : Tree K V) (x c bR px : Nat)
    (hc : (nd t x).right = c) (hbR : (nd t c).left = bR) (hpx : (nd t x).parent = px)
    (hroot : x ≠ t.root)
    (hx0 : x ≠ 0) (hxlen : x ≤ t.store.length)
    (hc0 : c ≠ 0) (hclen : c ≤ t.store.length)
    (hpx0 : px ≠ 0) (hpxlen : px ≤ t.store.length)
    (hxc : x ≠ c) (hbRx : bR ≠ x) (hbRc : bR ≠ c)
    (hpxx : px ≠ x) (hpxc : px ≠ c) (hpxbR : px ≠ bR)
    (hbRlen : bR ≤ t.store.length) :
    (leftRotate t x).root = t.root ∧
    (leftRotate t x).store.length = t.store.length ∧
    (leftRotate t x).size = t.size ∧ (leftRotate t x).less = t.less ∧
    (∀ j, (nd (leftRotate t x) j).key = (nd t j).key ∧
      (nd (leftRotate t x) j).val = (nd t j).val ∧
      (nd (leftRotate t x) j).black = (nd t j).black) ∧
    (∀ j, j ≠ c → j ≠ px → (nd (leftRotate t x) j).left = (nd t j).left) ∧
    (nd (leftRotate t x) c).left = x ∧
    ((nd (leftRotate t x) px).left =
      if (nd t px).left = x then c else (nd t px).left) ∧
    (∀ j, j ≠ x → j ≠ px → (nd (leftRotate t x) j).right = (nd t j).right) ∧
    (nd (leftRotate t x) x).right = bR ∧
    ((nd (leftRotate t x) px).right =
      if (nd t px).left = x then (nd t px).right else c) ∧
    (∀ j, j ≠ x → j ≠ c → j ≠ bR → (nd (leftRotate t x) j).parent = (nd t j).parent) ∧
    (nd (leftRotate t x) x).parent = c ∧
    (nd (leftRotate t x) c).parent = px ∧
    (bR ≠ 0 → (nd (leftRotate t x) bR).parent = x) := by
  have hsideE : (x = (nd t px).left) = ((nd t px).left = x) := propext eq_comm
  by_cases hside : (nd t px).left = x <;> by_cases hb0 : bR = 0 <;>
    refine ⟨?_, ?_, ?_, ?_, fun j => ⟨?_, ?_, ?_⟩, fun j hj1 hj2 => ?_, ?_, ?_,
      fun j hj1 hj2 => ?_, ?_, ?_, fun j h1 h2 h3 => ?_, ?_, ?_, fun hb => ?_⟩ <;>
  first
  | exact absurd hb0 hb
  | (simp only [leftRotate, hc, setR_left, hbR]
     simp [hb0, hside, hsideE, nd_rootUpd, nd_mk,
      setL_root, setR_root, setP_root, setL_length, setR_length, setP_length,
      setL_size, setR_size, setP_size, setL_less, setR_less, setP_less,
      setL_key, setR_key, setP_key, setL_val, setR_val, setP_val,
      setL_black, setR_black, setP_black,
      setL_parent, setR_parent, setP_left, setP_right, setR_left, setL_right,
      setL_left_self, setL_left_ne, setR_right_self, setR_right_ne,
      setP_parent_self, setP_parent_ne,
      hroot, hx0, hxlen, hc0, hclen, hpx0, hpxlen, hxc, hxc.symm,
      hbRx, hbRc, hpxx, hpxc, hpxbR,
      Ne.symm hbRx, Ne.symm hbRc, Ne.symm hpxx, Ne.symm hpxc, Ne.symm hpxbR, hpx, *])

theorem leftRotate_spec {t : Tree K V} {bt : BT} (hw : WFT t bt)
    {x : Nat} (hx : x ∈ bt.ids) (hrz : (nd t x).right ≠ 0) :
    ∃ A B C px, subAtP bt x 0 = some (.node A x (.node B ((nd t x).right) C), px) ∧
      WFT (leftRotate t x)
        (replaceAt bt x (.node (.node A x B) ((nd t x).right) C)) ∧
      (replaceAt bt x (.node (.node A x B) ((nd t x).right) C)).ids = bt.ids ∧
      (leftRotate t x).root = (if x = t.root then (nd t x).right else t.root) ∧
      (leftRotate t x).store.length = t.store.length ∧
      (leftRotate t x).size = t.size ∧
      (leftRotate t x).less = t.less ∧
      (∀ j, (nd (leftRotate t x) j).key = (nd t j).key ∧
        (nd (leftRotate t x) j).val = (nd t j).val ∧
        (nd (leftRotate t x) j).black = (nd t j).black) ∧
      (nd (leftRotate t x) x).parent = (nd t x).right ∧
      (∀ j, j ≠ x → j ≠ (nd t x).right → j ≠ (nd t ((nd t x).right)).left →
        (nd (leftRotate t x) j).parent = (nd t j).parent) ∧
      (nd (leftRotate t x) x).left = (nd t x).left ∧
      (nd (leftRotate t x) x).right = (nd t ((nd t x).right)).left ∧
      (nd (leftRotate t x) ((nd t x).right)).left = x ∧
      (nd (leftRotate t x) ((nd t x).right)).right = (nd t ((nd t x).right)).right ∧
      ((nd t x).parent ≠ 0 →
        ((nd (leftRotate t x) ((nd t x).parent)).left =
          (if (nd t ((nd t x).parent)).left = x then (nd t x).right
           else (nd t ((nd t x).parent)).left)) ∧
        ((nd (leftRotate t x) ((nd t x).parent)).right =
          (if (nd t ((nd t x).parent)).right = x then (nd t x).right
           else (nd t ((nd t x).parent)).right))) ∧
      (StrictLess t.less → OrdT t none none bt →
        OrdT (leftRotate t x) none none
          (replaceAt bt x (.node (.node A x B) ((nd t x).right) C))) := by
  obtain ⟨A, R, px, hsub, hsrep, hspar, hpxeq, hA, hR, hpA, hpR, hndsub, hpxcase, hx0, hxlen⟩ :=
    pos_facts hw hx
  set c := (nd t x).right with hcdef
  obtain ⟨B, C, hReq, hclen', hB, hC⟩ := reprT_pos hR hrz
  subst hReq
  have hceq : c = c := rfl
  obtain ⟨hcpar, hpB, hpC⟩ := hpR
  set bR := (nd t c).left with hbRdef
  -- id facts from nodup of the subtree
  have hndA : A.ids.Nodup := by
    rw [BT.ids, List.nodup_append] at hndsub
    exact hndsub.1
  have hxnotA : x ∉ A.ids := by
    rw [BT.ids, List.nodup_append] at hndsub
    exact fun hm => hndsub.2.2 hm (List.mem_cons_self _ _)
  have hndR : (BT.node B c C).ids.Nodup := by
    rw [BT.ids, List.nodup_append, List.nodup_cons] at hndsub
    exact hndsub.2.1.2
  have hdisjAR : A.ids.Disjoint (x :: (BT.node B c C).ids) := by
    rw [BT.ids, List.nodup_append] at hndsub
    exact hndsub.2.2
  have hxnotR : x ∉ (BT.node B c C).ids := by
    rw [BT.ids, List.nodup_append, List.nodup_cons] at hndsub
    exact hndsub.2.1.1
  have hndB : B.ids.Nodup := by
    rw [BT.ids, List.nodup_append] at hndR
    exact hndR.1
  have hndC : C.ids.Nodup := by
    rw [BT.ids, List.nodup_append, List.nodup_cons] at hndR
    exact hndR.2.1.2
  have hcnotB : c ∉ B.ids := by
    rw [BT.ids, List.nodup_append] at hndR
    exact fun hm => hndR.2.2 hm (List.mem_cons_self _ _)
  have hcnotC : c ∉ C.ids := by
    rw [BT.ids, List.nodup_append, List.nodup_cons] at hndR
    exact hndR.2.1.1
  have hdisjBC : B.ids.Disjoint (c :: C.ids) := by
    rw [BT.ids, List.nodup_append] at hndR
    exact hndR.2.2
  -- memberships in the full tree
  have hsub_mem : ∀ y ∈ (BT.node A x (BT.node B c C)).ids, y ∈ bt.ids :=
    subAtP_sub_mem hsub
  have hcmem : c ∈ bt.ids := hsub_mem c (by simp [BT.ids])
  have hc0 : c ≠ 0 := (reprT_ids_pos hw.repr c hcmem).1
  have hclen : c ≤ t.store.length := (reprT_ids_pos hw.repr c hcmem).2
  have hxc : x ≠ c := by
    intro hh
    exact hxnotR (hh ▸ (by simp [BT.ids] : c ∈ (BT.node B c C).ids))
  -- bR facts
  have hbRB : bR ≠ 0 → bR ∈ B.ids := by
    intro hbz
    exact reprT_root_mem hB hbz
  have hbRx : bR ≠ 0 → bR ≠ x := by
    intro hbz hh
    exact hxnotR (hh ▸ (by simp [BT.ids, hbRB hbz] : bR ∈ (BT.node B c C).ids))
  have hbRc : bR ≠ 0 → bR ≠ c := by
    intro hbz hh
    exact hcnotB (hh ▸ hbRB hbz)
  have hbRlen : bR ≠ 0 → bR ≤ t.store.length := by
    intro hbz
    exact (reprT_ids_pos hw.repr bR
      (hsub_mem bR (by simp [BT.ids, hbRB hbz]))).2
  -- px facts
  have hpxx : px ≠ 0 → px ≠ x := by
    rcases hpxcase with ⟨h1, -⟩ | ⟨-, -, h3, -⟩
    · intro hz; exact absurd h1 hz
    · intro _ hh
      exact h3 (hh ▸ (by simp [BT.ids] : x ∈ (BT.node A x (BT.node B c C)).ids))
  have hpxc : px ≠ 0 → px ≠ c := by
    rcases hpxcase with ⟨h1, -⟩ | ⟨-, -, h3, -⟩
    · intro hz; exact absurd h1 hz
    · intro _ hh
      exact h3 (hh ▸ (by simp [BT.ids] : c ∈ (BT.node A x (BT.node B c C)).ids))
  have hpxbR : px ≠ 0 → bR ≠ 0 → px ≠ bR := by
    rcases hpxcase with ⟨h1, -⟩ | ⟨-, -, h3, -⟩
    · intro hz; exact absurd h1 hz
    · intro _ hbz hh
      exact h3 (hh ▸ (by simp [BT.ids, hbRB hbz] : bR ∈ (BT.node A x (BT.node B c C)).ids))
  -- unconditional distinctness
  have hbRx' : bR ≠ x := by
    by_cases hbz : bR = 0
    · rw [hbz]; exact Ne.symm hx0
    · exact hbRx hbz
  have hbRc' : bR ≠ c := by
    by_cases hbz : bR = 0
    · rw [hbz]; exact Ne.symm hc0
    · exact hbRc hbz
  have hbRlen' : bR ≤ t.store.length := by
    by_cases hbz : bR = 0
    · rw [hbz]; exact Nat.zero_le _
    · exact hbRlen hbz
  have hnotpx : ∀ j ∈ (BT.node A x (BT.node B c C)).ids, j ≠ px := by
    rcases hpxcase with ⟨hpz, -⟩ | ⟨-, -, hp2, -⟩
    · intro j hj
      rw [hpz]
      exact (reprT_ids_pos hw.repr j (hsub_mem j hj)).1
    · intro j hj hh
      exact hp2 (hh ▸ hj)
  -- the common write-effect bundle
  obtain ⟨hfRoot, hfLen, hfSize, hfLess, hfKVB, hfLeftO, hfLeftC, hfRightO, hfRightX,
      hfParO, hfParX, hfParC, hfParB, hfPxIf⟩ :
      (leftRotate t x).root = (if x = t.root then c else t.root) ∧
      (leftRotate t x).store.length = t.store.length ∧
      (leftRotate t x).size = t.size ∧ (leftRotate t x).less = t.less ∧
      (∀ j, (nd (leftRotate t x) j).key = (nd t j).key ∧
        (nd (leftRotate t x) j).val = (nd t j).val ∧
        (nd (leftRotate t x) j).black = (nd t j).black) ∧
      (∀ j, j ≠ c → j ≠ px → (nd (leftRotate t x) j).left = (nd t j).left) ∧
      (nd (leftRotate t x) c).left = x ∧
      (∀ j, j ≠ x → j ≠ px → (nd (leftRotate t x) j).right = (nd t j).right) ∧
      (nd (leftRotate t x) x).right = bR ∧
      (∀ j, j ≠ x → j ≠ c → j ≠ bR → (nd (leftRotate t x) j).parent = (nd t j).parent) ∧
      (nd (leftRotate t x) x).parent = c ∧
      (nd (leftRotate t x) c).parent = px ∧
      (bR ≠ 0 → (nd (leftRotate t x) bR).parent = x) ∧
      (px ∈ bt.ids → px ∉ (BT.node A x (BT.node B c C)).ids →
        ((nd (leftRotate t x) px).left =
          if (nd t px).left = x then c else (nd t px).left) ∧
        ((nd (leftRotate t x) px).right =
          if (nd t px).right = x then c else (nd t px).right)) := by
    rcases hpxcase with ⟨hpz, hxr⟩ | ⟨hpx0, hpxmem, hpxnots, hxnr⟩
    · obtain ⟨f1, f2, f3, f4, f5, f6, f7, f8, f9, f10, f11, f12, f13⟩ :=
        leftRotate_fields_root t x c bR px hcdef.symm hbRdef.symm hpxeq hxr
          hx0 hxlen hc0 hclen hxc hbRx' hbRc' hbRlen'
      refine ⟨by rw [f1, if_pos hxr], f2, f3, f4, f5,
        fun j hj _ => f6 j hj, f7, fun j hj _ => f8 j hj, f9, f10, f11, f12, f13, ?_⟩
      intro hmem _
      exact absurd hpz ((reprT_ids_pos hw.repr px hmem).1)
    · have hpxlen : px ≤ t.store.length := (reprT_ids_pos hw.repr px hpxmem).2
      have hpxx' : px ≠ x := hpxx hpx0
      have hpxc' : px ≠ c := hpxc hpx0
      have hpxbR' : px ≠ bR := by
        by_cases hbz : bR = 0
        · rw [hbz]; exact hpx0
        · exact hpxbR hpx0 hbz
      obtain ⟨f1, f2, f3, f4, f5, f6, f7, f8, f9, f10, f11, f12, f13, f14, f15⟩ :=
        leftRotate_fields_inner t x c bR px hcdef.symm hbRdef.symm hpxeq hxnr
          hx0 hxlen hc0 hclen hpx0 hpxlen hxc hbRx' hbRc' hpxx' hpxc' hpxbR' hbRlen'
      refine ⟨by rw [f1, if_neg hxnr], f2, f3, f4, f5, f6, f7, f9, f10, f12, f13, f14,
        f15, ?_⟩
      intro _ _
      rcases subAtP_child bt t.root 0 hw.repr hw.nodup hsub hpx0 with
        ⟨hL, hRne⟩ | ⟨hRx, hLne⟩
      · exact ⟨by rw [f8], by rw [f11, if_pos hL, if_neg hRne]⟩
      · exact ⟨by rw [f8], by rw [f11, if_neg hLne, if_pos hRx]⟩
  set t' := leftRotate t x with ht'
  -- membership and distinctness helpers for the congruence transports
  have hmemA : ∀ j ∈ A.ids, j ∈ bt.ids := fun j hj => hsub_mem j (by simp [BT.ids, hj])
  have hmemB : ∀ j ∈ B.ids, j ∈ bt.ids := fun j hj => hsub_mem j (by simp [BT.ids, hj])
  have hmemC : ∀ j ∈ C.ids, j ∈ bt.ids := fun j hj => hsub_mem j (by simp [BT.ids, hj])
  have hAnotc : ∀ j ∈ A.ids, j ≠ c := fun j hj hh => hdisjAR hj (by simp [BT.ids, hh])
  have hAnotx : ∀ j ∈ A.ids, j ≠ x := fun j hj hh => hxnotA (hh ▸ hj)
  have hBnotc : ∀ j ∈ B.ids, j ≠ c := fun j hj hh => hcnotB (hh ▸ hj)
  have hBnotx : ∀ j ∈ B.ids, j ≠ x := fun j hj hh =>
    hxnotR (by simp [BT.ids, hh ▸ hj])
  have hCnotc : ∀ j ∈ C.ids, j ≠ c := fun j hj hh => hcnotC (hh ▸ hj)
  have hCnotx : ∀ j ∈ C.ids, j ≠ x := fun j hj hh =>
    hxnotR (by simp [BT.ids, hh ▸ hj])
  have hAnotbR : ∀ j ∈ A.ids, j ≠ bR := by
    intro j hj hh
    by_cases hbz : bR = 0
    · exact (reprT_ids_pos hw.repr j (hmemA j hj)).1 (hh.trans hbz)
    · exact hdisjAR hj (by simp [BT.ids, hbRB hbz, hh])
  have hCnotbR : ∀ j ∈ C.ids, j ≠ bR := by
    intro j hj hh
    by_cases hbz : bR = 0
    · exact (reprT_ids_pos hw.repr j (hmemC j hj)).1 (hh.trans hbz)
    · exact hdisjBC (hbRB hbz) (List.mem_cons_of_mem c (hh ▸ hj))
  have hjlen : ∀ j ∈ bt.ids, j ≤ t'.store.length := fun j hj => by
    rw [hfLen]; exact (reprT_ids_pos hw.repr j hj).2
  have hApx : ∀ j ∈ A.ids, j ≠ px := fun j hj => hnotpx j (by simp [BT.ids, hj])
  have hBpx : ∀ j ∈ B.ids, j ≠ px := fun j hj => hnotpx j (by simp [BT.ids, hj])
  have hCpx : ∀ j ∈ C.ids, j ≠ px := fun j hj => hnotpx j (by simp [BT.ids, hj])
  have hxpx : x ≠ px := hnotpx x (by simp [BT.ids])
  have hcpx : c ≠ px := hnotpx c (by simp [BT.ids])
  -- shape of the rotated subtree in the new store
  have hcongrA : ∀ j ∈ A.ids, (nd t' j).left = (nd t j).left ∧
      (nd t' j).right = (nd t j).right ∧ j ≤ t'.store.length :=
    fun j hj => ⟨hfLeftO j (hAnotc j hj) (hApx j hj),
      hfRightO j (hAnotx j hj) (hApx j hj), hjlen j (hmemA j hj)⟩
  have hcongrB : ∀ j ∈ B.ids, (nd t' j).left = (nd t j).left ∧
      (nd t' j).right = (nd t j).right ∧ j ≤ t'.store.length :=
    fun j hj => ⟨hfLeftO j (hBnotc j hj) (hBpx j hj),
      hfRightO j (hBnotx j hj) (hBpx j hj), hjlen j (hmemB j hj)⟩
  have hcongrC : ∀ j ∈ C.ids, (nd t' j).left = (nd t j).left ∧
      (nd t' j).right = (nd t j).right ∧ j ≤ t'.store.length :=
    fun j hj => ⟨hfLeftO j (hCnotc j hj) (hCpx j hj),
      hfRightO j (hCnotx j hj) (hCpx j hj), hjlen j (hmemC j hj)⟩
  have hxl' : (nd t' x).left = (nd t x).left := hfLeftO x hxc hxpx
  have hcr' : (nd t' c).right = (nd t c).right := hfRightO c (Ne.symm hxc) hcpx
  have hreprInner : ReprT t' x (.node A x B) := by
    refine ReprT.node hx0 (hjlen x hx) ?_ ?_
    · rw [hxl']
      exact reprT_congr hA hcongrA
    · rw [hfRightX]
      exact reprT_congr hB hcongrB
  have hrepr' : ReprT t' c (.node (.node A x B) c C) := by
    refine ReprT.node hc0 (hjlen c hcmem) ?_ ?_
    · rw [hfLeftC]
      exact hreprInner
    · rw [hcr']
      exact reprT_congr hC hcongrC
  -- parent links of the rotated subtree
  have hparA' : ParentOk t' A x :=
    parentOk_congr hpA (fun j hj =>
      hfParO j (hAnotx j hj) (hAnotc j hj) (hAnotbR j hj))
  have hparC' : ParentOk t' C c :=
    parentOk_congr hpC (fun j hj =>
      hfParO j (hCnotx j hj) (hCnotc j hj) (hCnotbR j hj))
  have hparB' : ParentOk t' B x := by
    clear_value bR
    cases hB with
    | leaf => trivial
    | node hbz hblen hbl hbr =>
        rename_i bl br
        obtain ⟨hbp, hpbl, hpbr⟩ := hpB
        rw [BT.ids, List.nodup_append, List.nodup_cons] at hndB
        obtain ⟨ndbl, ⟨hbRnotbr, ndbr⟩, hdisjb⟩ := hndB
        have hbRnotbl : bR ∉ bl.ids := fun hm =>
          hdisjb hm (List.mem_cons_self bR br.ids)
        have hmembl : ∀ j ∈ bl.ids, j ∈ (BT.node bl bR br).ids := fun j hj => by
          simp [BT.ids, hj]
        have hmembr : ∀ j ∈ br.ids, j ∈ (BT.node bl bR br).ids := fun j hj => by
          simp [BT.ids, hj]
        refine ⟨hfParB hbz, ?_, ?_⟩
        · exact parentOk_congr hpbl (fun j hj =>
            hfParO j (hBnotx j (hmembl j hj)) (hBnotc j (hmembl j hj))
              (fun hh => hbRnotbl (hh ▸ hj)))
        · exact parentOk_congr hpbr (fun j hj =>
            hfParO j (hBnotx j (hmembr j hj)) (hBnotc j (hmembr j hj))
              (fun hh => hbRnotbr (hh ▸ hj)))
  have hparS' : ParentOk t' (BT.node (BT.node A x B) c C) px :=
    ⟨hfParC, ⟨hfParX, hparA', hparB'⟩, hparC'⟩
  -- transport across the replacement
  have hkey : ∀ j, (nd t' j).key = (nd t j).key := fun j => (hfKVB j).1
  obtain ⟨P, S, hPS, hrepl⟩ := subAtP_decomp bt 0 hsub
  have hidsEq : (replaceAt bt x (BT.node (BT.node A x B) c C)).ids = bt.ids := by
    rw [hrepl, hPS]
    simp [BT.ids, List.append_assoc]
  have houtLR : ∀ j ∈ bt.ids, j ∉ (BT.node A x (BT.node B c C)).ids → j ≠ px →
      (nd t' j).left = (nd t j).left ∧ (nd t' j).right = (nd t j).right ∧
      j ≤ t'.store.length := by
    intro j hj hjs hjpx
    have hjc : j ≠ c := fun hh => hjs (by simp [BT.ids, hh])
    have hjx : j ≠ x := fun hh => hjs (by simp [BT.ids, hh])
    exact ⟨hfLeftO j hjc hjpx, hfRightO j hjx hjpx, hjlen j hj⟩
  have houtP : px ∈ bt.ids → px ∉ (BT.node A x (BT.node B c C)).ids →
      ((nd t' px).left = if (nd t px).left = x then c else (nd t px).left) ∧
      ((nd t' px).right = if (nd t px).right = x then c else (nd t px).right) ∧
      px ≤ t'.store.length := by
    intro hmem hnots
    obtain ⟨hl1, hl2⟩ := hfPxIf hmem hnots
    exact ⟨hl1, hl2, hjlen px hmem⟩
  have hrep' : ReprT t' (if t.root = x then c else t.root)
      (replaceAt bt x (BT.node (BT.node A x B) c C)) :=
    reprT_replaceAt hrepr' hw.repr hw.nodup hsub houtLR houtP
  have houtPar : ∀ j ∈ bt.ids, j ∉ (BT.node A x (BT.node B c C)).ids →
      (nd t' j).parent = (nd t j).parent := by
    intro j hj hjs
    refine hfParO j (fun hh => hjs (by simp [BT.ids, hh]))
      (fun hh => hjs (by simp [BT.ids, hh])) ?_
    intro hh
    by_cases hbz : bR = 0
    · exact (reprT_ids_pos hw.repr j hj).1 (hh.trans hbz)
    · exact hjs (by simp [BT.ids, hbRB hbz, hh])
  have hpar' : ParentOk t' (replaceAt bt x (BT.node (BT.node A x B) c C)) 0 :=
    parentOk_replaceAt hparS' hw.par hw.nodup hsub houtPar
  have hsOrd : StrictLess t.less → ∀ lo' hi',
      OrdT t lo' hi' (BT.node A x (BT.node B c C)) →
      OrdT t' lo' hi' (BT.node (BT.node A x B) c C) := by
    intro hsl lo' hi' h
    obtain ⟨h1, h2, h3, h4⟩ := h
    obtain ⟨h5, h6, h7, h8⟩ := h4
    refine ⟨?_, ?_, ?_, ?_⟩
    · rw [hfLess, hkey c]
      cases lo' with
      | none => trivial
      | some a => exact hsl.lt_trans a _ _ h1 h5
    · rw [hfLess, hkey c]
      exact h6
    · rw [hkey c]
      refine ⟨?_, ?_, ?_, ?_⟩
      · rw [hfLess, hkey x]; exact h1
      · rw [hfLess, hkey x]; exact h5
      · rw [hkey x]
        exact ordT_congr hfLess h3 (fun j _ => hkey j)
      · rw [hkey x]
        exact ordT_congr hfLess h7 (fun j _ => hkey j)
    · rw [hkey c]
      exact ordT_congr hfLess h8 (fun j _ => hkey j)
  have hifEq : (if t.root = x then c else t.root) = (if x = t.root then c else t.root) := by
    by_cases hh : x = t.root
    · rw [if_pos hh, if_pos hh.symm]
    · rw [if_neg hh, if_neg (fun h2 => hh h2.symm)]
  refine ⟨A, B, C, px, hsub, ⟨?_, ?_, hpar'⟩, hidsEq, hfRoot, hfLen, hfSize, hfLess,
    hfKVB, hfParX, hfParO, hxl', hfRightX, hfLeftC, hcr', ?_, ?_⟩
  · rw [hfRoot, ← hifEq]
    exact hrep'
  · rw [hidsEq]
    exact hw.nodup
  · intro hpz
    rw [hpxeq]
    rcases hpxcase with ⟨hp0, -⟩ | ⟨-, hpmem2, hpnots2, -⟩
    · rw [hpxeq] at hpz
      exact absurd hp0 hpz
    · exact hfPxIf hpmem2 hpnots2
  · intro hsl hord
    exact ordT_replaceAt hfLess (hsOrd hsl) hord hw.nodup hsub (fun j _ _ => hkey j)

theorem rightRotate_fields_root (t : Tree K V) (x c bL px : Nat)
    (hc : (nd t x).left = c) (hbL : (nd t c).right = bL) (hpx : (nd t x).parent = px)
    (hroot : x = t.root)
    (hx0 : x ≠ 0) (hxlen : x ≤ t.store.length)
    (hc0 : c ≠ 0) (hclen : c ≤ t.store.length)
    (hxc : x ≠ c) (hbLx : bL ≠ x) (hbLc : bL ≠ c)
    (hbLlen : bL ≤ t.store.length) :
    (rightRotate t x).root = c ∧
    (rightRotate t x).store.length = t.store.length ∧
    (rightRotate t x).size = t.size ∧ (rightRotate t x).less = t.less ∧
    (∀ j, (nd (rightRotate t x) j).key = (nd t j).key ∧
      (nd (rightRotate t x) j).val = (nd t j).val ∧
      (nd (rightRotate t x) j).black = (nd t j).black) ∧
    (∀ j, j ≠ c → (nd (rightRotate t x) j).right = (nd t j).right) ∧
    (nd (rightRotate t x) c).right = x ∧
    (∀ j, j ≠ x → (nd (rightRotate t x) j).left = (nd t j).left) ∧
    (nd (rightRotate t x) x).left = bL ∧
    (∀ j, j ≠ x → j ≠ c → j ≠ bL → (nd (rightRotate t x) j).parent = (nd t j).parent) ∧
    (nd (rightRotate t x) x).parent = c ∧
    (nd (rightRotate t x) c).parent = px ∧
    (bL ≠ 0 → (nd (rightRotate t x) bL).parent = x) := by
  subst hroot
  by_cases hb0 : bL = 0 <;>
    [ (refine ⟨?_, ?_, ?_, ?_, fun j => ⟨?_, ?_, ?_⟩, fun j hj => ?_, ?_, fun j hj => ?_, ?_,
        fun j h1 h2 h3 => ?_, ?_, ?_, fun hb => ?_⟩);
      (refine ⟨?_, ?_, ?_, ?_, fun j => ⟨?_, ?_, ?_⟩, fun j hj => ?_, ?_, fun j hj => ?_, ?_,
        fun j h1 h2 h3 => ?_, ?_, ?_, fun hb => ?_⟩) ] <;>
  first
  | exact absurd hb0 hb
  | (simp only [rightRotate, hc, setL_right, hbL]
     simp [hb0, nd_rootUpd, nd_mk,
      setL_root, setR_root, setP_root, setL_length, setR_length, setP_length,
      setL_size, setR_size, setP_size, setL_less, setR_less, setP_less,
      setL_key, setR_key, setP_key, setL_val, setR_val, setP_val,
      setL_black, setR_black, setP_black,
      setL_parent, setR_parent, setP_left, setP_right, setR_left, setL_right,
      setL_left_self, setL_left_ne, setR_right_self, setR_right_ne,
      setP_parent_self, setP_parent_ne,
      hx0, hxlen, hc0, hclen, hxc, hxc.symm, hbLx, hbLc,
      Ne.symm hbLx, Ne.symm hbLc, hpx, *])

theorem rightRotate_fields_inner (t : Tree K V) (x c bL px : Nat)
    (hc : (nd t x).left = c) (hbL : (nd t c).right = bL) (hpx : (nd t x).parent = px)
    (hroot : x ≠ t.root)
    (hx0 : x ≠ 0) (hxlen : x ≤ t.store.length)
    (hc0 : c ≠ 0) (hclen : c ≤ t.store.length)
    (hpx0 : px ≠ 0) (hpxlen : px ≤ t.store.length)
    (hxc : x ≠ c) (hbLx : bL ≠ x) (hbLc : bL ≠ c)
    (hpxx : px ≠ x) (hpxc : px ≠ c) (hpxbL : px ≠ bL)
    (hbLlen : bL ≤ t.store.length) :
    (rightRotate t x).root = t.root ∧
    (rightRotate t x).store.length = t.store.length ∧
    (rightRotate t x).size = t.size ∧ (rightRotate t x).less = t.less ∧
    (∀ j, (nd (rightRotate t x) j).key = (nd t j).key ∧
      (nd (rightRotate t x) j).val = (nd t j).val ∧
      (nd (rightRotate t x) j).black = (nd t j).black) ∧
    (∀ j, j ≠ c → j ≠ px → (nd (rightRotate t x) j).right = (nd t j).right) ∧
    (nd (rightRotate t x) c).right = x ∧
    ((nd (rightRotate t x) px).right =
      if (nd t px).left = x then (nd t px).right else c) ∧
    (∀ j, j ≠ x → j ≠ px → (nd (rightRotate t x) j).left = (nd t j).left) ∧
    (nd (rightRotate t x) x).left = bL ∧
    ((nd (rightRotate t x) px).left =
      if (nd t px).left = x then c else (nd t px).left) ∧
    (∀ j, j ≠ x → j ≠ c → j ≠ bL → (nd (rightRotate t x) j).parent = (nd t j).parent) ∧
    (nd (rightRotate t x) x).parent = c ∧
    (nd (rightRotate t x) c).parent = px ∧
    (bL ≠ 0 → (nd (rightRotate t x) bL).parent = x) := by
  have hsideE : (x = (nd t px).left) = ((nd t px).left = x) := propext eq_comm
  by_cases hside : (nd t px).left = x <;> by_cases hb0 : bL = 0 <;>
    refine ⟨?_, ?_, ?_, ?_, fun j => ⟨?_, ?_, ?_⟩, fun j hj1 hj2 => ?_, ?_, ?_,
      fun j hj1 hj2 => ?_, ?_, ?_, fun j h1 h2 h3 => ?_, ?_, ?_, fun hb => ?_⟩ <;>
  first
  | exact absurd hb0 hb
  | (simp only [rightRotate, hc, setL_right, hbL]
     simp [hb0, hside, hsideE, nd_rootUpd, nd_mk,
      setL_root, setR_root, setP_root, setL_length, setR_length, setP_length,
      setL_size, setR_size, setP_size, setL_less, setR_less, setP_less,
      setL_key, setR_key, setP_key, setL_val, setR_val, setP_val,
      setL_black, setR_black, setP_black,
      setL_parent, setR_parent, setP_left, setP_right, setR_left, setL_right,
      setL_left_self, setL_left_ne, setR_right_self, setR_right_ne,
      setP_parent_self, setP_parent_ne,
      hroot, hx0, hxlen, hc0, hclen, hpx0, hpxlen, hxc, hxc.symm,
      hbLx, hbLc, hpxx, hpxc, hpxbL,
      Ne.symm hbLx, Ne.symm hbLc, Ne.symm hpxx, Ne.symm hpxc, Ne.symm hpxbL, hpx, *])

theorem rightRotate_spec {t : Tree K V} {bt : BT} (hw : WFT t bt)
    {x : Nat} (hx : x ∈ bt.ids) (hlz : (nd t x).left ≠ 0) :
    ∃ A B C px, subAtP bt x 0 = some (.node (.node A ((nd t x).left) B) x C, px) ∧
      WFT (rightRotate t x)
        (replaceAt bt x (.node A ((nd t x).left) (.node B x C))) ∧
      (replaceAt bt x (.node A ((nd t x).left) (.node B x C))).ids = bt.ids ∧
      (rightRotate t x).root = (if x = t.root then (nd t x).left else t.root) ∧
      (rightRotate t x).store.length = t.store.length ∧
      (rightRotate t x).size = t.size ∧
      (rightRotate t x).less = t.less ∧
      (∀ j, (nd (rightRotate t x) j).key = (nd t j).key ∧
        (nd (rightRotate t x) j).val = (nd t j).val ∧
        (nd (rightRotate t x) j).black = (nd t j).black) ∧
      (nd (rightRotate t x) x).parent = (nd t x).left ∧
      (∀ j, j ≠ x → j ≠ (nd t x).left → j ≠ (nd t ((nd t x).left)).right →
        (nd (rightRotate t x) j).parent = (nd t j).parent) ∧
      (nd (rightRotate t x) x).right = (nd t x).right ∧
      (nd (rightRotate t x) x).left = (nd t ((nd t x).left)).right ∧
      (nd (rightRotate t x) ((nd t x).left)).right = x ∧
      (nd (rightRotate t x) ((nd t x).left)).left = (nd t ((nd t x).left)).left ∧
      ((nd t x).parent ≠ 0 →
        ((nd (rightRotate t x) ((nd t x).parent)).left =
          (if (nd t ((nd t x).parent)).left = x then (nd t x).left
           else (nd t ((nd t x).parent)).left)) ∧
        ((nd (rightRotate t x) ((nd t x).parent)).right =
          (if (nd t ((nd t x).parent)).right = x then (nd t x).left
           else (nd t ((nd t x).parent)).right))) ∧
      (StrictLess t.less → OrdT t none none bt →
        OrdT (rightRotate t x) none none
          (replaceAt bt x (.node A ((nd t x).left) (.node B x C)))) := by
  obtain ⟨L, C, px, hsub, hsrep, hspar, hpxeq, hL, hC, hpL, hpC, hndsub, hpxcase, hx0, hxlen⟩ :=
    pos_facts hw hx
  set c := (nd t x).left with hcdef
  obtain ⟨A, B, hLeq, hclen', hA, hB⟩ := reprT_pos hL hlz
  subst hLeq
  obtain ⟨hcpar, hpA, hpB⟩ := hpL
  set bL := (nd t c).right with hbLdef
  -- id facts from nodup of the subtree
  have hndL : (BT.node A c B).ids.Nodup := by
    rw [BT.ids, List.nodup_append] at hndsub
    exact hndsub.1
  have hxnotL : x ∉ (BT.node A c B).ids := by
    rw [BT.ids, List.nodup_append] at hndsub
    exact fun hm => hndsub.2.2 hm (List.mem_cons_self _ _)
  have hndC : C.ids.Nodup := by
    rw [BT.ids, List.nodup_append, List.nodup_cons] at hndsub
    exact hndsub.2.1.2
  have hxnotC : x ∉ C.ids := by
    rw [BT.ids, List.nodup_append, List.nodup_cons] at hndsub
    exact hndsub.2.1.1
  have hdisjLC : (BT.node A c B).ids.Disjoint (x :: C.ids) := by
    rw [BT.ids, List.nodup_append] at hndsub
    exact hndsub.2.2
  have hndA : A.ids.Nodup := by
    rw [BT.ids, List.nodup_append] at hndL
    exact hndL.1
  have hndB : B.ids.Nodup := by
    rw [BT.ids, List.nodup_append, List.nodup_cons] at hndL
    exact hndL.2.1.2
  have hcnotA : c ∉ A.ids := by
    rw [BT.ids, List.nodup_append] at hndL
    exact fun hm => hndL.2.2 hm (List.mem_cons_self _ _)
  have hcnotB : c ∉ B.ids := by
    rw [BT.ids, List.nodup_append, List.nodup_cons] at hndL
    exact hndL.2.1.1
  have hdisjAB : A.ids.Disjoint (c :: B.ids) := by
    rw [BT.ids, List.nodup_append] at hndL
    exact hndL.2.2
  -- memberships in the full tree
  have hsub_mem : ∀ y ∈ (BT.node (BT.node A c B) x C).ids, y ∈ bt.ids :=
    subAtP_sub_mem hsub
  have hcmem : c ∈ bt.ids := hsub_mem c (by simp [BT.ids])
  have hc0 : c ≠ 0 := (reprT_ids_pos hw.repr c hcmem).1
  have hclen : c ≤ t.store.length := (reprT_ids_pos hw.repr c hcmem).2
  have hxc : x ≠ c := by
    intro hh
    exact hxnotL (hh ▸ (by simp [BT.ids] : c ∈ (BT.node A c B).ids))
  -- bL facts
  have hbLB : bL ≠ 0 → bL ∈ B.ids := by
    intro hbz
    exact reprT_root_mem hB hbz
  have hbLx : bL ≠ 0 → bL ≠ x := by
    intro hbz hh
    exact hxnotL (hh ▸ (by simp [BT.ids, hbLB hbz] : bL ∈ (BT.node A c B).ids))
  have hbLc : bL ≠ 0 → bL ≠ c := by
    intro hbz hh
    exact hcnotB (hh ▸ hbLB hbz)
  have hbLlen : bL ≠ 0 → bL ≤ t.store.length := by
    intro hbz
    exact (reprT_ids_pos hw.repr bL
      (hsub_mem bL (by simp [BT.ids, hbLB hbz]))).2
  -- px facts
  have hpxx : px ≠ 0 → px ≠ x := by
    rcases hpxcase with ⟨h1, -⟩ | ⟨-, -, h3, -⟩
    · intro hz; exact absurd h1 hz
    · intro _ hh
      exact h3 (hh ▸ (by simp [BT.ids] : x ∈ (BT.node (BT.node A c B) x C).ids))
  have hpxc : px ≠ 0 → px ≠ c := by
    rcases hpxcase with ⟨h1, -⟩ | ⟨-, -, h3, -⟩
    · intro hz; exact absurd h1 hz
    · intro _ hh
      exact h3 (hh ▸ (by simp [BT.ids] : c ∈ (BT.node (BT.node A c B) x C).ids))
  have hpxbL : px ≠ 0 → bL ≠ 0 → px ≠ bL := by
    rcases hpxcase with ⟨h1, -⟩ | ⟨-, -, h3, -⟩
    · intro hz; exact absurd h1 hz
    · intro _ hbz hh
      exact h3 (hh ▸ (by simp [BT.ids, hbLB hbz] : bL ∈ (BT.node (BT.node A c B) x C).ids))
  -- unconditional distinctness
  have hbLx' : bL ≠ x := by
    by_cases hbz : bL = 0
    · rw [hbz]; exact Ne.symm hx0
    · exact hbLx hbz
  have hbLc' : bL ≠ c := by
    by_cases hbz : bL = 0
    · rw [hbz]; exact Ne.symm hc0
    · exact hbLc hbz
  have hbLlen' : bL ≤ t.store.length := by
    by_cases hbz : bL = 0
    · rw [hbz]; exact Nat.zero_le _
    · exact hbLlen hbz
  have hnotpx : ∀ j ∈ (BT.node (BT.node A c B) x C).ids, j ≠ px := by
    rcases hpxcase with ⟨hpz, -⟩ | ⟨-, -, hp2, -⟩
    · intro j hj
      rw [hpz]
      exact (reprT_ids_pos hw.repr j (hsub_mem j hj)).1
    · intro j hj hh
      exact hp2 (hh ▸ hj)
  -- the common write-effect bundle
  obtain ⟨hfRoot, hfLen, hfSize, hfLess, hfKVB, hfRightO, hfRightC, hfLeftO, hfLeftX,
      hfParO, hfParX, hfParC, hfParB, hfPxIf⟩ :
      (rightRotate t x).root = (if x = t.root then c else t.root) ∧
      (rightRotate t x).store.length = t.store.length ∧
      (rightRotate t x).size = t.size ∧ (rightRotate t x).less = t.less ∧
      (∀ j, (nd (rightRotate t x) j).key = (nd t j).key ∧
        (nd (rightRotate t x) j).val = (nd t j).val ∧
        (nd (rightRotate t x) j).black = (nd t j).black) ∧
      (∀ j, j ≠ c → j ≠ px → (nd (rightRotate t x) j).right = (nd t j).right) ∧
      (nd (rightRotate t x) c).right = x ∧
      (∀ j, j ≠ x → j ≠ px → (nd (rightRotate t x) j).left = (nd t j).left) ∧
      (nd (rightRotate t x) x).left = bL ∧
      (∀ j, j ≠ x → j ≠ c → j ≠ bL → (nd (rightRotate t x) j).parent = (nd t j).parent) ∧
      (nd (rightRotate t x) x).parent = c ∧
      (nd (rightRotate t x) c).parent = px ∧
      (bL ≠ 0 → (nd (rightRotate t x) bL).parent = x) ∧
      (px ∈ bt.ids → px ∉ (BT.node (BT.node A c B) x C).ids →
        ((nd (rightRotate t x) px).left =
          if (nd t px).left = x then c else (nd t px).left) ∧
        ((nd (rightRotate t x) px).right =
          if (nd t px).right = x then c else (nd t px).right)) := by
    rcases hpxcase with ⟨hpz, hxr⟩ | ⟨hpx0, hpxmem, hpxnots, hxnr⟩
    · obtain ⟨f1, f2, f3, f4, f5, f6, f7, f8, f9, f10, f11, f12, f13⟩ :=
        rightRotate_fields_root t x c bL px hcdef.symm hbLdef.symm hpxeq hxr
          hx0 hxlen hc0 hclen hxc hbLx' hbLc' hbLlen'
      refine ⟨by rw [f1, if_pos hxr], f2, f3, f4, f5,
        fun j hj _ => f6 j hj, f7, fun j hj _ => f8 j hj, f9, f10, f11, f12, f13, ?_⟩
      intro hmem _
      exact absurd hpz ((reprT_ids_pos hw.repr px hmem).1)
    · have hpxlen : px ≤ t.store.length := (reprT_ids_pos hw.repr px hpxmem).2
      have hpxx' : px ≠ x := hpxx hpx0
      have hpxc' : px ≠ c := hpxc hpx0
      have hpxbL' : px ≠ bL := by
        by_cases hbz : bL = 0
        · rw [hbz]; exact hpx0
        · exact hpxbL hpx0 hbz
      obtain ⟨f1, f2, f3, f4, f5, f6, f7, f8, f9, f10, f11, f12, f13, f14, f15⟩ :=
        rightRotate_fields_inner t x c bL px hcdef.symm hbLdef.symm hpxeq hxnr
          hx0 hxlen hc0 hclen hpx0 hpxlen hxc hbLx' hbLc' hpxx' hpxc' hpxbL' hbLlen'
      refine ⟨by rw [f1, if_neg hxnr], f2, f3, f4, f5, f6, f7, f9, f10, f12, f13, f14,
        f15, ?_⟩
      intro _ _
      rcases subAtP_child bt t.root 0 hw.repr hw.nodup hsub hpx0 with
        ⟨hL2, hRne⟩ | ⟨hRx, hLne⟩
      · exact ⟨by rw [f11], by rw [f8, if_pos hL2, if_neg hRne]⟩
      · exact ⟨by rw [f11], by rw [f8, if_neg hLne, if_pos hRx]⟩
  set t' := rightRotate t x with ht'
  -- membership and distinctness helpers for the congruence transports
  have hmemA : ∀ j ∈ A.ids, j ∈ bt.ids := fun j hj => hsub_mem j (by simp [BT.ids, hj])
  have hmemB : ∀ j ∈ B.ids, j ∈ bt.ids := fun j hj => hsub_mem j (by simp [BT.ids, hj])
  have hmemC : ∀ j ∈ C.ids, j ∈ bt.ids := fun j hj => hsub_mem j (by simp [BT.ids, hj])
  have hAnotc : ∀ j ∈ A.ids, j ≠ c := fun j hj hh => hcnotA (hh ▸ hj)
  have hAnotx : ∀ j ∈ A.ids, j ≠ x := fun j hj hh =>
    hxnotL (by simp [BT.ids, hh ▸ hj])
  have hBnotc : ∀ j ∈ B.ids, j ≠ c := fun j hj hh => hcnotB (hh ▸ hj)
  have hBnotx : ∀ j ∈ B.ids, j ≠ x := fun j hj hh =>
    hxnotL (by simp [BT.ids, hh ▸ hj])
  have hCnotc : ∀ j ∈ C.ids, j ≠ c := fun j hj hh =>
    hdisjLC (by simp [BT.ids] : c ∈ (BT.node A c B).ids)
      (List.mem_cons_of_mem x (hh ▸ hj))
  have hCnotx : ∀ j ∈ C.ids, j ≠ x := fun j hj hh => hxnotC (hh ▸ hj)
  have hAnotbL : ∀ j ∈ A.ids, j ≠ bL := by
    intro j hj hh
    by_cases hbz : bL = 0
    · exact (reprT_ids_pos hw.repr j (hmemA j hj)).1 (hh.trans hbz)
    · exact hdisjAB hj (by simp [hbLB hbz, hh])
  have hCnotbL : ∀ j ∈ C.ids, j ≠ bL := by
    intro j hj hh
    by_cases hbz : bL = 0
    · exact (reprT_ids_pos hw.repr j (hmemC j hj)).1 (hh.trans hbz)
    · exact hdisjLC (by simp [BT.ids, hbLB hbz] : bL ∈ (BT.node A c B).ids)
        (List.mem_cons_of_mem x (hh ▸ hj))
  have hjlen : ∀ j ∈ bt.ids, j ≤ t'.store.length := fun j hj => by
    rw [hfLen]; exact (reprT_ids_pos hw.repr j hj).2
  have hApx : ∀ j ∈ A.ids, j ≠ px := fun j hj => hnotpx j (by simp [BT.ids, hj])
  have hBpx : ∀ j ∈ B.ids, j ≠ px := fun j hj => hnotpx j (by simp [BT.ids, hj])
  have hCpx : ∀ j ∈ C.ids, j ≠ px := fun j hj => hnotpx j (by simp [BT.ids, hj])
  have hxpx : x ≠ px := hnotpx x (by simp [BT.ids])
  have hcpx : c ≠ px := hnotpx c (by simp [BT.ids])
  -- shape of the rotated subtree in the new store
  have hcongrA : ∀ j ∈ A.ids, (nd t' j).left = (nd t j).left ∧
      (nd t' j).right = (nd t j).right ∧ j ≤ t'.store.length :=
    fun j hj => ⟨hfLeftO j (hAnotx j hj) (hApx j hj),
      hfRightO j (hAnotc j hj) (hApx j hj), hjlen j (hmemA j hj)⟩
  have hcongrB : ∀ j ∈ B.ids, (nd t' j).left = (nd t j).left ∧
      (nd t' j).right = (nd t j).right ∧ j ≤ t'.store.length :=
    fun j hj => ⟨hfLeftO j (hBnotx j hj) (hBpx j hj),
      hfRightO j (hBnotc j hj) (hBpx j hj), hjlen j (hmemB j hj)⟩
  have hcongrC : ∀ j ∈ C.ids, (nd t' j).left = (nd t j).left ∧
      (nd t' j).right = (nd t j).right ∧ j ≤ t'.store.length :=
    fun j hj => ⟨hfLeftO j (hCnotx j hj) (hCpx j hj),
      hfRightO j (hCnotc j hj) (hCpx j hj), hjlen j (hmemC j hj)⟩
  have hxr' : (nd t' x).right = (nd t x).right := hfRightO x hxc hxpx
  have hcl' : (nd t' c).left = (nd t c).left := hfLeftO c (Ne.symm hxc) hcpx
  have hreprInner : ReprT t' x (.node B x C) := by
    refine ReprT.node hx0 (hjlen x hx) ?_ ?_
    · rw [hfLeftX]
      exact reprT_congr hB hcongrB
    · rw [hxr']
      exact reprT_congr hC hcongrC
  have hrepr' : ReprT t' c (.node A c (.node B x C)) := by
    refine ReprT.node hc0 (hjlen c hcmem) ?_ ?_
    · rw [hcl']
      exact reprT_congr hA hcongrA
    · rw [hfRightC]
      exact hreprInner
  -- parent links of the rotated subtree
  have hparA' : ParentOk t' A c :=
    parentOk_congr hpA (fun j hj =>
      hfParO j (hAnotx j hj) (hAnotc j hj) (hAnotbL j hj))
  have hparC' : ParentOk t' C x :=
    parentOk_congr hpC (fun j hj =>
      hfParO j (hCnotx j hj) (hCnotc j hj) (hCnotbL j hj))
  have hparB' : ParentOk t' B x := by
    clear_value bL
    cases hB with
    | leaf => trivial
    | node hbz hblen hbl hbr =>
        rename_i bl br
        obtain ⟨hbp, hpbl, hpbr⟩ := hpB
        rw [BT.ids, List.nodup_append, List.nodup_cons] at hndB
        obtain ⟨ndbl, ⟨hbLnotbr, ndbr⟩, hdisjb⟩ := hndB
        have hbLnotbl : bL ∉ bl.ids := fun hm =>
          hdisjb hm (List.mem_cons_self bL br.ids)
        have hmembl : ∀ j ∈ bl.ids, j ∈ (BT.node bl bL br).ids := fun j hj => by
          simp [BT.ids, hj]
        have hmembr : ∀ j ∈ br.ids, j ∈ (BT.node bl bL br).ids := fun j hj => by
          simp [BT.ids, hj]
        refine ⟨hfParB hbz, ?_, ?_⟩
        · exact parentOk_congr hpbl (fun j hj =>
            hfParO j (hBnotx j (hmembl j hj)) (hBnotc j (hmembl j hj))
              (fun hh => hbLnotbl (hh ▸ hj)))
        · exact parentOk_congr hpbr (fun j hj =>
            hfParO j (hBnotx j (hmembr j hj)) (hBnotc j (hmembr j hj))
              (fun hh => hbLnotbr (hh ▸ hj)))
  have hparS' : ParentOk t' (BT.node A c (BT.node B x C)) px :=
    ⟨hfParC, hparA', ⟨hfParX, hparB', hparC'⟩⟩
  -- transport across the replacement
  have hkey : ∀ j, (nd t' j).key = (nd t j).key := fun j => (hfKVB j).1
  obtain ⟨P, S, hPS, hrepl⟩ := subAtP_decomp bt 0 hsub
  have hidsEq : (replaceAt bt x (BT.node A c (BT.node B x C))).ids = bt.ids := by
    rw [hrepl, hPS]
    simp [BT.ids, List.append_assoc]
  have houtLR : ∀ j ∈ bt.ids, j ∉ (BT.node (BT.node A c B) x C).ids → j ≠ px →
      (nd t' j).left = (nd t j).left ∧ (nd t' j).right = (nd t j).right ∧
      j ≤ t'.store.length := by
    intro j hj hjs hjpx
    have hjc : j ≠ c := fun hh => hjs (by simp [BT.ids, hh])
    have hjx : j ≠ x := fun hh => hjs (by simp [BT.ids, hh])
    exact ⟨hfLeftO j hjx hjpx, hfRightO j hjc hjpx, hjlen j hj⟩
  have houtP : px ∈ bt.ids → px ∉ (BT.node (BT.node A c B) x C).ids →
      ((nd t' px).left = if (nd t px).left = x then c else (nd t px).left) ∧
      ((nd t' px).right = if (nd t px).right = x then c else (nd t px).right) ∧
      px ≤ t'.store.length := by
    intro hmem hnots
    obtain ⟨hl1, hl2⟩ := hfPxIf hmem hnots
    exact ⟨hl1, hl2, hjlen px hmem⟩
  have hrep' : ReprT t' (if t.root = x then c else t.root)
      (replaceAt bt x (BT.node A c (BT.node B x C))) :=
    reprT_replaceAt hrepr' hw.repr hw.nodup hsub houtLR houtP
  have houtPar : ∀ j ∈ bt.ids, j ∉ (BT.node (BT.node A c B) x C).ids →
      (nd t' j).parent = (nd t j).parent := by
    intro j hj hjs
    refine hfParO j (fun hh => hjs (by simp [BT.ids, hh]))
      (fun hh => hjs (by simp [BT.ids, hh])) ?_
    intro hh
    by_cases hbz : bL = 0
    · exact (reprT_ids_pos hw.repr j hj).1 (hh.trans hbz)
    · exact hjs (by simp [BT.ids, hbLB hbz, hh])
  have hpar' : ParentOk t' (replaceAt bt x (BT.node A c (BT.node B x C))) 0 :=
    parentOk_replaceAt hparS' hw.par hw.nodup hsub houtPar
  have hsOrd : StrictLess t.less → ∀ lo' hi',
      OrdT t lo' hi' (BT.node (BT.node A c B) x C) →
      OrdT t' lo' hi' (BT.node A c (BT.node B x C)) := by
    intro hsl lo' hi' h
    obtain ⟨h1, h2, h3, h4⟩ := h
    obtain ⟨h5, h6, h7, h8⟩ := h3
    refine ⟨?_, ?_, ?_, ?_⟩
    · rw [hfLess, hkey c]
      exact h5
    · rw [hfLess, hkey c]
      cases hi' with
      | none => trivial
      | some b => exact hsl.lt_trans _ _ b h6 h2
    · rw [hkey c]
      exact ordT_congr hfLess h7 (fun j _ => hkey j)
    · rw [hkey c]
      refine ⟨?_, ?_, ?_, ?_⟩
      · rw [hfLess, hkey x]; exact h6
      · rw [hfLess, hkey x]; exact h2
      · rw [hkey x]
        exact ordT_congr hfLess h8 (fun j _ => hkey j)
      · rw [hkey x]
        exact ordT_congr hfLess h4 (fun j _ => hkey j)
  have hifEq : (if t.root = x then c else t.root) = (if x = t.root then c else t.root) := by
    by_cases hh : x = t.root
    · rw [if_pos hh, if_pos hh.symm]
    · rw [if_neg hh, if_neg (fun h2 => hh h2.symm)]
  refine ⟨A, B, C, px, hsub, ⟨?_, ?_, hpar'⟩, hidsEq, hfRoot, hfLen, hfSize, hfLess,
    hfKVB, hfParX, hfParO, hxr', hfLeftX, hfRightC, hcl', ?_, ?_⟩
  · rw [hfRoot, ← hifEq]
    exact hrep'
  · rw [hidsEq]
    exact hw.nodup
  · intro hpz
    rw [hpxeq]
    rcases hpxcase with ⟨hp0, -⟩ | ⟨-, hpmem2, hpnots2, -⟩
    · rw [hpxeq] at hpz
      exact absurd hp0 hpz
    · exact hfPxIf hpmem2 hpnots2
  · intro hsl hord
    exact ordT_replaceAt hfLess (hsOrd hsl) hord hw.nodup hsub (fun j _ _ => hkey j)

theorem findLoop_run {t : Tree K V} [DecidableEq K] {k : K} :
    ∀ (bt : BT) (n : Nat), ReprT t n bt →
      ∀ f, bt.ids.length + 1 ≤ f →
      ∃ j, findLoop t k f n = some j ∧ (j = 0 ∨ (j ∈ bt.ids ∧ (nd t j).key = k)) := by
  intro bt
  induction bt with
  | leaf =>
      intro n h f hf
      have hn0 : n = 0 := reprT_leaf_root h
      match f, hf with
      | f + 1, _ =>
        refine ⟨0, ?_, Or.inl rfl⟩
        simp [findLoop, hn0]
  | node l m r ihl ihr =>
      intro n h f hf
      cases h with
      | node h0 hlen hl hr =>
        have hlenBT : (BT.node l m r).ids.length = l.ids.length + 1 + r.ids.length := by
          simp [BT.ids]; omega
        match f, hf with
        | f + 1, hf =>
          by_cases hk : k = (nd t m).key
          · refine ⟨m, ?_, Or.inr ⟨by simp [BT.ids], hk.symm⟩⟩
            unfold findLoop
            rw [if_neg (by simp [hk])]
          · unfold findLoop
            rw [if_pos ⟨h0, hk⟩]
            by_cases hless : t.less k ((nd t m).key) = true
            · rw [if_pos hless]
              obtain ⟨j, hrun, hpost⟩ := ihl _ hl f (by omega)
              refine ⟨j, hrun, ?_⟩
              rcases hpost with h | ⟨h1, h2⟩
              · exact Or.inl h
              · exact Or.inr ⟨by simp [BT.ids, h1], h2⟩
            · rw [if_neg hless]
              obtain ⟨j, hrun, hpost⟩ := ihr _ hr f (by omega)
              refine ⟨j, hrun, ?_⟩
              rcases hpost with h | ⟨h1, h2⟩
              · exact Or.inl h
              · exact Or.inr ⟨by simp [BT.ids, h1], h2⟩

theorem ordT_keys {t : Tree K V} (hsl : StrictLess t.less) :
    ∀ {bt : BT} {lo hi : Option K}, OrdT t lo hi bt →
      ∀ m ∈ bt.ids, loOk t.less lo ((nd t m).key) ∧ hiOk t.less ((nd t m).key) hi := by
  intro bt
  induction bt with
  | leaf => intro lo hi _ m hm; simp [BT.ids] at hm
  | node l c r ihl ihr =>
      intro lo hi h m hm
      obtain ⟨h1, h2, h3, h4⟩ := h
      simp only [BT.ids, List.mem_append, List.mem_cons] at hm
      rcases hm with hm | hm | hm
      · obtain ⟨g1, g2⟩ := ihl h3 m hm
        refine ⟨g1, ?_⟩
        cases hi with
        | none => trivial
        | some b => exact hsl.lt_trans _ _ _ g2 h2
      · exact hm ▸ ⟨h1, h2⟩
      · obtain ⟨g1, g2⟩ := ihr h4 m hm
        refine ⟨?_, g2⟩
        cases lo with
        | none => trivial
        | some a => exact hsl.lt_trans _ _ _ h1 g1

theorem findLoop_hit {t : Tree K V} [DecidableEq K] {k : K} (hsl : StrictLess t.less) :
    ∀ (bt : BT) (n : Nat) (lo hi : Option K), ReprT t n bt → OrdT t lo hi bt →
      ∀ m ∈ bt.ids, (nd t m).key = k →
      ∀ f, bt.ids.length + 1 ≤ f → findLoop t k f n = some m := by
  intro bt
  induction bt with
  | leaf => intro n lo hi _ _ m hm; simp [BT.ids] at hm
  | node l c r ihl ihr =>
      intro n lo hi h hord m hm hkey f hf
      cases h with
      | node h0 hlen hl hr =>
        obtain ⟨h1, h2, h3, h4⟩ := hord
        have hlenBT : (BT.node l c r).ids.length = l.ids.length + 1 + r.ids.length := by
          simp [BT.ids]; omega
        match f, hf with
        | f + 1, hf =>
          simp only [BT.ids, List.mem_append, List.mem_cons] at hm
          rcases hm with hm | hm | hm
          · -- m in the left subtree: k is strictly below c's key
            have hmk : t.less ((nd t m).key) ((nd t c).key) = true :=
              (ordT_keys hsl h3 m hm).2
            have hkc : t.less k ((nd t c).key) = true := hkey ▸ hmk
            have hne : k ≠ (nd t c).key := by
              intro hh
              rw [hh] at hkc
              rw [hsl.irrefl] at hkc
              cases hkc
            unfold findLoop
            rw [if_pos ⟨h0, hne⟩, if_pos hkc]
            exact ihl _ lo (some ((nd t c).key)) hl h3 m hm hkey f (by omega)
          · subst hm
            unfold findLoop
            rw [if_neg (by simp [hkey.symm])]
          · have hmk : t.less ((nd t c).key) ((nd t m).key) = true :=
              (ordT_keys hsl h4 m hm).1
            have hck : t.less ((nd t c).key) k = true := hkey ▸ hmk
            have hne : k ≠ (nd t c).key := by
              intro hh
              rw [hh] at hck
              rw [hsl.irrefl] at hck
              cases hck
            have hkc : t.less k ((nd t c).key) = false := by
              by_contra hcon
              rw [Bool.not_eq_false] at hcon
              have := hsl.lt_trans _ _ _ hck hcon
              rw [hsl.irrefl] at this
              cases this
            unfold findLoop
            rw [if_pos ⟨h0, hne⟩, if_neg (by simp [hkc])]
            exact ihr _ (some ((nd t c).key)) hi hr h4 m hm hkey f (by omega)

theorem ordT_pairwise {t : Tree K V} (hsl : StrictLess t.less) :
    ∀ {bt : BT} {lo hi : Option K}, OrdT t lo hi bt →
      (bt.ids.map (fun i => (nd t i).key)).Pairwise (fun a b => t.less a b = true) := by
  intro bt
  induction bt with
  | leaf => intro lo hi _; simp [BT.ids]
  | node l c r ihl ihr =>
      intro lo hi h
      obtain ⟨h1, h2, h3, h4⟩ := h
      rw [BT.ids]
      simp only [List.map_append, List.map_cons]
      rw [List.pairwise_append]
      refine ⟨ihl h3, ?_, ?_⟩
      · rw [List.pairwise_cons]
        refine ⟨?_, ihr h4⟩
        intro b hb
        simp only [List.mem_map] at hb
        obtain ⟨m, hm, rfl⟩ := hb
        exact (ordT_keys hsl h4 m hm).1
      · intro a ha b hb
        simp only [List.mem_map] at ha
        obtain ⟨ma, hma, rfl⟩ := ha
        have hma' : t.less ((nd t ma).key) ((nd t c).key) = true :=
          (ordT_keys hsl h3 ma hma).2
        simp only [List.mem_cons, List.mem_map] at hb
        rcases hb with rfl | ⟨mb, hmb, rfl⟩
        · exact hma'
        · have hmb' : t.less ((nd t c).key) ((nd t mb).key) = true :=
            (ordT_keys hsl h4 mb hmb).1
          exact hsl.lt_trans _ _ _ hma' hmb'

theorem descend_attach {t : Tree K V} {k : K} {j : Nat} (hsl : StrictLess t.less) :
    ∀ (bt : BT) (n p0 q : Nat) (lo hi : Option K) (f : Nat),
      ReprT t n bt → n ≠ 0 → bt.ids.Nodup → ParentOk t bt q → OrdT t lo hi bt →
      loOk t.less lo k → hiOk t.less k hi →
      (∀ m ∈ bt.ids, (nd t m).key ≠ k) →
      bt.ids.length + 1 ≤ f →
      ∃ p, descendLoop t k f p0 n = some p ∧ p ∈ bt.ids ∧
        ∀ (t' : Tree K V),
          t'.less = t.less →
          (nd t' p).left = (if t.less k ((nd t p).key) then j else (nd t p).left) →
          (nd t' p).right = (if t.less k ((nd t p).key) then (nd t p).right else j) →
          (∀ m ∈ bt.ids, m ≠ p →
            (nd t' m).left = (nd t m).left ∧ (nd t' m).right = (nd t m).right) →
          (∀ m ∈ bt.ids, (nd t' m).key = (nd t m).key ∧ m ≤ t'.store.length ∧
            (nd t' m).parent = (nd t m).parent) →
          (nd t' j).parent = p → (nd t' j).left = 0 → (nd t' j).right = 0 →
          (nd t' j).key = k → j ≠ 0 → j ≤ t'.store.length →
          ∃ bt', ReprT t' n bt' ∧ ParentOk t' bt' q ∧ OrdT t' lo hi bt' ∧
            bt'.ids.Perm (j :: bt.ids) := by
  intro bt
  induction bt with
  | leaf => intro n p0 q lo hi f h hn; exact absurd (reprT_leaf_root h) hn
  | node l m r ihl ihr =>
      intro n p0 q lo hi f h hn hnd hpar hord hlok hhik hkne hf
      cases h with
      | node h0 hlen hl hr =>
        obtain ⟨hpj, hpl, hpr⟩ := hpar
        obtain ⟨h1, h2, h3, h4⟩ := hord
        rw [BT.ids, List.nodup_append] at hnd
        obtain ⟨ndl, ndmr, hdisj⟩ := hnd
        rw [List.nodup_cons] at ndmr
        obtain ⟨hmr, ndr⟩ := ndmr
        have hml : m ∉ l.ids := fun hm => hdisj hm (List.mem_cons_self m r.ids)
        have hlenBT : (BT.node l m r).ids.length = l.ids.length + 1 + r.ids.length := by
          simp [BT.ids]; omega
        match f, hf with
        | f + 1, hf =>
          unfold descendLoop
          rw [if_pos hn]
          by_cases hless : t.less k ((nd t m).key) = true
          · rw [if_pos hless]
            by_cases hcz : (nd t m).left = 0
            · -- attach as the new left child of m
              have hleaf : l = .leaf := reprT_zero (hcz ▸ hl)
              subst hleaf
              rw [hcz]
              match f, (by omega : 1 ≤ f) with
              | f + 1, _ =>
                refine ⟨m, by simp [descendLoop], by simp [BT.ids], ?_⟩
                intro t' hless' hpL hpR hout hmeta hjp hjl hjr hjk hj0 hjlen
                rw [if_pos hless] at hpL hpR
                obtain ⟨hkm, hmlen, hmp⟩ := hmeta m (by simp [BT.ids])
                refine ⟨.node (.node .leaf j .leaf) m r, ?_, ?_, ?_, ?_⟩
                · refine ReprT.node h0 hmlen ?_ ?_
                  · rw [hpL]
                    exact ReprT.node hj0 hjlen (hjl ▸ ReprT.leaf) (hjr ▸ ReprT.leaf)
                  · rw [hpR]
                    refine reprT_congr hr ?_
                    intro m' hm'
                    have hne : m' ≠ m := fun hh => hmr (hh ▸ hm')
                    obtain ⟨hk', hlen', hp'⟩ := hmeta m' (by simp [BT.ids, hm'])
                    obtain ⟨hle', hri'⟩ := hout m' (by simp [BT.ids, hm']) hne
                    exact ⟨hle', hri', hlen'⟩
                · refine ⟨hmp.trans hpj, ⟨hjp, trivial, trivial⟩, ?_⟩
                  refine parentOk_congr hpr ?_
                  intro m' hm'
                  exact (hmeta m' (by simp [BT.ids, hm'])).2.2
                · refine ⟨?_, ?_, ?_, ?_⟩
                  · rw [hkm, hless']
                    exact h1
                  · rw [hkm, hless']
                    exact h2
                  · rw [hkm]
                    refine ⟨?_, ?_, trivial, trivial⟩
                    · rw [hjk, hless']
                      exact hlok
                    · rw [hjk, hless']
                      exact hless
                  · rw [hkm]
                    refine ordT_congr hless' h4 ?_
                    intro m' hm'
                    exact (hmeta m' (by simp [BT.ids, hm'])).1
                · simp [BT.ids]
            · -- descend into the left subtree
              obtain ⟨p, hloop, hpmem, hbuild⟩ :=
                ihl ((nd t m).left) m m lo (some ((nd t m).key)) f hl hcz ndl hpl h3
                  hlok hless (fun m' hm' => hkne m' (by simp [BT.ids, hm'])) (by omega)
              refine ⟨p, hloop, by simp [BT.ids, hpmem], ?_⟩
              intro t' hless' hpL hpR hout hmeta hjp hjl hjr hjk hj0 hjlen
              obtain ⟨l', hrepl', hparl', hordl', hperml'⟩ :=
                hbuild t' hless' hpL hpR
                  (fun m' hm' hne => hout m' (by simp [BT.ids, hm']) hne)
                  (fun m' hm' => hmeta m' (by simp [BT.ids, hm']))
                  hjp hjl hjr hjk hj0 hjlen
              have hmnep : m ≠ p := fun hh => hml (hh ▸ hpmem)
              obtain ⟨hkm, hmlen, hmp⟩ := hmeta m (by simp [BT.ids])
              obtain ⟨hmle, hmri⟩ := hout m (by simp [BT.ids]) hmnep
              refine ⟨.node l' m r, ?_, ?_, ?_, ?_⟩
              · refine ReprT.node h0 hmlen ?_ ?_
                · rw [hmle]
                  exact hrepl'
                · rw [hmri]
                  refine reprT_congr hr ?_
                  intro m' hm'
                  have hne : m' ≠ p := fun hh =>
                    hdisj (hh ▸ hpmem) (List.mem_cons_of_mem m hm')
                  obtain ⟨hk', hlen', hp'⟩ := hmeta m' (by simp [BT.ids, hm'])
                  obtain ⟨hle', hri'⟩ := hout m' (by simp [BT.ids, hm']) hne
                  exact ⟨hle', hri', hlen'⟩
              · refine ⟨hmp.trans hpj, hparl', ?_⟩
                refine parentOk_congr hpr ?_
                intro m' hm'
                exact (hmeta m' (by simp [BT.ids, hm'])).2.2
              · refine ⟨?_, ?_, ?_, ?_⟩
                · rw [hkm, hless']; exact h1
                · rw [hkm, hless']; exact h2
                · rw [hkm]; exact hordl'
                · rw [hkm]
                  refine ordT_congr hless' h4 ?_
                  intro m' hm'
                  exact (hmeta m' (by simp [BT.ids, hm'])).1
              · show (l'.ids ++ m :: r.ids).Perm (j :: (l.ids ++ m :: r.ids))
                rw [← List.cons_append]
                exact hperml'.append_right _
          · rw [if_neg hless]
            have hkm : k ≠ (nd t m).key := fun hh => hkne m (by simp [BT.ids]) hh.symm
            have hmk : t.less ((nd t m).key) k = true := by
              rcases hsl.total ((nd t m).key) k (fun hh => hkm hh.symm) with hh | hh
              · exact hh
              · exact absurd hh (by simp [hless])
            by_cases hcz : (nd t m).right = 0
            · -- attach as the new right child of m
              have hleaf : r = .leaf := reprT_zero (hcz ▸ hr)
              subst hleaf
              rw [hcz]
              match f, (by omega : 1 ≤ f) with
              | f + 1, _ =>
                refine ⟨m, by simp [descendLoop], by simp [BT.ids], ?_⟩
                intro t' hless' hpL hpR hout hmeta hjp hjl hjr hjk hj0 hjlen
                rw [if_neg (by simp [hless])] at hpL hpR
                obtain ⟨hkmq, hmlen, hmp⟩ := hmeta m (by simp [BT.ids])
                refine ⟨.node l m (.node .leaf j .leaf), ?_, ?_, ?_, ?_⟩
                · refine ReprT.node h0 hmlen ?_ ?_
                  · rw [hpL]
                    refine reprT_congr hl ?_
                    intro m' hm'
                    have hne : m' ≠ m := fun hh => hml (hh ▸ hm')
                    obtain ⟨hk', hlen', hp'⟩ := hmeta m' (by simp [BT.ids, hm'])
                    obtain ⟨hle', hri'⟩ := hout m' (by simp [BT.ids, hm']) hne
                    exact ⟨hle', hri', hlen'⟩
                  · rw [hpR]
                    exact ReprT.node hj0 hjlen (hjl ▸ ReprT.leaf) (hjr ▸ ReprT.leaf)
                · refine ⟨hmp.trans hpj, ?_, ⟨hjp, trivial, trivial⟩⟩
                  refine parentOk_congr hpl ?_
                  intro m' hm'
                  exact (hmeta m' (by simp [BT.ids, hm'])).2.2
                · refine ⟨?_, ?_, ?_, ?_⟩
                  · rw [hkmq, hless']; exact h1
                  · rw [hkmq, hless']; exact h2
                  · rw [hkmq]
                    refine ordT_congr hless' h3 ?_
                    intro m' hm'
                    exact (hmeta m' (by simp [BT.ids, hm'])).1
                  · rw [hkmq]
                    refine ⟨?_, ?_, trivial, trivial⟩
                    · rw [hjk, hless']
                      exact hmk
                    · rw [hjk, hless']
                      exact hhik
                · show (l.ids ++ m :: [j]).Perm (j :: (l.ids ++ [m]))
                  have he : l.ids ++ m :: [j] = (l.ids ++ [m]) ++ [j] := by simp
                  rw [he]
                  exact List.perm_append_singleton j _
            · -- descend into the right subtree
              obtain ⟨p, hloop, hpmem, hbuild⟩ :=
                ihr ((nd t m).right) m m (some ((nd t m).key)) hi f hr hcz ndr hpr h4
                  hmk hhik (fun m' hm' => hkne m' (by simp [BT.ids, hm'])) (by omega)
              refine ⟨p, hloop, by simp [BT.ids, hpmem], ?_⟩
              intro t' hless' hpL hpR hout hmeta hjp hjl hjr hjk hj0 hjlen
              obtain ⟨r', hrepr', hparr', hordr', hpermr'⟩ :=
                hbuild t' hless' hpL hpR
                  (fun m' hm' hne => hout m' (by simp [BT.ids, hm']) hne)
                  (fun m' hm' => hmeta m' (by simp [BT.ids, hm']))
                  hjp hjl hjr hjk hj0 hjlen
              have hmnep : m ≠ p := fun hh => hmr (hh ▸ hpmem)
              obtain ⟨hkmq, hmlen, hmp⟩ := hmeta m (by simp [BT.ids])
              obtain ⟨hmle, hmri⟩ := hout m (by simp [BT.ids]) hmnep
              refine ⟨.node l m r', ?_, ?_, ?_, ?_⟩
              · refine ReprT.node h0 hmlen ?_ ?_
                · rw [hmle]
                  refine reprT_congr hl ?_
                  intro m' hm'
                  have hne : m' ≠ p := fun hh =>
                    hdisj hm' (List.mem_cons_of_mem m (hh ▸ hpmem))
                  obtain ⟨hk', hlen', hp'⟩ := hmeta m' (by simp [BT.ids, hm'])
                  obtain ⟨hle', hri'⟩ := hout m' (by simp [BT.ids, hm']) hne
                  exact ⟨hle', hri', hlen'⟩
                · rw [hmri]
                  exact hrepr'
              · refine ⟨hmp.trans hpj, ?_, hparr'⟩
                refine parentOk_congr hpl ?_
                intro m' hm'
                exact (hmeta m' (by simp [BT.ids, hm'])).2.2
              · refine ⟨?_, ?_, ?_, ?_⟩
                · rw [hkmq, hless']; exact h1
                · rw [hkmq, hless']; exact h2
                · rw [hkmq]
                  refine ordT_congr hless' h3 ?_
                  intro m' hm'
                  exact (hmeta m' (by simp [BT.ids, hm'])).1
                · rw [hkmq]; exact hordr'
              · show (l.ids ++ m :: r'.ids).Perm (j :: (l.ids ++ m :: r.ids))
                refine (List.Perm.append_left l.ids (List.Perm.cons m hpermr')).trans ?_
                have hmid : ((l.ids ++ [m]) ++ j :: r.ids).Perm
                    (j :: ((l.ids ++ [m]) ++ r.ids)) := List.perm_middle
                simpa using hmid

theorem depthOf_le : ∀ (bt : BT) (x : Nat), x ∈ bt.ids → depthOf bt x + 1 ≤ bt.ids.length := by
  intro bt
  induction bt with
  | leaf => intro x hx; simp [BT.ids] at hx
  | node l m r ihl ihr =>
      intro x hx
      have hlen : (BT.node l m r).ids.length = l.ids.length + 1 + r.ids.length := by
        simp [BT.ids]; omega
      by_cases hxm : x = m
      · rw [depthOf, if_pos hxm]
        omega
      · rw [depthOf, if_neg hxm]
        by_cases hxl : x ∈ l.ids
        · rw [if_pos hxl]
          have := ihl x hxl
          omega
        · rw [if_neg hxl]
          have hxr : x ∈ r.ids := by
            simp only [BT.ids, List.mem_append, List.mem_cons] at hx
            rcases hx with h | h | h
            · exact absurd h hxl
            · exact absurd h hxm
            · exact h
          have := ihr x hxr
          omega

theorem depthOf_node_self (l r : BT) (m : Nat) : depthOf (BT.node l m r) m = 0 := by
  rw [depthOf, if_pos rfl]

theorem depthOf_node_left {l r : BT} {m x : Nat} (hxm : x ≠ m) (hxl : x ∈ l.ids) :
    depthOf (BT.node l m r) x = depthOf l x + 1 := by
  rw [depthOf, if_neg hxm, if_pos hxl]

theorem depthOf_node_right {l r : BT} {m x : Nat} (hxm : x ≠ m) (hxl : x ∉ l.ids) :
    depthOf (BT.node l m r) x = depthOf r x + 1 := by
  rw [depthOf, if_neg hxm, if_neg hxl]

theorem depthOf_parent {t : Tree K V} :
    ∀ (bt : BT) (n q : Nat), ReprT t n bt → ParentOk t bt q → bt.ids.Nodup →
      ∀ x ∈ bt.ids, x ≠ n →
      (nd t x).parent ∈ bt.ids ∧ depthOf bt ((nd t x).parent) + 1 = depthOf bt x := by
  intro bt
  induction bt with
  | leaf => intro n q _ _ _ x hx; simp [BT.ids] at hx
  | node l m r ihl ihr =>
      intro n q h hpar hnd x hx hxn
      cases h with
      | node h0 hlen hl hr =>
        obtain ⟨hpj, hpl, hpr⟩ := hpar
        rw [BT.ids, List.nodup_append] at hnd
        obtain ⟨ndl, ndmr, hdisj⟩ := hnd
        rw [List.nodup_cons] at ndmr
        obtain ⟨hmr, ndr⟩ := ndmr
        have hml : m ∉ l.ids := fun hm => hdisj hm (List.mem_cons_self m r.ids)
        have hxm : x ≠ m := hxn
        simp only [BT.ids, List.mem_append, List.mem_cons] at hx
        rcases hx with hxl | hxm' | hxr
        · -- x in the left subtree
          have hlz : (nd t m).left ≠ 0 := by
            intro hz
            have h0' : ReprT t 0 l := hz ▸ hl
            rw [reprT_zero h0'] at hxl
            simp [BT.ids] at hxl
          obtain ⟨l1, l2, hlshape, -, -, -⟩ := reprT_pos hl hlz
          subst hlshape
          by_cases hxy : x = (nd t m).left
          · subst hxy
            obtain ⟨hyp, -, -⟩ := hpl
            refine ⟨by rw [hyp]; simp [BT.ids], ?_⟩
            rw [hyp, depthOf_node_self, depthOf_node_left hxm hxl, depthOf_node_self]
          · obtain ⟨hpmem, hdep⟩ := ihl ((nd t m).left) m hl hpl ndl x hxl hxy
            have hpm : (nd t x).parent ≠ m := fun hh => hml (hh ▸ hpmem)
            refine ⟨by simp only [BT.ids]; exact List.mem_append_left _ hpmem, ?_⟩
            rw [depthOf_node_left hpm hpmem, depthOf_node_left hxm hxl]
            omega
        · exact absurd hxm' hxm
        · -- x in the right subtree
          have hxl : x ∉ l.ids := fun hm => hdisj hm (List.mem_cons_of_mem m hxr)
          have hrz : (nd t m).right ≠ 0 := by
            intro hz
            have h0' : ReprT t 0 r := hz ▸ hr
            rw [reprT_zero h0'] at hxr
            simp [BT.ids] at hxr
          obtain ⟨r1, r2, hrshape, -, -, -⟩ := reprT_pos hr hrz
          subst hrshape
          by_cases hxy : x = (nd t m).right
          · subst hxy
            obtain ⟨hyp, -, -⟩ := hpr
            refine ⟨by rw [hyp]; simp [BT.ids], ?_⟩
            rw [hyp, depthOf_node_self, depthOf_node_right hxm hxl, depthOf_node_self]
          · obtain ⟨hpmem, hdep⟩ := ihr ((nd t m).right) m hr hpr ndr x hxr hxy
            have hpm : (nd t x).parent ≠ m := fun hh => hmr (hh ▸ hpmem)
            have hpnl : (nd t x).parent ∉ l.ids := fun hm =>
              hdisj hm (List.mem_cons_of_mem m hpmem)
            refine ⟨?_, ?_⟩
            · simp only [BT.ids]
              exact List.mem_append_right _ (List.mem_cons_of_mem m hpmem)
            · rw [depthOf_node_right hpm hpnl, depthOf_node_right hxm hxl]
              omega

theorem isRed_zero (t : Tree K V) : isRed t 0 = false := by
  simp [isRed, nd, nilNode]

theorem isRed_ne_zero {t : Tree K V} {i : Nat} (h : isRed t i = true) : i ≠ 0 := by
  intro hz
  rw [hz, isRed_zero] at h
  cases h

theorem wft_setCol (t : Tree K V) (i : Nat) (b : Bool) {bt : BT} (hw : WFT t bt) :
    WFT (setCol t i b) bt := by
  refine ⟨?_, hw.nodup, ?_⟩
  · rw [setCol_root]
    refine reprT_congr hw.repr ?_
    intro j hj
    exact ⟨setCol_left t i b j, setCol_right t i b j,
      by rw [setCol_length]; exact (reprT_ids_pos hw.repr j hj).2⟩
  · exact parentOk_congr hw.par (fun j _ => setCol_parent t i b j)

theorem ordT_setCol (t : Tree K V) (i : Nat) (b : Bool) {bt : BT} {lo hi : Option K}
    (h : OrdT t lo hi bt) : OrdT (setCol t i b) lo hi bt :=
  ordT_congr (setCol_less t i b) h (fun j _ => setCol_key t i b j)

theorem wft_root_parent {t : Tree K V} {bt : BT} (hw : WFT t bt) (hne : t.root ≠ 0) :
    (nd t t.root).parent = 0 := by
  have hmem : t.root ∈ bt.ids := reprT_root_mem hw.repr hne
  obtain ⟨A, R, px, hsub, -, -, hpxeq, -, -, -, -, -, hpxcase, -, -⟩ := pos_facts hw hmem
  rcases hpxcase with ⟨hp0, -⟩ | ⟨-, -, -, hne'⟩
  · rw [hpxeq, hp0]
  · exact absurd rfl hne'

theorem insFix_spec :
    ∀ (f : Nat) (t : Tree K V) (bt : BT) (x : Nat),
      WFT t bt → OrdT t none none bt → StrictLess t.less →
      x ∈ bt.ids →
      (isRed t t.root = true → x = t.root) →
      depthOf bt x + 2 ≤ f →
      ∃ t' bt', insFix t f x = some t' ∧ WFT t' bt' ∧ OrdT t' none none bt' ∧
        bt'.ids = bt.ids ∧ t'.store.length = t.store.length ∧ t'.size = t.size ∧
        t'.less = t.less ∧
        (∀ m, (nd t' m).key = (nd t m).key ∧ (nd t' m).val = (nd t m).val) := by
  intro f
  induction f with
  | zero => intro t bt x _ _ _ _ _ hf; omega
  | succ f ih =>
      intro t bt x hw hord hsl hx hrinv hf
      by_cases hred : isRed t ((nd t x).parent) = true
      · -- the parent is red: one fix-up iteration
        have hp0 : (nd t x).parent ≠ 0 := isRed_ne_zero hred
        obtain ⟨A, R, px, hsubx, -, -, hpxeq, hAx, hRx, hpAx, hpRx, hndsx, hpxcase, hx0, hxlen⟩ :=
          pos_facts hw hx
        rw [hpxeq] at hred hp0
        rcases hpxcase with ⟨hpz, -⟩ | ⟨-, hpmem, hpnots, hxnr⟩
        · exact absurd hpz hp0
        have hrootblack : isRed t t.root = false := by
          cases hh : isRed t t.root with
          | false => rfl
          | true => exact absurd (hrinv hh) hxnr
        have hpnr : px ≠ t.root := by
          intro hh
          rw [hh, hrootblack] at hred
          cases hred
        obtain ⟨Ap, Rp, g, hsubp, -, -, hgeq, hAp, hRp, hpAp, hpRp, hndsp, hgcase, hpx0, hpxlen⟩ :=
          pos_facts hw hpmem
        rcases hgcase with ⟨hgz, hpr'⟩ | ⟨hg0, hgmem, hgnots, hpnr'⟩
        · exact absurd hpr' hpnr
        obtain ⟨hgp, hdepthg⟩ :=
          depthOf_parent bt t.root 0 hw.repr hw.par hw.nodup px hpmem hpnr
        obtain ⟨hpp, hdepthp⟩ :=
          depthOf_parent bt t.root 0 hw.repr hw.par hw.nodup x hx hxnr
        rw [hpxeq] at hdepthp
        rw [hgeq] at hdepthg
        have hdx : depthOf bt g + 2 = depthOf bt x := by omega
        -- which child of g the parent is
        rcases subAtP_child bt t.root 0 hw.repr hw.nodup hsubp hg0 with
          ⟨hgl, hgrne⟩ | ⟨hgr, hglne⟩
        · -- parent is the left child of the grandparent
          by_cases hu : isRed t ((nd t g).right) = true
          · -- red uncle: recolour and continue at the grandparent
            have hu0 : (nd t g).right ≠ 0 := isRed_ne_zero hu
            have hr0 : t.root ≠ 0 := by
              intro hz
              have hleaf := reprT_zero (hz ▸ hw.repr)
              rw [hleaf] at hx
              simp [BT.ids] at hx
            obtain ⟨Ag, Rg, gg, hsubg, -, -, hggeq, hAg, hRg, hpAg, hpRg, hndsg,
              hggcase, -, -⟩ := pos_facts hw hgmem
            have humem : (nd t g).right ∈ bt.ids :=
              subAtP_sub_mem hsubg ((nd t g).right)
                (by simp [BT.ids, reprT_root_mem hRg hu0])
            have hupar : (nd t ((nd t g).right)).parent = g := by
              obtain ⟨r1, r2, hRgeq, -, -, -⟩ := reprT_pos hRg hu0
              rw [hRgeq] at hpRg
              exact hpRg.1
            have hunr : (nd t g).right ≠ t.root := by
              intro hh
              rw [hh, wft_root_parent hw hr0] at hupar
              exact hg0 hupar.symm
            set t1 := setCol (setCol (setCol t g false) ((nd t g).right) true) px true
              with ht1
            have hw1 : WFT t1 bt := wft_setCol _ _ _ (wft_setCol _ _ _ (wft_setCol _ _ _ hw))
            have hord1 : OrdT t1 none none bt :=
              ordT_setCol _ _ _ (ordT_setCol _ _ _ (ordT_setCol _ _ _ hord))
            have hless1 : t1.less = t.less := by
              rw [ht1, setCol_less, setCol_less, setCol_less]
            have hlen1 : t1.store.length = t.store.length := by
              rw [ht1, setCol_length, setCol_length, setCol_length]
            have hsize1 : t1.size = t.size := by
              rw [ht1, setCol_size, setCol_size, setCol_size]
            have hroot1 : t1.root = t.root := by
              rw [ht1, setCol_root, setCol_root, setCol_root]
            have hinv1 : isRed t1 t1.root = true → g = t1.root := by
              intro hh
              by_cases hgr : g = t.root
              · rw [hroot1]; exact hgr
              · exfalso
                rw [hroot1] at hh
                have hb : (nd t1 t.root).black = (nd t t.root).black := by
                  rw [ht1, setCol_black_ne _ _ _ _ (Ne.symm hpnr),
                    setCol_black_ne _ _ _ _ (Ne.symm hunr),
                    setCol_black_ne _ _ _ _ (fun hz => hgr hz.symm)]
                rw [isRed, hb] at hh
                rw [isRed] at hrootblack
                rw [hrootblack] at hh
                cases hh
            obtain ⟨t', bt', hrun', hw', hord', hids', hlen', hsize', hless', hkv'⟩ :=
              ih t1 bt g hw1 hord1 (hless1 ▸ hsl) hgmem hinv1 (by omega)
            have hstep : insFix t (f + 1) x = insFix t1 f g := by
              simp only [insFix]
              rw [hpxeq, hgeq, hgl]
              simp [hred, hu]
            refine ⟨t', bt', by rw [hstep]; exact hrun', hw', hord', hids',
              hlen'.trans hlen1, hsize'.trans hsize1, hless'.trans hless1, ?_⟩
            intro m
            have hk1 : (nd t1 m).key = (nd t m).key := by
              rw [ht1, setCol_key, setCol_key, setCol_key]
            have hv1 : (nd t1 m).val = (nd t m).val := by
              rw [ht1, setCol_val, setCol_val, setCol_val]
            exact ⟨(hkv' m).1.trans hk1, (hkv' m).2.trans hv1⟩
          · -- black uncle: rotate
            have hgpx : g ≠ px := fun hh => hgnots (hh ▸ (by simp [BT.ids]))
            have hpxx : px ≠ x := fun hh =>
              hpnots (hh ▸ (by simp [BT.ids] : x ∈ (BT.node A x R).ids))
            have hxsub : x ∈ (BT.node Ap px Rp).ids := by
              rcases subAtP_child bt t.root 0 hw.repr hw.nodup hsubx hp0 with
                ⟨hxl, -⟩ | ⟨hxr, -⟩
              · have : x ∈ Ap.ids := reprT_root_mem (hxl ▸ hAp) hx0
                simp [BT.ids, this]
              · have : x ∈ Rp.ids := reprT_root_mem (hxr ▸ hRp) hx0
                simp [BT.ids, this]
            have hgx : g ≠ x := fun hh => hgnots (hh ▸ hxsub)
            have hpxnotxr : px ≠ (nd t x).right := by
              by_cases hrz : (nd t x).right = 0
              · rw [hrz]; exact hp0
              · intro hh
                obtain ⟨r1, r2, hRxeq, -, -, -⟩ := reprT_pos hRx hrz
                rw [hRxeq] at hpRx
                have := hpRx.1
                rw [← hh, hgeq] at this
                exact hgx this
            rcases subAtP_child bt t.root 0 hw.repr hw.nodup hsubx hp0 with
              ⟨hxl, hxrne⟩ | ⟨hxr, hxlne⟩
            · -- line case: x is the left child of its parent
              set t4 := setCol (setCol t g false) px true with ht4
              have hw4 : WFT t4 bt := wft_setCol _ _ _ (wft_setCol _ _ _ hw)
              have hord4 : OrdT t4 none none bt :=
                ordT_setCol _ _ _ (ordT_setCol _ _ _ hord)
              have hless4 : t4.less = t.less := by rw [ht4, setCol_less, setCol_less]
              have hlen4 : t4.store.length = t.store.length := by
                rw [ht4, setCol_length, setCol_length]
              have hsize4 : t4.size = t.size := by rw [ht4, setCol_size, setCol_size]
              have hc4 : (nd t4 g).left = px := by
                rw [ht4, setCol_left, setCol_left]; exact hgl
              have hlz4 : (nd t4 g).left ≠ 0 := by rw [hc4]; exact hp0
              obtain ⟨A5, B5, C5, px5, hsub5, hw5, hids5, hroot5, hlen5, hsize5, hless5,
                hkvb5, hparX5, hparO5, hxR5, hxL5, hcR5, hcL5, hpxIf5, hord5⟩ :=
                rightRotate_spec hw4 hgmem hlz4
              have hblack4 : (nd t4 px).black = true := by
                rw [ht4]
                exact setCol_black_self _ px true hp0 (by rw [setCol_length]; exact hpxlen)
              have hxpar5 : (nd (rightRotate t4 g) x).parent = px := by
                rw [hparO5 x (fun hh => hgx hh.symm)
                  (by rw [hc4]; exact fun hh => hpxx hh.symm)
                  (by rw [hc4, ht4, setCol_right, setCol_right]
                      exact fun hh => hxrne hh.symm)]
                rw [ht4, setCol_parent, setCol_parent]
                exact hpxeq
              have hexit : isRed (rightRotate t4 g) ((nd (rightRotate t4 g) x).parent)
                  = false := by
                rw [hxpar5, isRed, (hkvb5 px).2.2, hblack4]
                rfl
              have hstep : insFix t (f + 1) x = insFix (rightRotate t4 g) f x := by
                have hcond : ¬(x = (nd t px).right) := fun hh => hxrne hh.symm
                simp only [insFix]
                rw [hpxeq, hgeq, hgl]
                simp [hred, hu, hcond, ht4]
              obtain ⟨f', hf'⟩ : ∃ f', f = f' + 1 := ⟨f - 1, by omega⟩
              have hexit2 : insFix (rightRotate t4 g) f x = some (rightRotate t4 g) := by
                rw [hf']
                unfold insFix
                simp [hexit]
              refine ⟨rightRotate t4 g, _, by rw [hstep]; exact hexit2, hw5,
                hord5 (hless4 ▸ hsl) hord4, hids5, hlen5.trans hlen4,
                hsize5.trans hsize4, hless5.trans hless4, ?_⟩
              intro m
              have hk4 : (nd t4 m).key = (nd t m).key := by
                rw [ht4, setCol_key, setCol_key]
              have hv4 : (nd t4 m).val = (nd t m).val := by
                rw [ht4, setCol_val, setCol_val]
              exact ⟨((hkvb5 m).1).trans hk4, ((hkvb5 m).2.1).trans hv4⟩
            · -- triangle case: left-rotate the parent first
              have hrz2 : (nd t px).right ≠ 0 := by rw [hxr]; exact hx0
              obtain ⟨A2, B2, C2, px2, hsub2, hw2, hids2, hroot2, hlen2, hsize2, hless2,
                hkvb2, hparX2, hparO2, hxL2, hxR2, hcL2, hcR2, hpxIf2, hord2⟩ :=
                leftRotate_spec hw hpmem hrz2
              set t2 := leftRotate t px with ht2
              set bt2 := replaceAt bt px
                (BT.node (BT.node A2 px B2) ((nd t px).right) C2) with hbt2
              set t4 := setCol (setCol t2 g false) x true with ht4
              have hw4 : WFT t4 bt2 := wft_setCol _ _ _ (wft_setCol _ _ _ hw2)
              have hord4 : OrdT t4 none none bt2 :=
                ordT_setCol _ _ _ (ordT_setCol _ _ _ (hord2 hsl hord))
              have hless2' : t2.less = t.less := hless2
              have hless4 : t4.less = t.less := by
                rw [ht4, setCol_less, setCol_less, hless2']
              have hlen4 : t4.store.length = t.store.length := by
                rw [ht4, setCol_length, setCol_length, hlen2]
              have hsize4 : t4.size = t.size := by
                rw [ht4, setCol_size, setCol_size, hsize2]
              have hgmem2 : g ∈ bt2.ids := by rw [hids2]; exact hgmem
              have hpx2g : (nd t2 g).left = x := by
                have hpz : (nd t px).parent ≠ 0 := by rw [hgeq]; exact hg0
                obtain ⟨hL, -⟩ := hpxIf2 hpz
                rw [hgeq] at hL
                rw [hL, if_pos hgl, hxr]
              have hc4 : (nd t4 g).left = x := by
                rw [ht4, setCol_left, setCol_left]; exact hpx2g
              have hlz4 : (nd t4 g).left ≠ 0 := by rw [hc4]; exact hx0
              obtain ⟨A5, B5, C5, px5, hsub5, hw5, hids5, hroot5, hlen5, hsize5, hless5,
                hkvb5, hparX5, hparO5, hxR5, hxL5, hcR5, hcL5, hpxIf5, hord5⟩ :=
                rightRotate_spec hw4 hgmem2 hlz4
              have hxlen4 : x ≤ t4.store.length := by rw [hlen4]; exact hxlen
              have hblack4 : (nd t4 x).black = true := by
                rw [ht4]
                exact setCol_black_self _ x true hx0
                  (by rw [setCol_length, hlen2]; exact hxlen)
              have hx2r : (nd t2 x).right = (nd t x).right := by
                have := hcR2
                rw [hxr] at this
                exact this
              have hpxpar4 : (nd t4 px).parent = x := by
                rw [ht4, setCol_parent, setCol_parent, hparX2, hxr]
              have hxpar5 : (nd (rightRotate t4 g) px).parent = x := by
                rw [hparO5 px (fun hh => hgpx hh.symm)
                  (by rw [hc4]; exact hpxx)
                  (by rw [hc4, ht4, setCol_right, setCol_right, hx2r]
                      exact hpxnotxr)]
                exact hpxpar4
              have hexit : isRed (rightRotate t4 g) ((nd (rightRotate t4 g) px).parent)
                  = false := by
                rw [hxpar5, isRed, (hkvb5 x).2.2, hblack4]
                rfl
              have hstep : insFix t (f + 1) x = insFix (rightRotate t4 g) f px := by
                simp only [insFix]
                rw [hpxeq, hgeq, hgl]
                simp [hred, hu, hxr, ht4, ht2]
              obtain ⟨f', hf'⟩ : ∃ f', f = f' + 1 := ⟨f - 1, by omega⟩
              have hexit2 : insFix (rightRotate t4 g) f px = some (rightRotate t4 g) := by
                rw [hf']
                unfold insFix
                simp [hexit]
              refine ⟨rightRotate t4 g, _, by rw [hstep]; exact hexit2, hw5,
                hord5 (hless4 ▸ hsl) hord4, by rw [hids5, hids2],
                hlen5.trans hlen4, hsize5.trans hsize4, hless5.trans hless4, ?_⟩
              intro m
              have hk4 : (nd t4 m).key = (nd t m).key := by
                rw [ht4, setCol_key, setCol_key, (hkvb2 m).1]
              have hv4 : (nd t4 m).val = (nd t m).val := by
                rw [ht4, setCol_val, setCol_val, (hkvb2 m).2.1]
              exact ⟨((hkvb5 m).1).trans hk4, ((hkvb5 m).2.1).trans hv4⟩
        · -- parent is the right child of the grandparent (mirror)
          have hcondg : ¬(px = (nd t g).left) := fun hh => hglne hh.symm
          by_cases hu : isRed t ((nd t g).left) = true
          · -- red uncle: recolour and continue at the grandparent
            have hu0 : (nd t g).left ≠ 0 := isRed_ne_zero hu
            have hr0 : t.root ≠ 0 := by
              intro hz
              have hleaf := reprT_zero (hz ▸ hw.repr)
              rw [hleaf] at hx
              simp [BT.ids] at hx
            obtain ⟨Ag, Rg, gg, hsubg, -, -, hggeq, hAg, hRg, hpAg, hpRg, hndsg,
              hggcase, -, -⟩ := pos_facts hw hgmem
            have humem : (nd t g).left ∈ bt.ids :=
              subAtP_sub_mem hsubg ((nd t g).left)
                (by simp [BT.ids, reprT_root_mem hAg hu0])
            have hupar : (nd t ((nd t g).left)).parent = g := by
              obtain ⟨r1, r2, hAgeq, -, -, -⟩ := reprT_pos hAg hu0
              rw [hAgeq] at hpAg
              exact hpAg.1
            have hunr : (nd t g).left ≠ t.root := by
              intro hh
              rw [hh, wft_root_parent hw hr0] at hupar
              exact hg0 hupar.symm
            set t1 := setCol (setCol (setCol t g false) ((nd t g).left) true) px true
              with ht1
            have hw1 : WFT t1 bt := wft_setCol _ _ _ (wft_setCol _ _ _ (wft_setCol _ _ _ hw))
            have hord1 : OrdT t1 none none bt :=
              ordT_setCol _ _ _ (ordT_setCol _ _ _ (ordT_setCol _ _ _ hord))
            have hless1 : t1.less = t.less := by
              rw [ht1, setCol_less, setCol_less, setCol_less]
            have hlen1 : t1.store.length = t.store.length := by
              rw [ht1, setCol_length, setCol_length, setCol_length]
            have hsize1 : t1.size = t.size := by
              rw [ht1, setCol_size, setCol_size, setCol_size]
            have hroot1 : t1.root = t.root := by
              rw [ht1, setCol_root, setCol_root, setCol_root]
            have hinv1 : isRed t1 t1.root = true → g = t1.root := by
              intro hh
              by_cases hgr' : g = t.root
              · rw [hroot1]; exact hgr'
              · exfalso
                rw [hroot1] at hh
                have hb : (nd t1 t.root).black = (nd t t.root).black := by
                  rw [ht1, setCol_black_ne _ _ _ _ (Ne.symm hpnr),
                    setCol_black_ne _ _ _ _ (Ne.symm hunr),
                    setCol_black_ne _ _ _ _ (fun hz => hgr' hz.symm)]
                rw [isRed, hb] at hh
                rw [isRed] at hrootblack
                rw [hrootblack] at hh
                cases hh
            obtain ⟨t', bt', hrun', hw', hord', hids', hlen', hsize', hless', hkv'⟩ :=
              ih t1 bt g hw1 hord1 (hless1 ▸ hsl) hgmem hinv1 (by omega)
            have hstep : insFix t (f + 1) x = insFix t1 f g := by
              simp only [insFix]
              rw [hpxeq, hgeq]
              simp [hred, hu, hcondg]
            refine ⟨t', bt', by rw [hstep]; exact hrun', hw', hord', hids',
              hlen'.trans hlen1, hsize'.trans hsize1, hless'.trans hless1, ?_⟩
            intro m
            have hk1 : (nd t1 m).key = (nd t m).key := by
              rw [ht1, setCol_key, setCol_key, setCol_key]
            have hv1 : (nd t1 m).val = (nd t m).val := by
              rw [ht1, setCol_val, setCol_val, setCol_val]
            exact ⟨(hkv' m).1.trans hk1, (hkv' m).2.trans hv1⟩
          · -- black uncle: rotate (mirror)
            have hgpx : g ≠ px := fun hh => hgnots (hh ▸ (by simp [BT.ids]))
            have hpxx : px ≠ x := fun hh =>
              hpnots (hh ▸ (by simp [BT.ids] : x ∈ (BT.node A x R).ids))
            have hxsub : x ∈ (BT.node Ap px Rp).ids := by
              rcases subAtP_child bt t.root 0 hw.repr hw.nodup hsubx hp0 with
                ⟨hxl, -⟩ | ⟨hxr, -⟩
              · have : x ∈ Ap.ids := reprT_root_mem (hxl ▸ hAp) hx0
                simp [BT.ids, this]
              · have : x ∈ Rp.ids := reprT_root_mem (hxr ▸ hRp) hx0
                simp [BT.ids, this]
            have hgx : g ≠ x := fun hh => hgnots (hh ▸ hxsub)
            have hpxnotxl : px ≠ (nd t x).left := by
              by_cases hlz : (nd t x).left = 0
              · rw [hlz]; exact hp0
              · intro hh
                obtain ⟨r1, r2, hAxeq, -, -, -⟩ := reprT_pos hAx hlz
                rw [hAxeq] at hpAx
                have := hpAx.1
                rw [← hh, hgeq] at this
                exact hgx this
            rcases subAtP_child bt t.root 0 hw.repr hw.nodup hsubx hp0 with
              ⟨hxl, hxrne⟩ | ⟨hxr, hxlne⟩
            · -- triangle case: right-rotate the parent first
              have hlz2 : (nd t px).left ≠ 0 := by rw [hxl]; exact hx0
              obtain ⟨A2, B2, C2, px2, hsub2, hw2, hids2, hroot2, hlen2, hsize2, hless2,
                hkvb2, hparX2, hparO2, hxR2, hxL2, hcR2, hcL2, hpxIf2, hord2⟩ :=
                rightRotate_spec hw hpmem hlz2
              set t2 := rightRotate t px with ht2
              set t4 := setCol (setCol t2 g false) x true with ht4
              have hw4 : WFT t4 (replaceAt bt px
                  (BT.node A2 ((nd t px).left) (BT.node B2 px C2))) :=
                wft_setCol _ _ _ (wft_setCol _ _ _ hw2)
              have hord4 : OrdT t4 none none (replaceAt bt px
                  (BT.node A2 ((nd t px).left) (BT.node B2 px C2))) :=
                ordT_setCol _ _ _ (ordT_setCol _ _ _ (hord2 hsl hord))
              have hless4 : t4.less = t.less := by
                rw [ht4, setCol_less, setCol_less, hless2]
              have hlen4 : t4.store.length = t.store.length := by
                rw [ht4, setCol_length, setCol_length, hlen2]
              have hsize4 : t4.size = t.size := by
                rw [ht4, setCol_size, setCol_size, hsize2]
              have hgmem2 : g ∈ (replaceAt bt px
                  (BT.node A2 ((nd t px).left) (BT.node B2 px C2))).ids := by
                rw [hids2]; exact hgmem
              have hpx2g : (nd t2 g).right = x := by
                have hpz : (nd t px).parent ≠ 0 := by rw [hgeq]; exact hg0
                obtain ⟨-, hR⟩ := hpxIf2 hpz
                rw [hgeq] at hR
                rw [hR, if_pos hgr, hxl]
              have hc4 : (nd t4 g).right = x := by
                rw [ht4, setCol_right, setCol_right]; exact hpx2g
              have hrz4 : (nd t4 g).right ≠ 0 := by rw [hc4]; exact hx0
              obtain ⟨A5, B5, C5, px5, hsub5, hw5, hids5, hroot5, hlen5, hsize5, hless5,
                hkvb5, hparX5, hparO5, hxL5, hxR5, hcL5, hcR5, hpxIf5, hord5⟩ :=
                leftRotate_spec hw4 hgmem2 hrz4
              have hblack4 : (nd t4 x).black = true := by
                rw [ht4]
                exact setCol_black_self _ x true hx0
                  (by rw [setCol_length, hlen2]; exact hxlen)
              have hx2l : (nd t2 x).left = (nd t x).left := by
                have := hcL2
                rw [hxl] at this
                exact this
              have hpxpar4 : (nd t4 px).parent = x := by
                rw [ht4, setCol_parent, setCol_parent, hparX2, hxl]
              have hxpar5 : (nd (leftRotate t4 g) px).parent = x := by
                rw [hparO5 px (fun hh => hgpx hh.symm)
                  (by rw [hc4]; exact hpxx)
                  (by rw [hc4, ht4, setCol_left, setCol_left, hx2l]
                      exact hpxnotxl)]
                exact hpxpar4
              have hexit : isRed (leftRotate t4 g) ((nd (leftRotate t4 g) px).parent)
                  = false := by
                rw [hxpar5, isRed, (hkvb5 x).2.2, hblack4]
                rfl
              have hstep : insFix t (f + 1) x = insFix (leftRotate t4 g) f px := by
                simp only [insFix]
                rw [hpxeq, hgeq]
                simp [hred, hu, hcondg, hxl, ht4, ht2]
              obtain ⟨f', hf'⟩ : ∃ f', f = f' + 1 := ⟨f - 1, by omega⟩
              have hexit2 : insFix (leftRotate t4 g) f px = some (leftRotate t4 g) := by
                rw [hf']
                unfold insFix
                simp [hexit]
              refine ⟨leftRotate t4 g, _, by rw [hstep]; exact hexit2, hw5,
                hord5 (hless4 ▸ hsl) hord4, by rw [hids5, hids2],
                hlen5.trans hlen4, hsize5.trans hsize4, hless5.trans hless4, ?_⟩
              intro m
              have hk4 : (nd t4 m).key = (nd t m).key := by
                rw [ht4, setCol_key, setCol_key, (hkvb2 m).1]
              have hv4 : (nd t4 m).val = (nd t m).val := by
                rw [ht4, setCol_val, setCol_val, (hkvb2 m).2.1]
              exact ⟨((hkvb5 m).1).trans hk4, ((hkvb5 m).2.1).trans hv4⟩
            · -- line case: x is the right child of its parent
              set t4 := setCol (setCol t g false) px true with ht4
              have hw4 : WFT t4 bt := wft_setCol _ _ _ (wft_setCol _ _ _ hw)
              have hord4 : OrdT t4 none none bt :=
                ordT_setCol _ _ _ (ordT_setCol _ _ _ hord)
              have hless4 : t4.less = t.less := by rw [ht4, setCol_less, setCol_less]
              have hlen4 : t4.store.length = t.store.length := by
                rw [ht4, setCol_length, setCol_length]
              have hsize4 : t4.size = t.size := by rw [ht4, setCol_size, setCol_size]
              have hc4 : (nd t4 g).right = px := by
                rw [ht4, setCol_right, setCol_right]; exact hgr
              have hrz4 : (nd t4 g).right ≠ 0 := by rw [hc4]; exact hp0
              obtain ⟨A5, B5, C5, px5, hsub5, hw5, hids5, hroot5, hlen5, hsize5, hless5,
                hkvb5, hparX5, hparO5, hxL5, hxR5, hcL5, hcR5, hpxIf5, hord5⟩ :=
                leftRotate_spec hw4 hgmem hrz4
              have hblack4 : (nd t4 px).black = true := by
                rw [ht4]
                exact setCol_black_self _ px true hp0 (by rw [setCol_length]; exact hpxlen)
              have hxpar5 : (nd (leftRotate t4 g) x).parent = px := by
                rw [hparO5 x (fun hh => hgx hh.symm)
                  (by rw [hc4]; exact fun hh => hpxx hh.symm)
                  (by rw [hc4, ht4, setCol_left, setCol_left]
                      exact fun hh => hxlne hh.symm)]
                rw [ht4, setCol_parent, setCol_parent]
                exact hpxeq
              have hexit : isRed (leftRotate t4 g) ((nd (leftRotate t4 g) x).parent)
                  = false := by
                rw [hxpar5, isRed, (hkvb5 px).2.2, hblack4]
                rfl
              have hstep : insFix t (f + 1) x = insFix (leftRotate t4 g) f x := by
                have hcond : ¬(x = (nd t px).left) := fun hh => hxlne hh.symm
                simp only [insFix]
                rw [hpxeq, hgeq]
                simp [hred, hu, hcondg, hcond, ht4]
              obtain ⟨f', hf'⟩ : ∃ f', f = f' + 1 := ⟨f - 1, by omega⟩
              have hexit2 : insFix (leftRotate t4 g) f x = some (leftRotate t4 g) := by
                rw [hf']
                unfold insFix
                simp [hexit]
              refine ⟨leftRotate t4 g, _, by rw [hstep]; exact hexit2, hw5,
                hord5 (hless4 ▸ hsl) hord4, hids5, hlen5.trans hlen4,
                hsize5.trans hsize4, hless5.trans hless4, ?_⟩
              intro m
              have hk4 : (nd t4 m).key = (nd t m).key := by
                rw [ht4, setCol_key, setCol_key]
              have hv4 : (nd t4 m).val = (nd t m).val := by
                rw [ht4, setCol_val, setCol_val]
              exact ⟨((hkvb5 m).1).trans hk4, ((hkvb5 m).2.1).trans hv4⟩
      · -- black parent: the loop exits at once
        refine ⟨t, bt, ?_, hw, hord, rfl, rfl, rfl, rfl, fun m => ⟨rfl, rfl⟩⟩
        unfold insFix
        simp [hred]

theorem insertNode_preserves {t : Tree K V} {bt : BT} (hw : WFT t bt)
    (hord : OrdT t none none bt) (hsl : StrictLess t.less)
    (hrb : isBlack t t.root = true)
    {j : Nat} (hj0 : j ≠ 0) (hjlen : j ≤ t.store.length) (hjnot : j ∉ bt.ids)
    (hjblack : (nd t j).black = true)
    (hkne : ∀ m ∈ bt.ids, (nd t m).key ≠ (nd t j).key) :
    ∃ t' bt', insertNode t j = some t' ∧ WFT t' bt' ∧ OrdT t' none none bt' ∧
      isBlack t' t'.root = true ∧
      t'.store.length = t.store.length ∧ t'.size = t.size + 1 ∧ t'.less = t.less ∧
      bt'.ids.Perm (j :: bt.ids) ∧
      (∀ m, (nd t' m).key = (nd t m).key ∧ (nd t' m).val = (nd t m).val) := by
  set t1 := resetLinks t j with ht1
  set t2 : Tree K V := { t1 with size := t1.size + 1 } with ht2
  have hnd2 : ∀ m, nd t2 m = nd t1 m := fun _ => rfl
  have hlen2 : t2.store.length = t.store.length := by
    show t1.store.length = t.store.length
    rw [ht1, resetLinks_length]
  have hroot2 : t2.root = t.root := by
    show t1.root = t.root
    rw [ht1, resetLinks_root]
  have hless2 : t2.less = t.less := by
    show t1.less = t.less
    rw [ht1, resetLinks_less]
  have hsize2 : t2.size = t.size + 1 := by
    show t1.size + 1 = t.size + 1
    rw [ht1, resetLinks_size]
  have hkey2 : ∀ m, (nd t2 m).key = (nd t m).key := fun m => by
    rw [hnd2, ht1, resetLinks_key]
  have hval2 : ∀ m, (nd t2 m).val = (nd t m).val := fun m => by
    rw [hnd2, ht1, resetLinks_val]
  have hblack2 : ∀ m, (nd t2 m).black = (nd t m).black := fun m => by
    rw [hnd2, ht1, resetLinks_black]
  have hleft2 : ∀ m, m ≠ j → (nd t2 m).left = (nd t m).left := fun m hm => by
    rw [hnd2, ht1, resetLinks_left_ne _ _ _ hm]
  have hright2 : ∀ m, m ≠ j → (nd t2 m).right = (nd t m).right := fun m hm => by
    rw [hnd2, ht1, resetLinks_right_ne _ _ _ hm]
  have hpar2 : ∀ m, m ≠ j → (nd t2 m).parent = (nd t m).parent := fun m hm => by
    rw [hnd2, ht1, resetLinks_parent_ne _ _ _ hm]
  have hjl2 : (nd t2 j).left = 0 := by
    rw [hnd2, ht1]; exact resetLinks_left_self t j hj0 hjlen
  have hjr2 : (nd t2 j).right = 0 := by
    rw [hnd2, ht1]; exact resetLinks_right_self t j hj0 hjlen
  have hjp2 : (nd t2 j).parent = 0 := by
    rw [hnd2, ht1]; exact resetLinks_parent_self t j hj0 hjlen
  have hmem_ne : ∀ m ∈ bt.ids, m ≠ j := fun m hm hh => hjnot (hh ▸ hm)
  have hw2 : WFT t2 bt := by
    refine ⟨?_, hw.nodup, ?_⟩
    · rw [hroot2]
      refine reprT_congr hw.repr ?_
      intro m hm
      exact ⟨hleft2 m (hmem_ne m hm), hright2 m (hmem_ne m hm),
        by rw [hlen2]; exact (reprT_ids_pos hw.repr m hm).2⟩
    · exact parentOk_congr hw.par (fun m hm => hpar2 m (hmem_ne m hm))
  have hord2 : OrdT t2 none none bt :=
    ordT_congr hless2 hord (fun m _ => hkey2 m)
  by_cases hr0 : t.root = 0
  · -- the tree is empty: the new node becomes the root
    have hleaf : bt = .leaf := by
      have := hw.repr
      rw [hr0] at this
      exact reprT_zero this
    refine ⟨{ t2 with root := j }, .node .leaf j .leaf, ?_, ?_, ?_, ?_, ?_, ?_, ?_, ?_, ?_⟩
    · unfold insertNode
      rw [if_neg hj0]
      show (if t2.root = 0 then some { t2 with root := j } else _) = _
      rw [if_pos (by rw [hroot2]; exact hr0)]
    · refine ⟨?_, by simp [BT.ids], ?_⟩
      · show ReprT _ j _
        refine ReprT.node hj0 (by show j ≤ t2.store.length; rw [hlen2]; exact hjlen) ?_ ?_
        · show ReprT _ ((nd t2 j).left) .leaf
          rw [hjl2]
          exact ReprT.leaf
        · show ReprT _ ((nd t2 j).right) .leaf
          rw [hjr2]
          exact ReprT.leaf
      · exact ⟨hjp2, trivial, trivial⟩
    · exact ⟨trivial, trivial, trivial, trivial⟩
    · show (nd t2 j).black = true
      rw [hblack2, hjblack]
    · show t2.store.length = t.store.length
      exact hlen2
    · show t2.size = t.size + 1
      exact hsize2
    · show t2.less = t.less
      exact hless2
    · rw [hleaf]
      simp [BT.ids]
    · intro m
      exact ⟨hkey2 m, hval2 m⟩
  · -- non-empty: descend, attach, fix up, repaint the root
    have hrmem : t.root ∈ bt.ids := reprT_root_mem hw.repr hr0
    have hkne2 : ∀ m ∈ bt.ids, (nd t2 m).key ≠ (nd t2 j).key := by
      intro m hm
      rw [hkey2, hkey2]
      exact hkne m hm
    obtain ⟨p, hloop, hpmem, hbuild⟩ :=
      descend_attach (t := t2) (k := (nd t2 j).key) (j := j) (hless2 ▸ hsl) bt t2.root
        t2.root 0 none none (fuel t2) (hroot2 ▸ hw2.repr) (by rw [hroot2]; exact hr0)
        hw2.nodup hw2.par hord2 trivial trivial hkne2
        (by
          have := ids_length_le hw2.repr hw2.nodup
          unfold fuel
          omega)
    have hp0 : p ≠ 0 := (reprT_ids_pos hw2.repr p hpmem).1
    have hplen : p ≤ t2.store.length := (reprT_ids_pos hw2.repr p hpmem).2
    have hpj : p ≠ j := hmem_ne p hpmem
    set t3 := setP t2 j p with ht3
    set t4 := if t2.less ((nd t2 j).key) ((nd t2 p).key) = true
        then setL t3 p j else setR t3 p j with ht4
    set t5 := setCol t4 j false with ht5
    have hjlen2 : j ≤ t2.store.length := by rw [hlen2]; exact hjlen
    have hlen3 : t3.store.length = t2.store.length := by rw [ht3, setP_length]
    have hlen4 : t4.store.length = t2.store.length := by
      rw [ht4]
      by_cases hg : t2.less ((nd t2 j).key) ((nd t2 p).key) = true
      · rw [if_pos hg, setL_length, hlen3]
      · rw [if_neg hg, setR_length, hlen3]
    have hlen5 : t5.store.length = t2.store.length := by rw [ht5, setCol_length, hlen4]
    have hroot4 : t4.root = t2.root := by
      rw [ht4]
      by_cases hg : t2.less ((nd t2 j).key) ((nd t2 p).key) = true
      · rw [if_pos hg, setL_root, ht3, setP_root]
      · rw [if_neg hg, setR_root, ht3, setP_root]
    have hroot5 : t5.root = t2.root := by rw [ht5, setCol_root, hroot4]
    have hsize4 : t4.size = t2.size := by
      rw [ht4]
      by_cases hg : t2.less ((nd t2 j).key) ((nd t2 p).key) = true
      · rw [if_pos hg, setL_size, ht3, setP_size]
      · rw [if_neg hg, setR_size, ht3, setP_size]
    have hsize5 : t5.size = t2.size := by rw [ht5, setCol_size, hsize4]
    have hless4 : t4.less = t2.less := by
      rw [ht4]
      by_cases hg : t2.less ((nd t2 j).key) ((nd t2 p).key) = true
      · rw [if_pos hg, setL_less, ht3, setP_less]
      · rw [if_neg hg, setR_less, ht3, setP_less]
    have hless5 : t5.less = t2.less := by rw [ht5, setCol_less, hless4]
    have hkey5 : ∀ m, (nd t5 m).key = (nd t2 m).key := by
      intro m
      rw [ht5, setCol_key, ht4]
      by_cases hg : t2.less ((nd t2 j).key) ((nd t2 p).key) = true
      · rw [if_pos hg, setL_key, ht3, setP_key]
      · rw [if_neg hg, setR_key, ht3, setP_key]
    have hval5 : ∀ m, (nd t5 m).val = (nd t2 m).val := by
      intro m
      rw [ht5, setCol_val, ht4]
      by_cases hg : t2.less ((nd t2 j).key) ((nd t2 p).key) = true
      · rw [if_pos hg, setL_val, ht3, setP_val]
      · rw [if_neg hg, setR_val, ht3, setP_val]
    have hpar5 : ∀ m, m ≠ j → (nd t5 m).parent = (nd t2 m).parent := by
      intro m hm
      rw [ht5, setCol_parent, ht4]
      by_cases hg : t2.less ((nd t2 j).key) ((nd t2 p).key) = true
      · rw [if_pos hg, setL_parent, ht3, setP_parent_ne _ _ _ _ hm]
      · rw [if_neg hg, setR_parent, ht3, setP_parent_ne _ _ _ _ hm]
    have hplen3 : p ≤ t3.store.length := by rw [hlen3]; exact hplen
    have hpleft5 : (nd t5 p).left =
        (if t2.less ((nd t2 j).key) ((nd t2 p).key) = true then j else (nd t2 p).left) := by
      rw [ht5, setCol_left, ht4]
      by_cases hg : t2.less ((nd t2 j).key) ((nd t2 p).key) = true
      · rw [if_pos hg, if_pos hg]
        exact setL_left_self t3 p j hp0 hplen3
      · rw [if_neg hg, if_neg hg, setR_left, ht3, setP_left]
    have hpright5 : (nd t5 p).right =
        (if t2.less ((nd t2 j).key) ((nd t2 p).key) = true then (nd t2 p).right else j) := by
      rw [ht5, setCol_right, ht4]
      by_cases hg : t2.less ((nd t2 j).key) ((nd t2 p).key) = true
      · rw [if_pos hg, if_pos hg, setL_right, ht3, setP_right]
      · rw [if_neg hg, if_neg hg]
        exact setR_right_self t3 p j hp0 hplen3
    have hout5 : ∀ m ∈ bt.ids, m ≠ p →
        (nd t5 m).left = (nd t2 m).left ∧ (nd t5 m).right = (nd t2 m).right := by
      intro m hm hmp
      constructor
      · rw [ht5, setCol_left, ht4]
        by_cases hg : t2.less ((nd t2 j).key) ((nd t2 p).key) = true
        · rw [if_pos hg, setL_left_ne _ _ _ _ hmp, ht3, setP_left]
        · rw [if_neg hg, setR_left, ht3, setP_left]
      · rw [ht5, setCol_right, ht4]
        by_cases hg : t2.less ((nd t2 j).key) ((nd t2 p).key) = true
        · rw [if_pos hg, setL_right, ht3, setP_right]
        · rw [if_neg hg, setR_right_ne _ _ _ _ hmp, ht3, setP_right]
    have hmeta5 : ∀ m ∈ bt.ids, (nd t5 m).key = (nd t2 m).key ∧
        m ≤ t5.store.length ∧ (nd t5 m).parent = (nd t2 m).parent := by
      intro m hm
      exact ⟨hkey5 m, by rw [hlen5]; exact (reprT_ids_pos hw2.repr m hm).2,
        hpar5 m (hmem_ne m hm)⟩
    have hjp5 : (nd t5 j).parent = p := by
      rw [ht5, setCol_parent, ht4]
      by_cases hg : t2.less ((nd t2 j).key) ((nd t2 p).key) = true
      · rw [if_pos hg, setL_parent, ht3]
        exact setP_parent_self t2 j p hj0 hjlen2
      · rw [if_neg hg, setR_parent, ht3]
        exact setP_parent_self t2 j p hj0 hjlen2
    have hjl5 : (nd t5 j).left = 0 := by
      rw [ht5, setCol_left, ht4]
      by_cases hg : t2.less ((nd t2 j).key) ((nd t2 p).key) = true
      · rw [if_pos hg, setL_left_ne _ _ _ _ (Ne.symm hpj), ht3, setP_left, hjl2]
      · rw [if_neg hg, setR_left, ht3, setP_left, hjl2]
    have hjr5 : (nd t5 j).right = 0 := by
      rw [ht5, setCol_right, ht4]
      by_cases hg : t2.less ((nd t2 j).key) ((nd t2 p).key) = true
      · rw [if_pos hg, setL_right, ht3, setP_right, hjr2]
      · rw [if_neg hg, setR_right_ne _ _ _ _ (Ne.symm hpj), ht3, setP_right, hjr2]
    obtain ⟨bt5, hrep5, hparb5, hordb5, hperm5⟩ :=
      hbuild t5 hless5 hpleft5 hpright5 hout5 hmeta5 hjp5 hjl5 hjr5 (hkey5 j) hj0
        (by rw [hlen5]; exact hjlen2)
    have hnodup5 : bt5.ids.Nodup :=
      (hperm5.nodup_iff).mpr (List.nodup_cons.mpr ⟨hjnot, hw.nodup⟩)
    have hw5 : WFT t5 bt5 := ⟨by rw [hroot5]; exact hrep5, hnodup5, hparb5⟩
    have hjmem5 : j ∈ bt5.ids := (hperm5.mem_iff).mpr (List.mem_cons_self j bt.ids)
    have hrj : t.root ≠ j := fun hhh => hjnot (hhh ▸ hrmem)
    have hrinv5 : isRed t5 t5.root = true → j = t5.root := by
      intro hh
      exfalso
      rw [hroot5, hroot2] at hh
      have hbeq : (nd t5 t.root).black = (nd t t.root).black := by
        rw [ht5, setCol_black_ne _ _ _ _ hrj, ht4]
        by_cases hg : t2.less ((nd t2 j).key) ((nd t2 p).key) = true
        · rw [if_pos hg, setL_black, ht3, setP_black, hblack2]
        · rw [if_neg hg, setR_black, ht3, setP_black, hblack2]
      rw [isRed, hbeq] at hh
      rw [isBlack] at hrb
      rw [hrb] at hh
      cases hh
    have hfuel5 : depthOf bt5 j + 2 ≤ fuel t5 := by
      have h1 := depthOf_le bt5 j hjmem5
      have h2 := ids_length_le hrep5 hnodup5
      unfold fuel
      omega
    obtain ⟨t6, bt6, hfix, hw6, hord6, hids6, hlen6, hsize6, hless6, hkv6⟩ :=
      insFix_spec (fuel t5) t5 bt5 j hw5 hordb5
        (by rw [hless5, hless2]; exact hsl) hjmem5 hrinv5 hfuel5
    have hr6ne : t6.root ≠ 0 := by
      intro hz
      have hleaf := reprT_zero (hz ▸ hw6.repr)
      rw [hleaf] at hids6
      have := hjmem5
      rw [← hids6] at this
      simp [BT.ids] at this
    have hr6mem : t6.root ∈ bt6.ids := reprT_root_mem hw6.repr hr6ne
    have hr6len : t6.root ≤ t6.store.length := (reprT_ids_pos hw6.repr _ hr6mem).2
    refine ⟨setCol t6 t6.root true, bt6, ?_, wft_setCol _ _ _ hw6,
      ordT_setCol _ _ _ hord6, ?_, ?_, ?_, ?_, ?_, ?_⟩
    · -- the program runs to exactly this tree
      unfold insertNode
      rw [if_neg hj0]
      show (if t2.root = 0 then some { t2 with root := j }
        else do
          let p ← descendLoop t2 ((nd t2 j).key) (fuel t2) t2.root t2.root
          let t := setP t2 j p
          let t := if t.less ((nd t j).key) ((nd t p).key) then setL t p j
            else setR t p j
          let t := setCol t j false
          let t ← insFix t (fuel t) j
          some (setCol t t.root true)) = some (setCol t6 t6.root true)
      rw [if_neg (show ¬t2.root = 0 by rw [hroot2]; exact hr0)]
      rw [hloop]
      simp only [Option.bind]
      simp only [setP_less, setP_key]
      show (do
        let t ← insFix t5 (fuel t5) j
        some (setCol t t.root true) : Option (Tree K V)) = some (setCol t6 t6.root true)
      rw [hfix]
      rfl
    · show (nd (setCol t6 t6.root true) ((setCol t6 t6.root true).root)).black = true
      rw [setCol_root]
      exact setCol_black_self t6 t6.root true hr6ne hr6len
    · rw [setCol_length, hlen6, hlen5, hlen2]
    · rw [setCol_size, hsize6, hsize5, hsize2]
    · rw [setCol_less, hless6, hless5, hless2]
    · rw [hids6]
      exact hperm5
    · intro m
      constructor
      · rw [setCol_key, (hkv6 m).1, hkey5, hkey2]
      · rw [setCol_val, (hkv6 m).2, hval5, hval2]

theorem nd_pushNode_le (t : Tree K V) (k : K) (v : V) (m : Nat)
    (hm : m ≤ t.store.length) : nd (pushNode t k v).1 m = nd t m := by
  unfold pushNode nd
  by_cases h0 : m = 0
  · rw [if_pos h0, if_pos h0]
  · rw [if_neg h0, if_neg h0]
    show ((t.store ++ [(⟨k, v, 0, 0, 0, true⟩ : Node K V)]).get? (m - 1)).getD nilNode = _
    rw [List.get?_eq_getElem?, List.get?_eq_getElem?,
      List.getElem?_append_left (by omega)]

theorem nd_pushNode_self (t : Tree K V) (k : K) (v : V) :
    nd (pushNode t k v).1 (t.store.length + 1) = ⟨k, v, 0, 0, 0, true⟩ := by
  unfold pushNode nd
  rw [if_neg (by omega)]
  show ((t.store ++ [(⟨k, v, 0, 0, 0, true⟩ : Node K V)]).get?
    (t.store.length + 1 - 1)).getD nilNode = _
  rw [List.get?_eq_getElem?]
  simp

theorem pushNode_length (t : Tree K V) (k : K) (v : V) :
    (pushNode t k v).1.store.length = t.store.length + 1 := by
  unfold pushNode
  simp

theorem setOp_preserves {t : Tree K V} [DecidableEq K] {bt : BT} (hw : WFT t bt)
    (hord : OrdT t none none bt) (hsl : StrictLess t.less)
    (hrb : isBlack t t.root = true) (k : K) (v : V) :
    ∃ t' bt', setOp t k v = some t' ∧ WFT t' bt' ∧ OrdT t' none none bt' ∧
      isBlack t' t'.root = true ∧ t'.less = t.less ∧
      ((∃ i, i ∈ bt.ids ∧ (nd t i).key = k ∧ bt' = bt ∧
          t'.size = t.size ∧ t'.store.length = t.store.length ∧
          (∀ m, (nd t' m).key = (nd t m).key) ∧
          (∀ m, m ≠ i → (nd t' m).val = (nd t m).val) ∧ (nd t' i).val = v) ∨
        ((∀ m ∈ bt.ids, (nd t m).key ≠ k) ∧
          ∃ j, j ∉ bt.ids ∧ bt'.ids.Perm (j :: bt.ids) ∧
            t'.size = t.size + 1 ∧ t'.store.length = t.store.length + 1 ∧
            (nd t' j).key = k ∧ (nd t' j).val = v ∧
            (∀ m ∈ bt.ids, (nd t' m).key = (nd t m).key ∧
              (nd t' m).val = (nd t m).val))) := by
  have hfge : bt.ids.length + 1 ≤ fuel t := by
    have := ids_length_le hw.repr hw.nodup
    unfold fuel
    omega
  obtain ⟨i, hfind, hpost⟩ := findLoop_run bt t.root hw.repr (fuel t) hfge
  by_cases hi0 : i = 0
  · -- miss: a fresh node is inserted
    subst hi0
    have hknone : ∀ m ∈ bt.ids, (nd t m).key ≠ k := by
      intro m hm hkeq
      have hm0 : m ≠ 0 := (reprT_ids_pos hw.repr m hm).1
      have := findLoop_hit hsl bt t.root none none hw.repr hord m hm hkeq (fuel t) hfge
      rw [hfind] at this
      exact hm0 (Option.some.inj this).symm
    set tp := (pushNode t k v).1 with htp
    set j := t.store.length + 1 with hj
    have hndp : ∀ m, m ≤ t.store.length → nd tp m = nd t m := fun m hm =>
      nd_pushNode_le t k v m hm
    have hndpj : nd tp j = ⟨k, v, 0, 0, 0, true⟩ := nd_pushNode_self t k v
    have hlenp : tp.store.length = t.store.length + 1 := pushNode_length t k v
    have hrootp : tp.root = t.root := rfl
    have hlessp : tp.less = t.less := rfl
    have hsizep : tp.size = t.size := rfl
    have hmemle : ∀ m ∈ bt.ids, m ≤ t.store.length := fun m hm =>
      (reprT_ids_pos hw.repr m hm).2
    have hwp : WFT tp bt := by
      refine ⟨?_, hw.nodup, ?_⟩
      · rw [hrootp]
        refine reprT_congr hw.repr ?_
        intro m hm
        rw [hndp m (hmemle m hm)]
        exact ⟨rfl, rfl, by rw [hlenp]; exact Nat.le_succ_of_le (hmemle m hm)⟩
      · refine parentOk_congr hw.par ?_
        intro m hm
        rw [hndp m (hmemle m hm)]
    have hordp : OrdT tp none none bt :=
      ordT_congr hlessp hord (fun m hm => by rw [hndp m (hmemle m hm)])
    have hrbp : isBlack tp tp.root = true := by
      show (nd tp t.root).black = true
      by_cases hz : t.root = 0
      · rw [hz]
        simp [nd, nilNode]
      · rw [hndp t.root (hmemle t.root (reprT_root_mem hw.repr hz))]
        exact hrb
    have hkvj : (nd tp j).key = k ∧ (nd tp j).val = v := by rw [hndpj]; exact ⟨rfl, rfl⟩
    have hkne_p : ∀ m ∈ bt.ids, (nd tp m).key ≠ (nd tp j).key := by
      intro m hm
      rw [hndp m (hmemle m hm), hkvj.1]
      exact hknone m hm
    have hjnotp : j ∉ bt.ids := fun hm => by
      have := hmemle j hm
      omega
    have hj0p : j ≠ 0 := by omega
    have hjlenp : j ≤ tp.store.length := by
      rw [hlenp]
    obtain ⟨t', bt', hrun, hw', hord', hrb', hlen', hsize', hless', hperm', hkv'⟩ :=
      insertNode_preserves hwp hordp (show StrictLess tp.less from hsl) hrbp
        hj0p hjlenp hjnotp (by rw [hndpj]) hkne_p
    refine ⟨t', bt', ?_, hw', hord', hrb', by rw [hless']; rfl,
      Or.inr ⟨hknone, j, hjnotp, hperm', ?_, ?_, ?_, ?_, ?_⟩⟩
    · unfold setOp findNode
      rw [hfind]
      show (if (0 : Nat) = 0 then insertNode (pushNode t k v).1 (pushNode t k v).2
        else some (setVal t 0 v)) = some t'
      rw [if_pos rfl]
      show insertNode tp j = some t'
      exact hrun
    · rw [hsize', hsizep]
    · rw [hlen', hlenp]
    · exact (hkv' j).1.trans hkvj.1
    · exact (hkv' j).2.trans hkvj.2
    · intro m hm
      exact ⟨(hkv' m).1.trans (by rw [hndp m (hmemle m hm)]),
        (hkv' m).2.trans (by rw [hndp m (hmemle m hm)])⟩
  · -- hit: overwrite the value in place
    rcases hpost with h | ⟨hmem, hkey⟩
    · exact absurd h hi0
    have hilen : i ≤ t.store.length := (reprT_ids_pos hw.repr i hmem).2
    refine ⟨setVal t i v, bt, ?_, ?_, ?_, ?_, setVal_less t i v,
      Or.inl ⟨i, hmem, hkey, rfl, setVal_size t i v, setVal_length t i v,
        fun m => setVal_key t i v m, fun m hm => setVal_val_ne t i v m hm,
        setVal_val_self t i v hi0 hilen⟩⟩
    · unfold setOp findNode
      rw [hfind]
      show (if i = 0 then insertNode (pushNode t k v).1 (pushNode t k v).2
        else some (setVal t i v)) = some (setVal t i v)
      rw [if_neg hi0]
    · refine ⟨?_, hw.nodup, ?_⟩
      · rw [setVal_root]
        refine reprT_congr hw.repr ?_
        intro m hm
        exact ⟨setVal_left t i v m, setVal_right t i v m,
          by rw [setVal_length]; exact (reprT_ids_pos hw.repr m hm).2⟩
      · exact parentOk_congr hw.par (fun m _ => setVal_parent t i v m)
    · exact ordT_congr (setVal_less t i v) hord (fun m _ => setVal_key t i v m)
    · show (nd (setVal t i v) ((setVal t i v).root)).black = true
      rw [setVal_root, setVal_black]
      exact hrb

theorem depthOf_le_any : ∀ (bt : BT) (x : Nat), depthOf bt x ≤ bt.ids.length := by
  intro bt
  induction bt with
  | leaf => intro x; simp [depthOf]
  | node l m r ihl ihr =>
      intro x
      have hlen : (BT.node l m r).ids.length = l.ids.length + 1 + r.ids.length := by
        simp [BT.ids]; omega
      by_cases hxm : x = m
      · rw [depthOf, if_pos hxm]; omega
      · rw [depthOf, if_neg hxm]
        by_cases hxl : x ∈ l.ids
        · rw [if_pos hxl]
          have := ihl x
          omega
        · rw [if_neg hxl]
          have := ihr x
          omega

theorem dropLeftmost_ids : ∀ (R : BT), (dropLeftmost R).ids = R.ids.tail := by
  intro R
  induction R with
  | leaf => rfl
  | node l m r ihl =>
      cases l with
      | leaf => simp [dropLeftmost, BT.ids]
      | node a b c =>
          show (BT.node (dropLeftmost (BT.node a b c)) m r).ids = _
          rw [BT.ids, ihl]
          conv_rhs => rw [BT.ids]
          cases hids : (BT.node a b c).ids with
          | nil => simp [BT.ids] at hids
          | cons y ys => simp

theorem ordT_dropLeftmost {t : Tree K V} (hsl : StrictLess t.less) :
    ∀ (R : BT) (nx : Nat) (rest : List Nat) (lo hi : Option K),
      OrdT t lo hi R → R.ids = nx :: rest →
      loOk t.less lo ((nd t nx).key) ∧
      OrdT t (some ((nd t nx).key)) hi (dropLeftmost R) := by
  intro R
  induction R with
  | leaf => intro nx rest lo hi _ hids; simp [BT.ids] at hids
  | node l m r ihl =>
      intro nx rest lo hi hord hids
      obtain ⟨h1, h2, h3, h4⟩ := hord
      cases l with
      | leaf =>
          rw [BT.ids] at hids
          simp only [BT.ids, List.nil_append] at hids
          cases hids
          exact ⟨h1, h4⟩
      | node a b c =>
          have hlne : (BT.node a b c).ids ≠ [] := by simp [BT.ids]
          rw [BT.ids] at hids
          cases hlids : (BT.node a b c).ids with
          | nil => exact absurd hlids hlne
          | cons y ys =>
              rw [hlids] at hids
              have hy : y = nx := by
                have := hids
                simp at this
                exact this.1
              subst hy
              have hymem : y ∈ (BT.node a b c).ids := by rw [hlids]; simp
              obtain ⟨g1, g2⟩ := ihl y ys lo (some ((nd t m).key)) h3 hlids
              refine ⟨g1, ?_, ?_, ?_, ?_⟩
              · exact (ordT_keys hsl h3 y hymem).2
              · exact h2
              · exact g2
              · exact h4

set_option maxHeartbeats 4000000 in
theorem dropLeftmost_build {t : Tree K V} :
    ∀ (R : BT) (rR q : Nat), ReprT t rR R → R.ids.Nodup → ParentOk t R q →
      rR ≠ 0 → q ∉ R.ids →
      ∃ nx rest, R.ids = nx :: rest ∧ nx ≠ 0 ∧ (nd t nx).left = 0 ∧
        ((nd t nx).right ≠ 0 → (nd t ((nd t nx).right)).parent = nx) ∧
        ((nd t nx).right ≠ 0 → (nd t nx).right ∈ R.ids) ∧
        ((nx = rR ∧ (nd t nx).parent = q) ∨
          (nx ≠ rR ∧ (nd t nx).parent ∈ R.ids ∧
            (nd t ((nd t nx).parent)).left = nx)) ∧
        ∀ (t' : Tree K V),
          (nx ≠ rR → (nd t' ((nd t nx).parent)).left = (nd t nx).right) →
          (nx ≠ rR → (nd t nx).right ≠ 0 →
            (nd t' ((nd t nx).right)).parent = (nd t nx).parent) →
          (∀ j ∈ R.ids, j ≠ nx → j ≠ (nd t nx).parent →
            (nd t' j).left = (nd t j).left) →
          (∀ j ∈ R.ids, j ≠ nx → (nd t' j).right = (nd t j).right) →
          (∀ j ∈ R.ids, j ≠ nx → j ≠ (nd t nx).right → j ≠ rR →
            (nd t' j).parent = (nd t j).parent) →
          (∀ j ∈ R.ids, j ≤ t'.store.length) →
          ReprT t' (if nx = rR then (nd t nx).right else rR) (dropLeftmost R) ∧
          (∀ p', (nd t' (if nx = rR then (nd t nx).right else rR)).parent = p' →
            ParentOk t' (dropLeftmost R) p') := by
  intro R
  induction R with
  | leaf => intro rR q h _ _ hr0 _; exact absurd (reprT_leaf_root h) hr0
  | node l m r ihl ihr =>
      intro rR q h hnd hpar hr0 hqnot
      cases h with
      | node h0 hlen hl hr =>
        obtain ⟨hpj, hpl, hpr⟩ := hpar
        rw [BT.ids, List.nodup_append] at hnd
        obtain ⟨ndl, ndmr, hdisj⟩ := hnd
        rw [List.nodup_cons] at ndmr
        obtain ⟨hmr, ndr⟩ := ndmr
        have hml : m ∉ l.ids := fun hm => hdisj hm (List.mem_cons_self m r.ids)
        cases l with
        | leaf =>
            have hmleft : (nd t m).left = 0 := reprT_leaf_root hl
            refine ⟨m, r.ids, by simp [BT.ids], h0, hmleft, ?_, ?_,
              Or.inl ⟨rfl, hpj⟩, ?_⟩
            · intro hrz
              obtain ⟨r1, r2, hreq, -, -, -⟩ := reprT_pos hr hrz
              rw [hreq] at hpr
              exact hpr.1
            · intro hrz
              simp [BT.ids, reprT_root_mem hr hrz]
            · intro t' h1 h2 h3 h4 h5 h6
              have hif : (if m = m then (nd t m).right else m) = (nd t m).right :=
                if_pos rfl
              rw [hif]
              constructor
              · show ReprT t' ((nd t m).right) r
                refine reprT_congr hr ?_
                intro j hj
                have hjm : j ≠ m := fun hh => hmr (hh ▸ hj)
                have hjq : j ≠ (nd t m).parent := by
                  rw [hpj]
                  intro hh
                  exact hqnot (hh ▸ (by simp [BT.ids, hj]))
                exact ⟨h3 j (by simp [BT.ids, hj]) hjm hjq,
                  h4 j (by simp [BT.ids, hj]) hjm, h6 j (by simp [BT.ids, hj])⟩
              · intro p' hp'
                show ParentOk t' r p'
                by_cases hrz : (nd t m).right = 0
                · have : r = .leaf := reprT_zero (hrz ▸ hr)
                  rw [this]
                  trivial
                · obtain ⟨r1, r2, hreq, -, hr1, hr2⟩ := reprT_pos hr hrz
                  subst hreq
                  obtain ⟨-, hpr1, hpr2⟩ := hpr
                  rw [BT.ids, List.nodup_append, List.nodup_cons] at ndr
                  obtain ⟨ndr1, ⟨hrr2, ndr2⟩, hdisjr⟩ := ndr
                  have hrr1 : (nd t m).right ∉ r1.ids := fun hm =>
                    hdisjr hm (List.mem_cons_self _ _)
                  refine ⟨hp', ?_, ?_⟩
                  · refine parentOk_congr hpr1 ?_
                    intro j hj
                    have hjmem : j ∈ (BT.node r1 ((nd t m).right) r2).ids := by
                      simp [BT.ids, hj]
                    refine h5 j (by simp [BT.ids]; tauto) ?_ ?_ ?_
                    · exact fun hh => hmr (hh ▸ hjmem)
                    · exact fun hh => hrr1 (hh ▸ hj)
                    · exact fun hh => hmr (hh ▸ hjmem)
                  · refine parentOk_congr hpr2 ?_
                    intro j hj
                    have hjmem : j ∈ (BT.node r1 ((nd t m).right) r2).ids := by
                      simp [BT.ids, hj]
                    refine h5 j (by simp [BT.ids]; tauto) ?_ ?_ ?_
                    · exact fun hh => hmr (hh ▸ hjmem)
                    · exact fun hh => hrr2 (hh ▸ hj)
                    · exact fun hh => hmr (hh ▸ hjmem)
        | node a b c =>
            have hbl : (nd t m).left = b := reprT_root_eq hl
            have hb0 : b ≠ 0 :=
              (reprT_ids_pos hl b (by simp [BT.ids])).1
            obtain ⟨nx, rest, hidsl, hnx0, hnxleft, hnxrp, hnxrmem, hside, hbuild⟩ :=
              ihl b m (hbl ▸ hl) ndl (hbl ▸ hpl) hb0 hml
            have hnxlblids : nx ∈ (BT.node a b c).ids := by rw [hidsl]; simp
            have hnxm : nx ≠ m := fun hh => hml (hh ▸ hnxlblids)
            refine ⟨nx, rest ++ m :: r.ids, by rw [BT.ids, hidsl]; simp, hnx0,
              hnxleft, hnxrp, ?_, ?_, ?_⟩
            · intro hrz
              have hhm := hnxrmem hrz
              simp [BT.ids] at hhm ⊢
              tauto
            · rcases hside with ⟨hnxb, hpq⟩ | ⟨hnxb, hpmem, hpleft⟩
              · refine Or.inr ⟨hnxm, ?_, ?_⟩
                · rw [hpq]
                  simp [BT.ids]
                · rw [hpq, hbl, ← hnxb]
              · refine Or.inr ⟨hnxm, ?_, hpleft⟩
                have hpm := hpmem
                simp [BT.ids] at hpm ⊢
                tauto
            · intro t' h1 h2 h3 h4 h5 h6
              have hmema : ∀ j ∈ (BT.node a b c).ids,
                  j ∈ (BT.node (BT.node a b c) m r).ids := by
                intro j hj
                simp [BT.ids] at hj ⊢
                tauto
              obtain ⟨hrepl', hparl'⟩ := hbuild t'
                (fun _ => h1 hnxm)
                (fun _ hrz => h2 hnxm hrz)
                (fun j hj hj1 hj2 => h3 j (hmema j hj) hj1 hj2)
                (fun j hj hj1 => h4 j (hmema j hj) hj1)
                (fun j hj hj1 hj2 _ => h5 j (hmema j hj) hj1 hj2
                  (fun hh => hml (hh ▸ hj)))
                (fun j hj => h6 j (hmema j hj))
              rw [if_neg hnxm]
              have hnxb_of : nx ≠ b → (nd t nx).parent ∈ (BT.node a b c).ids := by
                intro hne
                rcases hside with ⟨hnxb, -⟩ | ⟨-, hpmem, -⟩
                · exact absurd hnxb hne
                · exact hpmem
              have hmL : (nd t' m).left =
                  (if nx = b then (nd t nx).right else b) := by
                by_cases hnxb : nx = b
                · rw [if_pos hnxb]
                  rcases hside with ⟨-, hpq⟩ | ⟨hne, -, -⟩
                  · have := h1 hnxm
                    rw [hpq] at this
                    exact this
                  · exact absurd hnxb hne
                · rw [if_neg hnxb]
                  rw [h3 m (by simp [BT.ids]) (Ne.symm hnxm)
                    (fun hh => hml (hh ▸ hnxb_of hnxb))]
                  exact hbl
              constructor
              · show ReprT t' m (BT.node (dropLeftmost (BT.node a b c)) m r)
                refine ReprT.node h0 (h6 m (by simp [BT.ids])) ?_ ?_
                · rw [hmL]
                  exact hrepl'
                · rw [h4 m (by simp [BT.ids]) (Ne.symm hnxm)]
                  refine reprT_congr hr ?_
                  intro j hj
                  have hjm : j ≠ m := fun hh => hmr (hh ▸ hj)
                  have hjmem : j ∈ (BT.node (BT.node a b c) m r).ids := by
                    simp [BT.ids]
                    tauto
                  have hjnx : j ≠ nx := fun hh =>
                    hdisj (hh ▸ hnxlblids) (List.mem_cons_of_mem m hj)
                  have hjp : j ≠ (nd t nx).parent := by
                    rcases hside with ⟨hnxb, hpq⟩ | ⟨hnxb, hpmem, hpleft⟩
                    · rw [hpq]; exact hjm
                    · exact fun hh => hdisj (hh ▸ hpmem) (List.mem_cons_of_mem m hj)
                  exact ⟨h3 j hjmem hjnx hjp, h4 j hjmem hjnx, h6 j hjmem⟩
              · intro p' hp'
                refine ⟨hp', ?_, ?_⟩
                · by_cases hch0 : (if nx = b then (nd t nx).right else b) = 0
                  · have hdl : dropLeftmost (BT.node a b c) = .leaf := by
                      have := hrepl'
                      rw [hch0] at this
                      exact reprT_zero this
                    rw [hdl]
                    trivial
                  · refine hparl' m ?_
                    by_cases hnxb : nx = b
                    · rw [if_pos hnxb] at hch0 ⊢
                      rcases hside with ⟨-, hpq⟩ | ⟨hne, -, -⟩
                      · rw [h2 hnxm hch0, hpq]
                      · exact absurd hnxb hne
                    · rw [if_neg hnxb] at hch0 ⊢
                      have hbmem : b ∈ (BT.node a b c).ids := by simp [BT.ids]
                      have hbnx : b ≠ nx := fun hh => hnxb hh.symm
                      have hbnr : b ≠ (nd t nx).right := by
                        intro hh
                        by_cases hrz : (nd t nx).right = 0
                        · rw [hrz] at hh
                          exact hb0 hh
                        · have ha := hnxrp hrz
                          rw [← hh] at ha
                          rw [hpl.1] at ha
                          exact hnxm ha.symm
                      rw [h5 b (hmema b hbmem) hbnx hbnr
                        (fun hh => hml (hh ▸ hbmem))]
                      exact hpl.1
                · by_cases hrz : (nd t m).right = 0
                  · have : r = .leaf := reprT_zero (hrz ▸ hr)
                    rw [this]
                    trivial
                  · obtain ⟨r1, r2, hreq, -, hr1, hr2⟩ := reprT_pos hr hrz
                    subst hreq
                    obtain ⟨hprr, hpr1, hpr2⟩ := hpr
                    rw [BT.ids, List.nodup_append, List.nodup_cons] at ndr
                    obtain ⟨ndr1, ⟨hrr2, ndr2⟩, hdisjr⟩ := ndr
                    have hrr1 : (nd t m).right ∉ r1.ids := fun hm =>
                      hdisjr hm (List.mem_cons_self _ _)
                    have hmemr : ∀ j ∈ (BT.node r1 ((nd t m).right) r2).ids,
                        j ∈ (BT.node (BT.node a b c) m
                          (BT.node r1 ((nd t m).right) r2)).ids := by
                      intro j hj
                      simp [BT.ids] at hj ⊢
                      tauto
                    have hcond : ∀ j ∈ (BT.node r1 ((nd t m).right) r2).ids,
                        (nd t' j).parent = (nd t j).parent := by
                      intro j hj
                      have hjm : j ≠ m := fun hh => hmr (hh ▸ hj)
                      have hjnx : j ≠ nx := fun hh =>
                        hdisj (hh ▸ hnxlblids) (List.mem_cons_of_mem m hj)
                      have hjr : j ≠ (nd t nx).right := by
                        intro hh
                        by_cases hnr0 : (nd t nx).right = 0
                        · rw [hnr0] at hh
                          have := (reprT_ids_pos hr j hj).1
                          exact this hh
                        · exact hdisj (hh ▸ hnxrmem hnr0)
                            (List.mem_cons_of_mem m hj)
                      exact h5 j (hmemr j hj) hjnx hjr hjm
                    refine ⟨?_, ?_, ?_⟩
                    · rw [hcond ((nd t m).right) (by simp [BT.ids])]
                      exact hprr
                    · exact parentOk_congr hpr1 (fun j hj =>
                        hcond j (by simp [BT.ids]; tauto))
                    · exact parentOk_congr hpr2 (fun j hj =>
                        hcond j (by simp [BT.ids]; tauto))

theorem delFix_terminalL {t : Tree K V} {bt : BT} (hw : WFT t bt)
    (hord : OrdT t none none bt) (hsl : StrictLess t.less)
    (hrb : isBlack t t.root = true) {p : Nat} (hp : p ∈ bt.ids)
    (hrz : (nd t p).right ≠ 0)
    {t3 t4 t5 : Tree K V}
    (h3 : t3 = setCol t ((nd t p).right) (isBlack t p))
    (h4 : t4 = setCol t3 ((nd t3 ((nd t p).right)).right) true)
    (h5 : t5 = setCol t4 p true) :
    ∃ bt', WFT (leftRotate t5 p) bt' ∧ OrdT (leftRotate t5 p) none none bt' ∧
      bt'.ids = bt.ids ∧ (leftRotate t5 p).store.length = t.store.length ∧
      (leftRotate t5 p).size = t.size ∧ (leftRotate t5 p).less = t.less ∧
      (∀ m, (nd (leftRotate t5 p) m).key = (nd t m).key ∧
        (nd (leftRotate t5 p) m).val = (nd t m).val) ∧
      isBlack (leftRotate t5 p) (leftRotate t5 p).root = true := by
  set bro := (nd t p).right with hbro
  obtain ⟨A, R, pp, hsub, hrepP, hparP, hppeq, hA, hR, hpA, hpR, hnds, hpcase, hp0, hplen⟩ :=
    pos_facts hw hp
  obtain ⟨B1, C1, hReq, -, hB1, hC1⟩ := reprT_pos hR hrz
  rw [hReq] at hpR
  obtain ⟨hbrop, hpB1, hpC1⟩ := hpR
  rw [← hbro] at hbrop
  have hbro0 : bro ≠ 0 := hrz
  have hbromem : bro ∈ bt.ids :=
    subAtP_sub_mem hsub bro (by rw [hReq]; simp [BT.ids])
  have hbrolen : bro ≤ t.store.length := (reprT_ids_pos hw.repr bro hbromem).2
  have hbroR : bro ∈ R.ids := reprT_root_mem hR hbro0
  have hpbro : p ≠ bro := by
    intro hh
    rw [BT.ids, List.nodup_append, List.nodup_cons] at hnds
    exact hnds.2.1.1 (hh ▸ hbroR)
  set cr := (nd t bro).right with hcr
  have hcrpar : cr ≠ 0 → (nd t cr).parent = bro := by
    intro hcz
    obtain ⟨c1, c2, hCeq, -, -, -⟩ := reprT_pos hC1 hcz
    rw [hCeq] at hpC1
    exact hpC1.1
  have hbrocr : bro ≠ cr := by
    intro hh
    by_cases hcz : cr = 0
    · exact hbro0 (hh.trans hcz)
    · have h1 := hcrpar hcz
      rw [← hh] at h1
      rw [hbrop] at h1
      exact hpbro h1
  have hr0 : t.root ≠ 0 := by
    intro hz
    have hleaf := reprT_zero (hz ▸ hw.repr)
    rw [hleaf] at hp
    simp [BT.ids] at hp
  have hrootpar : (nd t t.root).parent = 0 := wft_root_parent hw hr0
  have hbronroot : bro ≠ t.root := by
    intro hh
    rw [hh, hrootpar] at hbrop
    exact hp0 hbrop.symm
  have hcrnroot : cr ≠ t.root := by
    intro hh
    by_cases hcz : cr = 0
    · exact hr0 (hh ▸ hcz)
    · have h1 := hcrpar hcz
      rw [hh, hrootpar] at h1
      exact hbro0 h1.symm
  have h3br : (nd t3 bro).right = cr := by rw [h3, setCol_right]
  rw [h3br] at h4
  have h5right : (nd t5 p).right = bro := by
    rw [h5, h4, h3, setCol_right, setCol_right, setCol_right]
  have hw5 : WFT t5 bt := by
    rw [h5, h4, h3]
    exact wft_setCol _ _ _ (wft_setCol _ _ _ (wft_setCol _ _ _ hw))
  have hord5 : OrdT t5 none none bt := by
    rw [h5, h4, h3]
    exact ordT_setCol _ _ _ (ordT_setCol _ _ _ (ordT_setCol _ _ _ hord))
  have hless5 : t5.less = t.less := by
    rw [h5, h4, h3, setCol_less, setCol_less, setCol_less]
  have hlen5 : t5.store.length = t.store.length := by
    rw [h5, h4, h3, setCol_length, setCol_length, setCol_length]
  have hsize5 : t5.size = t.size := by
    rw [h5, h4, h3, setCol_size, setCol_size, setCol_size]
  have hroot5 : t5.root = t.root := by
    rw [h5, h4, h3, setCol_root, setCol_root, setCol_root]
  have hsl5 : StrictLess t5.less := hless5 ▸ hsl
  have hrz5 : (nd t5 p).right ≠ 0 := by rw [h5right]; exact hrz
  obtain ⟨A6, B6, C6, p6, hsub6, hw6, hids6, hroot6, hlen6, hsize6, hless6,
    hkvb6, hparX6, hparO6, hxL6, hxR6, hcL6, hcR6, hpxIf6, hord6⟩ :=
    leftRotate_spec hw5 hp hrz5
  refine ⟨_, hw6, hord6 hsl5 hord5, hids6, hlen6.trans hlen5,
    hsize6.trans hsize5, hless6.trans hless5, ?_, ?_⟩
  · intro m
    have hk5 : (nd t5 m).key = (nd t m).key := by
      rw [h5, h4, h3, setCol_key, setCol_key, setCol_key]
    have hv5 : (nd t5 m).val = (nd t m).val := by
      rw [h5, h4, h3, setCol_val, setCol_val, setCol_val]
    exact ⟨(hkvb6 m).1.trans hk5, (hkvb6 m).2.1.trans hv5⟩
  · rw [isBlack, hroot6, hroot5]
    by_cases hpr : p = t.root
    · rw [if_pos hpr, h5right, (hkvb6 bro).2.2]
      rw [h5, setCol_black_ne _ _ _ _ (Ne.symm hpbro),
        h4, setCol_black_ne _ _ _ _ hbrocr,
        h3, setCol_black_self _ _ _ hbro0 hbrolen]
      rw [hpr]
      exact hrb
    · rw [if_neg hpr, (hkvb6 t.root).2.2]
      rw [h5, setCol_black_ne _ _ _ _ (fun hh => hpr hh.symm),
        h4, setCol_black_ne _ _ _ _ (fun hh => hcrnroot hh.symm),
        h3, setCol_black_ne _ _ _ _ (fun hh => hbronroot hh.symm)]
      exact hrb

theorem delFix_terminalR {t : Tree K V} {bt : BT} (hw : WFT t bt)
    (hord : OrdT t none none bt) (hsl : StrictLess t.less)
    (hrb : isBlack t t.root = true) {p : Nat} (hp : p ∈ bt.ids)
    (hlz : (nd t p).left ≠ 0)
    {t3 t4 t5 : Tree K V}
    (h3 : t3 = setCol t ((nd t p).left) (isBlack t p))
    (h4 : t4 = setCol t3 ((nd t3 ((nd t p).left)).left) true)
    (h5 : t5 = setCol t4 p true) :
    ∃ bt', WFT (rightRotate t5 p) bt' ∧ OrdT (rightRotate t5 p) none none bt' ∧
      bt'.ids = bt.ids ∧ (rightRotate t5 p).store.length = t.store.length ∧
      (rightRotate t5 p).size = t.size ∧ (rightRotate t5 p).less = t.less ∧
      (∀ m, (nd (rightRotate t5 p) m).key = (nd t m).key ∧
        (nd (rightRotate t5 p) m).val = (nd t m).val) ∧
      isBlack (rightRotate t5 p) (rightRotate t5 p).root = true := by
  set bro := (nd t p).left with hbro
  obtain ⟨A, R, pp, hsub, hrepP, hparP, hppeq, hA, hR, hpA, hpR, hnds, hpcase, hp0, hplen⟩ :=
    pos_facts hw hp
  obtain ⟨B1, C1, hAeq, -, hB1, hC1⟩ := reprT_pos hA hlz
  rw [hAeq] at hpA
  obtain ⟨hbrop, hpB1, hpC1⟩ := hpA
  rw [← hbro] at hbrop
  have hbro0 : bro ≠ 0 := hlz
  have hbromem : bro ∈ bt.ids :=
    subAtP_sub_mem hsub bro (by rw [hAeq]; simp [BT.ids])
  have hbrolen : bro ≤ t.store.length := (reprT_ids_pos hw.repr bro hbromem).2
  have hbroA : bro ∈ A.ids := reprT_root_mem hA hbro0
  have hpbro : p ≠ bro := by
    intro hh
    rw [BT.ids, List.nodup_append, List.nodup_cons] at hnds
    exact hnds.2.2 (hh ▸ hbroA) (List.mem_cons_self _ _)
  set cl := (nd t bro).left with hcl
  have hclpar : cl ≠ 0 → (nd t cl).parent = bro := by
    intro hcz
    obtain ⟨c1, c2, hBeq, -, -, -⟩ := reprT_pos hB1 hcz
    rw [hBeq] at hpB1
    exact hpB1.1
  have hbrocl : bro ≠ cl := by
    intro hh
    by_cases hcz : cl = 0
    · exact hbro0 (hh.trans hcz)
    · have h1 := hclpar hcz
      rw [← hh] at h1
      rw [hbrop] at h1
      exact hpbro h1
  have hr0 : t.root ≠ 0 := by
    intro hz
    have hleaf := reprT_zero (hz ▸ hw.repr)
    rw [hleaf] at hp
    simp [BT.ids] at hp
  have hrootpar : (nd t t.root).parent = 0 := wft_root_parent hw hr0
  have hbronroot : bro ≠ t.root := by
    intro hh
    rw [hh, hrootpar] at hbrop
    exact hp0 hbrop.symm
  have hclnroot : cl ≠ t.root := by
    intro hh
    by_cases hcz : cl = 0
    · exact hr0 (hh ▸ hcz)
    · have h1 := hclpar hcz
      rw [hh, hrootpar] at h1
      exact hbro0 h1.symm
  have h3bl : (nd t3 bro).left = cl := by rw [h3, setCol_left]
  rw [h3bl] at h4
  have h5left : (nd t5 p).left = bro := by
    rw [h5, h4, h3, setCol_left, setCol_left, setCol_left]
  have hw5 : WFT t5 bt := by
    rw [h5, h4, h3]
    exact wft_setCol _ _ _ (wft_setCol _ _ _ (wft_setCol _ _ _ hw))
  have hord5 : OrdT t5 none none bt := by
    rw [h5, h4, h3]
    exact ordT_setCol _ _ _ (ordT_setCol _ _ _ (ordT_setCol _ _ _ hord))
  have hless5 : t5.less = t.less := by
    rw [h5, h4, h3, setCol_less, setCol_less, setCol_less]
  have hlen5 : t5.store.length = t.store.length := by
    rw [h5, h4, h3, setCol_length, setCol_length, setCol_length]
  have hsize5 : t5.size = t.size := by
    rw [h5, h4, h3, setCol_size, setCol_size, setCol_size]
  have hroot5 : t5.root = t.root := by
    rw [h5, h4, h3, setCol_root, setCol_root, setCol_root]
  have hsl5 : StrictLess t5.less := hless5 ▸ hsl
  have hlz5 : (nd t5 p).left ≠ 0 := by rw [h5left]; exact hlz
  obtain ⟨A6, B6, C6, p6, hsub6, hw6, hids6, hroot6, hlen6, hsize6, hless6,
    hkvb6, hparX6, hparO6, hxR6, hxL6, hcR6, hcL6, hpxIf6, hord6⟩ :=
    rightRotate_spec hw5 hp hlz5
  refine ⟨_, hw6, hord6 hsl5 hord5, hids6, hlen6.trans hlen5,
    hsize6.trans hsize5, hless6.trans hless5, ?_, ?_⟩
  · intro m
    have hk5 : (nd t5 m).key = (nd t m).key := by
      rw [h5, h4, h3, setCol_key, setCol_key, setCol_key]
    have hv5 : (nd t5 m).val = (nd t m).val := by
      rw [h5, h4, h3, setCol_val, setCol_val, setCol_val]
    exact ⟨(hkvb6 m).1.trans hk5, (hkvb6 m).2.1.trans hv5⟩
  · rw [isBlack, hroot6, hroot5]
    by_cases hpr : p = t.root
    · rw [if_pos hpr, h5left, (hkvb6 bro).2.2]
      rw [h5, setCol_black_ne _ _ _ _ (Ne.symm hpbro),
        h4, setCol_black_ne _ _ _ _ hbrocl,
        h3, setCol_black_self _ _ _ hbro0 hbrolen]
      rw [hpr]
      exact hrb
    · rw [if_neg hpr, (hkvb6 t.root).2.2]
      rw [h5, setCol_black_ne _ _ _ _ (fun hh => hpr hh.symm),
        h4, setCol_black_ne _ _ _ _ (fun hh => hclnroot hh.symm),
        h3, setCol_black_ne _ _ _ _ (fun hh => hbronroot hh.symm)]
      exact hrb


theorem delFix_preL {t : Tree K V} {bt : BT} (hw : WFT t bt)
    (hord : OrdT t none none bt) (hsl : StrictLess t.less)
    (hrb : isBlack t t.root = true) {p : Nat} (hp : p ∈ bt.ids)
    (hbred : isRed t ((nd t p).right) = true)
    {t1 : Tree K V}
    (h1 : t1 = leftRotate (setCol (setCol t p false) ((nd t p).right) true) p) :
    ∃ bt1, WFT t1 bt1 ∧ OrdT t1 none none bt1 ∧ bt1.ids = bt.ids ∧
      t1.store.length = t.store.length ∧ t1.size = t.size ∧ t1.less = t.less ∧
      (∀ m, (nd t1 m).key = (nd t m).key ∧ (nd t1 m).val = (nd t m).val) ∧
      isBlack t1 t1.root = true ∧ p ∈ bt1.ids ∧
      (nd t1 p).parent = (nd t p).right ∧
      isBlack t1 p = false := by
  set bro := (nd t p).right with hbro
  have hbro0 : bro ≠ 0 := isRed_ne_zero hbred
  obtain ⟨A, R, pp, hsub, hrepP, hparP, hppeq, hA, hR, hpA, hpR, hnds, hpcase, hp0, hplen⟩ :=
    pos_facts hw hp
  obtain ⟨B1, C1, hReq, -, hB1, hC1⟩ := reprT_pos hR hbro0
  rw [hReq] at hpR
  obtain ⟨hbrop, hpB1, hpC1⟩ := hpR
  rw [← hbro] at hbrop
  have hbroR : bro ∈ R.ids := reprT_root_mem hR hbro0
  have hpbro : p ≠ bro := by
    intro hh
    rw [BT.ids, List.nodup_append, List.nodup_cons] at hnds
    exact hnds.2.1.1 (hh ▸ hbroR)
  have hr0 : t.root ≠ 0 := by
    intro hz
    have hleaf := reprT_zero (hz ▸ hw.repr)
    rw [hleaf] at hp
    simp [BT.ids] at hp
  have hrootpar : (nd t t.root).parent = 0 := wft_root_parent hw hr0
  have hbronroot : bro ≠ t.root := by
    intro hh
    rw [hh, hrootpar] at hbrop
    exact hp0 hbrop.symm
  have hbrolen : bro ≤ t.store.length := (reprT_ids_pos hR bro hbroR).2
  set ta := setCol t p false with hta
  set tb := setCol ta bro true with htb
  have hwb : WFT tb bt := wft_setCol _ _ _ (wft_setCol _ _ _ hw)
  have hordb : OrdT tb none none bt := ordT_setCol _ _ _ (ordT_setCol _ _ _ hord)
  have hlessb : tb.less = t.less := by rw [htb, hta, setCol_less, setCol_less]
  have hlenb : tb.store.length = t.store.length := by
    rw [htb, hta, setCol_length, setCol_length]
  have hsizeb : tb.size = t.size := by rw [htb, hta, setCol_size, setCol_size]
  have hrootb : tb.root = t.root := by rw [htb, hta, setCol_root, setCol_root]
  have hslb : StrictLess tb.less := hlessb ▸ hsl
  have hbr : (nd tb p).right = bro := by rw [htb, hta, setCol_right, setCol_right]
  have hrzb : (nd tb p).right ≠ 0 := by rw [hbr]; exact hbro0
  obtain ⟨A6, B6, C6, p6, hsub6, hw6, hids6, hroot6, hlen6, hsize6, hless6,
    hkvb6, hparX6, hparO6, hxL6, hxR6, hcL6, hcR6, hpxIf6, hord6⟩ :=
    leftRotate_spec hwb hp hrzb
  subst h1
  refine ⟨_, hw6, hord6 hslb hordb, hids6, hlen6.trans hlenb, hsize6.trans hsizeb,
    hless6.trans hlessb, ?_, ?_, ?_, ?_, ?_⟩
  · intro m
    have hk : (nd tb m).key = (nd t m).key := by rw [htb, hta, setCol_key, setCol_key]
    have hv : (nd tb m).val = (nd t m).val := by rw [htb, hta, setCol_val, setCol_val]
    exact ⟨(hkvb6 m).1.trans hk, (hkvb6 m).2.1.trans hv⟩
  · rw [isBlack, hroot6, hrootb]
    by_cases hpr : p = t.root
    · rw [if_pos hpr, hbr, (hkvb6 bro).2.2]
      rw [htb]
      exact setCol_black_self _ _ _ hbro0 (by rw [hta, setCol_length]; exact hbrolen)
    · rw [if_neg hpr, (hkvb6 t.root).2.2]
      rw [htb, setCol_black_ne _ _ _ _ (fun hh => hbronroot hh.symm),
        hta, setCol_black_ne _ _ _ _ (fun hh => hpr hh.symm)]
      exact hrb
  · rw [hids6]
    exact hp
  · rw [hparX6, hbr]
  · rw [isBlack, (hkvb6 p).2.2]
    rw [htb, setCol_black_ne _ _ _ _ hpbro, hta]
    rw [setCol_black_self _ _ _ hp0 hplen]

theorem delFix_preR {t : Tree K V} {bt : BT} (hw : WFT t bt)
    (hord : OrdT t none none bt) (hsl : StrictLess t.less)
    (hrb : isBlack t t.root = true) {p : Nat} (hp : p ∈ bt.ids)
    (hbred : isRed t ((nd t p).left) = true)
    {t1 : Tree K V}
    (h1 : t1 = rightRotate (setCol (setCol t p false) ((nd t p).left) true) p) :
    ∃ bt1, WFT t1 bt1 ∧ OrdT t1 none none bt1 ∧ bt1.ids = bt.ids ∧
      t1.store.length = t.store.length ∧ t1.size = t.size ∧ t1.less = t.less ∧
      (∀ m, (nd t1 m).key = (nd t m).key ∧ (nd t1 m).val = (nd t m).val) ∧
      isBlack t1 t1.root = true ∧ p ∈ bt1.ids ∧
      (nd t1 p).parent = (nd t p).left ∧
      isBlack t1 p = false := by
  set bro := (nd t p).left with hbro
  have hbro0 : bro ≠ 0 := isRed_ne_zero hbred
  obtain ⟨A, R, pp, hsub, hrepP, hparP, hppeq, hA, hR, hpA, hpR, hnds, hpcase, hp0, hplen⟩ :=
    pos_facts hw hp
  obtain ⟨B1, C1, hAeq, -, hB1, hC1⟩ := reprT_pos hA hbro0
  rw [hAeq] at hpA
  obtain ⟨hbrop, hpB1, hpC1⟩ := hpA
  rw [← hbro] at hbrop
  have hbroA : bro ∈ A.ids := reprT_root_mem hA hbro0
  have hpbro : p ≠ bro := by
    intro hh
    rw [BT.ids, List.nodup_append, List.nodup_cons] at hnds
    exact hnds.2.2 (hh ▸ hbroA) (List.mem_cons_self _ _)
  have hr0 : t.root ≠ 0 := by
    intro hz
    have hleaf := reprT_zero (hz ▸ hw.repr)
    rw [hleaf] at hp
    simp [BT.ids] at hp
  have hrootpar : (nd t t.root).parent = 0 := wft_root_parent hw hr0
  have hbronroot : bro ≠ t.root := by
    intro hh
    rw [hh, hrootpar] at hbrop
    exact hp0 hbrop.symm
  have hbrolen : bro ≤ t.store.length := (reprT_ids_pos hA bro hbroA).2
  set ta := setCol t p false with hta
  set tb := setCol ta bro true with htb
  have hwb : WFT tb bt := wft_setCol _ _ _ (wft_setCol _ _ _ hw)
  have hordb : OrdT tb none none bt := ordT_setCol _ _ _ (ordT_setCol _ _ _ hord)
  have hlessb : tb.less = t.less := by rw [htb, hta, setCol_less, setCol_less]
  have hlenb : tb.store.length = t.store.length := by
    rw [htb, hta, setCol_length, setCol_length]
  have hsizeb : tb.size = t.size := by rw [htb, hta, setCol_size, setCol_size]
  have hrootb : tb.root = t.root := by rw [htb, hta, setCol_root, setCol_root]
  have hslb : StrictLess tb.less := hlessb ▸ hsl
  have hbl : (nd tb p).left = bro := by rw [htb, hta, setCol_left, setCol_left]
  have hlzb : (nd tb p).left ≠ 0 := by rw [hbl]; exact hbro0
  obtain ⟨A6, B6, C6, p6, hsub6, hw6, hids6, hroot6, hlen6, hsize6, hless6,
    hkvb6, hparX6, hparO6, hxR6, hxL6, hcR6, hcL6, hpxIf6, hord6⟩ :=
    rightRotate_spec hwb hp hlzb
  subst h1
  refine ⟨_, hw6, hord6 hslb hordb, hids6, hlen6.trans hlenb, hsize6.trans hsizeb,
    hless6.trans hlessb, ?_, ?_, ?_, ?_, ?_⟩
  · intro m
    have hk : (nd tb m).key = (nd t m).key := by rw [htb, hta, setCol_key, setCol_key]
    have hv : (nd tb m).val = (nd t m).val := by rw [htb, hta, setCol_val, setCol_val]
    exact ⟨(hkvb6 m).1.trans hk, (hkvb6 m).2.1.trans hv⟩
  · rw [isBlack, hroot6, hrootb]
    by_cases hpr : p = t.root
    · rw [if_pos hpr, hbl, (hkvb6 bro).2.2]
      rw [htb]
      exact setCol_black_self _ _ _ hbro0 (by rw [hta, setCol_length]; exact hbrolen)
    · rw [if_neg hpr, (hkvb6 t.root).2.2]
      rw [htb, setCol_black_ne _ _ _ _ (fun hh => hbronroot hh.symm),
        hta, setCol_black_ne _ _ _ _ (fun hh => hpr hh.symm)]
      exact hrb
  · rw [hids6]
    exact hp
  · rw [hparX6, hbl]
  · rw [isBlack, (hkvb6 p).2.2]
    rw [htb, setCol_black_ne _ _ _ _ hpbro, hta]
    rw [setCol_black_self _ _ _ hp0 hplen]

theorem delFix_innerL {t : Tree K V} {bt : BT} (hw : WFT t bt)
    (hord : OrdT t none none bt) (hsl : StrictLess t.less)
    (hrb : isBlack t t.root = true) {p : Nat} (hp : p ∈ bt.ids)
    (hclb : isBlack t ((nd t ((nd t p).right)).left) = false)
    {t2 : Tree K V}
    (h2 : t2 = rightRotate (setCol (setCol t ((nd t p).right) false)
        ((nd t ((nd t p).right)).left) true) ((nd t p).right)) :
    ∃ bt2, WFT t2 bt2 ∧ OrdT t2 none none bt2 ∧ bt2.ids = bt.ids ∧
      t2.store.length = t.store.length ∧ t2.size = t.size ∧ t2.less = t.less ∧
      (∀ m, (nd t2 m).key = (nd t m).key ∧ (nd t2 m).val = (nd t m).val) ∧
      isBlack t2 t2.root = true ∧ (nd t2 p).right ≠ 0 ∧ p ∈ bt2.ids := by
  set bro := (nd t p).right with hbro
  have hbro0 : bro ≠ 0 := by
    intro hz
    rw [hz] at hclb
    simp [isBlack, nd, nilNode] at hclb
  set bl := (nd t bro).left with hbl
  have hbl0 : bl ≠ 0 := by
    intro hz
    rw [hz] at hclb
    simp [isBlack, nd, nilNode] at hclb
  obtain ⟨A, R, pp, hsub, hrepP, hparP, hppeq, hA, hR, hpA, hpR, hnds, hpcase, hp0, hplen⟩ :=
    pos_facts hw hp
  obtain ⟨B1, C1, hReq, -, hB1, hC1⟩ := reprT_pos hR hbro0
  rw [hReq] at hpR
  obtain ⟨hbrop, hpB1, hpC1⟩ := hpR
  rw [← hbro] at hbrop
  have hbroR : bro ∈ R.ids := reprT_root_mem hR hbro0
  have hbromem : bro ∈ bt.ids :=
    subAtP_sub_mem hsub bro (by rw [hReq]; simp [BT.ids, hbroR])
  have hpbro : p ≠ bro := by
    intro hh
    rw [BT.ids, List.nodup_append, List.nodup_cons] at hnds
    exact hnds.2.1.1 (hh ▸ hbroR)
  have hr0 : t.root ≠ 0 := by
    intro hz
    have hleaf := reprT_zero (hz ▸ hw.repr)
    rw [hleaf] at hp
    simp [BT.ids] at hp
  have hrootpar : (nd t t.root).parent = 0 := wft_root_parent hw hr0
  have hbronroot : bro ≠ t.root := by
    intro hh
    rw [hh, hrootpar] at hbrop
    exact hp0 hbrop.symm
  obtain ⟨b1, b2, hBeq, -, -, -⟩ := reprT_pos hB1 hbl0
  rw [hBeq] at hpB1
  have hblp : (nd t bl).parent = bro := hpB1.1
  have hblnroot : bl ≠ t.root := by
    intro hh
    rw [hh, hrootpar] at hblp
    exact hbro0 hblp.symm
  set ta := setCol t bro false with hta
  set tb := setCol ta bl true with htb
  have hwb : WFT tb bt := wft_setCol _ _ _ (wft_setCol _ _ _ hw)
  have hordb : OrdT tb none none bt := ordT_setCol _ _ _ (ordT_setCol _ _ _ hord)
  have hlessb : tb.less = t.less := by rw [htb, hta, setCol_less, setCol_less]
  have hlenb : tb.store.length = t.store.length := by
    rw [htb, hta, setCol_length, setCol_length]
  have hsizeb : tb.size = t.size := by rw [htb, hta, setCol_size, setCol_size]
  have hrootb : tb.root = t.root := by rw [htb, hta, setCol_root, setCol_root]
  have hslb : StrictLess tb.less := hlessb ▸ hsl
  have hlb : (nd tb bro).left = bl := by rw [htb, hta, setCol_left, setCol_left]
  have hlzb : (nd tb bro).left ≠ 0 := by rw [hlb]; exact hbl0
  obtain ⟨A6, B6, C6, p6, hsub6, hw6, hids6, hroot6, hlen6, hsize6, hless6,
    hkvb6, hparX6, hparO6, hxR6, hxL6, hcR6, hcL6, hpxIf6, hord6⟩ :=
    rightRotate_spec hwb hbromem hlzb
  subst h2
  have hparb : (nd tb bro).parent = p := by
    rw [htb, hta, setCol_parent, setCol_parent]
    exact hbrop
  have hpbright : (nd (rightRotate tb bro) p).right = bl := by
    have hb0 : (nd tb bro).parent ≠ 0 := by rw [hparb]; exact hp0
    obtain ⟨-, hRif⟩ := hpxIf6 hb0
    rw [hparb] at hRif
    rw [hRif]
    have : (nd tb p).right = bro := by rw [htb, hta, setCol_right, setCol_right]
    rw [this, if_pos rfl, hlb]
  refine ⟨_, hw6, hord6 hslb hordb, hids6, hlen6.trans hlenb, hsize6.trans hsizeb,
    hless6.trans hlessb, ?_, ?_, ?_, ?_⟩
  · intro m
    have hk : (nd tb m).key = (nd t m).key := by rw [htb, hta, setCol_key, setCol_key]
    have hv : (nd tb m).val = (nd t m).val := by rw [htb, hta, setCol_val, setCol_val]
    exact ⟨(hkvb6 m).1.trans hk, (hkvb6 m).2.1.trans hv⟩
  · rw [isBlack, hroot6, hrootb, if_neg (fun hh => hbronroot hh)]
    rw [(hkvb6 t.root).2.2]
    rw [htb, setCol_black_ne _ _ _ _ (fun hh => hblnroot hh.symm),
      hta, setCol_black_ne _ _ _ _ (fun hh => hbronroot hh.symm)]
    exact hrb
  · rw [hpbright]
    exact hbl0
  · rw [hids6]
    exact hp

theorem delFix_innerR {t : Tree K V} {bt : BT} (hw : WFT t bt)
    (hord : OrdT t none none bt) (hsl : StrictLess t.less)
    (hrb : isBlack t t.root = true) {p : Nat} (hp : p ∈ bt.ids)
    (hclb : isBlack t ((nd t ((nd t p).left)).right) = false)
    {t2 : Tree K V}
    (h2 : t2 = leftRotate (setCol (setCol t ((nd t p).left) false)
        ((nd t ((nd t p).left)).right) true) ((nd t p).left)) :
    ∃ bt2, WFT t2 bt2 ∧ OrdT t2 none none bt2 ∧ bt2.ids = bt.ids ∧
      t2.store.length = t.store.length ∧ t2.size = t.size ∧ t2.less = t.less ∧
      (∀ m, (nd t2 m).key = (nd t m).key ∧ (nd t2 m).val = (nd t m).val) ∧
      isBlack t2 t2.root = true ∧ (nd t2 p).left ≠ 0 ∧ p ∈ bt2.ids := by
  set bro := (nd t p).left with hbro
  have hbro0 : bro ≠ 0 := by
    intro hz
    rw [hz] at hclb
    simp [isBlack, nd, nilNode] at hclb
  set br := (nd t bro).right with hbr
  have hbr0 : br ≠ 0 := by
    intro hz
    rw [hz] at hclb
    simp [isBlack, nd, nilNode] at hclb
  obtain ⟨A, R, pp, hsub, hrepP, hparP, hppeq, hA, hR, hpA, hpR, hnds, hpcase, hp0, hplen⟩ :=
    pos_facts hw hp
  obtain ⟨B1, C1, hAeq, -, hB1, hC1⟩ := reprT_pos hA hbro0
  rw [hAeq] at hpA
  obtain ⟨hbrop, hpB1, hpC1⟩ := hpA
  rw [← hbro] at hbrop
  have hbroA : bro ∈ A.ids := reprT_root_mem hA hbro0
  have hbromem : bro ∈ bt.ids :=
    subAtP_sub_mem hsub bro (by rw [hAeq]; simp [BT.ids, hbroA])
  have hpbro : p ≠ bro := by
    intro hh
    rw [BT.ids, List.nodup_append, List.nodup_cons] at hnds
    exact hnds.2.2 (hh ▸ hbroA) (List.mem_cons_self _ _)
  have hr0 : t.root ≠ 0 := by
    intro hz
    have hleaf := reprT_zero (hz ▸ hw.repr)
    rw [hleaf] at hp
    simp [BT.ids] at hp
  have hrootpar : (nd t t.root).parent = 0 := wft_root_parent hw hr0
  have hbronroot : bro ≠ t.root := by
    intro hh
    rw [hh, hrootpar] at hbrop
    exact hp0 hbrop.symm
  obtain ⟨b1, b2, hCeq, -, -, -⟩ := reprT_pos hC1 hbr0
  rw [hCeq] at hpC1
  have hbrp : (nd t br).parent = bro := hpC1.1
  have hbrnroot : br ≠ t.root := by
    intro hh
    rw [hh, hrootpar] at hbrp
    exact hbro0 hbrp.symm
  set ta := setCol t bro false with hta
  set tb := setCol ta br true with htb
  have hwb : WFT tb bt := wft_setCol _ _ _ (wft_setCol _ _ _ hw)
  have hordb : OrdT tb none none bt := ordT_setCol _ _ _ (ordT_setCol _ _ _ hord)
  have hlessb : tb.less = t.less := by rw [htb, hta, setCol_less, setCol_less]
  have hlenb : tb.store.length = t.store.length := by
    rw [htb, hta, setCol_length, setCol_length]
  have hsizeb : tb.size = t.size := by rw [htb, hta, setCol_size, setCol_size]
  have hrootb : tb.root = t.root := by rw [htb, hta, setCol_root, setCol_root]
  have hslb : StrictLess tb.less := hlessb ▸ hsl
  have hrbq : (nd tb bro).right = br := by rw [htb, hta, setCol_right, setCol_right]
  have hrzb : (nd tb bro).right ≠ 0 := by rw [hrbq]; exact hbr0
  obtain ⟨A6, B6, C6, p6, hsub6, hw6, hids6, hroot6, hlen6, hsize6, hless6,
    hkvb6, hparX6, hparO6, hxL6, hxR6, hcL6, hcR6, hpxIf6, hord6⟩ :=
    leftRotate_spec hwb hbromem hrzb
  subst h2
  have hparb : (nd tb bro).parent = p := by
    rw [htb, hta, setCol_parent, setCol_parent]
    exact hbrop
  have hpbleft : (nd (leftRotate tb bro) p).left = br := by
    have hb0 : (nd tb bro).parent ≠ 0 := by rw [hparb]; exact hp0
    obtain ⟨hLif, -⟩ := hpxIf6 hb0
    rw [hparb] at hLif
    rw [hLif]
    have : (nd tb p).left = bro := by rw [htb, hta, setCol_left, setCol_left]
    rw [this, if_pos rfl, hrbq]
  refine ⟨_, hw6, hord6 hslb hordb, hids6, hlen6.trans hlenb, hsize6.trans hsizeb,
    hless6.trans hlessb, ?_, ?_, ?_, ?_⟩
  · intro m
    have hk : (nd tb m).key = (nd t m).key := by rw [htb, hta, setCol_key, setCol_key]
    have hv : (nd tb m).val = (nd t m).val := by rw [htb, hta, setCol_val, setCol_val]
    exact ⟨(hkvb6 m).1.trans hk, (hkvb6 m).2.1.trans hv⟩
  · rw [isBlack, hroot6, hrootb, if_neg (fun hh => hbronroot hh)]
    rw [(hkvb6 t.root).2.2]
    rw [htb, setCol_black_ne _ _ _ _ (fun hh => hbrnroot hh.symm),
      hta, setCol_black_ne _ _ _ _ (fun hh => hbronroot hh.symm)]
    exact hrb
  · rw [hpbleft]
    exact hbr0
  · rw [hids6]
    exact hp

theorem root_pos_of_mem {t : Tree K V} {bt : BT} (hw : WFT t bt) {p : Nat}
    (hp : p ∈ bt.ids) : t.root ≠ 0 := by
  intro hz
  have hleaf := reprT_zero (hz ▸ hw.repr)
  rw [hleaf] at hp
  simp [BT.ids] at hp

theorem right_child_facts {t : Tree K V} {bt : BT} (hw : WFT t bt) {p : Nat}
    (hp : p ∈ bt.ids) (hrz : (nd t p).right ≠ 0) :
    (nd t ((nd t p).right)).parent = p ∧ (nd t p).right ∈ bt.ids ∧
    (nd t p).right ≠ t.root ∧ p ≠ (nd t p).right := by
  obtain ⟨A, R, pp, hsub, -, -, -, hA, hR, hpA, hpR, hnds, -, hp0, -⟩ := pos_facts hw hp
  obtain ⟨B1, C1, hReq, -, -, -⟩ := reprT_pos hR hrz
  rw [hReq] at hpR
  have hbrop := hpR.1
  have hbroR : (nd t p).right ∈ R.ids := reprT_root_mem hR hrz
  refine ⟨hbrop, subAtP_sub_mem hsub _ (by simp [BT.ids, hbroR]), ?_, ?_⟩
  · intro hh
    rw [hh, wft_root_parent hw (root_pos_of_mem hw hp)] at hbrop
    exact hp0 hbrop.symm
  · intro hh
    rw [BT.ids, List.nodup_append, List.nodup_cons] at hnds
    exact hnds.2.1.1 (hh ▸ hbroR)

theorem left_child_facts {t : Tree K V} {bt : BT} (hw : WFT t bt) {p : Nat}
    (hp : p ∈ bt.ids) (hlz : (nd t p).left ≠ 0) :
    (nd t ((nd t p).left)).parent = p ∧ (nd t p).left ∈ bt.ids ∧
    (nd t p).left ≠ t.root ∧ p ≠ (nd t p).left := by
  obtain ⟨A, R, pp, hsub, -, -, -, hA, hR, hpA, hpR, hnds, -, hp0, -⟩ := pos_facts hw hp
  obtain ⟨B1, C1, hAeq, -, -, -⟩ := reprT_pos hA hlz
  rw [hAeq] at hpA
  have hbrop := hpA.1
  have hbroA : (nd t p).left ∈ A.ids := reprT_root_mem hA hlz
  refine ⟨hbrop, subAtP_sub_mem hsub _ (by simp [BT.ids, hbroA]), ?_, ?_⟩
  · intro hh
    rw [hh, wft_root_parent hw (root_pos_of_mem hw hp)] at hbrop
    exact hp0 hbrop.symm
  · intro hh
    rw [BT.ids, List.nodup_append, List.nodup_cons] at hnds
    exact hnds.2.2 (hh ▸ hbroA) (List.mem_cons_self _ _)

set_option maxHeartbeats 2000000 in
theorem delFix_spec :
    ∀ (f : Nat) (t : Tree K V) (bt : BT) (x p : Nat),
      WFT t bt → OrdT t none none bt → StrictLess t.less →
      isBlack t t.root = true →
      ((x = t.root ∧ 1 ≤ f) ∨ (p ∈ bt.ids ∧ depthOf bt p + 2 ≤ f)) →
      ∃ t' bt' fin, delFix t f x p = some (t', fin) ∧ WFT t' bt' ∧
        OrdT t' none none bt' ∧ bt'.ids = bt.ids ∧
        t'.store.length = t.store.length ∧ t'.size = t.size ∧ t'.less = t.less ∧
        (∀ m, (nd t' m).key = (nd t m).key ∧ (nd t' m).val = (nd t m).val) ∧
        (fin = t'.root ∨ isBlack t' t'.root = true) := by
  intro f
  induction f with
  | zero =>
      intro t bt x p _ _ _ _ hcase
      rcases hcase with ⟨-, h⟩ | ⟨-, h⟩ <;> omega
  | succ f ih =>
      intro t bt x p hw hord hsl hrb hcase
      by_cases hguard : x ≠ t.root ∧ isBlack t x = true
      · obtain ⟨hxnr, hxb⟩ := hguard
        have hpmem : p ∈ bt.ids := by
          rcases hcase with ⟨hxr, -⟩ | ⟨hp, -⟩
          · exact absurd hxr hxnr
          · exact hp
        have hdep : depthOf bt p + 2 ≤ f + 1 := by
          rcases hcase with ⟨hxr, -⟩ | ⟨-, hd⟩
          · exact absurd hxr hxnr
          · exact hd
        obtain ⟨A, R, pp, hsub, hrepP, hparP, hppeq, hA, hR, hpA, hpR, hnds, hpcase,
          hp0, hplen⟩ := pos_facts hw hpmem
        have hr0 : t.root ≠ 0 := root_pos_of_mem hw hpmem
        by_cases hxl : x = (nd t p).left
        · -- the node is the left child of the parent variable
          have hxnr2 : ¬((nd t p).left = t.root) := hxl ▸ hxnr
          have hxb2 : isBlack t ((nd t p).left) = true := hxl ▸ hxb
          by_cases hbred : isRed t ((nd t p).right) = true
          · -- the brother is red: recolour and rotate the parent first
            set t1 := leftRotate (setCol (setCol t p false) ((nd t p).right) true) p
              with ht1
            obtain ⟨bt1, hw1, hord1, hids1, hlen1, hsize1, hless1, hkv1, hrb1, hp1,
              hpar1, hpblk1⟩ := delFix_preL hw hord hsl hrb hpmem hbred ht1
            have hsl1 : StrictLess t1.less := hless1 ▸ hsl
            by_cases hbb1 : isBlack t1 ((nd t1 ((nd t1 p).right)).left) = true ∧
                isBlack t1 ((nd t1 ((nd t1 p).right)).right) = true
            · -- both nephews black: recolour; the next iteration exits (p is red)
              set bro1 := (nd t1 p).right with hbro1
              set t2 := setCol t1 bro1 false with ht2
              have hw2 : WFT t2 bt1 := wft_setCol _ _ _ hw1
              have hord2 : OrdT t2 none none bt1 := ordT_setCol _ _ _ hord1
              have hless2 : t2.less = t1.less := setCol_less _ _ _
              have hlen2 : t2.store.length = t1.store.length := setCol_length _ _ _
              have hsize2 : t2.size = t1.size := setCol_size _ _ _
              have hroot2 : t2.root = t1.root := setCol_root _ _ _
              have hr01 : t1.root ≠ 0 := root_pos_of_mem hw1 hp1
              have hpnb1 : p ≠ bro1 := by
                by_cases hb1z : bro1 = 0
                · rw [hb1z]; exact hp0
                · exact (right_child_facts hw1 hp1 hb1z).2.2.2
              have hrootnb1 : t1.root ≠ bro1 := by
                by_cases hb1z : bro1 = 0
                · rw [hb1z]; exact hr01
                · exact fun hh => (right_child_facts hw1 hp1 hb1z).2.2.1 hh.symm
              have hrb2 : isBlack t2 t2.root = true := by
                rw [isBlack, hroot2, ht2, setCol_black_ne _ _ _ _ hrootnb1]
                exact hrb1
              have hpblk2 : isBlack t2 p = false := by
                rw [isBlack, ht2, setCol_black_ne _ _ _ _ hpnb1]
                exact hpblk1
              have hbb1e := hbb1
              rw [ht1] at hbb1e
              have hstep : delFix t (f + 1) x p = delFix t2 f p ((nd t2 p).parent) := by
                conv_lhs => unfold delFix
                simp [hxl, hxnr2, hxb2, hbred, hbb1e.1, hbb1e.2, ht1, ht2, hbro1]
              obtain ⟨f2, hf2⟩ : ∃ f2, f = f2 + 1 := ⟨f - 1, by omega⟩
              have hexit : delFix t2 f p ((nd t2 p).parent) = some (t2, p) := by
                rw [hf2]
                conv_lhs => unfold delFix
                simp [hpblk2]
              refine ⟨t2, bt1, p, by rw [hstep]; exact hexit, hw2, hord2, hids1,
                hlen2.trans hlen1, hsize2.trans hsize1, hless2.trans hless1, ?_,
                Or.inr hrb2⟩
              intro m
              have hk2 : (nd t2 m).key = (nd t1 m).key := by rw [ht2, setCol_key]
              have hv2 : (nd t2 m).val = (nd t1 m).val := by rw [ht2, setCol_val]
              exact ⟨hk2.trans (hkv1 m).1, hv2.trans (hkv1 m).2⟩
            · by_cases hcr1 : isBlack t1 ((nd t1 ((nd t1 p).right)).right) = true
              · -- far nephew black, near nephew red: inner rotation, then terminal
                have hcl1 : isBlack t1 ((nd t1 ((nd t1 p).right)).left) = false := by
                  cases hh : isBlack t1 ((nd t1 ((nd t1 p).right)).left)
                  · rfl
                  · exact absurd ⟨hh, hcr1⟩ hbb1
                set t2 := rightRotate (setCol (setCol t1 ((nd t1 p).right) false)
                    ((nd t1 ((nd t1 p).right)).left) true) ((nd t1 p).right) with ht2
                obtain ⟨bt2, hw2, hord2, hids2, hlen2, hsize2, hless2, hkv2, hrb2,
                  hrz2, hp2⟩ := delFix_innerL hw1 hord1 hsl1 hrb1 hp1 hcl1 ht2
                have hsl2 : StrictLess t2.less := hless2 ▸ hsl1
                obtain ⟨bt6, hw6, hord6, hids6, hlen6, hsize6, hless6, hkv6, hrb6⟩ :=
                  delFix_terminalL hw2 hord2 hsl2 hrb2 hp2 hrz2 rfl rfl rfl
                set T6 := leftRotate (setCol (setCol (setCol t2 ((nd t2 p).right)
                    (isBlack t2 p)) ((nd (setCol t2 ((nd t2 p).right) (isBlack t2 p))
                    ((nd t2 p).right)).right) true) p true) p with hT6
                have hcr1e := hcr1
                rw [ht1] at hcr1e
                have hcl1e := hcl1
                rw [ht1] at hcl1e
                have hstep : delFix t (f + 1) x p = some (T6, T6.root) := by
                  conv_lhs => unfold delFix
                  simp [hxl, hxnr2, hxb2, hbred, hcr1e, hcl1e, ht1, ht2, hT6]
                refine ⟨T6, bt6, T6.root, hstep, hw6, hord6,
                  (hids6.trans hids2).trans hids1,
                  (hlen6.trans hlen2).trans hlen1, (hsize6.trans hsize2).trans hsize1,
                  (hless6.trans hless2).trans hless1, ?_, Or.inl rfl⟩
                intro m
                exact ⟨((hkv6 m).1.trans (hkv2 m).1).trans (hkv1 m).1,
                  ((hkv6 m).2.trans (hkv2 m).2).trans (hkv1 m).2⟩
              · -- far nephew red: terminal case directly
                have hbro10 : (nd t1 p).right ≠ 0 := by
                  intro hz
                  refine hcr1 ?_
                  rw [hz]
                  simp [isBlack, nd, nilNode]
                obtain ⟨bt6, hw6, hord6, hids6, hlen6, hsize6, hless6, hkv6, hrb6⟩ :=
                  delFix_terminalL hw1 hord1 hsl1 hrb1 hp1 hbro10 rfl rfl rfl
                set T6 := leftRotate (setCol (setCol (setCol t1 ((nd t1 p).right)
                    (isBlack t1 p)) ((nd (setCol t1 ((nd t1 p).right) (isBlack t1 p))
                    ((nd t1 p).right)).right) true) p true) p with hT6
                have hcr1e : isBlack t1 ((nd t1 ((nd t1 p).right)).right) = false := by
                  cases hh : isBlack t1 ((nd t1 ((nd t1 p).right)).right)
                  · rfl
                  · exact absurd hh hcr1
                rw [ht1] at hcr1e
                have hstep : delFix t (f + 1) x p = some (T6, T6.root) := by
                  conv_lhs => unfold delFix
                  simp [hxl, hxnr2, hxb2, hbred, hcr1e, ht1, hT6]
                refine ⟨T6, bt6, T6.root, hstep, hw6, hord6, hids6.trans hids1,
                  hlen6.trans hlen1, hsize6.trans hsize1, hless6.trans hless1, ?_,
                  Or.inl rfl⟩
                intro m
                exact ⟨(hkv6 m).1.trans (hkv1 m).1, (hkv6 m).2.trans (hkv1 m).2⟩
          · -- black brother: no preamble
            by_cases hbb : isBlack t ((nd t ((nd t p).right)).left) = true ∧
                isBlack t ((nd t ((nd t p).right)).right) = true
            · -- both nephews black: recolour and continue at the parent
              set bro := (nd t p).right with hbro
              set t2 := setCol t bro false with ht2
              have hw2 : WFT t2 bt := wft_setCol _ _ _ hw
              have hord2 : OrdT t2 none none bt := ordT_setCol _ _ _ hord
              have hless2 : t2.less = t.less := setCol_less _ _ _
              have hlen2 : t2.store.length = t.store.length := setCol_length _ _ _
              have hsize2 : t2.size = t.size := setCol_size _ _ _
              have hroot2 : t2.root = t.root := setCol_root _ _ _
              have hrootnb : t.root ≠ bro := by
                by_cases hbz : bro = 0
                · rw [hbz]; exact hr0
                · exact fun hh => (right_child_facts hw hpmem hbz).2.2.1 hh.symm
              have hrb2 : isBlack t2 t2.root = true := by
                rw [isBlack, hroot2, ht2, setCol_black_ne _ _ _ _ hrootnb]
                exact hrb
              have hpar2 : (nd t2 p).parent = pp := by
                rw [ht2, setCol_parent]
                exact hppeq
              have hpre : (p = t2.root ∧ 1 ≤ f) ∨
                  ((nd t2 p).parent ∈ bt.ids ∧
                    depthOf bt ((nd t2 p).parent) + 2 ≤ f) := by
                rcases hpcase with ⟨hpp0, hproot⟩ | ⟨hppne, hppmem, -, hpnroot⟩
                · exact Or.inl ⟨by rw [hroot2]; exact hproot, by omega⟩
                · obtain ⟨-, hdpp⟩ := depthOf_parent bt t.root 0 hw.repr hw.par
                    hw.nodup p hpmem hpnroot
                  rw [hppeq] at hdpp
                  exact Or.inr ⟨by rw [hpar2]; exact hppmem, by rw [hpar2]; omega⟩
              obtain ⟨t', bt', fin, hrun, hw', hord', hids', hlen', hsize', hless',
                hkv', hfin⟩ := ih t2 bt p ((nd t2 p).parent) hw2 hord2
                  (hless2 ▸ hsl) hrb2 hpre
              have hstep : delFix t (f + 1) x p = delFix t2 f p ((nd t2 p).parent) := by
                conv_lhs => unfold delFix
                simp [hxl, hxnr2, hxb2, hbred, hbb.1, hbb.2, ht2, hbro]
              refine ⟨t', bt', fin, by rw [hstep]; exact hrun, hw', hord', hids',
                hlen'.trans hlen2, hsize'.trans hsize2, hless'.trans hless2, ?_, hfin⟩
              intro m
              have hk2 : (nd t2 m).key = (nd t m).key := by rw [ht2, setCol_key]
              have hv2 : (nd t2 m).val = (nd t m).val := by rw [ht2, setCol_val]
              exact ⟨(hkv' m).1.trans hk2, (hkv' m).2.trans hv2⟩
            · by_cases hcrb : isBlack t ((nd t ((nd t p).right)).right) = true
              · -- inner rotation, then terminal
                have hclb : isBlack t ((nd t ((nd t p).right)).left) = false := by
                  cases hh : isBlack t ((nd t ((nd t p).right)).left)
                  · rfl
                  · exact absurd ⟨hh, hcrb⟩ hbb
                set t2 := rightRotate (setCol (setCol t ((nd t p).right) false)
                    ((nd t ((nd t p).right)).left) true) ((nd t p).right) with ht2
                obtain ⟨bt2, hw2, hord2, hids2, hlen2, hsize2, hless2, hkv2, hrb2,
                  hrz2, hp2⟩ := delFix_innerL hw hord hsl hrb hpmem hclb ht2
                have hsl2 : StrictLess t2.less := hless2 ▸ hsl
                obtain ⟨bt6, hw6, hord6, hids6, hlen6, hsize6, hless6, hkv6, hrb6⟩ :=
                  delFix_terminalL hw2 hord2 hsl2 hrb2 hp2 hrz2 rfl rfl rfl
                set T6 := leftRotate (setCol (setCol (setCol t2 ((nd t2 p).right)
                    (isBlack t2 p)) ((nd (setCol t2 ((nd t2 p).right) (isBlack t2 p))
                    ((nd t2 p).right)).right) true) p true) p with hT6
                have hstep : delFix t (f + 1) x p = some (T6, T6.root) := by
                  conv_lhs => unfold delFix
                  simp [hxl, hxnr2, hxb2, hbred, hcrb, hclb, ht2, hT6]
                refine ⟨T6, bt6, T6.root, hstep, hw6, hord6, hids6.trans hids2,
                  hlen6.trans hlen2, hsize6.trans hsize2, hless6.trans hless2, ?_,
                  Or.inl rfl⟩
                intro m
                exact ⟨(hkv6 m).1.trans (hkv2 m).1, (hkv6 m).2.trans (hkv2 m).2⟩
              · -- terminal directly
                have hbro0 : (nd t p).right ≠ 0 := by
                  intro hz
                  refine hcrb ?_
                  rw [hz]
                  simp [isBlack, nd, nilNode]
                obtain ⟨bt6, hw6, hord6, hids6, hlen6, hsize6, hless6, hkv6, hrb6⟩ :=
                  delFix_terminalL hw hord hsl hrb hpmem hbro0 rfl rfl rfl
                set T6 := leftRotate (setCol (setCol (setCol t ((nd t p).right)
                    (isBlack t p)) ((nd (setCol t ((nd t p).right) (isBlack t p))
                    ((nd t p).right)).right) true) p true) p with hT6
                have hcrb2 : isBlack t ((nd t ((nd t p).right)).right) = false := by
                  cases hh : isBlack t ((nd t ((nd t p).right)).right)
                  · rfl
                  · exact absurd hh hcrb
                have hstep : delFix t (f + 1) x p = some (T6, T6.root) := by
                  conv_lhs => unfold delFix
                  simp [hxl, hxnr2, hxb2, hbred, hcrb2, hT6]
                refine ⟨T6, bt6, T6.root, hstep, hw6, hord6, hids6, hlen6, hsize6,
                  hless6, hkv6, Or.inl rfl⟩
        · -- the node is not the left child: the mirrored branch
          by_cases hbred : isRed t ((nd t p).left) = true
          · -- the brother is red: recolour and rotate the parent first
            set t1 := rightRotate (setCol (setCol t p false) ((nd t p).left) true) p
              with ht1
            obtain ⟨bt1, hw1, hord1, hids1, hlen1, hsize1, hless1, hkv1, hrb1, hp1,
              hpar1, hpblk1⟩ := delFix_preR hw hord hsl hrb hpmem hbred ht1
            have hsl1 : StrictLess t1.less := hless1 ▸ hsl
            by_cases hbb1 : isBlack t1 ((nd t1 ((nd t1 p).left)).left) = true ∧
                isBlack t1 ((nd t1 ((nd t1 p).left)).right) = true
            · -- both nephews black: recolour; the next iteration exits (p is red)
              set bro1 := (nd t1 p).left with hbro1
              set t2 := setCol t1 bro1 false with ht2
              have hw2 : WFT t2 bt1 := wft_setCol _ _ _ hw1
              have hord2 : OrdT t2 none none bt1 := ordT_setCol _ _ _ hord1
              have hless2 : t2.less = t1.less := setCol_less _ _ _
              have hlen2 : t2.store.length = t1.store.length := setCol_length _ _ _
              have hsize2 : t2.size = t1.size := setCol_size _ _ _
              have hroot2 : t2.root = t1.root := setCol_root _ _ _
              have hr01 : t1.root ≠ 0 := root_pos_of_mem hw1 hp1
              have hpnb1 : p ≠ bro1 := by
                by_cases hb1z : bro1 = 0
                · rw [hb1z]; exact hp0
                · exact (left_child_facts hw1 hp1 hb1z).2.2.2
              have hrootnb1 : t1.root ≠ bro1 := by
                by_cases hb1z : bro1 = 0
                · rw [hb1z]; exact hr01
                · exact fun hh => (left_child_facts hw1 hp1 hb1z).2.2.1 hh.symm
              have hrb2 : isBlack t2 t2.root = true := by
                rw [isBlack, hroot2, ht2, setCol_black_ne _ _ _ _ hrootnb1]
                exact hrb1
              have hpblk2 : isBlack t2 p = false := by
                rw [isBlack, ht2, setCol_black_ne _ _ _ _ hpnb1]
                exact hpblk1
              have hbb1e := hbb1
              rw [ht1] at hbb1e
              have hstep : delFix t (f + 1) x p = delFix t2 f p ((nd t2 p).parent) := by
                conv_lhs => unfold delFix
                simp [hxnr, hxb, hxl, hbred, hbb1e.1, hbb1e.2, ht1, ht2, hbro1]
              obtain ⟨f2, hf2⟩ : ∃ f2, f = f2 + 1 := ⟨f - 1, by omega⟩
              have hexit : delFix t2 f p ((nd t2 p).parent) = some (t2, p) := by
                rw [hf2]
                conv_lhs => unfold delFix
                simp [hpblk2]
              refine ⟨t2, bt1, p, by rw [hstep]; exact hexit, hw2, hord2, hids1,
                hlen2.trans hlen1, hsize2.trans hsize1, hless2.trans hless1, ?_,
                Or.inr hrb2⟩
              intro m
              have hk2 : (nd t2 m).key = (nd t1 m).key := by rw [ht2, setCol_key]
              have hv2 : (nd t2 m).val = (nd t1 m).val := by rw [ht2, setCol_val]
              exact ⟨hk2.trans (hkv1 m).1, hv2.trans (hkv1 m).2⟩
            · by_cases hcr1 : isBlack t1 ((nd t1 ((nd t1 p).left)).left) = true
              · -- far nephew black, near nephew red: inner rotation, then terminal
                have hcl1 : isBlack t1 ((nd t1 ((nd t1 p).left)).right) = false := by
                  cases hh : isBlack t1 ((nd t1 ((nd t1 p).left)).right)
                  · rfl
                  · exact absurd ⟨hcr1, hh⟩ hbb1
                set t2 := leftRotate (setCol (setCol t1 ((nd t1 p).left) false)
                    ((nd t1 ((nd t1 p).left)).right) true) ((nd t1 p).left) with ht2
                obtain ⟨bt2, hw2, hord2, hids2, hlen2, hsize2, hless2, hkv2, hrb2,
                  hrz2, hp2⟩ := delFix_innerR hw1 hord1 hsl1 hrb1 hp1 hcl1 ht2
                have hsl2 : StrictLess t2.less := hless2 ▸ hsl1
                obtain ⟨bt6, hw6, hord6, hids6, hlen6, hsize6, hless6, hkv6, hrb6⟩ :=
                  delFix_terminalR hw2 hord2 hsl2 hrb2 hp2 hrz2 rfl rfl rfl
                set T6 := rightRotate (setCol (setCol (setCol t2 ((nd t2 p).left)
                    (isBlack t2 p)) ((nd (setCol t2 ((nd t2 p).left) (isBlack t2 p))
                    ((nd t2 p).left)).left) true) p true) p with hT6
                have hcr1e := hcr1
                rw [ht1] at hcr1e
                have hcl1e := hcl1
                rw [ht1] at hcl1e
                have hstep : delFix t (f + 1) x p = some (T6, T6.root) := by
                  conv_lhs => unfold delFix
                  simp [hxnr, hxb, hxl, hbred, hcr1e, hcl1e, ht1, ht2, hT6]
                refine ⟨T6, bt6, T6.root, hstep, hw6, hord6,
                  (hids6.trans hids2).trans hids1,
                  (hlen6.trans hlen2).trans hlen1, (hsize6.trans hsize2).trans hsize1,
                  (hless6.trans hless2).trans hless1, ?_, Or.inl rfl⟩
                intro m
                exact ⟨((hkv6 m).1.trans (hkv2 m).1).trans (hkv1 m).1,
                  ((hkv6 m).2.trans (hkv2 m).2).trans (hkv1 m).2⟩
              · -- far nephew red: terminal case directly
                have hbro10 : (nd t1 p).left ≠ 0 := by
                  intro hz
                  refine hcr1 ?_
                  rw [hz]
                  simp [isBlack, nd, nilNode]
                obtain ⟨bt6, hw6, hord6, hids6, hlen6, hsize6, hless6, hkv6, hrb6⟩ :=
                  delFix_terminalR hw1 hord1 hsl1 hrb1 hp1 hbro10 rfl rfl rfl
                set T6 := rightRotate (setCol (setCol (setCol t1 ((nd t1 p).left)
                    (isBlack t1 p)) ((nd (setCol t1 ((nd t1 p).left) (isBlack t1 p))
                    ((nd t1 p).left)).left) true) p true) p with hT6
                have hcr1e : isBlack t1 ((nd t1 ((nd t1 p).left)).left) = false := by
                  cases hh : isBlack t1 ((nd t1 ((nd t1 p).left)).left)
                  · rfl
                  · exact absurd hh hcr1
                rw [ht1] at hcr1e
                have hstep : delFix t (f + 1) x p = some (T6, T6.root) := by
                  conv_lhs => unfold delFix
                  simp [hxnr, hxb, hxl, hbred, hcr1e, ht1, hT6]
                refine ⟨T6, bt6, T6.root, hstep, hw6, hord6, hids6.trans hids1,
                  hlen6.trans hlen1, hsize6.trans hsize1, hless6.trans hless1, ?_,
                  Or.inl rfl⟩
                intro m
                exact ⟨(hkv6 m).1.trans (hkv1 m).1, (hkv6 m).2.trans (hkv1 m).2⟩
          · -- black brother: no preamble
            by_cases hbb : isBlack t ((nd t ((nd t p).left)).left) = true ∧
                isBlack t ((nd t ((nd t p).left)).right) = true
            · -- both nephews black: recolour and continue at the parent
              set bro := (nd t p).left with hbro
              set t2 := setCol t bro false with ht2
              have hw2 : WFT t2 bt := wft_setCol _ _ _ hw
              have hord2 : OrdT t2 none none bt := ordT_setCol _ _ _ hord
              have hless2 : t2.less = t.less := setCol_less _ _ _
              have hlen2 : t2.store.length = t.store.length := setCol_length _ _ _
              have hsize2 : t2.size = t.size := setCol_size _ _ _
              have hroot2 : t2.root = t.root := setCol_root _ _ _
              have hrootnb : t.root ≠ bro := by
                by_cases hbz : bro = 0
                · rw [hbz]; exact hr0
                · exact fun hh => (left_child_facts hw hpmem hbz).2.2.1 hh.symm
              have hrb2 : isBlack t2 t2.root = true := by
                rw [isBlack, hroot2, ht2, setCol_black_ne _ _ _ _ hrootnb]
                exact hrb
              have hpar2 : (nd t2 p).parent = pp := by
                rw [ht2, setCol_parent]
                exact hppeq
              have hpre : (p = t2.root ∧ 1 ≤ f) ∨
                  ((nd t2 p).parent ∈ bt.ids ∧
                    depthOf bt ((nd t2 p).parent) + 2 ≤ f) := by
                rcases hpcase with ⟨hpp0, hproot⟩ | ⟨hppne, hppmem, -, hpnroot⟩
                · exact Or.inl ⟨by rw [hroot2]; exact hproot, by omega⟩
                · obtain ⟨-, hdpp⟩ := depthOf_parent bt t.root 0 hw.repr hw.par
                    hw.nodup p hpmem hpnroot
                  rw [hppeq] at hdpp
                  exact Or.inr ⟨by rw [hpar2]; exact hppmem, by rw [hpar2]; omega⟩
              obtain ⟨t', bt', fin, hrun, hw', hord', hids', hlen', hsize', hless',
                hkv', hfin⟩ := ih t2 bt p ((nd t2 p).parent) hw2 hord2
                  (hless2 ▸ hsl) hrb2 hpre
              have hstep : delFix t (f + 1) x p = delFix t2 f p ((nd t2 p).parent) := by
                conv_lhs => unfold delFix
                simp [hxnr, hxb, hxl, hbred, hbb.1, hbb.2, ht2, hbro]
              refine ⟨t', bt', fin, by rw [hstep]; exact hrun, hw', hord', hids',
                hlen'.trans hlen2, hsize'.trans hsize2, hless'.trans hless2, ?_, hfin⟩
              intro m
              have hk2 : (nd t2 m).key = (nd t m).key := by rw [ht2, setCol_key]
              have hv2 : (nd t2 m).val = (nd t m).val := by rw [ht2, setCol_val]
              exact ⟨(hkv' m).1.trans hk2, (hkv' m).2.trans hv2⟩
            · by_cases hcrb : isBlack t ((nd t ((nd t p).left)).left) = true
              · -- inner rotation, then terminal
                have hclb : isBlack t ((nd t ((nd t p).left)).right) = false := by
                  cases hh : isBlack t ((nd t ((nd t p).left)).right)
                  · rfl
                  · exact absurd ⟨hcrb, hh⟩ hbb
                set t2 := leftRotate (setCol (setCol t ((nd t p).left) false)
                    ((nd t ((nd t p).left)).right) true) ((nd t p).left) with ht2
                obtain ⟨bt2, hw2, hord2, hids2, hlen2, hsize2, hless2, hkv2, hrb2,
                  hrz2, hp2⟩ := delFix_innerR hw hord hsl hrb hpmem hclb ht2
                have hsl2 : StrictLess t2.less := hless2 ▸ hsl
                obtain ⟨bt6, hw6, hord6, hids6, hlen6, hsize6, hless6, hkv6, hrb6⟩ :=
                  delFix_terminalR hw2 hord2 hsl2 hrb2 hp2 hrz2 rfl rfl rfl
                set T6 := rightRotate (setCol (setCol (setCol t2 ((nd t2 p).left)
                    (isBlack t2 p)) ((nd (setCol t2 ((nd t2 p).left) (isBlack t2 p))
                    ((nd t2 p).left)).left) true) p true) p with hT6
                have hstep : delFix t (f + 1) x p = some (T6, T6.root) := by
                  conv_lhs => unfold delFix
                  simp [hxnr, hxb, hxl, hbred, hcrb, hclb, ht2, hT6]
                refine ⟨T6, bt6, T6.root, hstep, hw6, hord6, hids6.trans hids2,
                  hlen6.trans hlen2, hsize6.trans hsize2, hless6.trans hless2, ?_,
                  Or.inl rfl⟩
                intro m
                exact ⟨(hkv6 m).1.trans (hkv2 m).1, (hkv6 m).2.trans (hkv2 m).2⟩
              · -- terminal directly
                have hbro0 : (nd t p).left ≠ 0 := by
                  intro hz
                  refine hcrb ?_
                  rw [hz]
                  simp [isBlack, nd, nilNode]
                obtain ⟨bt6, hw6, hord6, hids6, hlen6, hsize6, hless6, hkv6, hrb6⟩ :=
                  delFix_terminalR hw hord hsl hrb hpmem hbro0 rfl rfl rfl
                set T6 := rightRotate (setCol (setCol (setCol t ((nd t p).left)
                    (isBlack t p)) ((nd (setCol t ((nd t p).left) (isBlack t p))
                    ((nd t p).left)).left) true) p true) p with hT6
                have hcrb2 : isBlack t ((nd t ((nd t p).left)).left) = false := by
                  cases hh : isBlack t ((nd t ((nd t p).left)).left)
                  · rfl
                  · exact absurd hh hcrb
                have hstep : delFix t (f + 1) x p = some (T6, T6.root) := by
                  conv_lhs => unfold delFix
                  simp [hxnr, hxb, hxl, hbred, hcrb2, hT6]
                refine ⟨T6, bt6, T6.root, hstep, hw6, hord6, hids6, hlen6, hsize6,
                  hless6, hkv6, Or.inl rfl⟩
      · -- the guard fails: the loop exits at once
        refine ⟨t, bt, x, ?_, hw, hord, rfl, rfl, rfl, rfl, fun m => ⟨rfl, rfl⟩, ?_⟩
        · conv_lhs => unfold delFix
          rw [if_neg hguard]
        · by_cases hxr : x = t.root
          · exact Or.inl hxr
          · exact Or.inr hrb

/-! ### The delete splice: removing a node with at most one real child,
and with two (via the in-order successor) -/

theorem ordT_widen_hi {t : Tree K V} (hsl : StrictLess t.less) {k : K} {hi : Option K}
    (hk : hiOk t.less k hi) :
    ∀ {bt : BT} {lo : Option K}, OrdT t lo (some k) bt → OrdT t lo hi bt := by
  intro bt
  induction bt with
  | leaf => intro lo _; trivial
  | node l i r ihl ihr =>
      intro lo h
      obtain ⟨h1, h2, h3, h4⟩ := h
      refine ⟨h1, ?_, h3, ihr h4⟩
      cases hi with
      | none => trivial
      | some b =>
          simp only [hiOk] at h2 hk ⊢
          exact hsl.lt_trans _ _ _ h2 hk

theorem ordT_widen_lo {t : Tree K V} (hsl : StrictLess t.less) {k : K} {lo : Option K}
    (hk : loOk t.less lo k) :
    ∀ {bt : BT} {hi : Option K}, OrdT t (some k) hi bt → OrdT t lo hi bt := by
  intro bt
  induction bt with
  | leaf => intro hi _; trivial
  | node l i r ihl ihr =>
      intro hi h
      obtain ⟨h1, h2, h3, h4⟩ := h
      refine ⟨?_, h2, ihl h3, h4⟩
      cases lo with
      | none => trivial
      | some b =>
          simp only [loOk] at h1 hk ⊢
          exact hsl.lt_trans _ _ _ hk h1

theorem rootBlack_setCol_fin {t : Tree K V} {bt : BT} (hw : WFT t bt) {fin : Nat}
    (h : fin = t.root ∨ isBlack t t.root = true) :
    isBlack (setCol t fin true) ((setCol t fin true).root) = true := by
  rw [isBlack, setCol_root]
  by_cases hz : t.root = 0
  · rw [hz]
    rfl
  · have hrlen : t.root ≤ t.store.length :=
      (reprT_ids_pos hw.repr t.root (reprT_root_mem hw.repr hz)).2
    rcases h with h | h
    · subst h
      rw [setCol_black_self _ _ _ hz hrlen]
    · by_cases hfr : t.root = fin
      · rw [← hfr, setCol_black_self _ _ _ hz hrlen]
      · rw [setCol_black_ne _ _ _ _ hfr]
        exact h

theorem delSplice_link {t0 : Tree K V} {x nx : Nat}
    (hpx0 : x ≠ t0.root → (nd t0 x).parent ≠ 0)
    (hpxlen : x ≠ t0.root → (nd t0 x).parent ≤ t0.store.length)
    {t1 : Tree K V}
    (h1 : t1 = if x = t0.root then { t0 with root := nx }
        else if x = (nd t0 ((nd t0 x).parent)).left then setL t0 ((nd t0 x).parent) nx
        else setR t0 ((nd t0 x).parent) nx) :
    (∀ j, (nd t1 j).key = (nd t0 j).key ∧ (nd t1 j).val = (nd t0 j).val ∧
      (nd t1 j).black = (nd t0 j).black ∧ (nd t1 j).parent = (nd t0 j).parent) ∧
    (∀ j, j ≠ (nd t0 x).parent → (nd t1 j).left = (nd t0 j).left ∧
      (nd t1 j).right = (nd t0 j).right) ∧
    (x = t0.root → (∀ j, (nd t1 j).left = (nd t0 j).left ∧
      (nd t1 j).right = (nd t0 j).right) ∧ t1.root = nx) ∧
    (x ≠ t0.root → t1.root = t0.root ∧
      (x = (nd t0 ((nd t0 x).parent)).left →
        (nd t1 ((nd t0 x).parent)).left = nx ∧
        (nd t1 ((nd t0 x).parent)).right = (nd t0 ((nd t0 x).parent)).right) ∧
      (x ≠ (nd t0 ((nd t0 x).parent)).left →
        (nd t1 ((nd t0 x).parent)).left = (nd t0 ((nd t0 x).parent)).left ∧
        (nd t1 ((nd t0 x).parent)).right = nx)) ∧
    t1.store.length = t0.store.length ∧ t1.size = t0.size ∧ t1.less = t0.less := by
  by_cases hroot : x = t0.root
  · rw [if_pos hroot] at h1
    subst h1
    refine ⟨fun j => ⟨rfl, rfl, rfl, rfl⟩, fun j _ => ⟨rfl, rfl⟩,
      fun _ => ⟨fun j => ⟨rfl, rfl⟩, rfl⟩, fun hh => absurd hroot hh, rfl, rfl, rfl⟩
  · rw [if_neg hroot] at h1
    have hp0 := hpx0 hroot
    have hplen := hpxlen hroot
    by_cases hleft : x = (nd t0 ((nd t0 x).parent)).left
    · rw [if_pos hleft] at h1
      subst h1
      refine ⟨fun j => ⟨setL_key _ _ _ _, setL_val _ _ _ _, setL_black _ _ _ _,
          setL_parent _ _ _ _⟩,
        fun j hj => ⟨setL_left_ne _ _ _ _ hj, setL_right _ _ _ _⟩,
        fun hh => absurd hh hroot,
        fun _ => ⟨setL_root _ _ _, fun _ => ⟨setL_left_self _ _ _ hp0 hplen,
          setL_right _ _ _ _⟩, fun hh => absurd hleft hh⟩,
        setL_length _ _ _, setL_size _ _ _, setL_less _ _ _⟩
    · rw [if_neg hleft] at h1
      subst h1
      refine ⟨fun j => ⟨setR_key _ _ _ _, setR_val _ _ _ _, setR_black _ _ _ _,
          setR_parent _ _ _ _⟩,
        fun j hj => ⟨setR_left _ _ _ _, setR_right_ne _ _ _ _ hj⟩,
        fun hh => absurd hh hroot,
        fun _ => ⟨setR_root _ _ _, fun hh => absurd hh hleft,
          fun _ => ⟨setR_left _ _ _ _, setR_right_self _ _ _ hp0 hplen⟩⟩,
        setR_length _ _ _, setR_size _ _ _, setR_less _ _ _⟩

theorem delFix_root_exit (t : Tree K V) (f x p : Nat) (hx : x = t.root) :
    delFix t (f + 1) x p = some (t, x) := by
  conv_lhs => unfold delFix
  rw [if_neg (fun h => h.1 hx)]

theorem oneChild_splice {t : Tree K V} {bt : BT} (hw : WFT t bt)
    (hord : OrdT t none none bt) (hsl : StrictLess t.less)
    (hrb : isBlack t t.root = true) {x : Nat} (hx : x ∈ bt.ids)
    (hone : ¬((nd t x).left ≠ 0 ∧ (nd t x).right ≠ 0)) :
    ∃ t' bt', deleteNode t x = some (t', true) ∧ WFT t' bt' ∧
      OrdT t' none none bt' ∧ isBlack t' t'.root = true ∧
      t'.store.length = t.store.length ∧ t'.size = t.size - 1 ∧ t'.less = t.less ∧
      (∀ m ∈ bt'.ids, m ∈ bt.ids ∧ m ≠ x) ∧
      (∀ m, (nd t' m).key = (nd t m).key ∧ (nd t' m).val = (nd t m).val) := by
  obtain ⟨A, R, px, hsub, hrepx, hparx, hpxeq, hA, hR, hpA, hpR, hnds, hpxcase,
    hx0, hxlen⟩ := pos_facts hw hx
  obtain ⟨P, S, hPS, hrepl⟩ := subAtP_decomp bt 0 hsub
  set t0 : Tree K V := { t with size := t.size - 1 } with ht0
  have hnd0 : ∀ j, nd t0 j = nd t j := fun j => rfl
  set childv := if (nd t x).left ≠ 0 then (nd t x).left else (nd t x).right
    with hchildv
  obtain ⟨S', hcS, hpS, hSsub, hxnotS, hSord⟩ :
      ∃ S', ReprT t childv S' ∧ ParentOk t S' x ∧
        S'.ids.Sublist ((BT.node A x R).ids) ∧ x ∉ S'.ids ∧
        (∀ lo hi, OrdT t lo hi (BT.node A x R) → OrdT t lo hi S') := by
    rw [BT.ids, List.nodup_append, List.nodup_cons] at hnds
    by_cases hlz : (nd t x).left ≠ 0
    · have hceq : childv = (nd t x).left := by rw [hchildv, if_pos hlz]
      refine ⟨A, hceq ▸ hA, hpA, ?_, ?_,
        fun lo hi h => ordT_widen_hi hsl h.2.1 h.2.2.1⟩
      · rw [BT.ids]
        exact List.sublist_append_left _ _
      · exact fun hm => hnds.2.2 hm (List.mem_cons_self _ _)
    · have hceq : childv = (nd t x).right := by rw [hchildv, if_neg hlz]
      refine ⟨R, hceq ▸ hR, hpR, ?_, hnds.2.1.1,
        fun lo hi h => ordT_widen_lo hsl h.1 h.2.2.2⟩
      rw [BT.ids]
      exact ((List.sublist_cons_self _ _).trans (List.sublist_append_right _ _))
  have hSmem : ∀ m ∈ S'.ids, m ∈ (BT.node A x R).ids := fun m hm => hSsub.mem hm
  have hchmem : childv ≠ 0 → childv ∈ bt.ids := fun hcz =>
    subAtP_sub_mem hsub childv (hSmem childv (reprT_root_mem hcS hcz))
  have hchlen : childv ≠ 0 → childv ≤ t.store.length := fun hcz =>
    (reprT_ids_pos hw.repr childv (hchmem hcz)).2
  have hchx : childv ≠ 0 → childv ≠ x := fun hcz hh =>
    hxnotS (hh ▸ reprT_root_mem hcS hcz)
  have hpxnots : px ∉ (BT.node A x R).ids ∨ px = 0 := by
    rcases hpxcase with ⟨hpz, -⟩ | ⟨-, -, hpn, -⟩
    · exact Or.inr hpz
    · exact Or.inl hpn
  -- the relinking writes
  set ta := if childv ≠ 0 then setP t0 childv px else t0 with hta
  have handta : ∀ j, j ≠ childv → nd ta j = nd t j := by
    intro j hj
    rw [hta]
    by_cases hcz : childv ≠ 0
    · rw [if_pos hcz]
      show nd (setP t0 childv px) j = nd t j
      rw [← hnd0 j]
      unfold setP
      rw [nd_wr, if_neg (fun h => hj h.1)]
    · rw [if_neg hcz]
      exact hnd0 j
  have hchpar : childv ≠ 0 → (nd ta childv).parent = px := by
    intro hcz
    rw [hta, if_pos hcz]
    exact setP_parent_self _ _ _ hcz (hchlen hcz)
  have htachfields : (nd ta childv).key = (nd t childv).key ∧
      (nd ta childv).val = (nd t childv).val ∧
      (nd ta childv).black = (nd t childv).black ∧
      (nd ta childv).left = (nd t childv).left ∧
      (nd ta childv).right = (nd t childv).right := by
    rw [hta]
    by_cases hcz : childv ≠ 0
    · rw [if_pos hcz]
      exact ⟨setP_key _ _ _ _, setP_val _ _ _ _, setP_black _ _ _ _,
        setP_left _ _ _ _, setP_right _ _ _ _⟩
    · rw [if_neg hcz]
      exact ⟨rfl, rfl, rfl, rfl, rfl⟩
  have htaroot : ta.root = t.root := by
    rw [hta]
    by_cases hcz : childv ≠ 0
    · rw [if_pos hcz, setP_root]
    · rw [if_neg hcz]
  have htalen : ta.store.length = t.store.length := by
    rw [hta]
    by_cases hcz : childv ≠ 0
    · rw [if_pos hcz, setP_length]
    · rw [if_neg hcz]
  have htasize : ta.size = t.size - 1 := by
    rw [hta]
    by_cases hcz : childv ≠ 0
    · rw [if_pos hcz, setP_size]
    · rw [if_neg hcz]
  have htaless : ta.less = t.less := by
    rw [hta]
    by_cases hcz : childv ≠ 0
    · rw [if_pos hcz, setP_less]
    · rw [if_neg hcz]
  set tb := if x = ta.root then { ta with root := childv }
      else if (nd ta px).left = x then setL ta px childv
      else setR ta px childv with htb
  -- aggregate description of tb
  have htbkvb : ∀ j, (nd tb j).key = (nd t j).key ∧ (nd tb j).val = (nd t j).val ∧
      (nd tb j).black = (nd t j).black := by
    intro j
    have hbase : (nd ta j).key = (nd t j).key ∧ (nd ta j).val = (nd t j).val ∧
        (nd ta j).black = (nd t j).black := by
      by_cases hj : j = childv
      · subst hj
        exact ⟨htachfields.1, htachfields.2.1, htachfields.2.2.1⟩
      · rw [handta j hj]
        exact ⟨rfl, rfl, rfl⟩
    rw [htb]
    by_cases hroot : x = ta.root
    · rw [if_pos hroot]
      exact hbase
    · rw [if_neg hroot]
      by_cases hpl : (nd ta px).left = x
      · rw [if_pos hpl]
        exact ⟨(setL_key _ _ _ _).trans hbase.1, (setL_val _ _ _ _).trans hbase.2.1,
          (setL_black _ _ _ _).trans hbase.2.2⟩
      · rw [if_neg hpl]
        exact ⟨(setR_key _ _ _ _).trans hbase.1, (setR_val _ _ _ _).trans hbase.2.1,
          (setR_black _ _ _ _).trans hbase.2.2⟩
  have htbpar : ∀ j, j ≠ childv → (nd tb j).parent = (nd t j).parent := by
    intro j hj
    have hbase : (nd ta j).parent = (nd t j).parent := by rw [handta j hj]
    rw [htb]
    by_cases hroot : x = ta.root
    · rw [if_pos hroot]
      exact hbase
    · rw [if_neg hroot]
      by_cases hpl : (nd ta px).left = x
      · rw [if_pos hpl]
        exact (setL_parent _ _ _ _).trans hbase
      · rw [if_neg hpl]
        exact (setR_parent _ _ _ _).trans hbase
  have htbchpar : childv ≠ 0 → (nd tb childv).parent = px := by
    intro hcz
    have hbase := hchpar hcz
    rw [htb]
    by_cases hroot : x = ta.root
    · rw [if_pos hroot]
      exact hbase
    · rw [if_neg hroot]
      by_cases hpl : (nd ta px).left = x
      · rw [if_pos hpl]
        exact (setL_parent _ _ _ _).trans hbase
      · rw [if_neg hpl]
        exact (setR_parent _ _ _ _).trans hbase
  have htblr : ∀ j, j ≠ px → (nd tb j).left = (nd t j).left ∧
      (nd tb j).right = (nd t j).right := by
    intro j hj
    have hbase : (nd ta j).left = (nd t j).left ∧
        (nd ta j).right = (nd t j).right := by
      by_cases hjc : j = childv
      · subst hjc
        exact ⟨htachfields.2.2.2.1, htachfields.2.2.2.2⟩
      · rw [handta j hjc]
        exact ⟨rfl, rfl⟩
    rw [htb]
    by_cases hroot : x = ta.root
    · rw [if_pos hroot]
      exact hbase
    · rw [if_neg hroot]
      by_cases hpl : (nd ta px).left = x
      · rw [if_pos hpl]
        exact ⟨(setL_left_ne _ _ _ _ hj).trans hbase.1,
          (setL_right _ _ _ _).trans hbase.2⟩
      · rw [if_neg hpl]
        exact ⟨(setR_left _ _ _ _).trans hbase.1,
          (setR_right_ne _ _ _ _ hj).trans hbase.2⟩
  have htbroot : tb.root = if x = t.root then childv else t.root := by
    rw [htb, htaroot]
    by_cases hroot : x = t.root
    · rw [if_pos hroot, if_pos hroot]
    · rw [if_neg hroot, if_neg hroot]
      by_cases hpl : (nd ta px).left = x
      · rw [if_pos hpl, setL_root, htaroot]
      · rw [if_neg hpl, setR_root, htaroot]
  have htbpx : px ≠ 0 →
      ((nd tb px).left = if (nd t px).left = x then childv else (nd t px).left) ∧
      ((nd tb px).right = if (nd t px).right = x then childv else (nd t px).right) := by
    intro hpz
    have hxnroot : x ≠ t.root := by
      rcases hpxcase with ⟨hp0, -⟩ | ⟨-, -, -, hxr⟩
      · exact absurd hp0 hpz
      · exact hxr
    have hpxch : px ≠ childv := by
      intro hh
      by_cases hcz : childv = 0
      · exact hpz (hh.trans hcz)
      · rcases hpxnots with hnot | hz
        · exact hnot (hh ▸ (hSmem childv (reprT_root_mem hcS hcz)))
        · exact hpz hz
    have hbase : (nd ta px).left = (nd t px).left ∧
        (nd ta px).right = (nd t px).right := by
      rw [handta px hpxch]
      exact ⟨rfl, rfl⟩
    have hpxmem : px ∈ bt.ids := by
      rcases hpxcase with ⟨hp0, -⟩ | ⟨-, hpmem, -, -⟩
      · exact absurd hp0 hpz
      · exact hpmem
    have hpxlen2 : px ≤ t.store.length := (reprT_ids_pos hw.repr px hpxmem).2
    have hexcl := subAtP_child bt t.root 0 hw.repr hw.nodup hsub hpz
    rw [htb]
    have hroot : ¬(x = ta.root) := by rw [htaroot]; exact hxnroot
    rw [if_neg hroot]
    by_cases hpl : (nd ta px).left = x
    · rw [if_pos hpl]
      rw [hbase.1] at hpl
      have hrne : (nd t px).right ≠ x := by
        rcases hexcl with ⟨-, hr⟩ | ⟨-, hl⟩
        · exact hr
        · exact absurd hpl hl
      refine ⟨?_, ?_⟩
      · rw [setL_left_self _ _ _ hpz (by rw [htalen]; exact hpxlen2), if_pos hpl]
      · rw [setL_right _ _ _ _, hbase.2, if_neg hrne]
    · rw [if_neg hpl]
      rw [hbase.1] at hpl
      have hrx : (nd t px).right = x := by
        rcases hexcl with ⟨hl, -⟩ | ⟨hr, -⟩
        · exact absurd hl hpl
        · exact hr
      refine ⟨?_, ?_⟩
      · rw [setR_left _ _ _ _, hbase.1, if_neg hpl]
      · rw [setR_right_self _ _ _ hpz (by rw [htalen]; exact hpxlen2), if_pos hrx]
  have htblen : tb.store.length = t.store.length := by
    rw [htb]
    by_cases hroot : x = ta.root
    · rw [if_pos hroot]
      exact htalen
    · rw [if_neg hroot]
      by_cases hpl : (nd ta px).left = x
      · rw [if_pos hpl, setL_length]
        exact htalen
      · rw [if_neg hpl, setR_length]
        exact htalen
  have htbsize : tb.size = t.size - 1 := by
    rw [htb]
    by_cases hroot : x = ta.root
    · rw [if_pos hroot]
      exact htasize
    · rw [if_neg hroot]
      by_cases hpl : (nd ta px).left = x
      · rw [if_pos hpl, setL_size]
        exact htasize
      · rw [if_neg hpl, setR_size]
        exact htasize
  have htbless : tb.less = t.less := by
    rw [htb]
    by_cases hroot : x = ta.root
    · rw [if_pos hroot]
      exact htaless
    · rw [if_neg hroot]
      by_cases hpl : (nd ta px).left = x
      · rw [if_pos hpl, setL_less]
        exact htaless
      · rw [if_neg hpl, setR_less]
        exact htaless
  -- shape of the result
  set bt2 := replaceAt bt x S' with hbt2
  have hids2 : bt2.ids = P ++ (S'.ids ++ S) := hrepl S'
  have hx_parts : x ∉ P ∧ x ∉ S := by
    have hnd := hw.nodup
    rw [hPS] at hnd
    have hxs : x ∈ (BT.node A x R).ids := by simp [BT.ids]
    rw [List.nodup_append] at hnd
    obtain ⟨-, hnd2, hdisj1⟩ := hnd
    rw [List.nodup_append] at hnd2
    obtain ⟨-, -, hdisj2⟩ := hnd2
    exact ⟨fun hp => hdisj1 hp (List.mem_append_left _ hxs),
      fun hs => hdisj2 hxs hs⟩
  have hmem2 : ∀ m ∈ bt2.ids, m ∈ bt.ids ∧ m ≠ x := by
    intro m hm
    rw [hids2] at hm
    simp only [List.mem_append] at hm
    rcases hm with hm | hm | hm
    · exact ⟨by rw [hPS]; simp [hm], fun hh => hx_parts.1 (hh ▸ hm)⟩
    · have hms : m ∈ (BT.node A x R).ids := hSmem m hm
      exact ⟨by rw [hPS]; simp [hms], fun hh => hxnotS (hh ▸ hm)⟩
    · exact ⟨by rw [hPS]; simp [hm], fun hh => hx_parts.2 (hh ▸ hm)⟩
  have hnd2 : bt2.ids.Nodup := by
    have hsubl : bt2.ids.Sublist bt.ids := by
      rw [hids2, hPS]
      exact (hSsub.append_right S).append_left P
    exact List.Nodup.sublist hsubl hw.nodup
  have hcS2 : ReprT tb childv S' := by
    refine reprT_congr hcS ?_
    intro j hj
    have hjprop := hSmem j hj
    have hjpx : j ≠ px := by
      intro hh
      rcases hpxnots with hnot | hz
      · exact hnot (hh ▸ hjprop)
      · exact (reprT_ids_pos hcS j hj).1 (hh.trans hz)
    refine ⟨(htblr j hjpx).1, (htblr j hjpx).2, ?_⟩
    rw [htblen]
    exact (reprT_ids_pos hcS j hj).2
  have hrep2 : ReprT tb tb.root bt2 := by
    have htrans := reprT_replaceAt hcS2 hw.repr hw.nodup hsub
      (fun j hj hjs hjpx => ⟨(htblr j hjpx).1, (htblr j hjpx).2,
        by rw [htblen]; exact (reprT_ids_pos hw.repr j hj).2⟩)
      (fun hpmem hpnots => by
        have hpz : px ≠ 0 := (reprT_ids_pos hw.repr px hpmem).1
        exact ⟨(htbpx hpz).1, (htbpx hpz).2,
          by rw [htblen]; exact (reprT_ids_pos hw.repr px hpmem).2⟩)
    rw [htbroot]
    by_cases hxr : x = t.root
    · rw [if_pos hxr]
      rw [if_pos hxr.symm] at htrans
      exact htrans
    · rw [if_neg hxr]
      rw [if_neg (fun hh => hxr hh.symm)] at htrans
      exact htrans
  have hpar2 : ParentOk tb bt2 0 := by
    refine parentOk_replaceAt (t := t) ?_ hw.par hw.nodup hsub ?_
    · by_cases hcz : childv = 0
      · have hleaf : S' = .leaf := reprT_zero (hcz ▸ hcS)
        rw [hleaf]
        trivial
      · obtain ⟨s1, s2, hSeq, -, -, -⟩ := reprT_pos hcS hcz
        have hndS : S'.ids.Nodup := List.Nodup.sublist hSsub
          (List.Nodup.sublist (by
            have hinf : (BT.node A x R).ids.Sublist bt.ids := by
              rw [hPS]
              exact (List.sublist_append_left _ _).trans (List.sublist_append_right _ _)
            exact hinf) hw.nodup)
        rw [hSeq] at hndS
        rw [BT.ids, List.nodup_append, List.nodup_cons] at hndS
        rw [hSeq] at hpS ⊢
        obtain ⟨-, hp1, hp2⟩ := hpS
        refine ⟨htbchpar hcz, ?_, ?_⟩
        · refine parentOk_congr hp1 ?_
          intro j hj
          refine htbpar j (fun hh => ?_)
          exact hndS.2.2 (hh ▸ hj) (List.mem_cons_self _ _)
        · refine parentOk_congr hp2 ?_
          intro j hj
          refine htbpar j (fun hh => ?_)
          exact hndS.2.1.1 (hh ▸ hj)
    · intro j hj hjs
      refine htbpar j (fun hh => ?_)
      by_cases hcz : childv = 0
      · exact (reprT_ids_pos hw.repr j hj).1 (hh.trans hcz)
      · exact hjs (hSmem childv (reprT_root_mem hcS hcz) |> (hh ▸ ·))
  have hw2 : WFT tb bt2 := ⟨hrep2, hnd2, hpar2⟩
  have hord2 : OrdT tb none none bt2 := by
    refine ordT_replaceAt (t := t) htbless ?_ hord hw.nodup hsub ?_
    · intro lo hi h
      exact ordT_congr htbless (hSord lo hi h) (fun j hj => (htbkvb j).1)
    · exact fun j hj hjs => (htbkvb j).1
  have hrbkeep : x ≠ t.root → isBlack tb tb.root = true := by
    intro hxr
    rw [isBlack, htbroot, if_neg hxr, (htbkvb t.root).2.2]
    exact hrb
  have hpxmem2 : x ≠ t.root → px ∈ bt2.ids := by
    intro hxr
    rcases hpxcase with ⟨-, hroot⟩ | ⟨hpzne, hpmem, hpnots, -⟩
    · exact absurd hroot hxr
    · have hpm := hpmem
      rw [hPS] at hpm
      simp only [List.mem_append] at hpm
      rcases hpm with h | h | h
      · rw [hids2]; simp [h]
      · exact absurd h hpnots
      · rw [hids2]; simp [h]
  have hkv2 : ∀ m, (nd tb m).key = (nd t m).key ∧ (nd tb m).val = (nd t m).val :=
    fun m => ⟨(htbkvb m).1, (htbkvb m).2.1⟩
  by_cases hxr : x = t.root
  · -- x is the root: its single child becomes the root; the fix-up exits at once
    have hredF : (nd t x).black = true := by
      rw [isBlack, ← hxr] at hrb
      exact hrb
    have hchroot : childv = tb.root := by rw [htbroot, if_pos hxr]
    have hdel : delFix tb (fuel tb) childv px = some (tb, childv) := by
      have hft : fuel tb = (tb.store.length + 1) + 1 := by rw [fuel]
      rw [hft]
      exact delFix_root_exit tb _ _ _ hchroot
    have hredF2 : isRed t0 x = false := by
      show (!(nd t x).black) = false
      rw [hredF]
      rfl
    have hstep : deleteNode t x = some (setCol tb childv true, true) := by
      have hx0n : ¬(x = 0) := hx0
      have hone0 : ¬((nd t0 x).left ≠ 0 ∧ (nd t0 x).right ≠ 0) := hone
      have hchildv0 : childv = if (nd t0 x).left ≠ 0 then (nd t0 x).left
          else (nd t0 x).right := hchildv
      have hpxeq00 : (nd t0 x).parent = px := hpxeq
      simp only [deleteNode]
      rw [if_neg hx0n, ← ht0, if_neg hone0, ← hchildv0, hpxeq00, ← hta, ← htb,
        if_neg (by rw [hredF2]; exact Bool.false_ne_true), hdel]
      rfl
    refine ⟨setCol tb childv true, bt2, hstep, wft_setCol _ _ _ hw2,
      ordT_setCol _ _ _ hord2, ?_, ?_, ?_, ?_, hmem2, ?_⟩
    · exact rootBlack_setCol_fin hw2 (Or.inl hchroot)
    · rw [setCol_length, htblen]
    · rw [setCol_size, htbsize]
    · rw [setCol_less, htbless]
    · intro m
      exact ⟨(setCol_key _ _ _ _).trans (hkv2 m).1,
        (setCol_val _ _ _ _).trans (hkv2 m).2⟩
  · by_cases hred : (nd t x).black = false
    · -- the deleted node is red: no fix-up needed
      have hredT2 : isRed t0 x = true := by
        show (!(nd t x).black) = true
        rw [hred]
        rfl
      have hstep : deleteNode t x = some (tb, true) := by
        have hx0n : ¬(x = 0) := hx0
        have hone0 : ¬((nd t0 x).left ≠ 0 ∧ (nd t0 x).right ≠ 0) := hone
        have hchildv0 : childv = if (nd t0 x).left ≠ 0 then (nd t0 x).left
            else (nd t0 x).right := hchildv
        have hpxeq00 : (nd t0 x).parent = px := hpxeq
        simp only [deleteNode]
        rw [if_neg hx0n, ← ht0, if_neg hone0, ← hchildv0, hpxeq00, ← hta, ← htb,
          if_pos hredT2]
      exact ⟨tb, bt2, hstep, hw2, hord2, hrbkeep hxr, htblen, htbsize, htbless,
        hmem2, hkv2⟩
    · -- black: run the fix-up
      have hredT : (nd t x).black = true := by
        cases hh : (nd t x).black
        · exact absurd hh hred
        · rfl
      obtain ⟨t6, bt6, fin, hrun, hw6, hord6, hids6, hlen6, hsize6, hless6,
        hkv6, hfin⟩ := delFix_spec (fuel tb) tb bt2 childv px hw2 hord2
          (htbless ▸ hsl) (hrbkeep hxr)
          (Or.inr ⟨hpxmem2 hxr, by
            have h1 := depthOf_le_any bt2 px
            have h2 := ids_length_le hrep2 hnd2
            rw [htblen] at h2
            rw [fuel, htblen]
            omega⟩)
      have hredF2 : isRed t0 x = false := by
        show (!(nd t x).black) = false
        rw [hredT]
        rfl
      have hstep : deleteNode t x = some (setCol t6 fin true, true) := by
        have hx0n : ¬(x = 0) := hx0
        have hone0 : ¬((nd t0 x).left ≠ 0 ∧ (nd t0 x).right ≠ 0) := hone
        have hchildv0 : childv = if (nd t0 x).left ≠ 0 then (nd t0 x).left
            else (nd t0 x).right := hchildv
        have hpxeq00 : (nd t0 x).parent = px := hpxeq
        simp only [deleteNode]
        rw [if_neg hx0n, ← ht0, if_neg hone0, ← hchildv0, hpxeq00, ← hta, ← htb,
          if_neg (by rw [hredF2]; exact Bool.false_ne_true), hrun]
        rfl
      refine ⟨setCol t6 fin true, bt6, hstep, wft_setCol _ _ _ hw6,
        ordT_setCol _ _ _ hord6, ?_, ?_, ?_, ?_, ?_, ?_⟩
      · exact rootBlack_setCol_fin hw6 hfin
      · rw [setCol_length, hlen6, htblen]
      · rw [setCol_size, hsize6, htbsize]
      · rw [setCol_less, hless6, htbless]
      · intro m hm
        rw [hids6] at hm
        exact hmem2 m hm
      · intro m
        exact ⟨(setCol_key _ _ _ _).trans ((hkv6 m).1.trans (hkv2 m).1),
          (setCol_val _ _ _ _).trans ((hkv6 m).2.trans (hkv2 m).2)⟩

set_option maxHeartbeats 2000000 in
theorem twoChild_splice {t : Tree K V} {bt : BT} (hw : WFT t bt)
    (hord : OrdT t none none bt) (hsl : StrictLess t.less)
    (hrb : isBlack t t.root = true) {x : Nat} (hx : x ∈ bt.ids)
    (hlz : (nd t x).left ≠ 0) (hrz : (nd t x).right ≠ 0) :
    ∃ t' bt', deleteNode t x = some (t', true) ∧ WFT t' bt' ∧
      OrdT t' none none bt' ∧ isBlack t' t'.root = true ∧
      t'.store.length = t.store.length ∧ t'.size = t.size - 1 ∧ t'.less = t.less ∧
      (∀ m ∈ bt'.ids, m ∈ bt.ids ∧ m ≠ x) ∧
      (∀ m, (nd t' m).key = (nd t m).key ∧ (nd t' m).val = (nd t m).val) := by
  obtain ⟨A, R, px, hsub, hrepx, hparx, hpxeq, hA, hR, hpA, hpR, hnds, hpxcase,
    hx0, hxlen⟩ := pos_facts hw hx
  obtain ⟨P, S, hPS, hrepl⟩ := subAtP_decomp bt 0 hsub
  -- nodup decomposition of the subtree at x
  have hnds' := hnds
  rw [BT.ids, List.nodup_append, List.nodup_cons] at hnds'
  obtain ⟨hndA, ⟨hxnotR, hndR⟩, hdisjAxR⟩ := hnds'
  have hxnotA : x ∉ A.ids := fun hm => hdisjAxR hm (List.mem_cons_self _ _)
  have hdisjAR : ∀ j ∈ A.ids, j ∉ R.ids := fun j hj hm =>
    hdisjAxR hj (List.mem_cons_of_mem _ hm)
  -- the leftmost node of the right subtree and the builder
  obtain ⟨nx, rest, hidsR, hnx0, hnxleft, hnxrp, hnxrmem, hside, hbuild⟩ :=
    dropLeftmost_build R ((nd t x).right) x hR hndR hpR hrz hxnotR
  have hnxR : nx ∈ R.ids := by rw [hidsR]; exact List.mem_cons_self _ _
  have hnxsub : nx ∈ (BT.node A x R).ids := by simp [BT.ids, hnxR]
  have hnxmem : nx ∈ bt.ids := subAtP_sub_mem hsub nx hnxsub
  have hnxlen : nx ≤ t.store.length := (reprT_ids_pos hw.repr nx hnxmem).2
  have hnxx : nx ≠ x := fun hh => hxnotR (hh ▸ hnxR)
  have hrxR : (nd t x).right ∈ R.ids := reprT_root_mem hR hrz
  obtain ⟨R1, R2, hReq, -, hR1, hR2⟩ := reprT_pos hR hrz
  have hrxpar : (nd t ((nd t x).right)).parent = x := by
    rw [hReq] at hpR
    exact hpR.1
  -- the parent of x is outside the subtree (or nil)
  have hpxout : ∀ j ∈ (BT.node A x R).ids, j ≠ px := by
    intro j hj hh
    rcases hpxcase with ⟨hpz, -⟩ | ⟨-, -, hpnots, -⟩
    · exact (reprT_ids_pos hrepx j hj).1 (hh.trans hpz)
    · exact hpnots (hh ▸ hj)
  have hpxnx : nx ≠ px := hpxout nx hnxsub
  have hpxx : x ≠ px := hpxout x (by simp [BT.ids])
  -- the left child of x
  have hlxA : (nd t x).left ∈ A.ids := reprT_root_mem hA hlz
  have hlxsub : (nd t x).left ∈ (BT.node A x R).ids := by simp [BT.ids, hlxA]
  have hlxnx : (nd t x).left ≠ nx := fun hh => hdisjAR _ hlxA (hh ▸ hnxR)
  have hlxx : (nd t x).left ≠ x := fun hh => hxnotA (hh ▸ hlxA)
  have hlxpx : (nd t x).left ≠ px := hpxout _ hlxsub
  have hlxrx : (nd t x).left ≠ (nd t x).right := fun hh => hdisjAR _ hlxA (hh ▸ hrxR)
  have hlxlen : (nd t x).left ≤ t.store.length :=
    (reprT_ids_pos hw.repr _ (subAtP_sub_mem hsub _ hlxsub)).2
  -- local structure at nx
  obtain ⟨A2, R2x, px2, hsub2, -, -, hpx2eq, hA2, hR2x, hpA2, hpR2x, hnds2,
    hpx2case, -, -⟩ := pos_facts hw hnxmem
  have hnds2' := hnds2
  rw [BT.ids, List.nodup_append, List.nodup_cons] at hnds2'
  obtain ⟨-, ⟨hnxnotR2, -⟩, -⟩ := hnds2'
  have hchildnx : (nd t nx).right ≠ 0 → (nd t nx).right ≠ nx := by
    intro hcz hh
    exact hnxnotR2 (hh ▸ reprT_root_mem hR2x hcz)
  have hchildR : (nd t nx).right ≠ 0 → (nd t nx).right ∈ R.ids := hnxrmem
  have hchildx : (nd t nx).right ≠ 0 → (nd t nx).right ≠ x := fun hcz hh =>
    hxnotR (hh ▸ hchildR hcz)
  have hchildpx : (nd t nx).right ≠ 0 → (nd t nx).right ≠ px := fun hcz =>
    hpxout _ (by simp [BT.ids, hchildR hcz])
  have hchildlx : (nd t nx).right ≠ (nd t x).left := by
    by_cases hcz : (nd t nx).right = 0
    · rw [hcz]
      exact fun hh => hlz hh.symm
    · exact fun hh => hdisjAR _ hlxA (hh.symm ▸ hchildR hcz)
  have hchildrx : nx ≠ (nd t x).right → (nd t nx).right ≠ (nd t x).right := by
    intro hne
    by_cases hcz : (nd t nx).right = 0
    · rw [hcz]
      exact fun hh => hrz hh.symm
    · intro hh
      have h1 := hnxrp hcz
      rw [hh, hrxpar] at h1
      exact hnxx h1.symm
  have hchildlen : (nd t nx).right ≠ 0 → (nd t nx).right ≤ t.store.length :=
    fun hcz => (reprT_ids_pos hw.repr _
      (subAtP_sub_mem hsub _ (by simp [BT.ids, hchildR hcz]))).2
  -- side facts for the parent of nx
  have hsideiff : x = (nd t nx).parent ↔ nx = (nd t x).right := by
    constructor
    · intro hh
      rcases hside with ⟨h1, -⟩ | ⟨-, hpmem, -⟩
      · exact h1
      · exact absurd (hh ▸ hpmem) hxnotR
    · intro hh
      rcases hside with ⟨-, h2⟩ | ⟨hne, -, -⟩
      · exact h2.symm
      · exact absurd hh hne
  -- the pre-splice tree with the decremented size
  set t0 : Tree K V := { t with size := t.size - 1 } with ht0
  have htwo0 : (nd t0 x).left ≠ 0 ∧ (nd t0 x).right ≠ 0 := ⟨hlz, hrz⟩
  -- firstNode finds nx
  have hfirst : firstNode t0 ((nd t0 x).right) = some nx := by
    have hR0 : ReprT t0 ((nd t0 x).right) R := reprT_congr hR
      (fun j hj => ⟨rfl, rfl, (reprT_ids_pos hR j hj).2⟩)
    have hlenR := ids_length_le hR0 hndR
    unfold firstNode
    rw [firstLoop_spec R ((nd t0 x).right) hR0 hrz (fuel t0)
      (by unfold fuel; omega)]
    rw [hidsR]
    rfl
  -- the root/parent-child switch
  set t1 := if x = t0.root then { t0 with root := nx }
      else if x = (nd t0 ((nd t0 x).parent)).left then setL t0 ((nd t0 x).parent) nx
      else setR t0 ((nd t0 x).parent) nx with ht1
  have hpx0f : x ≠ t0.root → (nd t0 x).parent ≠ 0 := by
    intro hxr
    rcases hpxcase with ⟨-, hroot⟩ | ⟨hpzne, -, -, -⟩
    · exact absurd hroot hxr
    · exact fun hh => hpzne ((hpxeq.symm.trans hh : px = 0))
  have hpxlenf : x ≠ t0.root → (nd t0 x).parent ≤ t0.store.length := by
    intro hxr
    rcases hpxcase with ⟨-, hroot⟩ | ⟨-, hpmem, -, -⟩
    · exact absurd hroot hxr
    · show (nd t x).parent ≤ t.store.length
      rw [hpxeq]
      exact (reprT_ids_pos hw.repr px hpmem).2
  obtain ⟨hlink1, hlink2, hlinkroot, hlinknon, hlinklen, hlinksize, hlinkless⟩ :=
    delSplice_link hpx0f hpxlenf ht1
  have hxnroot_of : px ≠ 0 → x ≠ t.root := by
    intro hpz
    rcases hpxcase with ⟨hp0, -⟩ | ⟨-, -, -, hxr⟩
    · exact absurd hp0 hpz
    · exact hxr
  have hpx1 : px ≠ 0 →
      ((nd t1 px).left = if (nd t px).left = x then nx else (nd t px).left) ∧
      ((nd t1 px).right = if (nd t px).right = x then nx else (nd t px).right) := by
    intro hpz
    have hxnroot : x ≠ t.root := hxnroot_of hpz
    obtain ⟨-, hLc, hRc⟩ := hlinknon (show x ≠ t0.root from hxnroot)
    have hLc' : x = (nd t ((nd t x).parent)).left →
        (nd t1 ((nd t x).parent)).left = nx ∧
        (nd t1 ((nd t x).parent)).right = (nd t ((nd t x).parent)).right := hLc
    have hRc' : x ≠ (nd t ((nd t x).parent)).left →
        (nd t1 ((nd t x).parent)).left = (nd t ((nd t x).parent)).left ∧
        (nd t1 ((nd t x).parent)).right = nx := hRc
    rw [hpxeq] at hLc' hRc'
    have hexcl := subAtP_child bt t.root 0 hw.repr hw.nodup hsub hpz
    by_cases hpl : (nd t px).left = x
    · obtain ⟨hl1, hl2⟩ := hLc' hpl.symm
      have hrne : (nd t px).right ≠ x := by
        rcases hexcl with ⟨-, hr⟩ | ⟨-, hl⟩
        · exact hr
        · exact absurd hpl hl
      rw [if_pos hpl, if_neg hrne]
      exact ⟨hl1, hl2⟩
    · obtain ⟨hl1, hl2⟩ := hRc' (fun hh => hpl hh.symm)
      have hrx : (nd t px).right = x := by
        rcases hexcl with ⟨hl, -⟩ | ⟨hr, -⟩
        · exact absurd hl hpl
        · exact hr
      rw [if_neg hpl, if_pos hrx]
      exact ⟨hl1, hl2⟩
  have hroot1 : t1.root = if x = t.root then nx else t.root := by
    by_cases hxr : x = t.root
    · rw [if_pos hxr]
      exact (hlinkroot (show x = t0.root from hxr)).2
    · rw [if_neg hxr]
      exact ((hlinknon (show x ≠ t0.root from hxr)).1 : t1.root = t.root)
  have hlen1 : t1.store.length = t.store.length := hlinklen
  have hsize1 : t1.size = t.size - 1 := hlinksize
  have hless1 : t1.less = t.less := hlinkless
  have hne_pxf : ∀ j, j ≠ px → j ≠ (nd t0 x).parent := fun j hj hh =>
    hj (hh.trans hpxeq)
  have hxleft1 : (nd t1 x).left = (nd t x).left := (hlink2 x (hne_pxf x hpxx)).1
  have hxright1 : (nd t1 x).right = (nd t x).right := (hlink2 x (hne_pxf x hpxx)).2
  have hxpar1 : (nd t1 x).parent = px := ((hlink1 x).2.2.2).trans hpxeq
  have hxblack1 : (nd t1 x).black = (nd t x).black := (hlink1 x).2.2.1
  have hnxpar1 : (nd t1 nx).parent = (nd t nx).parent := (hlink1 nx).2.2.2
  have hnxright1 : (nd t1 nx).right = (nd t nx).right :=
    (hlink2 nx (hne_pxf nx hpxnx)).2
  have hnxleft1 : (nd t1 nx).left = 0 :=
    (hlink2 nx (hne_pxf nx hpxnx)).1.trans hnxleft
  have hredlink : isRed t1 nx = isRed t nx := by
    rw [isRed, isRed, (hlink1 nx).2.2.1]
    rfl
  have hprog : deleteNode t x =
      (match (if x = (nd t1 nx).parent then (t1, nx)
        else
          (setP (setR (setL (if (nd t1 nx).right ≠ 0 then
              setP t1 ((nd t1 nx).right) ((nd t1 nx).parent) else t1)
            ((nd t1 nx).parent) ((nd t1 nx).right)) nx
            ((nd (setL (if (nd t1 nx).right ≠ 0 then
              setP t1 ((nd t1 nx).right) ((nd t1 nx).parent) else t1)
            ((nd t1 nx).parent) ((nd t1 nx).right)) x).right))
            ((nd (setR (setL (if (nd t1 nx).right ≠ 0 then
              setP t1 ((nd t1 nx).right) ((nd t1 nx).parent) else t1)
            ((nd t1 nx).parent) ((nd t1 nx).right)) nx
            ((nd (setL (if (nd t1 nx).right ≠ 0 then
              setP t1 ((nd t1 nx).right) ((nd t1 nx).parent) else t1)
            ((nd t1 nx).parent) ((nd t1 nx).right)) x).right)) x).right) nx,
           (nd t1 nx).parent)) with
       | (tt, p1) =>
          if isRed t1 nx = true then
            some (setP (setCol (setP tt nx ((nd tt x).parent)) nx
              ((nd (setP tt nx ((nd tt x).parent)) x).black))
              ((nd (setCol (setP tt nx ((nd tt x).parent)) nx
                ((nd (setP tt nx ((nd tt x).parent)) x).black)) x).left) nx, true)
          else
            (delFix (setP (setCol (setP tt nx ((nd tt x).parent)) nx
                ((nd (setP tt nx ((nd tt x).parent)) x).black))
                ((nd (setCol (setP tt nx ((nd tt x).parent)) nx
                  ((nd (setP tt nx ((nd tt x).parent)) x).black)) x).left) nx)
              (fuel (setP (setCol (setP tt nx ((nd tt x).parent)) nx
                ((nd (setP tt nx ((nd tt x).parent)) x).black))
                ((nd (setCol (setP tt nx ((nd tt x).parent)) nx
                  ((nd (setP tt nx ((nd tt x).parent)) x).black)) x).left) nx))
              ((nd t1 nx).right) p1).bind
              (fun r => some (setCol r.1 r.2 true, true))) := by
    simp only [deleteNode]
    rw [if_neg (show ¬(x = 0) from hx0), ← ht0, if_pos htwo0, hfirst]
    rfl
  obtain ⟨u, p1v, hstepR, hstepB, hkv5, hblack5, hblack5nx, hpar5out, hpar5nx,
      hb2c, hcRp, hb1c, hleft5R, hright5R, hlr5out, hpx5, hnxl5, hnxr5,
      hroot5, hlen5, hsize5, hless5, hp1R⟩ :
    ∃ u p1v,
      (isRed t1 nx = true → deleteNode t x = some (u, true)) ∧
      (isRed t1 nx = false → ∀ w fin,
          delFix u (fuel u) ((nd t1 nx).right) p1v = some (w, fin) →
          deleteNode t x = some (setCol w fin true, true)) ∧
      (∀ j, (nd u j).key = (nd t j).key ∧ (nd u j).val = (nd t j).val) ∧
      (∀ j, j ≠ nx → (nd u j).black = (nd t j).black) ∧
      ((nd u nx).black = (nd t x).black) ∧
      (∀ j, j ≠ nx → j ≠ (nd t x).left → j ≠ (nd t nx).right →
        j ≠ (nd t x).right → (nd u j).parent = (nd t j).parent) ∧
      ((nd u nx).parent = px) ∧
      (nx ≠ (nd t x).right → (nd t nx).right ≠ 0 →
        (nd u ((nd t nx).right)).parent = (nd t nx).parent) ∧
      ((if nx = (nd t x).right then (nd t nx).right else (nd t x).right) ≠ 0 →
        (nd u (if nx = (nd t x).right then (nd t nx).right
          else (nd t x).right)).parent = nx) ∧
      (nx ≠ (nd t x).right → (nd u ((nd t nx).parent)).left = (nd t nx).right) ∧
      (∀ j ∈ R.ids, j ≠ nx → j ≠ (nd t nx).parent →
        (nd u j).left = (nd t j).left) ∧
      (∀ j ∈ R.ids, j ≠ nx → (nd u j).right = (nd t j).right) ∧
      (∀ j, j ≠ px → j ≠ nx → j ≠ (nd t nx).parent →
        (nd u j).left = (nd t j).left ∧ (nd u j).right = (nd t j).right) ∧
      (px ≠ 0 →
        ((nd u px).left = if (nd t px).left = x then nx else (nd t px).left) ∧
        ((nd u px).right = if (nd t px).right = x then nx else (nd t px).right)) ∧
      ((nd u nx).left = 0) ∧
      ((nd u nx).right =
        (if nx = (nd t x).right then (nd t nx).right else (nd t x).right)) ∧
      (u.root = if x = t.root then nx else t.root) ∧
      u.store.length = t.store.length ∧ u.size = t.size - 1 ∧ u.less = t.less ∧
      p1v ∈ R.ids := by
    by_cases hxp0 : x = (nd t1 nx).parent
    · -- the successor is the right child of x itself
      have hnxrxv : nx = (nd t x).right := hsideiff.mp (hxp0.trans hnxpar1)
      set t3 := setP t1 nx ((nd t1 x).parent) with ht3
      rw [hxpar1] at ht3
      set t4 := setCol t3 nx ((nd t3 x).black) with ht4
      have ht3xb : (nd t3 x).black = (nd t x).black := by
        rw [ht3, setP_black]
        exact hxblack1
      rw [ht3xb] at ht4
      set t5 := setP t4 ((nd t4 x).left) nx with ht5
      have ht4xl : (nd t4 x).left = (nd t x).left := by
        rw [ht4, setCol_left, ht3, setP_left]
        exact hxleft1
      rw [ht4xl] at ht5
      have hlen3 : t3.store.length = t.store.length := by
        rw [ht3, setP_length]
        exact hlen1
      have h5key : ∀ j, (nd t5 j).key = (nd t1 j).key := fun j => by
        rw [ht5, setP_key, ht4, setCol_key, ht3, setP_key]
      have h5val : ∀ j, (nd t5 j).val = (nd t1 j).val := fun j => by
        rw [ht5, setP_val, ht4, setCol_val, ht3, setP_val]
      have h5left : ∀ j, (nd t5 j).left = (nd t1 j).left := fun j => by
        rw [ht5, setP_left, ht4, setCol_left, ht3, setP_left]
      have h5right : ∀ j, (nd t5 j).right = (nd t1 j).right := fun j => by
        rw [ht5, setP_right, ht4, setCol_right, ht3, setP_right]
      have h5black : ∀ j, j ≠ nx → (nd t5 j).black = (nd t1 j).black := fun j hj => by
        rw [ht5, setP_black, ht4, setCol_black_ne _ _ _ _ hj, ht3, setP_black]
      have h5par : ∀ j, j ≠ nx → j ≠ (nd t x).left →
          (nd t5 j).parent = (nd t1 j).parent := fun j hj1 hj2 => by
        rw [ht5, setP_parent_ne _ _ _ _ hj2, ht4, setCol_parent, ht3,
          setP_parent_ne _ _ _ _ hj1]
      refine ⟨t5, nx, ?_, ?_, ?_, ?_, ?_, ?_, ?_, ?_, ?_, ?_, ?_, ?_, ?_, ?_, ?_,
        ?_, ?_, ?_, ?_, ?_, hnxR⟩
      · -- red exit
        intro hred
        rw [hprog, if_pos hxp0]
        show (if isRed t1 nx = true then some (t5, true)
          else (delFix t5 (fuel t5) ((nd t1 nx).right) nx).bind
            (fun r => some (setCol r.1 r.2 true, true))) = some (t5, true)
        rw [if_pos hred]
      · -- black: hand over to the fix-up
        intro hred w fin hfix
        rw [hprog, if_pos hxp0]
        show (if isRed t1 nx = true then some (t5, true)
          else (delFix t5 (fuel t5) ((nd t1 nx).right) nx).bind
            (fun r => some (setCol r.1 r.2 true, true))) = some (setCol w fin true, true)
        rw [if_neg (by rw [hred]; exact Bool.false_ne_true), hfix]
        rfl
      · exact fun j => ⟨(h5key j).trans (hlink1 j).1, (h5val j).trans (hlink1 j).2.1⟩
      · exact fun j hj => (h5black j hj).trans (hlink1 j).2.2.1
      · rw [ht5, setP_black, ht4]
        exact setCol_black_self _ _ _ hnx0 (by rw [hlen3]; exact hnxlen)
      · intro j hj1 hj2 hj3 hj4
        exact (h5par j hj1 hj2).trans (hlink1 j).2.2.2
      · rw [ht5, setP_parent_ne _ _ _ _ (fun hh => hlxnx hh.symm), ht4,
          setCol_parent, ht3]
        exact setP_parent_self _ _ _ hnx0 (by rw [hlen1]; exact hnxlen)
      · exact fun hne _ => absurd hnxrxv hne
      · rw [if_pos hnxrxv]
        intro hcz
        rw [h5par _ (hchildnx hcz) hchildlx, (hlink1 _).2.2.2]
        exact hnxrp hcz
      · exact fun hne => absurd hnxrxv hne
      · intro j hjR hj1 hj2
        have hjpx : j ≠ px := hpxout j (by simp [BT.ids, hjR])
        exact (h5left j).trans (hlink2 j (hne_pxf j hjpx)).1
      · intro j hjR hj1
        have hjpx : j ≠ px := hpxout j (by simp [BT.ids, hjR])
        exact (h5right j).trans (hlink2 j (hne_pxf j hjpx)).2
      · intro j hjpx hj1 hj2
        exact ⟨(h5left j).trans (hlink2 j (hne_pxf j hjpx)).1,
          (h5right j).trans (hlink2 j (hne_pxf j hjpx)).2⟩
      · intro hpz
        obtain ⟨hl1, hr1⟩ := hpx1 hpz
        exact ⟨(h5left px).trans hl1, (h5right px).trans hr1⟩
      · exact (h5left nx).trans hnxleft1
      · rw [if_pos hnxrxv]
        exact (h5right nx).trans hnxright1
      · have : t5.root = t1.root := by
          rw [ht5, setP_root, ht4, setCol_root, ht3, setP_root]
        exact this.trans hroot1
      · rw [ht5, setP_length, ht4, setCol_length]
        exact hlen3
      · rw [ht5, setP_size, ht4, setCol_size, ht3, setP_size]
        exact hsize1
      · rw [ht5, setP_less, ht4, setCol_less, ht3, setP_less]
        exact hless1

    · -- the successor lies deeper inside the right subtree
      have hxp0t : x ≠ (nd t nx).parent := fun hh => hxp0 (hh.trans hnxpar1.symm)
      have hnxrxvN : nx ≠ (nd t x).right := fun hh => hxp0t (hsideiff.mpr hh)
      obtain ⟨hp0mem', hp0left⟩ : (nd t nx).parent ∈ R.ids ∧
          (nd t ((nd t nx).parent)).left = nx := by
        rcases hside with ⟨h1, -⟩ | ⟨-, h2, h3⟩
        · exact absurd h1 hnxrxvN
        · exact ⟨h2, h3⟩
      have hp0bt : (nd t nx).parent ∈ bt.ids :=
        subAtP_sub_mem hsub _ (by simp [BT.ids, hp0mem'])
      have hp00 : (nd t nx).parent ≠ 0 := (reprT_ids_pos hw.repr _ hp0bt).1
      have hp0len : (nd t nx).parent ≤ t.store.length :=
        (reprT_ids_pos hw.repr _ hp0bt).2
      have hp0nx : (nd t nx).parent ≠ nx := by
        intro hh
        have h2 := hp0left
        rw [hh, hnxleft] at h2
        exact hnx0 h2.symm
      have hp0px : (nd t nx).parent ≠ px := hpxout _ (by simp [BT.ids, hp0mem'])
      have hrxlen : (nd t x).right ≤ t.store.length :=
        (reprT_ids_pos hw.repr _ (subAtP_sub_mem hsub _ (by simp [BT.ids, hrxR]))).2
      have hxc : x ≠ (nd t nx).right := by
        by_cases hcz : (nd t nx).right = 0
        · rw [hcz]
          exact hx0
        · exact fun hh => hchildx hcz hh.symm
      set ta2 := if (nd t1 nx).right ≠ 0 then
          setP t1 ((nd t1 nx).right) ((nd t1 nx).parent) else t1 with hta2
      rw [hnxright1, hnxpar1] at hta2
      set tb2 := setL ta2 ((nd t1 nx).parent) ((nd t1 nx).right) with htb2
      rw [hnxright1, hnxpar1] at htb2
      have hta2k : ∀ j, (nd ta2 j).key = (nd t1 j).key := by
        intro j
        rw [hta2]
        by_cases hcz : (nd t nx).right ≠ 0
        · rw [if_pos hcz, setP_key]
        · rw [if_neg hcz]
      have hta2v : ∀ j, (nd ta2 j).val = (nd t1 j).val := by
        intro j
        rw [hta2]
        by_cases hcz : (nd t nx).right ≠ 0
        · rw [if_pos hcz, setP_val]
        · rw [if_neg hcz]
      have hta2b : ∀ j, (nd ta2 j).black = (nd t1 j).black := by
        intro j
        rw [hta2]
        by_cases hcz : (nd t nx).right ≠ 0
        · rw [if_pos hcz, setP_black]
        · rw [if_neg hcz]
      have hta2l : ∀ j, (nd ta2 j).left = (nd t1 j).left := by
        intro j
        rw [hta2]
        by_cases hcz : (nd t nx).right ≠ 0
        · rw [if_pos hcz, setP_left]
        · rw [if_neg hcz]
      have hta2r : ∀ j, (nd ta2 j).right = (nd t1 j).right := by
        intro j
        rw [hta2]
        by_cases hcz : (nd t nx).right ≠ 0
        · rw [if_pos hcz, setP_right]
        · rw [if_neg hcz]
      have hta2p : ∀ j, j ≠ (nd t nx).right →
          (nd ta2 j).parent = (nd t1 j).parent := by
        intro j hj
        rw [hta2]
        by_cases hcz : (nd t nx).right ≠ 0
        · rw [if_pos hcz, setP_parent_ne _ _ _ _ hj]
        · rw [if_neg hcz]
      have hta2pc : (nd t nx).right ≠ 0 →
          (nd ta2 ((nd t nx).right)).parent = (nd t nx).parent := by
        intro hcz
        rw [hta2, if_pos hcz]
        exact setP_parent_self _ _ _ hcz (by rw [hlen1]; exact hchildlen hcz)
      have hta2len : ta2.store.length = t.store.length := by
        rw [hta2]
        by_cases hcz : (nd t nx).right ≠ 0
        · rw [if_pos hcz, setP_length]
          exact hlen1
        · rw [if_neg hcz]
          exact hlen1
      have hta2size : ta2.size = t.size - 1 := by
        rw [hta2]
        by_cases hcz : (nd t nx).right ≠ 0
        · rw [if_pos hcz, setP_size]
          exact hsize1
        · rw [if_neg hcz]
          exact hsize1
      have hta2less : ta2.less = t.less := by
        rw [hta2]
        by_cases hcz : (nd t nx).right ≠ 0
        · rw [if_pos hcz, setP_less]
          exact hless1
        · rw [if_neg hcz]
          exact hless1
      have hta2root : ta2.root = t1.root := by
        rw [hta2]
        by_cases hcz : (nd t nx).right ≠ 0
        · rw [if_pos hcz, setP_root]
        · rw [if_neg hcz]
      have htb2xr : (nd tb2 x).right = (nd t x).right := by
        rw [htb2, setL_right, hta2r]
        exact hxright1
      set tc2 := setR tb2 nx ((nd tb2 x).right) with htc2
      rw [htb2xr] at htc2
      have htc2xr : (nd tc2 x).right = (nd t x).right := by
        rw [htc2, setR_right_ne _ _ _ _ (fun hh => hnxx hh.symm)]
        exact htb2xr
      set td2 := setP tc2 ((nd tc2 x).right) nx with htd2
      rw [htc2xr] at htd2
      have hxrx : x ≠ (nd t x).right := fun hh => hxnotR (hh ▸ hrxR)
      have htd2xp : (nd td2 x).parent = px := by
        rw [htd2, setP_parent_ne _ _ _ _ hxrx, htc2, setR_parent, htb2, setL_parent,
          hta2p x hxc]
        exact hxpar1
      set t3 := setP td2 nx ((nd td2 x).parent) with ht3
      rw [htd2xp] at ht3
      have ht3xb : (nd t3 x).black = (nd t x).black := by
        rw [ht3, setP_black, htd2, setP_black, htc2, setR_black, htb2, setL_black,
          hta2b]
        exact hxblack1
      set t4 := setCol t3 nx ((nd t3 x).black) with ht4
      rw [ht3xb] at ht4
      have ht4xl : (nd t4 x).left = (nd t x).left := by
        rw [ht4, setCol_left, ht3, setP_left, htd2, setP_left, htc2, setR_left,
          htb2, setL_left_ne _ _ _ _ hxp0t, hta2l]
        exact hxleft1
      set t5 := setP t4 ((nd t4 x).left) nx with ht5
      rw [ht4xl] at ht5
      have htb2len : tb2.store.length = t.store.length := by
        rw [htb2, setL_length, hta2len]
      have htc2len : tc2.store.length = t.store.length := by
        rw [htc2, setR_length, htb2len]
      have htd2len : td2.store.length = t.store.length := by
        rw [htd2, setP_length, htc2len]
      have hlen3 : t3.store.length = t.store.length := by
        rw [ht3, setP_length, htd2len]
      have h5key : ∀ j, (nd t5 j).key = (nd t1 j).key := by
        intro j
        rw [ht5, setP_key, ht4, setCol_key, ht3, setP_key, htd2, setP_key, htc2,
          setR_key, htb2, setL_key, hta2k]
      have h5val : ∀ j, (nd t5 j).val = (nd t1 j).val := by
        intro j
        rw [ht5, setP_val, ht4, setCol_val, ht3, setP_val, htd2, setP_val, htc2,
          setR_val, htb2, setL_val, hta2v]
      have h5black : ∀ j, j ≠ nx → (nd t5 j).black = (nd t1 j).black := by
        intro j hj
        rw [ht5, setP_black, ht4, setCol_black_ne _ _ _ _ hj, ht3, setP_black, htd2,
          setP_black, htc2, setR_black, htb2, setL_black, hta2b]
      have h5left : ∀ j, j ≠ (nd t nx).parent → (nd t5 j).left = (nd t1 j).left := by
        intro j hj
        rw [ht5, setP_left, ht4, setCol_left, ht3, setP_left, htd2, setP_left, htc2,
          setR_left, htb2, setL_left_ne _ _ _ _ hj, hta2l]
      have h5right : ∀ j, j ≠ nx → (nd t5 j).right = (nd t1 j).right := by
        intro j hj
        rw [ht5, setP_right, ht4, setCol_right, ht3, setP_right, htd2, setP_right,
          htc2, setR_right_ne _ _ _ _ hj, htb2, setL_right, hta2r]
      have h5par : ∀ j, j ≠ nx → j ≠ (nd t x).left → j ≠ (nd t x).right →
          j ≠ (nd t nx).right → (nd t5 j).parent = (nd t1 j).parent := by
        intro j h1 h2 h3 h4
        rw [ht5, setP_parent_ne _ _ _ _ h2, ht4, setCol_parent, ht3,
          setP_parent_ne _ _ _ _ h1, htd2, setP_parent_ne _ _ _ _ h3, htc2,
          setR_parent, htb2, setL_parent, hta2p j h4]
      refine ⟨t5, (nd t nx).parent, ?_, ?_, ?_, ?_, ?_, ?_, ?_, ?_, ?_, ?_, ?_, ?_,
        ?_, ?_, ?_, ?_, ?_, ?_, ?_, ?_, hp0mem'⟩
      · intro hred
        rw [hprog, if_neg hxp0]
        show (if isRed t1 nx = true then some (t5, true)
          else (delFix t5 (fuel t5) ((nd t1 nx).right) ((nd t1 nx).parent)).bind
            (fun r => some (setCol r.1 r.2 true, true))) = some (t5, true)
        rw [if_pos hred]
      · intro hred w fin hfix
        rw [hprog, if_neg hxp0]
        show (if isRed t1 nx = true then some (t5, true)
          else (delFix t5 (fuel t5) ((nd t1 nx).right) ((nd t1 nx).parent)).bind
            (fun r => some (setCol r.1 r.2 true, true))) =
          some (setCol w fin true, true)
        rw [if_neg (by rw [hred]; exact Bool.false_ne_true), hnxpar1, hfix]
        rfl
      · exact fun j => ⟨(h5key j).trans (hlink1 j).1, (h5val j).trans (hlink1 j).2.1⟩
      · exact fun j hj => (h5black j hj).trans (hlink1 j).2.2.1
      · rw [ht5, setP_black, ht4]
        exact setCol_black_self _ _ _ hnx0 (by rw [hlen3]; exact hnxlen)
      · intro j hj1 hj2 hj3 hj4
        exact (h5par j hj1 hj2 hj4 hj3).trans (hlink1 j).2.2.2
      · rw [ht5, setP_parent_ne _ _ _ _ (fun hh => hlxnx hh.symm), ht4, setCol_parent,
          ht3]
        exact setP_parent_self _ _ _ hnx0 (by rw [htd2len]; exact hnxlen)
      · intro hne hcz
        rw [ht5, setP_parent_ne _ _ _ _ hchildlx, ht4, setCol_parent, ht3,
          setP_parent_ne _ _ _ _ (hchildnx hcz), htd2,
          setP_parent_ne _ _ _ _ (hchildrx hne), htc2, setR_parent, htb2, setL_parent]
        exact hta2pc hcz
      · rw [if_neg hnxrxvN]
        intro hcz
        rw [ht5, setP_parent_ne _ _ _ _ (fun hh => hlxrx hh.symm), ht4, setCol_parent,
          ht3, setP_parent_ne _ _ _ _ (fun hh => hnxrxvN hh.symm), htd2]
        exact setP_parent_self _ _ _ hrz (by rw [htc2len]; exact hrxlen)
      · intro hne
        rw [ht5, setP_left, ht4, setCol_left, ht3, setP_left, htd2, setP_left, htc2,
          setR_left, htb2]
        exact setL_left_self _ _ _ hp00 (by rw [hta2len]; exact hp0len)
      · intro j hjR hj1 hj2
        have hjpx : j ≠ px := hpxout j (by simp [BT.ids, hjR])
        exact (h5left j hj2).trans (hlink2 j (hne_pxf j hjpx)).1
      · intro j hjR hj1
        have hjpx : j ≠ px := hpxout j (by simp [BT.ids, hjR])
        exact (h5right j hj1).trans (hlink2 j (hne_pxf j hjpx)).2
      · intro j hjpx hj1 hj2
        exact ⟨(h5left j hj2).trans (hlink2 j (hne_pxf j hjpx)).1,
          (h5right j hj1).trans (hlink2 j (hne_pxf j hjpx)).2⟩
      · intro hpz
        obtain ⟨hl1, hr1⟩ := hpx1 hpz
        exact ⟨(h5left px (fun hh => hp0px hh.symm)).trans hl1,
          (h5right px (fun hh => hpxnx hh.symm)).trans hr1⟩
      · exact (h5left nx (fun hh => hp0nx hh.symm)).trans hnxleft1
      · rw [if_neg hnxrxvN, ht5, setP_right, ht4, setCol_right, ht3, setP_right,
          htd2, setP_right, htc2]
        exact setR_right_self _ _ _ hnx0 (by rw [htb2len]; exact hnxlen)
      · have h5r : t5.root = t1.root := by
          rw [ht5, setP_root, ht4, setCol_root, ht3, setP_root, htd2, setP_root,
            htc2, setR_root, htb2, setL_root, hta2root]
        exact h5r.trans hroot1
      · rw [ht5, setP_length, ht4, setCol_length, ht3, setP_length, htd2,
          setP_length, htc2, setR_length, htb2, setL_length, hta2len]
      · rw [ht5, setP_size, ht4, setCol_size, ht3, setP_size, htd2, setP_size, htc2,
          setR_size, htb2, setL_size, hta2size]
      · rw [ht5, setP_less, ht4, setCol_less, ht3, setP_less, htd2, setP_less, htc2,
          setR_less, htb2, setL_less, hta2less]
  -- assemble the well-formed result around the new subtree rooted at nx
  set S' := BT.node BT.leaf nx (dropLeftmost R) with hS'
  have hSids : S'.ids = R.ids := by
    rw [hS', BT.ids, dropLeftmost_ids, hidsR]
    rfl
  have hSmem' : ∀ m ∈ S'.ids, m ∈ (BT.node A x R).ids := by
    intro m hm
    rw [hSids] at hm
    simp [BT.ids, hm]
  have hxnotS' : x ∉ S'.ids := by
    rw [hSids]
    exact hxnotR
  have hSsub' : S'.ids.Sublist ((BT.node A x R).ids) := by
    rw [hSids, BT.ids]
    exact (List.sublist_cons_self _ _).trans (List.sublist_append_right _ _)
  have hp0sub : (nd t nx).parent ∈ (BT.node A x R).ids := by
    rcases hside with ⟨-, h2⟩ | ⟨-, h2, -⟩
    · rw [h2]
      simp [BT.ids]
    · simp [BT.ids, h2]
  have hp0ne : (nd t nx).parent ≠ 0 := by
    rcases hside with ⟨-, h2⟩ | ⟨-, h2, -⟩
    · rw [h2]
      exact hx0
    · exact (reprT_ids_pos hw.repr _
        (subAtP_sub_mem hsub _ (by simp [BT.ids, h2]))).1
  have hnxroot : nx ≠ t.root := by
    intro hh
    have hrp : (nd t t.root).parent = 0 :=
      wft_root_parent hw (by rw [← hh]; exact hnx0)
    rw [← hh] at hrp
    exact hp0ne hrp
  obtain ⟨hrepdrop, hpardropf⟩ :=
    hbuild u hb1c hb2c hleft5R hright5R
      (fun j hjR hj1 hj2 hj3 =>
        hpar5out j hj1 (fun hh => hdisjAR _ hlxA (hh ▸ hjR)) hj2 hj3)
      (fun j hjR => by
        rw [hlen5]
        exact (reprT_ids_pos hw.repr j
          (subAtP_sub_mem hsub j (by simp [BT.ids, hjR]))).2)
  have hrepS' : ReprT u nx S' := by
    rw [hS']
    refine ReprT.node hnx0 (by rw [hlen5]; exact hnxlen) ?_ ?_
    · rw [hnxl5]
      exact ReprT.leaf
    · rw [hnxr5]
      exact hrepdrop
  have hparS' : ParentOk u S' px := by
    rw [hS']
    refine ⟨hpar5nx, trivial, ?_⟩
    by_cases hcz : (if nx = (nd t x).right then (nd t nx).right
        else (nd t x).right) = 0
    · have hleaf : dropLeftmost R = BT.leaf := reprT_zero (hcz ▸ hrepdrop)
      rw [hleaf]
      trivial
    · exact hpardropf nx (hcRp hcz)
  have hordS' : ∀ lo hi, OrdT t lo hi (BT.node A x R) → OrdT u lo hi S' := by
    intro lo hi h
    obtain ⟨h1, h2, h3, h4⟩ := h
    obtain ⟨g1, g2⟩ :=
      ordT_dropLeftmost hsl R nx rest (some ((nd t x).key)) hi h4 hidsR
    have hloS : loOk t.less lo ((nd t nx).key) := by
      cases lo with
      | none => trivial
      | some a =>
          simp only [loOk] at h1 g1 ⊢
          exact hsl.lt_trans _ _ _ h1 g1
    have hordt : OrdT t lo hi S' := by
      rw [hS']
      exact ⟨hloS, (ordT_keys hsl h4 nx hnxR).2, trivial, g2⟩
    exact ordT_congr hless5 hordt (fun j hj => (hkv5 j).1)
  set bt2 := replaceAt bt x S' with hbt2
  have hids2 : bt2.ids = P ++ (S'.ids ++ S) := hrepl S'
  have hx_parts : x ∉ P ∧ x ∉ S := by
    have hnd := hw.nodup
    rw [hPS] at hnd
    have hxs : x ∈ (BT.node A x R).ids := by simp [BT.ids]
    rw [List.nodup_append] at hnd
    obtain ⟨-, hnd2, hdisj1⟩ := hnd
    rw [List.nodup_append] at hnd2
    obtain ⟨-, -, hdisj2⟩ := hnd2
    exact ⟨fun hp => hdisj1 hp (List.mem_append_left _ hxs),
      fun hs => hdisj2 hxs hs⟩
  have hmem2 : ∀ m ∈ bt2.ids, m ∈ bt.ids ∧ m ≠ x := by
    intro m hm
    rw [hids2] at hm
    simp only [List.mem_append] at hm
    rcases hm with hm | hm | hm
    · exact ⟨by rw [hPS]; simp [hm], fun hh => hx_parts.1 (hh ▸ hm)⟩
    · have hms : m ∈ (BT.node A x R).ids := hSmem' m hm
      exact ⟨by rw [hPS]; simp [hms], fun hh => hxnotS' (hh ▸ hm)⟩
    · exact ⟨by rw [hPS]; simp [hm], fun hh => hx_parts.2 (hh ▸ hm)⟩
  have hnd2 : bt2.ids.Nodup := by
    have hsubl : bt2.ids.Sublist bt.ids := by
      rw [hids2, hPS]
      exact (hSsub'.append_right S).append_left P
    exact List.Nodup.sublist hsubl hw.nodup
  have hrep2 : ReprT u u.root bt2 := by
    have htrans := reprT_replaceAt hrepS' hw.repr hw.nodup hsub
      (fun j hj hjs hjpx =>
        ⟨(hlr5out j hjpx (fun hh => hjs (hh ▸ hnxsub))
            (fun hh => hjs (hh ▸ hp0sub))).1,
          (hlr5out j hjpx (fun hh => hjs (hh ▸ hnxsub))
            (fun hh => hjs (hh ▸ hp0sub))).2,
          by rw [hlen5]; exact (reprT_ids_pos hw.repr j hj).2⟩)
      (fun hpmem hpnots => by
        have hpz : px ≠ 0 := (reprT_ids_pos hw.repr px hpmem).1
        exact ⟨(hpx5 hpz).1, (hpx5 hpz).2,
          by rw [hlen5]; exact (reprT_ids_pos hw.repr px hpmem).2⟩)
    rw [hroot5]
    by_cases hxr : x = t.root
    · rw [if_pos hxr]
      rw [if_pos hxr.symm] at htrans
      exact htrans
    · rw [if_neg hxr]
      rw [if_neg (fun hh => hxr hh.symm)] at htrans
      exact htrans
  have hpar2 : ParentOk u bt2 0 := by
    refine parentOk_replaceAt hparS' hw.par hw.nodup hsub ?_
    intro j hj hjs
    have hjnx : j ≠ nx := fun hh => hjs (hh ▸ hnxsub)
    have hjlx : j ≠ (nd t x).left := fun hh => hjs (hh ▸ hlxsub)
    have hjrx : j ≠ (nd t x).right := fun hh =>
      hjs (hh ▸ (show (nd t x).right ∈ (BT.node A x R).ids by
        simp [BT.ids, hrxR]))
    have hjc : j ≠ (nd t nx).right := by
      by_cases hcz : (nd t nx).right = 0
      · rw [hcz]
        exact (reprT_ids_pos hw.repr j hj).1
      · exact fun hh => hjs (hh ▸ (show (nd t nx).right ∈ (BT.node A x R).ids by
          simp [BT.ids, hchildR hcz]))
    exact hpar5out j hjnx hjlx hjc hjrx
  have hord2 : OrdT u none none bt2 := by
    refine ordT_replaceAt hless5 hordS' hord hw.nodup hsub ?_
    exact fun j hj hjs => (hkv5 j).1
  have hw2 : WFT u bt2 := ⟨hrep2, hnd2, hpar2⟩
  have hp1mem2 : p1v ∈ bt2.ids := by
    rw [hids2]
    have h1 : p1v ∈ S'.ids := by rw [hSids]; exact hp1R
    simp [h1]
  have hrb2 : isBlack u u.root = true := by
    by_cases hxr : x = t.root
    · rw [isBlack, hroot5, if_pos hxr, hblack5nx, hxr]
      exact hrb
    · rw [isBlack, hroot5, if_neg hxr, hblack5 t.root (fun hh => hnxroot hh.symm)]
      exact hrb
  by_cases hredc : isRed t1 nx = true
  · exact ⟨u, bt2, hstepR hredc, hw2, hord2, hrb2, hlen5, hsize5, hless5, hmem2,
      hkv5⟩
  · have hredF : isRed t1 nx = false := by
      cases hh : isRed t1 nx
      · rfl
      · exact absurd hh hredc
    obtain ⟨t6, bt6, fin, hrun, hw6, hord6, hids6, hlen6, hsize6, hless6, hkv6,
      hfin⟩ :=
      delFix_spec (fuel u) u bt2 ((nd t1 nx).right) p1v hw2 hord2 (hless5 ▸ hsl)
        hrb2
        (Or.inr ⟨hp1mem2, by
          have h1 := depthOf_le_any bt2 p1v
          have h2 := ids_length_le hrep2 hnd2
          rw [hlen5] at h2
          rw [fuel, hlen5]
          omega⟩)
    have hstep := hstepB hredF t6 fin hrun
    refine ⟨setCol t6 fin true, bt6, hstep, wft_setCol _ _ _ hw6,
      ordT_setCol _ _ _ hord6, ?_, ?_, ?_, ?_, ?_, ?_⟩
    · exact rootBlack_setCol_fin hw6 hfin
    · rw [setCol_length, hlen6, hlen5]
    · rw [setCol_size, hsize6, hsize5]
    · rw [setCol_less, hless6, hless5]
    · intro m hm
      rw [hids6] at hm
      exact hmem2 m hm
    · intro m
      exact ⟨(setCol_key _ _ _ _).trans ((hkv6 m).1.trans (hkv5 m).1),
        (setCol_val _ _ _ _).trans ((hkv6 m).2.trans (hkv5 m).2)⟩


/-! ### Lookup postcondition and cheap operation lemmas -/

theorem findLoop_post (t : Tree K V) [DecidableEq K] (k : K) :
    ∀ f i j, findLoop t k f i = some j → j = 0 ∨ (nd t j).key = k := by
  intro f
  induction f with
  | zero => intro i j h; simp [findLoop] at h
  | succ f ih =>
      intro i j h
      unfold findLoop at h
      split at h
      · exact ih _ _ h
      · rename_i hc
        cases h
        by_cases h0 : i = 0
        · exact Or.inl h0
        · by_cases hk : k = (nd t i).key
          · exact Or.inr hk.symm
          · exact absurd ⟨h0, hk⟩ hc

/-- `delete(key)` on a missing key: `_findNode` returns the nil node,
`_deleteNode(nil)` returns `false` before touching `_size`, and the
link-reset is skipped, so the tree is returned unchanged. -/
theorem deleteOp_miss (t : Tree K V) [DecidableEq K] (k : K)
    (h : findNode t k = some 0) : deleteOp t k = some (t, false) := by
  unfold deleteOp
  rw [h]
  simp [deleteNode]

/-! ### The public delete operation and reachable-tree invariants -/

theorem ordTB_ok {t : Tree K V} :
    ∀ (bt : BT) (lo hi : Option K), ordTB t lo hi bt = true → OrdT t lo hi bt := by
  intro bt
  induction bt with
  | leaf => intro lo hi _; trivial
  | node l i r ihl ihr =>
      intro lo hi h
      simp only [ordTB, Bool.and_eq_true] at h
      refine ⟨?_, ?_, ihl _ _ h.1.2, ihr _ _ h.2⟩
      · cases lo with
        | none => trivial
        | some a => exact h.1.1.1
      · cases hi with
        | none => trivial
        | some b => exact h.1.1.2

theorem deleteNode_preserves {t : Tree K V} {bt : BT} (hw : WFT t bt)
    (hord : OrdT t none none bt) (hsl : StrictLess t.less)
    (hrb : isBlack t t.root = true) {x : Nat} (hx : x ∈ bt.ids) :
    ∃ t' bt', deleteNode t x = some (t', true) ∧ WFT t' bt' ∧
      OrdT t' none none bt' ∧ isBlack t' t'.root = true ∧
      t'.store.length = t.store.length ∧ t'.size = t.size - 1 ∧ t'.less = t.less ∧
      (∀ m ∈ bt'.ids, m ∈ bt.ids ∧ m ≠ x) ∧
      (∀ m, (nd t' m).key = (nd t m).key ∧ (nd t' m).val = (nd t m).val) := by
  by_cases h2 : (nd t x).left ≠ 0 ∧ (nd t x).right ≠ 0
  · exact twoChild_splice hw hord hsl hrb hx h2.1 h2.2
  · exact oneChild_splice hw hord hsl hrb hx h2

theorem deleteOp_missing {t : Tree K V} [DecidableEq K] {bt : BT} (hw : WFT t bt)
    (k : K) (hmiss : ∀ m ∈ bt.ids, (nd t m).key ≠ k) :
    deleteOp t k = some (t, false) := by
  have hfge : bt.ids.length + 1 ≤ fuel t := by
    have := ids_length_le hw.repr hw.nodup
    unfold fuel
    omega
  obtain ⟨i, hfind, hpost⟩ := findLoop_run bt t.root hw.repr (fuel t) hfge
  rcases hpost with hi0 | ⟨himem, hikey⟩
  · subst hi0
    exact deleteOp_miss t k hfind
  · exact absurd hikey (hmiss i himem)

theorem ordT_key_inj {t : Tree K V} {bt : BT} (hsl : StrictLess t.less)
    {lo hi : Option K} (hord : OrdT t lo hi bt) {m x : Nat} (hm : m ∈ bt.ids)
    (hx : x ∈ bt.ids) (hne : m ≠ x) : (nd t m).key ≠ (nd t x).key := by
  intro heq
  have hpw : bt.ids.Pairwise
      (fun a b => t.less ((nd t a).key) ((nd t b).key) = true) :=
    List.pairwise_map.mp (ordT_pairwise hsl hord)
  obtain ⟨pre, suf, hids⟩ := List.append_of_mem hm
  obtain ⟨hpre, hsuf, -⟩ := pairwise_decomp hpw hids
  rw [hids] at hx
  simp only [List.mem_append, List.mem_cons] at hx
  rcases hx with hx | hx | hx
  · have hlt := hpre x hx
    rw [heq, hsl.irrefl] at hlt
    exact Bool.false_ne_true hlt
  · exact hne hx.symm
  · have hlt := hsuf x hx
    rw [← heq, hsl.irrefl] at hlt
    exact Bool.false_ne_true hlt

theorem deleteOp_hit {t : Tree K V} [DecidableEq K] {bt : BT} (hw : WFT t bt)
    (hord : OrdT t none none bt) (hsl : StrictLess t.less)
    (hrb : isBlack t t.root = true) {k : K} {x : Nat} (hx : x ∈ bt.ids)
    (hkey : (nd t x).key = k) :
    ∃ t' bt', deleteOp t k = some (t', true) ∧ WFT t' bt' ∧
      OrdT t' none none bt' ∧ isBlack t' t'.root = true ∧
      t'.store.length = t.store.length ∧ t'.size = t.size - 1 ∧ t'.less = t.less ∧
      (∀ m ∈ bt'.ids, m ∈ bt.ids ∧ m ≠ x) ∧
      (∀ m, (nd t' m).key = (nd t m).key ∧ (nd t' m).val = (nd t m).val) := by
  have hfge : bt.ids.length + 1 ≤ fuel t := by
    have := ids_length_le hw.repr hw.nodup
    unfold fuel
    omega
  have hfindN : findNode t k = some x :=
    findLoop_hit hsl bt t.root none none hw.repr hord x hx hkey (fuel t) hfge
  have hx0 : x ≠ 0 := (reprT_ids_pos hw.repr x hx).1
  obtain ⟨u, bt', hdel, hw', hord', hrb', hlen', hsize', hless', hmem', hkv'⟩ :=
    deleteNode_preserves hw hord hsl hrb hx
  have hstep : deleteOp t k = some (resetLinks u x, true) := by
    unfold deleteOp
    rw [hfindN]
    show (deleteNode t x).bind (fun r =>
      some (if x ≠ 0 then resetLinks r.1 x else r.1, r.2)) =
      some (resetLinks u x, true)
    rw [hdel]
    show some (if x ≠ 0 then resetLinks u x else u, true) =
      some (resetLinks u x, true)
    rw [if_pos hx0]
  have hmx : ∀ m ∈ bt'.ids, m ≠ x := fun m hm => (hmem' m hm).2
  refine ⟨resetLinks u x, bt', hstep, ?_, ?_, ?_, ?_, ?_, ?_, hmem', ?_⟩
  · refine ⟨?_, hw'.nodup, ?_⟩
    · rw [resetLinks_root]
      refine reprT_congr hw'.repr ?_
      intro j hj
      exact ⟨resetLinks_left_ne _ _ _ (hmx j hj),
        resetLinks_right_ne _ _ _ (hmx j hj),
        by rw [resetLinks_length]; exact (reprT_ids_pos hw'.repr j hj).2⟩
    · exact parentOk_congr hw'.par (fun j hj => resetLinks_parent_ne _ _ _ (hmx j hj))
  · exact ordT_congr (resetLinks_less u x) hord' (fun j _ => resetLinks_key u x j)
  · show (nd (resetLinks u x) ((resetLinks u x).root)).black = true
    rw [resetLinks_root, resetLinks_black]
    exact hrb'
  · rw [resetLinks_length]
    exact hlen'
  · rw [resetLinks_size]
    exact hsize'
  · rw [resetLinks_less]
    exact hless'
  · intro m
    exact ⟨(resetLinks_key u x m).trans (hkv' m).1,
      (resetLinks_val u x m).trans (hkv' m).2⟩

theorem deleteOp_preserves {t : Tree K V} [DecidableEq K] {bt : BT} (hw : WFT t bt)
    (hord : OrdT t none none bt) (hsl : StrictLess t.less)
    (hrb : isBlack t t.root = true) (k : K) :
    ∃ t' bt' res, deleteOp t k = some (t', res) ∧ WFT t' bt' ∧
      OrdT t' none none bt' ∧ isBlack t' t'.root = true ∧ t'.less = t.less := by
  have hfge : bt.ids.length + 1 ≤ fuel t := by
    have := ids_length_le hw.repr hw.nodup
    unfold fuel
    omega
  obtain ⟨i, hfind, hpost⟩ := findLoop_run bt t.root hw.repr (fuel t) hfge
  rcases hpost with hi0 | ⟨himem, hikey⟩
  · subst hi0
    exact ⟨t, bt, false, deleteOp_miss t k hfind, hw, hord, hrb, rfl⟩
  · obtain ⟨t', bt', hstep, hw', hord', hrb', -, -, hless', -, -⟩ :=
      deleteOp_hit hw hord hsl hrb himem hikey
    exact ⟨t', bt', true, hstep, hw', hord', hrb', hless'⟩

theorem reach_invariant {less : K → K → Bool} [DecidableEq K]
    (hsl : StrictLess less) {t : Tree K V} (h : Reach less t) :
    t.less = less ∧ ∃ bt, WFT t bt ∧ OrdT t none none bt ∧
      isBlack t t.root = true := by
  induction h with
  | base =>
      refine ⟨rfl, .leaf, ⟨ReprT.leaf, ?_, trivial⟩, trivial, rfl⟩
      simp [BT.ids]
  | @set t0 t' k v a e ih =>
      obtain ⟨hle, bt, hw, hord, hrb⟩ := ih
      obtain ⟨t2, bt2, hset2, hw2, hord2, hrb2, hless2, -⟩ :=
        setOp_preserves hw hord (by rw [hle]; exact hsl) hrb k v
      have heq : t2 = t' := Option.some.inj (hset2.symm.trans e)
      subst heq
      exact ⟨hless2.trans hle, bt2, hw2, hord2, hrb2⟩
  | @del t0 t' k b a e ih =>
      obtain ⟨hle, bt, hw, hord, hrb⟩ := ih
      obtain ⟨t2, bt2, res, hstep, hw2, hord2, hrb2, hless2⟩ :=
        deleteOp_preserves hw hord (by rw [hle]; exact hsl) hrb k
      have hpair : (t2, res) = (t', b) := Option.some.inj (hstep.symm.trans e)
      have heq : t2 = t' := congrArg Prod.fst hpair
      subst heq
      exact ⟨hless2.trans hle, bt2, hw2, hord2, hrb2⟩

theorem assignList_build :
    ∀ (es : List (K × V)) (t : Tree K V) (bt : BT), WFT t bt →
      OrdT t none none bt → StrictLess t.less → isBlack t t.root = true →
      (∀ e ∈ es, ∀ m ∈ bt.ids, (nd t m).key ≠ e.1) →
      es.Pairwise (fun e1 e2 => e1.1 ≠ e2.1) →
      ∃ t' bt', assignList t es = some t' ∧ WFT t' bt' ∧ OrdT t' none none bt' ∧
        isBlack t' t'.root = true ∧ t'.less = t.less ∧
        (bt'.ids.map fun m => ((nd t' m).key, (nd t' m).val)).Perm
          ((bt.ids.map fun m => ((nd t m).key, (nd t m).val)) ++ es) := by
  intro es
  induction es with
  | nil =>
      intro t bt hw hord hsl hrb hnew hpw
      refine ⟨t, bt, rfl, hw, hord, hrb, rfl, ?_⟩
      rw [List.append_nil]
  | cons e rest ih =>
      intro t bt hw hord hsl hrb hnew hpw
      obtain ⟨k, v⟩ := e
      set tp := (pushNode t k v).1 with htp
      set j := t.store.length + 1 with hj
      have hndp : ∀ m, m ≤ t.store.length → nd tp m = nd t m := fun m hm =>
        nd_pushNode_le t k v m hm
      have hndpj : nd tp j = ⟨k, v, 0, 0, 0, true⟩ := nd_pushNode_self t k v
      have hlenp : tp.store.length = t.store.length + 1 := pushNode_length t k v
      have hrootp : tp.root = t.root := rfl
      have hlessp : tp.less = t.less := rfl
      have hmemle : ∀ m ∈ bt.ids, m ≤ t.store.length := fun m hm =>
        (reprT_ids_pos hw.repr m hm).2
      have hwp : WFT tp bt := by
        refine ⟨?_, hw.nodup, ?_⟩
        · rw [hrootp]
          refine reprT_congr hw.repr ?_
          intro m hm
          rw [hndp m (hmemle m hm)]
          exact ⟨rfl, rfl, by rw [hlenp]; exact Nat.le_succ_of_le (hmemle m hm)⟩
        · refine parentOk_congr hw.par ?_
          intro m hm
          rw [hndp m (hmemle m hm)]
      have hordp : OrdT tp none none bt :=
        ordT_congr hlessp hord (fun m hm => by rw [hndp m (hmemle m hm)])
      have hrbp : isBlack tp tp.root = true := by
        show (nd tp t.root).black = true
        by_cases hz : t.root = 0
        · rw [hz]
          simp [nd, nilNode]
        · rw [hndp t.root (hmemle t.root (reprT_root_mem hw.repr hz))]
          exact hrb
      have hkvj : (nd tp j).key = k ∧ (nd tp j).val = v := by
        rw [hndpj]
        exact ⟨rfl, rfl⟩
      have hkne_p : ∀ m ∈ bt.ids, (nd tp m).key ≠ (nd tp j).key := by
        intro m hm
        rw [hndp m (hmemle m hm), hkvj.1]
        exact hnew (k, v) (List.mem_cons_self _ _) m hm
      have hjnotp : j ∉ bt.ids := fun hm => by
        have := hmemle j hm
        omega
      have hj0p : j ≠ 0 := by omega
      have hjlenp : j ≤ tp.store.length := by
        rw [hlenp]
      obtain ⟨t2, bt2, hins, hw2, hord2, hrb2, hlen2, hsize2, hless2, hperm2,
        hkv2⟩ :=
        insertNode_preserves hwp hordp (show StrictLess tp.less from hsl) hrbp
          hj0p hjlenp hjnotp (by rw [hndpj]) hkne_p
      rw [List.pairwise_cons] at hpw
      have hnew2 : ∀ e2 ∈ rest, ∀ m ∈ bt2.ids, (nd t2 m).key ≠ e2.1 := by
        intro e2 he2 m hm
        have hmj : m = j ∨ m ∈ bt.ids := by
          have := hperm2.mem_iff.mp hm
          simpa using this
        rcases hmj with hmj | hmb
        · subst hmj
          rw [(hkv2 j).1, hkvj.1]
          exact hpw.1 e2 he2
        · rw [(hkv2 m).1, hndp m (hmemle m hmb)]
          exact hnew e2 (List.mem_cons_of_mem _ he2) m hmb
      obtain ⟨t', bt', hrun, hw', hord', hrb', hless', hperm'⟩ :=
        ih t2 bt2 hw2 hord2 (by rw [hless2]; exact hsl) hrb2 hnew2 hpw.2
      refine ⟨t', bt', ?_, hw', hord', hrb', ?_, ?_⟩
      · show (insertNode tp j).bind (fun t3 => assignList t3 rest) = some t'
        rw [hins]
        show assignList t2 rest = some t'
        exact hrun
      · rw [hless', hless2]
        rfl
      · have hmapeq : ((j :: bt.ids).map fun m => ((nd t2 m).key, (nd t2 m).val)) =
            (k, v) :: (bt.ids.map fun m => ((nd t m).key, (nd t m).val)) := by
          rw [List.map_cons]
          congr 1
          · rw [(hkv2 j).1, (hkv2 j).2, hkvj.1, hkvj.2]
          · refine List.map_congr_left ?_
            intro m hm
            rw [(hkv2 m).1, (hkv2 m).2, hndp m (hmemle m hm)]
        have h1 : (bt2.ids.map fun m => ((nd t2 m).key, (nd t2 m).val)).Perm
            ((k, v) :: (bt.ids.map fun m => ((nd t m).key, (nd t m).val))) := by
          rw [← hmapeq]
          exact hperm2.map _
        refine hperm'.trans ?_
        refine (h1.append_right rest).trans ?_
        exact List.perm_middle.symm

/-! ### Claim theorems, first batch -/

/-- Claim C1.  The claim states that after every `set`/`delete` sequence
the red-black invariants hold and `size` equals the number of nodes
reachable from the root.  The code violates this: `_deleteNode` on a node
with two real children splices in the successor but never assigns
`next._left = node._left` (src/tree.ts lines 688-706 assign only
`node._left._parent = next`), so the whole left subtree of the deleted
node is unlinked.  After `set(1,10); set(2,20); set(3,30); delete(2)` the
delete reports `true` and `size` is 2, but only one node (key 3) is
reachable and `keys()` drains to `[3]`: key 1 is lost and `size` differs
from the reachable count. -/
theorem delete_two_children_loses_left_subtree :
    delete2Result = some (true, 2, some [3], 1) := by decide

/-- Claim C2, counterexample.  Under `halfLess` (comparison by the
derived field `a / 2`), key 3 is equal-under-`less` to the stored key 2
(`!less(3,2) && !less(2,3)`) but not structurally identical to it; the
claim says `findNode(3)` must still return the stored node, yet it
returns the sentinel (while `findNode(2)` does find the node, which is
allocated and in the store). -/
theorem findNode_misses_equal_under_less :
    (treeHalf.bind fun t => findNode t 3) = some 0 ∧
    (treeHalf.bind fun t => findNode t 2) = some 1 ∧
    (treeHalf.map fun t => t.store.length) = some 1 ∧
    halfLess 3 2 = false ∧ halfLess 2 3 = false := by decide

/-- Claim C2, amended.  `_findNode` branches solely through `less`, but
its loop guard terminates on structural key equality (`key !== node.key`),
not on derived equality: every non-sentinel node it returns carries a key
structurally equal to the searched key; a real node whose key is not
structurally the searched key — in particular one whose key is merely
equal-under-`less` — is never the node returned; and `has` and `get`
inherit this behaviour, deriving their results from the node `_findNode`
returns. -/
theorem findNode_structural_equality (t : Tree K V) [DecidableEq K] (k : K) (j : Nat)
    (h : findNode t k = some j) :
    (j = 0 ∨ (nd t j).key = k) ∧
    (∀ m, m ≠ 0 → (nd t m).key ≠ k → j ≠ m) ∧
    hasOp t k = some (decide (j ≠ 0)) ∧
    getOp t k = some (if j = 0 then none else some ((nd t j).val)) := by
  have hpost := findLoop_post t k _ _ _ h
  refine ⟨hpost, ?_, ?_, ?_⟩
  · intro m hm0 hmk hjm
    rcases hpost with h0 | hk
    · exact hm0 (hjm ▸ h0)
    · exact hmk (hjm ▸ hk)
  · unfold hasOp
    rw [h]
    rfl
  · unfold getOp
    rw [h]
    rfl

/-- Witness for `findNode_structural_equality` at `treeHalf`'s underlying
tree and key 2 (found at node id 1, whose key is structurally 2; `has`
reports true and `get` returns its value). -/
theorem findNode_structural_equality_witness :
    ((1 : Nat) = 0 ∨
      (nd ((setOp (mkTree halfLess) 2 5).getD (mkTree halfLess)) 1).key = 2) ∧
    (∀ m, m ≠ 0 →
      (nd ((setOp (mkTree halfLess) 2 5).getD (mkTree halfLess)) m).key ≠ 2 →
      (1 : Nat) ≠ m) ∧
    hasOp ((setOp (mkTree halfLess) 2 5).getD (mkTree halfLess)) 2 =
      some (decide ((1 : Nat) ≠ 0)) ∧
    getOp ((setOp (mkTree halfLess) 2 5).getD (mkTree halfLess)) 2 =
      some (if (1 : Nat) = 0 then none
        else some ((nd ((setOp (mkTree halfLess) 2 5).getD (mkTree halfLess)) 1).val)) :=
  findNode_structural_equality ((setOp (mkTree halfLess) 2 5).getD (mkTree halfLess)) 2 1
    (by decide)

/-- Claim C3, counterexample.  The tree `treeHalf23` is reached from the
empty tree by the two operations `set(2,5); set(3,7)`, yet draining
`keys()` yields `[2, 3]` where the two keys are equal under the tree's
`less` (`halfLess 2 3 = halfLess 3 2 = false`): the yielded keys are
neither strictly increasing under `less` nor free of `less`-equal
duplicates. -/
theorem keys_not_sorted_without_trichotomy :
    (treeHalf23.bind fun t => keysList t) = some [2, 3] ∧
    halfLess 2 3 = false ∧ halfLess 3 2 = false := by decide

/-- Claim C3, amended.  For every tree reachable from the empty tree by
public `set` and `delete` operations, provided the tree's `less` predicate
is a strict total order (irreflexive, transitive and trichotomous),
draining `keys()` succeeds and yields keys that are pairwise strictly
increasing under `less`; in particular no two yielded keys are equal under
`less`.  (Without trichotomy the sentence fails, see
`keys_not_sorted_without_trichotomy` above.) -/
theorem keys_sorted_from_operations {less : K → K → Bool} [DecidableEq K]
    (hsl : StrictLess less) {t : Tree K V} (h : Reach less t) :
    ∃ ks, keysList t = some ks ∧ ks.Pairwise (fun a b => less a b = true) := by
  obtain ⟨hle, bt, hw, hord, -⟩ := reach_invariant hsl h
  refine ⟨bt.ids.map (fun i => (nd t i).key), ?_, ?_⟩
  · unfold keysList
    rw [drainNodes_full hw]
    rfl
  · have hpw := ordT_pairwise (show StrictLess t.less from by rw [hle]; exact hsl)
      hord
    rw [hle] at hpw
    exact hpw

/-- Witness for `keys_sorted_from_operations`: the tree reached by
`set(1,10); set(2,20); delete(1)` under the strict total order `natLess`. -/
theorem keys_sorted_from_operations_witness :
    ∃ ks, keysList ((deleteOp tree12d 1).getD (tree12d, false)).1 = some ks ∧
      ks.Pairwise (fun a b => natLess a b = true) := by
  have e1 : setOp (mkTree natLess : Tree Nat Nat) 1 10 =
      some ((setOp (mkTree natLess : Tree Nat Nat) 1 10).getD (mkTree natLess)) :=
    rfl
  have e2 : setOp ((setOp (mkTree natLess : Tree Nat Nat) 1 10).getD
      (mkTree natLess)) 2 20 = some tree12d := rfl
  have e3 : deleteOp tree12d 1 =
      some (((deleteOp tree12d 1).getD (tree12d, false)).1,
        ((deleteOp tree12d 1).getD (tree12d, false)).2) := rfl
  exact keys_sorted_from_operations natLess_strict
    (Reach.del (Reach.set (Reach.set Reach.base e1) e2) e3)

/-- Claim C4.  On a well-formed ordered tree, `delete` is idempotent in
the claimed sense: deleting a key carried by no node returns `false` and
returns the tree itself unchanged (so `size` is unchanged); and for any
node carrying the key, `delete` returns `true` with `size` decremented by
one, and an immediately repeated `delete` of the same key returns `false`
leaving the new tree unchanged. -/
theorem delete_idempotent (t : Tree K V) [DecidableEq K] (bt : BT)
    (hw : WFT t bt) (hord : OrdT t none none bt) (hsl : StrictLess t.less)
    (hrb : isBlack t t.root = true) (k : K) :
    ((∀ m ∈ bt.ids, (nd t m).key ≠ k) → deleteOp t k = some (t, false)) ∧
    (∀ x ∈ bt.ids, (nd t x).key = k →
      ∃ t1, deleteOp t k = some (t1, true) ∧ t1.size = t.size - 1 ∧
        deleteOp t1 k = some (t1, false)) := by
  refine ⟨fun hmiss => deleteOp_missing hw k hmiss, ?_⟩
  intro x hx hkey
  obtain ⟨t1, bt1, hstep, hw1, hord1, hrb1, hlen1, hsize1, hless1, hmem1, hkv1⟩ :=
    deleteOp_hit hw hord hsl hrb hx hkey
  refine ⟨t1, hstep, hsize1, ?_⟩
  refine deleteOp_missing hw1 k ?_
  intro m hm hkeq
  have hmb := (hmem1 m hm).1
  have hmx := (hmem1 m hm).2
  have hkm : (nd t m).key = k := ((hkv1 m).1).symm.trans hkeq
  exact ordT_key_inj hsl hord hmb hx hmx (hkm.trans hkey.symm)

/-- Witness for `delete_idempotent` at the concrete two-entry tree
`set(1,10); set(2,20)` and key 1. -/
theorem delete_idempotent_witness :
    ((∀ m ∈ (btOf tree12d).ids, (nd tree12d m).key ≠ 1) →
      deleteOp tree12d 1 = some (tree12d, false)) ∧
    (∀ x ∈ (btOf tree12d).ids, (nd tree12d x).key = 1 →
      ∃ t1, deleteOp tree12d 1 = some (t1, true) ∧ t1.size = tree12d.size - 1 ∧
        deleteOp t1 1 = some (t1, false)) :=
  delete_idempotent tree12d (btOf tree12d) (wft_of_checks rfl (by decide) (by decide))
    (ordTB_ok _ none none (by decide)) natLess_strict (by decide) 1

/-- Claim C5, counterexample.  The keys 1, 2, 3 are pairwise distinct
under the cyclic comparison `cycLess` (`1` before `2`, `2` before `3`,
`3` before `1` all hold), yet building a tree from the three entries with
the constructor and draining `entries()` yields
`[(3,30), (1,10), (2,20)]`, which is not sorted by key under `cycLess`
(`cycLess 3 2 = false`): with a `less` that is not a strict total order
the round-trip claim fails even though the keys are pairwise distinct
under `less`. -/
theorem entries_not_sorted_without_transitivity :
    ((fromList cycLess [(1, 10), (2, 20), (3, 30)]).bind entriesList) =
      some [(3, 30), (1, 10), (2, 20)] ∧
    cycLess 1 2 = true ∧ cycLess 2 3 = true ∧ cycLess 3 1 = true ∧
    cycLess 3 2 = false := by decide

/-- Claim C5, amended.  For every finite entry sequence whose keys are
pairwise distinct under `less`, provided `less` is a strict total order,
constructing a tree from the sequence (the constructor and `assign` run
the same insertion loop) and draining `entries()` yields exactly the input
pairs — a permutation of the sequence — sorted by key under `less`. -/
theorem fromList_entries_roundtrip {less : K → K → Bool} (hsl : StrictLess less)
    (es : List (K × V))
    (hdist : es.Pairwise
      (fun e1 e2 => less e1.1 e2.1 = true ∨ less e2.1 e1.1 = true)) :
    ∃ t es', fromList less es = some t ∧ entriesList t = some es' ∧
      es'.Perm es ∧ (es'.map Prod.fst).Pairwise (fun a b => less a b = true) := by
  have hpw : es.Pairwise (fun e1 e2 => e1.1 ≠ e2.1) := by
    refine hdist.imp ?_
    intro e1 e2 h12 heq
    rcases h12 with h | h
    · rw [heq, hsl.irrefl] at h
      exact Bool.false_ne_true h
    · rw [heq, hsl.irrefl] at h
      exact Bool.false_ne_true h
  have hw0 : WFT (mkTree less : Tree K V) .leaf :=
    ⟨ReprT.leaf, by simp [BT.ids], trivial⟩
  have hnew : ∀ e ∈ es, ∀ m ∈ (BT.leaf).ids,
      (nd (mkTree less : Tree K V) m).key ≠ e.1 := by
    intro e he m hm
    simp [BT.ids] at hm
  obtain ⟨t, bt, hrun, hw, hord, hrb, hless, hperm⟩ :=
    assignList_build es (mkTree less) .leaf hw0 trivial hsl rfl hnew hpw
  refine ⟨t, bt.ids.map (fun m => ((nd t m).key, (nd t m).val)), hrun, ?_, ?_, ?_⟩
  · unfold entriesList
    rw [drainNodes_full hw]
    rfl
  · refine hperm.trans ?_
    show (((BT.leaf : BT).ids.map fun m =>
      ((nd (mkTree less : Tree K V) m).key, (nd (mkTree less : Tree K V) m).val))
      ++ es).Perm es
    simp [BT.ids]
  · have hpw2 := ordT_pairwise (show StrictLess t.less from by rw [hless]; exact hsl)
      hord
    have hmapfst : ((bt.ids.map fun m => ((nd t m).key, (nd t m).val)).map
        Prod.fst) = bt.ids.map fun m => (nd t m).key := by
      rw [List.map_map]
      rfl
    rw [hmapfst]
    rw [hless] at hpw2
    exact hpw2

/-- Witness for `fromList_entries_roundtrip`: the two-entry sequence
`[(2,20), (1,10)]` under `natLess`, drained back in sorted order. -/
theorem fromList_entries_roundtrip_witness :
    ∃ t es', fromList natLess [(2, 20), (1, 10)] = some t ∧
      entriesList t = some es' ∧ es'.Perm [(2, 20), (1, 10)] ∧
      (es'.map Prod.fst).Pairwise (fun a b => natLess a b = true) :=
  fromList_entries_roundtrip natLess_strict [(2, 20), (1, 10)] (by decide)

/-- Claim C6.  When `_findNode(key)` returns a non-sentinel node (a node
reference, hence an allocated node of the store), `set(key, value)`
overwrites that node's value in place: the result is defined, the size and
root are unchanged, no node is allocated, the found node's value becomes
`value`, every node keeps its key, parent, left, right and colour, and
every other node also keeps its value. -/
theorem set_existing_overwrites_in_place (t : Tree K V) [DecidableEq K]
    (k : K) (v : V) (i : Nat) (hf : findNode t k = some i) (hi : i ≠ 0)
    (hv : i ≤ t.store.length) :
    ∃ t', setOp t k v = some t' ∧
      t'.size = t.size ∧ t'.root = t.root ∧
      t'.store.length = t.store.length ∧
      (nd t' i).val = v ∧
      (∀ j, (nd t' j).key = (nd t j).key ∧ (nd t' j).parent = (nd t j).parent ∧
        (nd t' j).left = (nd t j).left ∧ (nd t' j).right = (nd t j).right ∧
        (nd t' j).black = (nd t j).black) ∧
      (∀ j, j ≠ i → (nd t' j).val = (nd t j).val) := by
  refine ⟨setVal t i v, ?_, wr_size .., wr_root .., wr_length .., ?_, ?_, ?_⟩
  all_goals try unfold setVal
  · unfold setOp
    rw [hf]
    simp [hi, setVal]
  · rw [nd_wr_self t i _ hi (by omega)]
  · intro j
    by_cases hj : j = i
    · subst hj
      rw [nd_wr_self t j _ hi (by omega)]
      exact ⟨rfl, rfl, rfl, rfl, rfl⟩
    · rw [nd_wr_ne t i j _ hj]
      exact ⟨rfl, rfl, rfl, rfl, rfl⟩
  · intro j hj
    rw [nd_wr_ne t i j _ hj]

/-- Witness for `set_existing_overwrites_in_place`: overwriting key 2 in
the concrete tree `set(1,10); set(2,20); set(3,30)`. -/
theorem set_existing_overwrites_in_place_witness :
    ∃ t', setOp (tree123.getD (mkTree natLess)) 2 99 = some t' ∧
      t'.size = (tree123.getD (mkTree natLess)).size ∧
      t'.root = (tree123.getD (mkTree natLess)).root ∧
      t'.store.length = (tree123.getD (mkTree natLess)).store.length ∧
      (nd t' 2).val = 99 ∧
      (∀ j, (nd t' j).key = (nd (tree123.getD (mkTree natLess)) j).key ∧
        (nd t' j).parent = (nd (tree123.getD (mkTree natLess)) j).parent ∧
        (nd t' j).left = (nd (tree123.getD (mkTree natLess)) j).left ∧
        (nd t' j).right = (nd (tree123.getD (mkTree natLess)) j).right ∧
        (nd t' j).black = (nd (tree123.getD (mkTree natLess)) j).black) ∧
      (∀ j, j ≠ 2 → (nd t' j).val = (nd (tree123.getD (mkTree natLess)) j).val) :=
  set_existing_overwrites_in_place (tree123.getD (mkTree natLess)) 2 99 2
    (by decide) (by decide) (by decide)

/-- Claim C9, counterexample.  The claim says every public operation on a
killed tree, `size` included, fails rather than returning a result; but
`kill()` only replaces `_root` and sets `_size = NaN`, and the `size`
getter reads `_size` alone, so `size` on the killed tree returns `NaN`
(and on the live tree, 3) instead of failing. -/
theorem killed_size_returns_nan :
    (tree123.map fun t => sizeH (killOp ⟨t, false⟩)) = some (.ok .nan) ∧
    (tree123.map fun t => sizeH ⟨t, false⟩) = some (.ok (.num 3)) := ⟨rfl, rfl⟩

/-- Claim C9, amended.  After `kill()`, the key-based operations (`get`,
`has`, `set`, `delete`) fail immediately with `Tree is dead` (their first
action reads a property of the dead `_root`), `clear` fails with the
frozen-object `TypeError`, and the first `next()` of a fresh traversal
fails with `Tree is dead`; but `size` does not fail: it returns `NaN`,
and constructing an `entries()` iterator also succeeds. -/
theorem killed_operations (h : TreeH K V) [DecidableEq K] (hd : h.dead = true)
    (k : K) (v : V) (s : IterSt) :
    getH h k = .error "Tree is dead" ∧
    hasH h k = .error "Tree is dead" ∧
    setH h k v = .error "Tree is dead" ∧
    deleteH h k = .error "Tree is dead" ∧
    clearH h = .error "Cannot assign to read only property of frozen object" ∧
    sizeH h = .ok .nan ∧
    (s.node = 0 → iterStepH h s = .error "Tree is dead") := by
  refine ⟨?_, ?_, ?_, ?_, ?_, ?_, fun h0 => ?_⟩ <;>
    simp [getH, hasH, setH, deleteH, clearH, sizeH, iterStepH, hd, *]

/-- Witness for `killed_operations` at a concrete killed tree. -/
theorem killed_operations_witness :
    getH (killOp (⟨tree123.getD (mkTree natLess), false⟩ : TreeH Nat Nat)) 1 =
      .error "Tree is dead" ∧
    hasH (killOp (⟨tree123.getD (mkTree natLess), false⟩ : TreeH Nat Nat)) 1 =
      .error "Tree is dead" ∧
    setH (killOp (⟨tree123.getD (mkTree natLess), false⟩ : TreeH Nat Nat)) 1 5 =
      .error "Tree is dead" ∧
    deleteH (killOp (⟨tree123.getD (mkTree natLess), false⟩ : TreeH Nat Nat)) 1 =
      .error "Tree is dead" ∧
    clearH (killOp (⟨tree123.getD (mkTree natLess), false⟩ : TreeH Nat Nat)) =
      .error "Cannot assign to read only property of frozen object" ∧
    sizeH (killOp (⟨tree123.getD (mkTree natLess), false⟩ : TreeH Nat Nat)) = .ok .nan ∧
    ((⟨false, 0, 0⟩ : IterSt).node = 0 →
      iterStepH (killOp (⟨tree123.getD (mkTree natLess), false⟩ : TreeH Nat Nat)) ⟨false, 0, 0⟩ =
        .error "Tree is dead") :=
  killed_operations (killOp ⟨tree123.getD (mkTree natLess), false⟩) rfl 1 5 ⟨false, 0, 0⟩

end RBTS
